import Mathlib

/-!
# Bulk-loaded B+ tree (`bulkBPTree.cpp`)

A shallow embedding of the bulk-loaded B+ tree of `src/bulkBPTree.cpp` and the
properties of its search kernel, its split operation, its bulk build and its
three queries.

Conventions of the embedding.

* `internal_int_t`, `colKey_t` and `rowId_t` are signed machine integers; they
  are embedded as `Int`.  Indices are bounded by the length of an array held in
  memory, so `lower + upper` cannot wrap and no reduction modulo `2^64` is
  applied.  `/` on machine integers truncates, hence `Int.tdiv`.
* A raw array pointer (`colKey_t*`, `IndexEntry*`) is a function from the index
  to the element stored there.
* Nodes live in a store that maps addresses (`Nat`) to node records; a pointer
  is an address, a nullable pointer an `Option Nat`.  `new` takes the next
  unused address.
* A loop is a function recursive on a fuel argument; a function returns `none`
  when the fuel runs out, when a null pointer is dereferenced or when an array
  of a node is accessed outside its current length.
* The child array of a node has the `m_maxNumberOfEntries` slots that
  `addPointer` allocates; the store of a child at an index beyond them is
  undefined behaviour, and `addPointer` returns `none` for it.
-/

namespace BPT

/-! ## Search kernel -/

/-- The `while` loop of `binary_search_pure`: returns the position and the
value left in `*foundKey`. -/
def binary_search_pure_loop (c : Int → Int) (key : Int) :
    Nat → Int → Int → Option (Int × Bool)
  | 0, lower, upper => if lower ≤ upper then none else some (upper, false)
  | fuel + 1, lower, upper =>
    if lower ≤ upper then
      let middle := (lower + upper).tdiv 2
      let middleElement := c middle
      if middleElement < key then
        binary_search_pure_loop c key fuel (middle + 1) upper
      else if middleElement > key then
        binary_search_pure_loop c key fuel lower (middle - 1)
      else
        some (middle, true)
    else some (upper, false)

/-- `binary_search_pure(c, key, lower, upper, &foundKey)`: the result pairs the
returned position with the final `foundKey`. -/
def binary_search_pure (c : Int → Int) (key lower upper : Int) : Option (Int × Bool) :=
  binary_search_pure_loop c key (upper + 1 - lower).toNat lower upper

/-- The loop `while(++pos <= end && c[pos] == key);` of `binary_search_gt_pure`. -/
def binary_search_gt_skip (c : Int → Int) (key end_ : Int) : Nat → Int → Option Int
  | 0, _ => none
  | fuel + 1, pos =>
    let pos := pos + 1
    if pos ≤ end_ ∧ c pos = key then binary_search_gt_skip c key end_ fuel pos
    else some pos

/-- `binary_search_gt_pure(c, key, start, end)`. -/
def binary_search_gt_pure (c : Int → Int) (key start end_ : Int) : Option Int :=
  match binary_search_pure c key start end_ with
  | none => none
  | some (pos, found) =>
    if found then
      binary_search_gt_skip c key end_ ((end_ - pos).toNat + 1) pos
    else
      some (pos + 1)

/-! ## Node model -/

/-- The tag `m_nodeType` of a node. -/
inductive NodeType where
  | InnerNodeType
  | LeafNodeType
deriving DecidableEq, Repr

/-- One (key, row id) pair of the input and of the leaf slots. -/
structure IndexEntry where
  m_key : Int
  m_rowId : Int
deriving DecidableEq, Repr

/-- A node record.  `m_keys` and `m_pointers` hold the filled part of the key
and child arrays of an inner node, so `m_currentNumberOfEntries` of an inner
node is `m_keys.length` and `m_currentNumberOfNodes` is `m_pointers.length`.
A leaf keeps its slots in the shared entry array from index `m_currentOffset`
on and counts them in `m_slots`. -/
structure BPNode where
  m_nodeType : NodeType
  m_fatherNode : Option Nat
  m_keys : List Int
  m_pointers : List Nat
  m_currentOffset : Nat
  m_slots : Nat
  m_previous : Option Nat
  m_next : Option Nat
  m_isOverflowNode : Bool
deriving DecidableEq, Repr

/-- The counter `m_currentNumberOfEntries` shared by both kinds of node. -/
def BPNode.m_currentNumberOfEntries (n : BPNode) : Nat :=
  match n.m_nodeType with
  | .InnerNodeType => n.m_keys.length
  | .LeafNodeType => n.m_slots

/-- The counter `m_currentNumberOfNodes`. -/
def BPNode.m_currentNumberOfNodes (n : BPNode) : Nat := n.m_pointers.length

/-- Modelled from the spec: the constructor `InnerNode()` is declared in the
header, which is not part of the source; a fresh inner node has no keys, no
children and a null parent. -/
def InnerNode.new : BPNode :=
  { m_nodeType := .InnerNodeType, m_fatherNode := none, m_keys := [], m_pointers := [],
    m_currentOffset := 0, m_slots := 0, m_previous := none, m_next := none,
    m_isOverflowNode := false }

/-- Modelled from the spec: the constructor `LeafNode(offset, isOverflow)` is
declared in the header, which is not part of the source; a fresh leaf has no
filled slot, null links and the given overflow flag. -/
def LeafNode.new (offset : Nat) (isOverflow : Bool) : BPNode :=
  { m_nodeType := .LeafNodeType, m_fatherNode := none, m_keys := [], m_pointers := [],
    m_currentOffset := offset, m_slots := 0, m_previous := none, m_next := none,
    m_isOverflowNode := isOverflow }

/-- `BPNode::isFull`, with `cap` the value of `BPNode::m_maxNumberOfEntries`. -/
def BPNode.isFull (cap : Nat) (n : BPNode) : Bool := n.m_currentNumberOfEntries == cap

/-- `BPNode::addKey`. -/
def BPNode.addKey (cap : Nat) (n : BPNode) (key : Int) : BPNode :=
  if n.m_keys.length < cap then { n with m_keys := n.m_keys ++ [key] } else n

/-- `BPNode::getKey`. -/
def BPNode.getKey (n : BPNode) (position : Nat) : Option Int := n.m_keys[position]?

/-- `BPNode::removeKey`: `memmove` of the keys behind `position` one place to
the left; undefined (`none`) when `position` is not below the key count. -/
def BPNode.removeKey (n : BPNode) (position : Nat) : Option BPNode :=
  if n.m_keys.length > 0 then
    if position < n.m_keys.length then some { n with m_keys := n.m_keys.eraseIdx position }
    else none
  else some n

/-- `BPNode::addPointer`.  The child array is allocated by the first call, with
`m_maxNumberOfEntries` slots (`new BPNode*[BPNode::m_maxNumberOfEntries]`), and
the child is stored at index `m_currentNumberOfNodes` without a check: a store
at an index that is not below `cap` lies outside the array and is undefined
(`none`). -/
def BPNode.addPointer (cap : Nat) (n : BPNode) (node : Nat) : Option BPNode :=
  if n.m_currentNumberOfNodes < cap then some { n with m_pointers := n.m_pointers ++ [node] }
  else none

/-- `BPNode::getPointer`. -/
def BPNode.getPointer (n : BPNode) (position : Nat) : Option Nat := n.m_pointers[position]?

/-- `BPNode::removePointer`. -/
def BPNode.removePointer (n : BPNode) (position : Nat) : Option BPNode :=
  if n.m_pointers.length > 0 then
    if position < n.m_pointers.length then
      some { n with m_pointers := n.m_pointers.eraseIdx position }
    else none
  else some n

/-! ## Store -/

/-- The heap of nodes: `node a` is the record at address `a`, `next` the
address the next `new` returns. -/
structure Store where
  node : Nat → Option BPNode
  next : Nat

/-- The empty heap. -/
def Store.empty : Store := { node := fun _ => none, next := 0 }

/-- Allocation `new T(...)`: returns the updated store and the new address. -/
def Store.alloc (s : Store) (nd : BPNode) : Store × Nat :=
  ({ node := fun a => if a = s.next then some nd else s.node a, next := s.next + 1 }, s.next)

/-- Overwrites the record at address `a`. -/
def Store.write (s : Store) (a : Nat) (nd : BPNode) : Store :=
  { node := fun b => if b = a then some nd else s.node b, next := s.next }

/-- An update through the pointer `a`: `a->field = ...`. -/
def Store.modify (s : Store) (a : Nat) (f : BPNode → BPNode) : Option Store :=
  match s.node a with
  | none => none
  | some nd => some (s.write a (f nd))

/-- An update through the pointer `a` by an operation that can be undefined:
`a->addPointer(...)`. -/
def Store.modifyOpt (s : Store) (a : Nat) (f : BPNode → Option BPNode) : Option Store :=
  match s.node a with
  | none => none
  | some nd =>
    match f nd with
    | none => none
    | some nd => some (s.write a nd)

/-- Well-formed store: nothing is stored at or beyond the next free address. -/
def Store.WF (s : Store) : Prop := ∀ a, s.next ≤ a → s.node a = none

/-! ## Split -/

/-- `leftSize` as computed in `BPNode::split`. -/
def BPNode.leftSize (cap : Nat) : Nat := if cap % 2 != 0 then cap / 2 + 1 else cap / 2

/-- First loop of `BPNode::split`: moves the children behind `leftSize`. -/
def BPNode.splitMovePointers (cap leftSize currentNode newNode : Nat) : Nat → Store → Option Store
  | 0, s =>
    match s.node currentNode with
    | none => none
    | some cur => if cur.m_currentNumberOfNodes > leftSize + 1 then none else some s
  | fuel + 1, s =>
    match s.node currentNode with
    | none => none
    | some cur =>
      if cur.m_currentNumberOfNodes > leftSize + 1 then
        match cur.getPointer (leftSize + 1) with
        | none => none
        | some p =>
          match s.modifyOpt newNode (fun n => n.addPointer cap p) with
          | none => none
          | some s =>
            match s.node currentNode with
            | none => none
            | some cur =>
              match cur.removePointer (leftSize + 1) with
              | none => none
              | some cur => BPNode.splitMovePointers cap leftSize currentNode newNode fuel
                              (s.write currentNode cur)
      else some s

/-- Second loop of `BPNode::split`: moves the keys from `leftSize` on. -/
def BPNode.splitMoveKeys (cap leftSize currentNode newNode : Nat) : Nat → Store → Option Store
  | 0, s =>
    match s.node currentNode with
    | none => none
    | some cur => if cur.m_currentNumberOfEntries > leftSize then none else some s
  | fuel + 1, s =>
    match s.node currentNode with
    | none => none
    | some cur =>
      if cur.m_currentNumberOfEntries > leftSize then
        match cur.getKey leftSize with
        | none => none
        | some k =>
          match s.modify newNode (fun n => n.addKey cap k) with
          | none => none
          | some s =>
            match s.node currentNode with
            | none => none
            | some cur =>
              match cur.removeKey leftSize with
              | none => none
              | some cur => BPNode.splitMoveKeys cap leftSize currentNode newNode fuel
                              (s.write currentNode cur)
      else some s

/-- The statements of `BPNode::split` from `newNode->m_fatherNode = fatherNode`
on, run once `fatherNode` is known to have room: the promotion of the split key
and the two loops that fill the new node. -/
def BPNode.splitRest (cap : Nat) (s : Store) (currentNode newNode fatherNode : Nat) :
    Option Store := do
  let leftSize := BPNode.leftSize cap
  let s ← s.modify newNode (fun n => { n with m_fatherNode := some fatherNode })
  -- get new split key
  let cur ← s.node currentNode
  let splitKey ← cur.getKey leftSize
  let cur ← cur.removeKey leftSize
  let s := s.write currentNode cur
  -- insert it into father
  let s ← s.modify fatherNode (fun n => n.addKey cap splitKey)
  let s ← s.modifyOpt fatherNode (fun n => n.addPointer cap newNode)
  -- move the keys and the pointers that belong to the right side onto the right side
  let cur ← s.node currentNode
  let s ← BPNode.splitMovePointers cap leftSize currentNode newNode cur.m_currentNumberOfNodes s
  let cur ← s.node currentNode
  BPNode.splitMoveKeys cap leftSize currentNode newNode cur.m_currentNumberOfEntries s

/-- The block of `BPNode::split` guarded by `if(!fatherNode)`: the current node
is the root, so a new root is created above it.  Returns the store and the
address of the new root. -/
def BPNode.splitNewRoot (cap : Nat) (s : Store) (currentNode : Nat) : Option (Store × Nat) := do
  let (s, fatherNode) := s.alloc InnerNode.new
  let s ← s.modifyOpt fatherNode (fun n => n.addPointer cap currentNode)
  let s ← s.modify currentNode (fun n => { n with m_fatherNode := some fatherNode })
  some (s, fatherNode)

/-- `BPNode::split(root)` called on the node at address `this`.  Returns the
store, the root reference and the address of the new right sibling. -/
def BPNode.split (cap : Nat) : Nat → Store → Nat → Nat → Option (Store × Nat × Nat)
  | 0, _, _, _ => none
  | fuel + 1, s, root, this =>
    let currentNode := this
    match s.alloc InnerNode.new with
    | (s, newNode) =>
      match s.node currentNode with
      | none => none
      | some cur =>
        match (match cur.m_fatherNode with
               | some f => some (s, root, f)
               | none =>
                 match BPNode.splitNewRoot cap s currentNode with
                 | none => none
                 | some (s, f) => some (s, f, f)) with
        | none => none
        | some (s, root, fatherNode) =>
          match s.node fatherNode with
          | none => none
          | some fnode =>
            match (if fnode.isFull cap then BPNode.split cap fuel s root fatherNode
                   else some (s, root, fatherNode)) with
            | none => none
            | some (s, root, fatherNode) =>
              match BPNode.splitRest cap s currentNode newNode fatherNode with
              | none => none
              | some s => some (s, root, newNode)

/-- `BPNode::lookup`: the descent from the node at `this` to a leaf. -/
def BPNode.lookup (s : Store) (key : Int) : Nat → Nat → Option Nat
  | 0, _ => none
  | fuel + 1, this =>
    match s.node this with
    | none => none
    | some n =>
      match n.m_nodeType with
      | .LeafNodeType => some this
      | .InnerNodeType =>
        match binary_search_gt_pure (fun j => n.m_keys.getD j.toNat 0) key 0
            ((n.m_currentNumberOfEntries : Int) - 1) with
        | none => none
        | some position =>
          if position < 0 then none
          else
            match n.getPointer position.toNat with
            | none => none
            | some child => BPNode.lookup s key fuel child

/-! ## Tree, leaves and bulk build -/

/-- The tree object together with the memory it owns: the node store and the
entry array `entries` allocated by the constructor. -/
structure BulkBPTree where
  store : Store
  entries : Nat → IndexEntry
  m_root : Nat
  m_currentLeaf : Nat

/-- The slot array of a leaf, `m_currentOffset[j]`. -/
def LeafNode.slot (t : BulkBPTree) (n : BPNode) : Int → IndexEntry :=
  fun j => t.entries ((n.m_currentOffset : Int) + j).toNat

/-- `LeafNode::addKey` on the leaf at address `leaf`. -/
def LeafNode.addKey (cap : Nat) (t : BulkBPTree) (leaf : Nat) (key : Int) : Option BulkBPTree :=
  match t.store.node leaf with
  | none => none
  | some n =>
    if n.m_currentNumberOfEntries < cap then
      some { t with
        entries := fun j =>
          if j = n.m_currentOffset + n.m_slots then { t.entries j with m_key := key }
          else t.entries j
        store := t.store.write leaf { n with m_slots := n.m_slots + 1 } }
    else some t

/-- `LeafNode::addRowId` on the leaf at address `leaf`; undefined on a leaf with
no filled slot. -/
def LeafNode.addRowId (t : BulkBPTree) (leaf : Nat) (rowId : Int) : Option BulkBPTree :=
  match t.store.node leaf with
  | none => none
  | some n =>
    if n.m_slots = 0 then none
    else
      some { t with
        entries := fun j =>
          if j = n.m_currentOffset + n.m_slots - 1 then { t.entries j with m_rowId := rowId }
          else t.entries j }

/-- The key `data[i].m_key` of the input array. -/
def dataKey (data : List IndexEntry) (i : Nat) : Int := (data.getD i ⟨0, 0⟩).m_key

/-- The expression `(i > 0 ? data[i-1].m_key : -1)` of the constructor. -/
def prevKey (data : List IndexEntry) (i : Nat) : Int :=
  if i > 0 then dataKey data (i - 1) else -1

/-- The local variables of the constructor's loop together with the tree. -/
structure BuildState where
  tree : BulkBPTree
  lastOverflowNode : Option Nat
  overflow : Bool
  i : Nat

/-- The inner `while` loop of the constructor, which fills overflow leaves; the
state is the tree, `newLeaf`, `lastOverflowNode` and `i`. -/
def BulkBPTree.fillOverflow (cap : Nat) (data : List IndexEntry) :
    Nat → BulkBPTree → Nat → Option Nat → Nat → Option (BulkBPTree × Option Nat × Nat)
  | 0, t, _, lastOverflowNode, i =>
    if i < data.length ∧ dataKey data i = prevKey data i then none
    else some (t, lastOverflowNode, i)
  | fuel + 1, t, newLeaf, lastOverflowNode, i =>
    if i < data.length ∧ dataKey data i = prevKey data i then do
      let nl ← t.store.node newLeaf
      let (t, newLeaf, lastOverflowNode) ←
        (if nl.isFull cap then do
          let oldOverflow := newLeaf
          let (s, newLeaf) := t.store.alloc (LeafNode.new i true)
          let lastOverflowNode := some newLeaf
          let s ← s.modify newLeaf (fun n => { n with m_fatherNode := none })
          let s ← s.modify newLeaf (fun n => { n with m_previous := some oldOverflow })
          let s ← s.modify oldOverflow (fun n => { n with m_next := some newLeaf })
          some ({ t with store := s }, newLeaf, lastOverflowNode)
        else some (t, newLeaf, lastOverflowNode))
      let t ← LeafNode.addKey cap t newLeaf (dataKey data i)
      let t ← LeafNode.addRowId t newLeaf i
      BulkBPTree.fillOverflow cap data fuel t newLeaf lastOverflowNode (i + 1)
    else some (t, lastOverflowNode, i)

/-- The statement `if(m_currentLeaf->m_fatherNode->isFull()) { m_currentLeaf->m_fatherNode =
m_currentLeaf->m_fatherNode->split(m_root); }` of the constructor. -/
def BulkBPTree.splitFather (cap : Nat) (t : BulkBPTree) : Option BulkBPTree := do
  let cl ← t.store.node t.m_currentLeaf
  let f ← cl.m_fatherNode
  let fnode ← t.store.node f
  if fnode.isFull cap then do
    -- there is no space left, so we have to split the father node recursively
    let (s, root, r) ← BPNode.split cap t.store.next t.store t.m_root f
    let s ← s.modify t.m_currentLeaf (fun n => { n with m_fatherNode := some r })
    some { t with store := s, m_root := root }
  else some t

/-- The branch of the constructor that links `newLeaf` as an indexed leaf: it
is entered when the key at `i` differs from the key before it. -/
def BulkBPTree.linkLeaf (cap : Nat) (data : List IndexEntry) (b : BuildState) (newLeaf : Nat) :
    Option BuildState := do
  let t := b.tree
  let cl ← t.store.node t.m_currentLeaf
  let f ← cl.m_fatherNode
  let s ← t.store.modify f (fun n => n.addKey cap (dataKey data b.i))
  let s ← s.modifyOpt f (fun n => n.addPointer cap newLeaf)
  let cl ← s.node t.m_currentLeaf
  let s ← s.modify newLeaf (fun n => { n with m_fatherNode := cl.m_fatherNode })
  if b.overflow then do
    let lo ← b.lastOverflowNode
    let s ← s.modify newLeaf (fun n => { n with m_previous := some lo })
    let s ← s.modify lo (fun n => { n with m_next := some newLeaf })
    some { tree := { t with store := s, m_currentLeaf := newLeaf },
           lastOverflowNode := b.lastOverflowNode, overflow := false, i := b.i }
  else do
    let s ← s.modify newLeaf (fun n => { n with m_previous := some t.m_currentLeaf })
    let s ← s.modify t.m_currentLeaf (fun n => { n with m_next := some newLeaf })
    some { tree := { t with store := s, m_currentLeaf := newLeaf },
           lastOverflowNode := b.lastOverflowNode, overflow := b.overflow, i := b.i }

/-- The branch of the constructor that starts an overflow chain with `newLeaf`:
it is entered when the key at `i` equals the key before it. -/
def BulkBPTree.startOverflow (cap : Nat) (data : List IndexEntry) (b : BuildState)
    (newLeaf : Nat) : Option BuildState := do
  let t := b.tree
  -- we have an overflow due to duplicate keys, so fill up overflow leaves
  let s ← t.store.modify newLeaf (fun n => { n with m_isOverflowNode := true })
  let s ← s.modify newLeaf (fun n => { n with m_fatherNode := none })
  let s ← s.modify newLeaf (fun n => { n with m_previous := some t.m_currentLeaf })
  let s ← s.modify t.m_currentLeaf (fun n => { n with m_next := some newLeaf })
  let (t, lastOverflowNode, i) ←
    BulkBPTree.fillOverflow cap data (data.length - b.i) { t with store := s } newLeaf
      (some newLeaf) b.i
  some { tree := t, lastOverflowNode := lastOverflowNode, overflow := true, i := i }

/-- The part of the loop body guarded by `if(m_currentLeaf->isFull())`. -/
def BulkBPTree.onFullLeaf (cap : Nat) (data : List IndexEntry) (b : BuildState) :
    Option BuildState :=
  -- current leaf is full, so we have to create a new one
  match b.tree.store.alloc (LeafNode.new b.i false) with
  | (s, newLeaf) =>
    match BulkBPTree.splitFather cap { b.tree with store := s } with
    | none => none
    | some t =>
      if dataKey data b.i ≠ prevKey data b.i then
        BulkBPTree.linkLeaf cap data { b with tree := t } newLeaf
      else
        BulkBPTree.startOverflow cap data { b with tree := t } newLeaf

/-- One iteration of the constructor's `for` loop. -/
def BulkBPTree.buildStep (cap : Nat) (data : List IndexEntry) (b : BuildState) :
    Option BuildState := do
  let cl ← b.tree.store.node b.tree.m_currentLeaf
  let b ← (if cl.isFull cap then BulkBPTree.onFullLeaf cap data b else some b)
  -- space left in leaf, so simply insert
  if !b.overflow then do
    let t ← LeafNode.addKey cap b.tree b.tree.m_currentLeaf (dataKey data b.i)
    let t ← LeafNode.addRowId t b.tree.m_currentLeaf b.i
    some { b with tree := t, i := b.i + 1 }
  else some b

/-- The constructor's `for(i = 0; i < size; )` loop. -/
def BulkBPTree.buildLoop (cap : Nat) (data : List IndexEntry) :
    Nat → BuildState → Option BuildState
  | 0, b => if b.i < data.length then none else some b
  | fuel + 1, b =>
    if b.i < data.length then
      match BulkBPTree.buildStep cap data b with
      | none => none
      | some b => BulkBPTree.buildLoop cap data fuel b
    else some b

/-- The state of the constructor when it enters its loop: a root with one
empty leaf below it. -/
def BulkBPTree.init (cap : Nat) : Option BuildState := do
  let (s, root) := Store.empty.alloc InnerNode.new
  let s ← s.modify root (fun n => { n with m_fatherNode := none })
  let (s, leaf) := s.alloc (LeafNode.new 0 false)
  let s ← s.modify leaf (fun n => { n with m_fatherNode := some root })
  let s ← s.modifyOpt root (fun n => n.addPointer cap leaf)
  some { tree := { store := s, entries := fun _ => ⟨0, 0⟩, m_root := root, m_currentLeaf := leaf },
         lastOverflowNode := none, overflow := false, i := 0 }

/-- The constructor `BulkBPTree::BulkBPTree(data, size)`, with `cap` the value
of `BPTREE_ELEMENTSPERNODE` and `size = data.length`. -/
def BulkBPTree.build (cap : Nat) (data : List IndexEntry) : Option BulkBPTree :=
  match BulkBPTree.init cap with
  | none => none
  | some b =>
    match BulkBPTree.buildLoop cap data data.length b with
    | none => none
    | some b => some b.tree

/-! ## Queries -/

/-- Modelled from the spec: `binary_search` over leaf slots is declared in the
header and defined outside the source; spec 4.1 makes it the classic iterative
binary search `exact_search`, the algorithm of `binary_search_pure`, comparing
the keys of the slots. -/
def binary_search (c : Int → IndexEntry) (key lower upper : Int) : Option (Int × Bool) :=
  binary_search_pure (fun j => (c j).m_key) key lower upper

/-- Scan used by `binary_search_gte`: the first position from `pos` on, among
`n` positions, whose key is `≥ key`, or the position after them. -/
def binary_search_gte_scan (c : Int → IndexEntry) (key : Int) : Nat → Int → Int
  | 0, pos => pos
  | n + 1, pos => if (c pos).m_key ≥ key then pos else binary_search_gte_scan c key n (pos + 1)

/-- Modelled from the spec: `binary_search_gte` over leaf slots is declared in
the header and defined outside the source; spec 4.1: `first_greater_or_equal`
returns the first index whose key is `≥` the search key, or `upper + 1` if none
exists. -/
def binary_search_gte (c : Int → IndexEntry) (key lower upper : Int) : Int :=
  binary_search_gte_scan c key (upper + 1 - lower).toNat lower

/-- `LeafNode::getRowId` on the leaf at address `leaf`. -/
def LeafNode.getRowId (t : BulkBPTree) (leaf : Nat) (key : Int) : Option Int :=
  match t.store.node leaf with
  | none => none
  | some n =>
    match binary_search (LeafNode.slot t n) key 0 ((n.m_currentNumberOfEntries : Int) - 1) with
    | none => none
    | some (position, foundKey) =>
      if foundKey then some (LeafNode.slot t n position).m_rowId
      else some (-1)

/-- `LeafNode::getGTE` on the leaf at address `leaf`. -/
def LeafNode.getGTE (t : BulkBPTree) (key : Int) : Nat → Nat → Option Int
  | 0, _ => none
  | fuel + 1, leaf =>
    match t.store.node leaf with
    | none => none
    | some n =>
      let position :=
        binary_search_gte (LeafNode.slot t n) key 0 ((n.m_currentNumberOfEntries : Int) - 1)
      if position < n.m_currentNumberOfEntries then
        some (LeafNode.slot t n position).m_rowId
      else
        -- we have not found the entry in the current leaf, so try the next one
        match n.m_next with
        | some nx => LeafNode.getGTE t key fuel nx
        | none => some (-1)

/-- `LeafNode::getLT` on the leaf at address `leaf`; `DATA_SIZE` is the value of
the macro of that name. -/
def LeafNode.getLT (DATA_SIZE : Int) (t : BulkBPTree) (key : Int) : Nat → Nat → Option Int
  | 0, _ => none
  | fuel + 1, leaf =>
    match t.store.node leaf with
    | none => none
    | some n =>
      let position :=
        binary_search_gte (LeafNode.slot t n) key 0 ((n.m_currentNumberOfEntries : Int) - 1)
      if position < n.m_currentNumberOfEntries then
        if position > 0 then
          some (LeafNode.slot t n (position - 1)).m_rowId
        else
          -- we might be to the right of an overflow block
          match n.m_previous with
          | some pv =>
            match t.store.node pv with
            | none => none
            | some p => some (LeafNode.slot t p ((p.m_currentNumberOfEntries : Int) - 1)).m_rowId
          | none => some (-1)
      else
        match n.m_next with
        | some nx => LeafNode.getLT DATA_SIZE t key fuel nx
        | none => some DATA_SIZE

/-- `BulkBPTree::lookup`. -/
def BulkBPTree.lookup (t : BulkBPTree) (key : Int) : Option Int :=
  match BPNode.lookup t.store key t.store.next t.m_root with
  | none => none
  | some leaf => LeafNode.getRowId t leaf key

/-- `BulkBPTree::gte`. -/
def BulkBPTree.gte (t : BulkBPTree) (key : Int) : Option Int :=
  match BPNode.lookup t.store key t.store.next t.m_root with
  | none => none
  | some leaf => LeafNode.getGTE t key t.store.next leaf

/-- `BulkBPTree::lt`. -/
def BulkBPTree.lt (DATA_SIZE : Int) (t : BulkBPTree) (key : Int) : Option Int :=
  match BPNode.lookup t.store key t.store.next t.m_root with
  | none => none
  | some leaf => LeafNode.getLT DATA_SIZE t key t.store.next leaf

/-- The leaf chain from the leaf at `leaf` on, following `m_next`: the filled
slots of each leaf, concatenated. -/
def BulkBPTree.chainFrom (t : BulkBPTree) : Nat → Nat → Option (List IndexEntry)
  | 0, _ => none
  | fuel + 1, leaf =>
    match t.store.node leaf with
    | none => none
    | some n =>
      let slots := (List.range n.m_currentNumberOfEntries).map (fun (j : Nat) => LeafNode.slot t n (j : Int))
      match n.m_next with
      | none => some slots
      | some nx =>
        match BulkBPTree.chainFrom t fuel nx with
        | none => none
        | some rest => some (slots ++ rest)

/-! ## Specification-level description of a tree under construction

The bulk build is verified against a description of the tree by levels.  The
leaves are listed in chain order with the range of input positions each one
holds; every inner level lists its nodes from left to right, each with the
input position at which its subtree starts and with its children. -/

/-- Description of a leaf: its address, the input positions `[start, stop)` held
in its slots, and whether it is an overflow leaf. -/
structure GLeaf where
  id : Nat
  start : Nat
  stop : Nat
  ov : Bool

/-- Description of an inner node: its address, the input position at which its
subtree starts, and its children as pairs (address, start position). -/
structure GNode where
  id : Nat
  start : Nat
  kids : List (Nat × Nat)

/-- The nodes of a level as seen from their parents: address and start. -/
def GNode.proj (lv : List GNode) : List (Nat × Nat) := lv.map (fun N => (N.id, N.start))

/-- The indexed (non-overflow) leaves as seen from their parents. -/
def leafProj (chain : List GLeaf) : List (Nat × Nat) :=
  (chain.filter (fun l => !l.ov)).map (fun l => (l.id, l.start))

/-- The node at address `a` exists and its parent reference is `f`. -/
def FatherIs (s : Store) (a : Nat) (f : Option Nat) : Prop :=
  ∃ nd, s.node a = some nd ∧ nd.m_fatherNode = f

/-- The store holds the inner node described by `N`: the children in order, and
as keys the first keys of all children but the first. -/
def NodeOK (cap : Nat) (data : List IndexEntry) (s : Store) (N : GNode) : Prop :=
  (∃ c rest, N.kids = c :: rest ∧ c.2 = N.start) ∧ N.kids.length ≤ cap + 1 ∧
  ∃ nd, s.node N.id = some nd ∧ nd.m_nodeType = .InnerNodeType ∧
    nd.m_keys = N.kids.tail.map (fun c => dataKey data c.2) ∧
    nd.m_pointers = N.kids.map Prod.fst

/-- The level `lv` sits on top of the nodes `lp`: the children of its nodes,
concatenated, are exactly `lp`. -/
def LevelOK (cap : Nat) (data : List IndexEntry) (s : Store) (lp : List (Nat × Nat))
    (lv : List GNode) : Prop :=
  (lv.map GNode.kids).flatten = lp ∧ ∀ N ∈ lv, NodeOK cap data s N

/-- The inner levels, bottom-up, on top of the nodes `lp`: each level sits on the
one below, the last node of a level has the last node of the next level as its
parent, and the top level is the root alone, with a null parent. -/
def Upper (cap : Nat) (data : List IndexEntry) (s : Store) (root : Nat) :
    List (Nat × Nat) → List (List GNode) → Prop
  | _, [] => False
  | lp, [lv] => LevelOK cap data s lp lv ∧ ∃ N, lv = [N] ∧ N.id = root ∧ FatherIs s root none
  | lp, lv :: lv2 :: rest =>
    LevelOK cap data s lp lv ∧
    (∃ i1 N i2 N2, lv = i1 ++ [N] ∧ lv2 = i2 ++ [N2] ∧ FatherIs s N.id (some N2.id)) ∧
    Upper cap data s root (GNode.proj lv) (lv2 :: rest)

/-- The addresses of all inner nodes of the levels. -/
def innerIds (levels : List (List GNode)) : List Nat := levels.flatten.map GNode.id

/-- The store holds the leaf described by `l`, linked to `prev` and `next`. -/
def LeafOK (s : Store) (prev : Option Nat) (l : GLeaf) (next : Option Nat) : Prop :=
  ∃ nd, s.node l.id = some nd ∧ nd.m_nodeType = .LeafNodeType ∧
    nd.m_currentOffset = l.start ∧ nd.m_slots + l.start = l.stop ∧
    nd.m_previous = prev ∧ nd.m_next = next ∧ nd.m_isOverflowNode = l.ov

/-- The leaves `chain` form the leaf chain over the input positions `[0, i)`:
each leaf is in the store, linked to its neighbours, starts where its
predecessor stops, and every leaf but the last is non-empty. -/
def ChainOK (s : Store) (chain : List GLeaf) (i : Nat) : Prop :=
  ∀ k l, chain[k]? = some l →
    LeafOK s (if k = 0 then none else (chain[k - 1]?).map GLeaf.id) l
      ((chain[k + 1]?).map GLeaf.id) ∧
    (k = 0 → l.start = 0) ∧
    (∀ l', chain[k + 1]? = some l' → l'.start = l.stop ∧ l.start < l.stop) ∧
    (chain[k + 1]? = none → l.stop = i)

/-- The invariant of the bulk build that relates the tree, after the first `i`
input entries, to its description by `chain` and `levels`. -/
structure Core (cap : Nat) (data : List IndexEntry) (t : BulkBPTree) (i : Nat)
    (chain : List GLeaf) (levels : List (List GNode)) : Prop where
  wf : t.store.WF
  upper : Upper cap data t.store t.m_root (leafProj chain) levels
  innerNodup : (innerIds levels).Nodup
  chainOK : ChainOK t.store chain i
  chainNodup : (chain.map GLeaf.id).Nodup
  entries : ∀ j, j < i → t.entries j = ⟨dataKey data j, (j : Int)⟩
  fresh : ∀ l ∈ chain, l.ov = false →
    l.start = 0 ∨ dataKey data l.start ≠ dataKey data (l.start - 1)
  dup : ∀ l ∈ chain, l.ov = true → ∀ j, l.start ≤ j → j < l.stop →
    0 < j ∧ dataKey data j = dataKey data (j - 1)
  capb : ∀ l ∈ chain, l.stop ≤ l.start + cap
  size : levels.length + chain.length ≤ t.store.next

/-- The position of the build cursor: the current leaf is the last indexed leaf
of the chain, followed by overflow leaves only, and its parent reference is the
last node of the bottom inner level. -/
def Cursor (t : BulkBPTree) (chain : List GLeaf) (levels : List (List GNode))
    (ovs : List GLeaf) : Prop :=
  (∃ cpre c, chain = cpre ++ c :: ovs ∧ c.ov = false ∧ c.id = t.m_currentLeaf ∧
    ∀ o ∈ ovs, o.ov = true) ∧
  ∃ init F above, levels = (init ++ [F]) :: above ∧
    FatherIs t.store t.m_currentLeaf (some F.id)

/-- The invariant of the constructor's `for` loop.  While `overflow` is set the
chain ends in overflow leaves, the last of which is `lastOverflowNode`, the
current leaf is full and the key at `i` differs from the key before it. -/
def BuildInv (cap : Nat) (data : List IndexEntry) (b : BuildState) (chain : List GLeaf)
    (levels : List (List GNode)) : Prop :=
  Core cap data b.tree b.i chain levels ∧ b.i ≤ data.length ∧
  (0 < b.i → ∀ l ∈ chain, l.start < l.stop) ∧
  ∃ ovs, Cursor b.tree chain levels ovs ∧
    (b.overflow = false → ovs = []) ∧
    (b.overflow = true →
      (∃ opre o, ovs = opre ++ [o] ∧ b.lastOverflowNode = some o.id) ∧
      (∀ c ∈ chain, c.id = b.tree.m_currentLeaf → c.stop = c.start + cap) ∧
      0 < b.i ∧
      (b.i < data.length → dataKey data b.i ≠ prevKey data b.i))

/-! ## Preconditions on the input -/

/-- The input is sorted ascending by key (duplicates allowed). -/
def SortedByKey (data : List IndexEntry) : Prop :=
  (data.map IndexEntry.m_key).Pairwise (· ≤ ·)

/-- The entry at position `i` of the input carries the row id `i`. -/
def RowIdIsPosition (data : List IndexEntry) : Prop :=
  ∀ i (h : i < data.length), (data[i]).m_rowId = (i : Int)

/-! ## The program on an unbounded child array

The definitions of this section are not the program.  They repeat `split` and
the constructor with `addPointer` replaced by a store into a child array
without bound, so they agree with the program as long as every child is stored
inside the `cap` slots that `addPointer` allocates, and they give a result
where the program has none.  They serve the proofs, as a reference the program
is compared with, and they show what a run would do if the store outside the
array were given the result of a store into a longer array. -/

/-- Unbounded child array: the child is appended whatever the number of
children. -/
def Unbounded.addPointer (n : BPNode) (node : Nat) : BPNode :=
  { n with m_pointers := n.m_pointers ++ [node] }

/-- Unbounded child array: first loop of `BPNode::split`: moves the children
behind `leftSize`. -/
def Unbounded.splitMovePointers (leftSize currentNode newNode : Nat) : Nat → Store → Option Store
  | 0, s =>
    match s.node currentNode with
    | none => none
    | some cur => if cur.m_currentNumberOfNodes > leftSize + 1 then none else some s
  | fuel + 1, s =>
    match s.node currentNode with
    | none => none
    | some cur =>
      if cur.m_currentNumberOfNodes > leftSize + 1 then
        match cur.getPointer (leftSize + 1) with
        | none => none
        | some p =>
          match s.modify newNode (fun n => Unbounded.addPointer n p) with
          | none => none
          | some s =>
            match s.node currentNode with
            | none => none
            | some cur =>
              match cur.removePointer (leftSize + 1) with
              | none => none
              | some cur => Unbounded.splitMovePointers leftSize currentNode newNode fuel
                              (s.write currentNode cur)
      else some s

/-- Unbounded child array: the statements of `BPNode::split` from
`newNode->m_fatherNode = fatherNode` on, run once `fatherNode` is known to have
room: the promotion of the split key and the two loops that fill the new node.
-/
def Unbounded.splitRest (cap : Nat) (s : Store) (currentNode newNode fatherNode : Nat) :
    Option Store := do
  let leftSize := BPNode.leftSize cap
  let s ← s.modify newNode (fun n => { n with m_fatherNode := some fatherNode })
  -- get new split key
  let cur ← s.node currentNode
  let splitKey ← cur.getKey leftSize
  let cur ← cur.removeKey leftSize
  let s := s.write currentNode cur
  -- insert it into father
  let s ← s.modify fatherNode (fun n => n.addKey cap splitKey)
  let s ← s.modify fatherNode (fun n => Unbounded.addPointer n newNode)
  -- move the keys and the pointers that belong to the right side onto the right side
  let cur ← s.node currentNode
  let s ← Unbounded.splitMovePointers leftSize currentNode newNode cur.m_currentNumberOfNodes s
  let cur ← s.node currentNode
  BPNode.splitMoveKeys cap leftSize currentNode newNode cur.m_currentNumberOfEntries s

/-- Unbounded child array: the block of `BPNode::split` guarded by
`if(!fatherNode)`: the current node is the root, so a new root is created above
it.  Returns the store and the address of the new root. -/
def Unbounded.splitNewRoot (s : Store) (currentNode : Nat) : Option (Store × Nat) := do
  let (s, fatherNode) := s.alloc InnerNode.new
  let s ← s.modify fatherNode (fun n => Unbounded.addPointer n currentNode)
  let s ← s.modify currentNode (fun n => { n with m_fatherNode := some fatherNode })
  some (s, fatherNode)

/-- Unbounded child array: `BPNode::split(root)` called on the node at address
`this`.  Returns the store, the root reference and the address of the new right
sibling. -/
def Unbounded.split (cap : Nat) : Nat → Store → Nat → Nat → Option (Store × Nat × Nat)
  | 0, _, _, _ => none
  | fuel + 1, s, root, this =>
    let currentNode := this
    match s.alloc InnerNode.new with
    | (s, newNode) =>
      match s.node currentNode with
      | none => none
      | some cur =>
        match (match cur.m_fatherNode with
               | some f => some (s, root, f)
               | none =>
                 match Unbounded.splitNewRoot s currentNode with
                 | none => none
                 | some (s, f) => some (s, f, f)) with
        | none => none
        | some (s, root, fatherNode) =>
          match s.node fatherNode with
          | none => none
          | some fnode =>
            match (if fnode.isFull cap then Unbounded.split cap fuel s root fatherNode
                   else some (s, root, fatherNode)) with
            | none => none
            | some (s, root, fatherNode) =>
              match Unbounded.splitRest cap s currentNode newNode fatherNode with
              | none => none
              | some s => some (s, root, newNode)

/-- Unbounded child array: the statement
`if(m_currentLeaf->m_fatherNode->isFull()) { m_currentLeaf->m_fatherNode =
m_currentLeaf->m_fatherNode->split(m_root); }` of the constructor. -/
def Unbounded.splitFather (cap : Nat) (t : BulkBPTree) : Option BulkBPTree := do
  let cl ← t.store.node t.m_currentLeaf
  let f ← cl.m_fatherNode
  let fnode ← t.store.node f
  if fnode.isFull cap then do
    -- there is no space left, so we have to split the father node recursively
    let (s, root, r) ← Unbounded.split cap t.store.next t.store t.m_root f
    let s ← s.modify t.m_currentLeaf (fun n => { n with m_fatherNode := some r })
    some { t with store := s, m_root := root }
  else some t

/-- Unbounded child array: the branch of the constructor that links `newLeaf` as
an indexed leaf: it is entered when the key at `i` differs from the key before
it. -/
def Unbounded.linkLeaf (cap : Nat) (data : List IndexEntry) (b : BuildState) (newLeaf : Nat) :
    Option BuildState := do
  let t := b.tree
  let cl ← t.store.node t.m_currentLeaf
  let f ← cl.m_fatherNode
  let s ← t.store.modify f (fun n => n.addKey cap (dataKey data b.i))
  let s ← s.modify f (fun n => Unbounded.addPointer n newLeaf)
  let cl ← s.node t.m_currentLeaf
  let s ← s.modify newLeaf (fun n => { n with m_fatherNode := cl.m_fatherNode })
  if b.overflow then do
    let lo ← b.lastOverflowNode
    let s ← s.modify newLeaf (fun n => { n with m_previous := some lo })
    let s ← s.modify lo (fun n => { n with m_next := some newLeaf })
    some { tree := { t with store := s, m_currentLeaf := newLeaf },
           lastOverflowNode := b.lastOverflowNode, overflow := false, i := b.i }
  else do
    let s ← s.modify newLeaf (fun n => { n with m_previous := some t.m_currentLeaf })
    let s ← s.modify t.m_currentLeaf (fun n => { n with m_next := some newLeaf })
    some { tree := { t with store := s, m_currentLeaf := newLeaf },
           lastOverflowNode := b.lastOverflowNode, overflow := b.overflow, i := b.i }

/-- Unbounded child array: the part of the loop body guarded by
`if(m_currentLeaf->isFull())`. -/
def Unbounded.onFullLeaf (cap : Nat) (data : List IndexEntry) (b : BuildState) :
    Option BuildState :=
  -- current leaf is full, so we have to create a new one
  match b.tree.store.alloc (LeafNode.new b.i false) with
  | (s, newLeaf) =>
    match Unbounded.splitFather cap { b.tree with store := s } with
    | none => none
    | some t =>
      if dataKey data b.i ≠ prevKey data b.i then
        Unbounded.linkLeaf cap data { b with tree := t } newLeaf
      else
        BulkBPTree.startOverflow cap data { b with tree := t } newLeaf

/-- Unbounded child array: one iteration of the constructor's `for` loop. -/
def Unbounded.buildStep (cap : Nat) (data : List IndexEntry) (b : BuildState) :
    Option BuildState := do
  let cl ← b.tree.store.node b.tree.m_currentLeaf
  let b ← (if cl.isFull cap then Unbounded.onFullLeaf cap data b else some b)
  -- space left in leaf, so simply insert
  if !b.overflow then do
    let t ← LeafNode.addKey cap b.tree b.tree.m_currentLeaf (dataKey data b.i)
    let t ← LeafNode.addRowId t b.tree.m_currentLeaf b.i
    some { b with tree := t, i := b.i + 1 }
  else some b

/-- Unbounded child array: the constructor's `for(i = 0; i < size; )` loop. -/
def Unbounded.buildLoop (cap : Nat) (data : List IndexEntry) :
    Nat → BuildState → Option BuildState
  | 0, b => if b.i < data.length then none else some b
  | fuel + 1, b =>
    if b.i < data.length then
      match Unbounded.buildStep cap data b with
      | none => none
      | some b => Unbounded.buildLoop cap data fuel b
    else some b

/-- Unbounded child array: the state of the constructor when it enters its loop:
a root with one empty leaf below it. -/
def Unbounded.init : Option BuildState := do
  let (s, root) := Store.empty.alloc InnerNode.new
  let s ← s.modify root (fun n => { n with m_fatherNode := none })
  let (s, leaf) := s.alloc (LeafNode.new 0 false)
  let s ← s.modify leaf (fun n => { n with m_fatherNode := some root })
  let s ← s.modify root (fun n => Unbounded.addPointer n leaf)
  some { tree := { store := s, entries := fun _ => ⟨0, 0⟩, m_root := root, m_currentLeaf := leaf },
         lastOverflowNode := none, overflow := false, i := 0 }

/-- Unbounded child array: the constructor `BulkBPTree::BulkBPTree(data, size)`,
with `cap` the value of `BPTREE_ELEMENTSPERNODE` and `size = data.length`. -/
def Unbounded.build (cap : Nat) (data : List IndexEntry) : Option BulkBPTree :=
  match Unbounded.init with
  | none => none
  | some b =>
    match Unbounded.buildLoop cap data data.length b with
    | none => none
    | some b => some b.tree

/-! ## Auxiliary definitions of the proofs -/

/-- The left part of a split node. -/
def splitLeft (cap : Nat) (X : GNode) : GNode :=
  { id := X.id, start := X.start, kids := X.kids.take (BPNode.leftSize cap + 1) }

/-- The right part of a split node, at the new address `n`. -/
def splitRight (cap : Nat) (X : GNode) (n : Nat) : GNode :=
  { id := n, start := (X.kids.getD (BPNode.leftSize cap + 1) (0, 0)).2,
    kids := X.kids.drop (BPNode.leftSize cap + 1) }

/-- Two node records agree on the fields that describe a leaf of the chain. -/
def SameLeaf (nd nd' : BPNode) : Prop :=
  nd'.m_nodeType = nd.m_nodeType ∧ nd'.m_currentOffset = nd.m_currentOffset ∧
  nd'.m_slots = nd.m_slots ∧ nd'.m_previous = nd.m_previous ∧ nd'.m_next = nd.m_next ∧
  nd'.m_isOverflowNode = nd.m_isOverflowNode

/-- Facts about a tree under construction beyond `Core`: every node of the
store is an inner node of the levels, a leaf of the chain or the new leaf
`pend` that is not linked yet; overflow leaves have a null parent; a leaf
followed by an overflow leaf is full. -/
structure Ext (cap : Nat) (t : BulkBPTree) (chain : List GLeaf) (levels : List (List GNode))
    (pend : Option Nat) : Prop where
  cover : ∀ a nd, t.store.node a = some nd →
    a ∈ innerIds levels ∨ a ∈ chain.map GLeaf.id ∨ pend = some a
  ovFather : ∀ l ∈ chain, l.ov = true → FatherIs t.store l.id none
  full : ∀ k l l', chain[k]? = some l → chain[k + 1]? = some l' → l'.ov = true →
    l.stop = l.start + cap

/-- Every indexed leaf that has a successor in the chain holds `cap` entries. -/
def IndexedFull (cap : Nat) (chain : List GLeaf) : Prop :=
  ∀ k l l', chain[k]? = some l → chain[k + 1]? = some l' → l.ov = false →
    l.stop = l.start + cap

/-- No split can occur: the bottom level's last node has room and all keys of
the input are equal, so no new indexed leaf is linked. -/
def NoSplit (cap : Nat) (data : List IndexEntry) (levels : List (List GNode)) : Prop :=
  (∀ init F above, levels = (init ++ [F]) :: above → F.kids.length ≤ cap) ∧
  ∀ i, 0 < i → i < data.length → dataKey data i = dataKey data (i - 1)

/-- Lower bound of a key in the sorted input: the first position whose key is
`≥ key`; all keys before it are below `key`. -/
structure IsLowerBound (data : List IndexEntry) (key : Int) (f : Nat) : Prop where
  le : f ≤ data.length
  below : ∀ j, j < f → dataKey data j < key
  above : ∀ j, f ≤ j → j < data.length → key ≤ dataKey data j

/-- The answer of `lt` for a key with lower bound `f`. -/
def ltAnswer (DATA_SIZE : Int) (n f : Nat) : Int :=
  if f < n then (if f = 0 then -1 else (f : Int) - 1) else DATA_SIZE

/-- Upper bound of a key in the sorted input: the first position whose key is
greater than `key`. -/
structure IsUpperBound (data : List IndexEntry) (key : Int) (g : Nat) : Prop where
  le : g ≤ data.length
  below : ∀ j, j < g → dataKey data j ≤ key
  above : ∀ j, g ≤ j → j < data.length → key < dataKey data j

/-- The node `c` of a level is the one the descent for a key with upper bound
`g` passes through: the last node that starts before `g`, or the first node of
the level when there is none. -/
def Target (lv : List (Nat × Nat)) (g : Nat) (c : Nat × Nat) : Prop :=
  c ∈ lv ∧ (c.2 < g ∨ ∀ m ∈ lv, c.2 ≤ m.2) ∧ ∀ m ∈ lv, m.2 < g → m.2 ≤ c.2

/-- The nodes of a level start at strictly increasing input positions. -/
def StartsOK (lp : List (Nat × Nat)) (n : Nat) : Prop :=
  lp.Pairwise (fun a b => a.2 < b.2) ∧ ∀ c ∈ lp, c.2 < n

/-- The input keeps the bulk build inside the child array of the root: every
input position from `cap * cap` on repeats the key before it, so at most `cap`
leaves are linked below the root. -/
def InBounds (cap : Nat) (data : List IndexEntry) : Prop :=
  ∀ i, cap * cap ≤ i → i < data.length → dataKey data i = dataKey data (i - 1)

/-- The row id of the entry at position `i` of the input, `data[i].m_rowId`. -/
def dataRowId (data : List IndexEntry) (i : Nat) : Int := (data.getD i ⟨0, 0⟩).m_rowId

instance (data : List IndexEntry) : Decidable (SortedByKey data) := by
  unfold SortedByKey
  infer_instance

instance (data : List IndexEntry) : Decidable (RowIdIsPosition data) := by
  unfold RowIdIsPosition
  infer_instance

/-- Scenario A of the specification: a duplicated key in the middle. -/
def scenarioA : List IndexEntry := [⟨1, 0⟩, ⟨3, 1⟩, ⟨3, 2⟩, ⟨5, 3⟩]

/-- Scenario C of the specification with three entries: all keys identical. -/
def scenarioC : List IndexEntry := [⟨3, 0⟩, ⟨3, 1⟩, ⟨3, 2⟩]

/-- An input of one entry whose row id is not its position. -/
def singleEntry : List IndexEntry := [⟨1, 7⟩]

/-- An input of `n` entries with the distinct keys `1 .. n`, the entry at
position `i` carrying row id `i`. -/
def distinctKeys (n : Nat) : List IndexEntry :=
  (List.range n).map (fun i => ⟨(i : Int) + 1, (i : Int)⟩)

/-- A full inner node of capacity 4, with four keys and four children in its
child array of four slots, and with its parent at address 0. -/
def fullNode : BPNode :=
  { InnerNode.new with
    m_fatherNode := some 0, m_keys := [10, 20, 30, 40], m_pointers := [5, 6, 7, 8] }

/-- A parent with one child, the node at address 1. -/
def parentNode : BPNode := { InnerNode.new with m_pointers := [1] }

/-- A store with `parentNode` at address 0 and `fullNode` at address 1. -/
def parentStore : Store :=
  { node := fun a => if a = 0 then some parentNode else if a = 1 then some fullNode else none,
    next := 2 }

/-- A full inner node of capacity 4 without parent, with four keys and four
children in its child array of four slots. -/
def fullRoot : BPNode :=
  { InnerNode.new with m_keys := [10, 20, 30, 40], m_pointers := [5, 6, 7, 8] }

/-- A store with `fullRoot` at address 0. -/
def rootStore : Store :=
  { node := fun a => if a = 0 then some fullRoot else none, next := 1 }

/-- A parent of capacity 2 with one key and two children, the second being the
node at address 1: it is not full, and its child array of two slots is. -/
def tightParent : BPNode := { InnerNode.new with m_keys := [50], m_pointers := [3, 1] }

/-- A full inner node of capacity 2 with two keys and two children, and with its
parent at address 0. -/
def tightNode : BPNode :=
  { InnerNode.new with m_fatherNode := some 0, m_keys := [60, 70], m_pointers := [5, 6] }

/-- A store with `tightParent` at address 0 and `tightNode` at address 1. -/
def tightStore : Store :=
  { node := fun a => if a = 0 then some tightParent else if a = 1 then some tightNode else none,
    next := 2 }

/-- A full root of capacity 1: one key and one child. -/
def unitRoot : BPNode := { InnerNode.new with m_keys := [10], m_pointers := [5] }

/-- A store with `unitRoot` at address 0. -/
def unitStore : Store :=
  { node := fun a => if a = 0 then some unitRoot else none, next := 1 }

/-- A leaf below the node at address 4. -/
def familyLeaf (offset : Nat) : BPNode :=
  { LeafNode.new offset false with m_fatherNode := some 4 }

/-- A full root of capacity 4 with four keys and, in its child array of four
slots, the leaves at the addresses 0, 1, 2, 3. -/
def familyRoot : BPNode :=
  { InnerNode.new with m_keys := [10, 20, 30, 40], m_pointers := [0, 1, 2, 3] }

/-- A store with four leaves at the addresses 0, 1, 2, 3 and their parent
`familyRoot` at address 4. -/
def familyStore : Store :=
  { node := fun a =>
      if a < 4 then some (familyLeaf a) else if a = 4 then some familyRoot else none,
    next := 5 }

/-- The children of the node at address `a`: the child references of an inner
node, in order; a leaf has none. -/
def BPNode.children (s : Store) (a : Nat) : List Nat :=
  match s.node a with
  | none => []
  | some nd =>
    match nd.m_nodeType with
    | .InnerNodeType => nd.m_pointers
    | .LeafNodeType => []

/-- The nodes reached from the node at `a` by following exactly `d` child
references, from left to right. -/
def BPNode.descendants (s : Store) (a : Nat) : Nat → List Nat
  | 0 => [a]
  | d + 1 => (BPNode.descendants s a d).flatMap (BPNode.children s)

/-- The overflow leaves chained directly after the leaf at address `leaf`:
the leaves reached by following `next` for as long as the next leaf is an
overflow leaf. -/
def LeafNode.overflowAfter (t : BulkBPTree) : Nat → Nat → List Nat
  | 0, _ => []
  | fuel + 1, leaf =>
    match t.store.node leaf with
    | none => []
    | some n =>
      match n.m_next with
      | none => []
      | some nx =>
        match t.store.node nx with
        | none => []
        | some m =>
          if m.m_isOverflowNode then nx :: LeafNode.overflowAfter t fuel nx else []

/-- The nodes of level `j` as seen from their parents, counted from the leaves:
level 0 are the indexed leaves, level `k + 1` the inner nodes of `levels[k]`. -/
def levelList (chain : List GLeaf) (levels : List (List GNode)) : Nat → List (Nat × Nat)
  | 0 => leafProj chain
  | k + 1 => GNode.proj (levels.getD k [])

/-- The input position `x` lies in the span of the node `c` of the level `lp`:
at or after the start of `c` and before the start of every later node. -/
def Span (lp : List (Nat × Nat)) (c : Nat × Nat) (x : Nat) : Prop :=
  c.2 ≤ x ∧ ∀ m ∈ lp, c.2 < m.2 → x < m.2

/-- Length of the child array that `BPNode::addPointer` allocates on its first
call for a node: `new BPNode*[BPNode::m_maxNumberOfEntries]`. -/
def BPNode.pointerArrayLength (cap : Nat) : Nat := cap

/-- The index at which `BPNode::addPointer` stores the child when called on the
node `n`: `m_pointers[m_currentNumberOfNodes++] = node`. -/
def BPNode.addPointerIndex (n : BPNode) : Nat := n.m_currentNumberOfNodes

/-- An input with a duplicate key after a distinct one. -/
def duplicateTail : List IndexEntry := [⟨1, 0⟩, ⟨2, 1⟩, ⟨2, 2⟩]

/-- The addresses of the leaves met by following `m_next` from the leaf at
`leaf`, that leaf included. -/
def LeafNode.nextWalk (t : BulkBPTree) : Nat → Nat → List Nat
  | 0, _ => []
  | fuel + 1, leaf =>
    match t.store.node leaf with
    | none => []
    | some n =>
      leaf :: (match n.m_next with
        | none => []
        | some nx => LeafNode.nextWalk t fuel nx)

/-! # Theorems -/

/-! ### Properties of the search kernel -/

theorem tdiv_two_bounds (lower upper : Int) (h : lower ≤ upper) :
    lower ≤ (lower + upper).tdiv 2 ∧ (lower + upper).tdiv 2 ≤ upper := by
  rcases le_or_lt 0 (lower + upper) with hs | hs
  · rw [Int.tdiv_eq_ediv hs (by decide)]
    omega
  · have h1 : (lower + upper).tdiv 2 = -((-(lower + upper)).tdiv 2) := by
      rw [Int.neg_tdiv, neg_neg]
    rw [h1, Int.tdiv_eq_ediv (by omega) (by decide)]
    omega

/-- Loop invariant of `binary_search_pure`, stated for the whole loop: with the
elements left of `lower` below the key and the elements right of `upper` above
it, the loop ends with a correct answer. -/
theorem binary_search_pure_loop_spec (c : Int → Int) (key lo hi : Int)
    (hs : ∀ i j, lo ≤ i → i ≤ j → j ≤ hi → c i ≤ c j) :
    ∀ (fuel : Nat) (lower upper : Int), lo ≤ lower → upper ≤ hi → lower ≤ upper + 1 →
      (upper + 1 - lower).toNat ≤ fuel →
      (∀ i, lo ≤ i → i < lower → c i < key) →
      (∀ i, upper < i → i ≤ hi → key < c i) →
      ∃ p found, binary_search_pure_loop c key fuel lower upper = some (p, found) ∧
        (found = true → lo ≤ p ∧ p ≤ hi ∧ c p = key) ∧
        (found = false → lo - 1 ≤ p ∧ p ≤ hi ∧ (∀ i, lo ≤ i → i ≤ p → c i < key) ∧
          (∀ i, p < i → i ≤ hi → key < c i)) := by
  intro fuel
  induction fuel with
  | zero =>
    intro lower upper hlo hhi hle hf hl hu
    have hgt : ¬ lower ≤ upper := by omega
    refine ⟨upper, false, by simp [binary_search_pure_loop, hgt], by simp, ?_⟩
    intro _
    refine ⟨by omega, hhi, ?_, hu⟩
    intro i h1 h2
    exact hl i h1 (by omega)
  | succ fuel ih =>
    intro lower upper hlo hhi hle hf hl hu
    by_cases hc : lower ≤ upper
    · obtain ⟨hm1, hm2⟩ := tdiv_two_bounds lower upper hc
      simp only [binary_search_pure_loop, hc, if_true]
      by_cases h1 : c ((lower + upper).tdiv 2) < key
      · simp only [h1, if_true]
        apply ih _ _ (by omega) hhi (by omega) (by omega) _ hu
        intro i hi1 hi2
        have := hs i ((lower + upper).tdiv 2) hi1 (by omega) (by omega)
        omega
      · by_cases h2 : c ((lower + upper).tdiv 2) > key
        · simp only [h1, h2, if_true, if_false]
          apply ih _ _ hlo (by omega) (by omega) (by omega) hl
          intro i hi1 hi2
          have := hs ((lower + upper).tdiv 2) i (by omega) (by omega) hi2
          omega
        · simp only [h1, h2, if_false]
          refine ⟨_, true, rfl, ?_, by simp⟩
          intro _
          exact ⟨by omega, by omega, by omega⟩
    · refine ⟨upper, false, by simp [binary_search_pure_loop, hc], by simp, ?_⟩
      intro _
      refine ⟨by omega, hhi, ?_, hu⟩
      intro i h1 h2
      exact hl i h1 (by omega)

/-- The skip loop of `binary_search_gt_pure` stops at the first position after
`pos` that is past `end_` or holds another element than `key`. -/
theorem binary_search_gt_skip_spec (c : Int → Int) (key end_ : Int) :
    ∀ (fuel : Nat) (pos : Int), (end_ - pos).toNat + 1 ≤ fuel → pos ≤ end_ →
      ∃ r, binary_search_gt_skip c key end_ fuel pos = some r ∧ pos < r ∧ r ≤ end_ + 1 ∧
        (∀ i, pos < i → i < r → c i = key) ∧ (r ≤ end_ → c r ≠ key) := by
  intro fuel
  induction fuel with
  | zero => intro pos hf; omega
  | succ fuel ih =>
    intro pos hf hle
    by_cases hc : pos + 1 ≤ end_ ∧ c (pos + 1) = key
    · obtain ⟨r, hr, h1, h2, h3, h4⟩ := ih (pos + 1) (by omega) hc.1
      refine ⟨r, by simp [binary_search_gt_skip, hc, hr], by omega, h2, ?_, h4⟩
      intro i hi1 hi2
      rcases eq_or_lt_of_le (show pos + 1 ≤ i by omega) with h | h
      · rw [← h]; exact hc.2
      · exact h3 i h hi2
    · refine ⟨pos + 1, by simp only [binary_search_gt_skip, hc, if_false], by omega, by omega,
        ?_, ?_⟩
      · intro i hi1 hi2; omega
      · intro h hk; exact hc ⟨h, hk⟩

/-- Result of `binary_search_pure`: on an array sorted ascending on `[lower..upper]`, `binary_search_pure`
returns a result; `found` is set iff the key occurs in the range; when found the
position lies in the range and holds the key; when not found the position is the
index of the last element below the key (`lower - 1` if there is none): all
elements up to it are below the key and all elements after it are above. -/
theorem binary_search_pure_spec (c : Int → Int) (key lower upper : Int)
    (hle : lower ≤ upper + 1)
    (hs : ∀ i j, lower ≤ i → i ≤ j → j ≤ upper → c i ≤ c j) :
    ∃ p found, binary_search_pure c key lower upper = some (p, found) ∧
      (found = true ↔ ∃ i, lower ≤ i ∧ i ≤ upper ∧ c i = key) ∧
      (found = true → lower ≤ p ∧ p ≤ upper ∧ c p = key) ∧
      (found = false → lower - 1 ≤ p ∧ p ≤ upper ∧
        (∀ i, lower ≤ i → i ≤ p → c i < key) ∧ (∀ i, p < i → i ≤ upper → key < c i)) := by
  obtain ⟨p, found, h, ht, hf⟩ :=
    binary_search_pure_loop_spec c key lower upper hs (upper + 1 - lower).toNat lower upper
      le_rfl le_rfl hle le_rfl (by intro i h1 h2; omega) (by intro i h1 h2; omega)
  refine ⟨p, found, h, ?_, ht, hf⟩
  constructor
  · intro hfd
    obtain ⟨h1, h2, h3⟩ := ht hfd
    exact ⟨p, h1, h2, h3⟩
  · rintro ⟨i, h1, h2, h3⟩
    cases found with
    | true => rfl
    | false =>
      obtain ⟨_, _, h4, h5⟩ := hf rfl
      rcases le_or_lt i p with h | h
      · have := h4 i h1 h; omega
      · have := h5 i h h2; omega

theorem filter_range_prefix_length (P : Nat → Bool) :
    ∀ (n m : Nat), m ≤ n → (∀ j, j < n → (P j = true ↔ j < m)) →
      ((List.range n).filter P).length = m := by
  intro n
  induction n with
  | zero => intro m hm _; simp; omega
  | succ n ih =>
    intro m hm hP
    rw [List.range_succ, List.filter_append, List.length_append]
    by_cases hmn : m ≤ n
    · have hn : P n = false := by
        have := hP n (by omega)
        cases h : P n with
        | false => rfl
        | true => rw [h] at this; simp at this; omega
      rw [ih m hmn (fun j hj => hP j (by omega))]
      simp [hn]
    · have hn : P n = true := (hP n (by omega)).2 (by omega)
      rw [ih n le_rfl (fun j hj => by
        have := hP j (by omega)
        constructor
        · intro _; exact hj
        · intro _; exact this.2 (by omega))]
      simp [hn]
      omega

/-- Result of `binary_search_gt_pure`: on an array sorted ascending on `[start..end]` (duplicates allowed, the
empty range `end = start - 1` allowed), `binary_search_gt_pure` returns the
first index of the range whose element is strictly greater than the key, or
`end + 1` if there is none; this is `start` plus the number of elements of the
range that are `≤ key`. -/
theorem binary_search_gt_pure_spec (c : Int → Int) (key start end_ : Int)
    (hle : start ≤ end_ + 1)
    (hs : ∀ i j, start ≤ i → i ≤ j → j ≤ end_ → c i ≤ c j) :
    ∃ r, binary_search_gt_pure c key start end_ = some r ∧ start ≤ r ∧ r ≤ end_ + 1 ∧
      (∀ i, start ≤ i → i < r → c i ≤ key) ∧ (∀ i, r ≤ i → i ≤ end_ → key < c i) ∧
      r = start + (((List.range (end_ + 1 - start).toNat).filter
            (fun (j : Nat) => decide (c (start + (j : Int)) ≤ key))).length : Int) := by
  have main : ∃ r, binary_search_gt_pure c key start end_ = some r ∧ start ≤ r ∧ r ≤ end_ + 1 ∧
      (∀ i, start ≤ i → i < r → c i ≤ key) ∧ (∀ i, r ≤ i → i ≤ end_ → key < c i) := by
    obtain ⟨p, found, h, -, ht, hf⟩ := binary_search_pure_spec c key start end_ hle hs
    cases found with
    | false =>
      obtain ⟨h1, h2, h3, h4⟩ := hf rfl
      refine ⟨p + 1, by simp [binary_search_gt_pure, h], by omega, by omega, ?_, ?_⟩
      · intro i hi1 hi2
        exact le_of_lt (h3 i hi1 (by omega))
      · intro i hi1 hi2
        exact h4 i (by omega) hi2
    | true =>
      obtain ⟨h1, h2, h3⟩ := ht rfl
      obtain ⟨r, hr, g1, g2, g3, g4⟩ :=
        binary_search_gt_skip_spec c key end_ ((end_ - p).toNat + 1) p le_rfl h2
      refine ⟨r, by simp [binary_search_gt_pure, h, hr], by omega, g2, ?_, ?_⟩
      · intro i hi1 hi2
        rcases lt_trichotomy i p with hlt | heq | hgt
        · have := hs i p hi1 (le_of_lt hlt) h2; omega
        · rw [heq, h3]
        · rw [g3 i hgt hi2]
      · intro i hi1 hi2
        rcases eq_or_lt_of_le hi1 with heq | hlt
        · have hne := g4 (by omega)
          have := hs p r h1 (by omega) (by omega)
          rw [← heq]
          omega
        · have hne := g4 (by omega)
          have e1 := hs p r h1 (by omega) (by omega)
          have e2 := hs r i (by omega) (by omega) hi2
          omega
  obtain ⟨r, hr, h1, h2, h3, h4⟩ := main
  refine ⟨r, hr, h1, h2, h3, h4, ?_⟩
  have hlen := filter_range_prefix_length (fun (j : Nat) => decide (c (start + (j : Int)) ≤ key))
    (end_ + 1 - start).toNat (r - start).toNat (by omega) (by
      intro j hj
      simp only [decide_eq_true_eq]
      constructor
      · intro hc
        by_contra hnot
        have := h4 (start + (j : Int)) (by omega) (by omega)
        omega
      · intro hj2
        exact h3 _ (by omega) (by omega))
  rw [hlen]
  omega

/-! ### Store -/

@[simp]
theorem Store.alloc_node (s : Store) (nd : BPNode) (a : Nat) :
    (s.alloc nd).1.node a = if a = s.next then some nd else s.node a := rfl

@[simp]
theorem Store.alloc_next (s : Store) (nd : BPNode) : (s.alloc nd).1.next = s.next + 1 := rfl

@[simp]
theorem Store.alloc_addr (s : Store) (nd : BPNode) : (s.alloc nd).2 = s.next := rfl

@[simp]
theorem Store.write_node (s : Store) (a : Nat) (nd : BPNode) (b : Nat) :
    (s.write a nd).node b = if b = a then some nd else s.node b := rfl

@[simp]
theorem Store.write_next (s : Store) (a : Nat) (nd : BPNode) :
    (s.write a nd).next = s.next := rfl

theorem Store.modify_eq (s : Store) (a : Nat) (f : BPNode → BPNode) (nd : BPNode)
    (h : s.node a = some nd) : s.modify a f = some (s.write a (f nd)) := by
  simp [Store.modify, h]

/-! ### The loops of `split` -/

theorem take_eraseIdx_self {α : Type} (xs : List α) (k : Nat) :
    (xs.eraseIdx k).take k = xs.take k := by
  induction xs generalizing k with
  | nil => simp
  | cons x xs ih =>
    cases k with
    | zero => simp
    | succ k => simp [ih]

theorem cons_drop_eraseIdx_self {α : Type} (xs : List α) (k : Nat) (h : k < xs.length) :
    xs[k] :: (xs.eraseIdx k).drop k = xs.drop k := by
  induction xs generalizing k with
  | nil => simp at h
  | cons x xs ih =>
    cases k with
    | zero => simp
    | succ k =>
      simp only [List.length_cons, Nat.add_lt_add_iff_right] at h
      simpa using ih k h

theorem splitMovePointers_spec (l cur new : Nat) (hne : cur ≠ new) :
    ∀ (fuel : Nat) (s : Store) (cn nn : BPNode), s.node cur = some cn → s.node new = some nn →
      cn.m_pointers.length ≤ fuel + (l + 1) →
      ∃ s', Unbounded.splitMovePointers l cur new fuel s = some s' ∧
        s'.node cur = some { cn with m_pointers := cn.m_pointers.take (l + 1) } ∧
        s'.node new = some { nn with m_pointers := nn.m_pointers ++ cn.m_pointers.drop (l + 1) } ∧
        (∀ a, a ≠ cur → a ≠ new → s'.node a = s.node a) ∧ s'.next = s.next := by
  intro fuel
  induction fuel with
  | zero =>
    intro s cn nn hc hn hlen
    have hle : ¬ cn.m_pointers.length > l + 1 := by omega
    refine ⟨s, ?_, ?_, ?_, fun _ _ _ => rfl, rfl⟩
    · simp [Unbounded.splitMovePointers, hc, BPNode.m_currentNumberOfNodes, hle]
    · rw [hc, List.take_of_length_le (by omega)]
    · rw [hn, List.drop_of_length_le (by omega), List.append_nil]
  | succ fuel ih =>
    intro s cn nn hc hn hlen
    by_cases hgt : cn.m_pointers.length > l + 1
    · have hp : cn.m_pointers[l + 1]? = some (cn.m_pointers[l + 1]) := List.getElem?_eq_getElem hgt
      let s1 := s.write new (Unbounded.addPointer nn cn.m_pointers[l + 1])
      let cn1 : BPNode := { cn with m_pointers := cn.m_pointers.eraseIdx (l + 1) }
      let s2 := s1.write cur cn1
      have hc1 : s1.node cur = some cn := by simp [s1, hne, hc]
      have hc2 : s2.node cur = some cn1 := by simp [s2]
      have hn2 : s2.node new = some (Unbounded.addPointer nn cn.m_pointers[l + 1]) := by
        simp [s2, s1, Ne.symm hne]
      have hlen1 : cn1.m_pointers.length ≤ fuel + (l + 1) := by
        simp only [cn1, List.length_eraseIdx, hgt, if_true]
        omega
      obtain ⟨s', h1, h2, h3, h4, h5⟩ := ih s2 cn1 _ hc2 hn2 hlen1
      refine ⟨s', ?_, ?_, ?_, ?_, ?_⟩
      · simp only [Unbounded.splitMovePointers, hc, BPNode.m_currentNumberOfNodes, hgt, if_true,
          BPNode.getPointer, hp, Store.modify_eq s new _ nn hn]
        have : (s.write new (Unbounded.addPointer nn cn.m_pointers[l + 1])).node cur = some cn := hc1
        simp only [this, BPNode.removePointer, show cn.m_pointers.length > 0 by omega,
          show l + 1 < cn.m_pointers.length by omega, if_true]
        exact h1
      · rw [h2]
        simp only [cn1, take_eraseIdx_self]
      · rw [h3]
        simp only [cn1, Unbounded.addPointer, List.append_assoc, List.singleton_append,
          cons_drop_eraseIdx_self _ _ hgt]
      · intro a ha1 ha2
        rw [h4 a ha1 ha2]
        simp [s2, s1, ha1, ha2]
      · rw [h5]; rfl
    · refine ⟨s, ?_, ?_, ?_, fun _ _ _ => rfl, rfl⟩
      · simp [Unbounded.splitMovePointers, hc, BPNode.m_currentNumberOfNodes, hgt]
      · rw [hc, List.take_of_length_le (by omega)]
      · rw [hn, List.drop_of_length_le (by omega), List.append_nil]

theorem drop_eraseIdx_self {α : Type} (xs : List α) (k : Nat) :
    (xs.eraseIdx k).drop k = xs.drop (k + 1) := by
  induction xs generalizing k with
  | nil => simp
  | cons x xs ih =>
    cases k with
    | zero => simp
    | succ k => simp [ih]

theorem splitMoveKeys_spec (cap l cur new : Nat) (hne : cur ≠ new) :
    ∀ (fuel : Nat) (s : Store) (cn nn : BPNode), s.node cur = some cn → s.node new = some nn →
      cn.m_nodeType = .InnerNodeType →
      cn.m_keys.length ≤ fuel + l →
      nn.m_keys.length + (cn.m_keys.length - l) ≤ cap →
      ∃ s', BPNode.splitMoveKeys cap l cur new fuel s = some s' ∧
        s'.node cur = some { cn with m_keys := cn.m_keys.take l } ∧
        s'.node new = some { nn with m_keys := nn.m_keys ++ cn.m_keys.drop l } ∧
        (∀ a, a ≠ cur → a ≠ new → s'.node a = s.node a) ∧ s'.next = s.next := by
  intro fuel
  induction fuel with
  | zero =>
    intro s cn nn hc hn hty hlen hcap
    have hle : ¬ cn.m_keys.length > l := by omega
    refine ⟨s, ?_, ?_, ?_, fun _ _ _ => rfl, rfl⟩
    · simp [BPNode.splitMoveKeys, hc, BPNode.m_currentNumberOfEntries, hty, hle]
    · rw [hc, List.take_of_length_le (by omega)]
    · rw [hn, List.drop_of_length_le (by omega), List.append_nil]
  | succ fuel ih =>
    intro s cn nn hc hn hty hlen hcap
    by_cases hgt : cn.m_keys.length > l
    · have hp : cn.m_keys[l]? = some (cn.m_keys[l]) := List.getElem?_eq_getElem hgt
      let s1 := s.write new (nn.addKey cap (cn.m_keys[l]))
      let cn1 : BPNode := { cn with m_keys := cn.m_keys.eraseIdx l }
      let s2 := s1.write cur cn1
      have hadd : nn.addKey cap (cn.m_keys[l]) = { nn with m_keys := nn.m_keys ++ [cn.m_keys[l]] } := by
        simp only [BPNode.addKey, show nn.m_keys.length < cap by omega, if_true]
      have hc1 : s1.node cur = some cn := by simp [s1, hne, hc]
      have hc2 : s2.node cur = some cn1 := by simp [s2]
      have hn2 : s2.node new = some (nn.addKey cap (cn.m_keys[l])) := by
        simp [s2, s1, Ne.symm hne]
      have hl1 : cn1.m_keys.length = cn.m_keys.length - 1 := by
        simp only [cn1, List.length_eraseIdx, hgt, if_true]
      obtain ⟨s', h1, h2, h3, h4, h5⟩ := ih s2 cn1 _ hc2 hn2 hty (by omega)
        (by rw [hadd, hl1]; simp only [List.length_append, List.length_singleton]; omega)
      refine ⟨s', ?_, ?_, ?_, ?_, ?_⟩
      · simp only [BPNode.splitMoveKeys, hc, BPNode.m_currentNumberOfEntries, hty, hgt, if_true,
          BPNode.getKey, hp, Store.modify_eq s new _ nn hn]
        have : (s.write new (nn.addKey cap cn.m_keys[l])).node cur = some cn := hc1
        simp only [this, BPNode.removeKey, show cn.m_keys.length > 0 by omega,
          show l < cn.m_keys.length by omega, if_true]
        exact h1
      · rw [h2]
        simp only [cn1, take_eraseIdx_self]
      · rw [h3, hadd]
        simp only [cn1, List.append_assoc, List.singleton_append,
          cons_drop_eraseIdx_self _ _ hgt]
      · intro a ha1 ha2
        rw [h4 a ha1 ha2]
        simp [s2, s1, ha1, ha2]
      · rw [h5]; rfl
    · refine ⟨s, ?_, ?_, ?_, fun _ _ _ => rfl, rfl⟩
      · simp [BPNode.splitMoveKeys, hc, BPNode.m_currentNumberOfEntries, hty, hgt]
      · rw [hc, List.take_of_length_le (by omega)]
      · rw [hn, List.drop_of_length_le (by omega), List.append_nil]

theorem leftSize_eq (cap : Nat) : BPNode.leftSize cap = (cap + 1) / 2 := by
  unfold BPNode.leftSize
  split_ifs with h
  · simp at h; omega
  · simp at h; omega

theorem leftSize_lt (cap : Nat) (h : 2 ≤ cap) : BPNode.leftSize cap < cap := by
  rw [leftSize_eq]; omega

theorem leftSize_pos (cap : Nat) (h : 1 ≤ cap) : 0 < BPNode.leftSize cap := by
  rw [leftSize_eq]; omega

/-- Unbounded child array: effect of the second half of `split` on a full node `cur` with a fresh
sibling `new` and a father `fa` that has room. -/
theorem splitRest_spec (cap : Nat) (hcap : 2 ≤ cap) (s : Store) (cur new fa : Nat)
    (cn nn fn : BPNode) (h1 : cur ≠ new) (h2 : cur ≠ fa) (h3 : new ≠ fa)
    (hc : s.node cur = some cn) (hn : s.node new = some nn) (hf : s.node fa = some fn)
    (hty : cn.m_nodeType = .InnerNodeType) (hK : cn.m_keys.length = cap)
    (hnk : nn.m_keys = []) (hfk : fn.m_keys.length < cap) :
    ∃ s' sk, Unbounded.splitRest cap s cur new fa = some s' ∧
      cn.m_keys[BPNode.leftSize cap]? = some sk ∧
      s'.node cur = some { cn with m_keys := cn.m_keys.take (BPNode.leftSize cap),
                                   m_pointers := cn.m_pointers.take (BPNode.leftSize cap + 1) } ∧
      s'.node new = some { nn with m_fatherNode := some fa,
                                   m_keys := cn.m_keys.drop (BPNode.leftSize cap + 1),
                                   m_pointers := nn.m_pointers ++
                                     cn.m_pointers.drop (BPNode.leftSize cap + 1) } ∧
      s'.node fa = some { fn with m_keys := fn.m_keys ++ [sk],
                                  m_pointers := fn.m_pointers ++ [new] } ∧
      (∀ a, a ≠ cur → a ≠ new → a ≠ fa → s'.node a = s.node a) ∧ s'.next = s.next := by
  have hl := leftSize_lt cap hcap
  unfold Unbounded.splitRest
  generalize BPNode.leftSize cap = l at hl ⊢
  have hlk : l < cn.m_keys.length := by omega
  have hp : cn.m_keys[l]? = some (cn.m_keys[l]) := List.getElem?_eq_getElem hlk
  -- the store after each statement
  let nn1 : BPNode := { nn with m_fatherNode := some fa }
  let sA := s.write new nn1
  let cn1 : BPNode := { cn with m_keys := cn.m_keys.eraseIdx l }
  let sB := sA.write cur cn1
  let fn1 : BPNode := { fn with m_keys := fn.m_keys ++ [cn.m_keys[l]] }
  let sC := sB.write fa fn1
  let fn2 : BPNode := { fn1 with m_pointers := fn.m_pointers ++ [new] }
  let sD := sC.write fa fn2
  have hDc : sD.node cur = some cn1 := by simp [sD, sC, sB, h2]
  have hDn : sD.node new = some nn1 := by simp [sD, sC, sB, sA, h3, Ne.symm h1]
  obtain ⟨sE, e1, e2, e3, e4, e5⟩ := splitMovePointers_spec l cur new h1 cn1.m_pointers.length
    sD cn1 nn1 hDc hDn (by omega)
  have hl1 : cn1.m_keys.length = cap - 1 := by
    show (cn.m_keys.eraseIdx l).length = cap - 1
    rw [List.length_eraseIdx, if_pos hlk, hK]
  obtain ⟨sF, f1, f2, f3, f4, f5⟩ := splitMoveKeys_spec cap l cur new h1 cn1.m_keys.length
    sE _ _ e2 e3 hty (by simp) (by
      show nn.m_keys.length + ((cn.m_keys.eraseIdx l).length - l) ≤ cap
      rw [hnk, List.length_eraseIdx, if_pos hlk, hK]
      simp only [List.length_nil]
      omega)
  refine ⟨sF, cn.m_keys[l], ?_, hp, ?_, ?_, ?_, ?_, ?_⟩
  · have hA : s.modify new (fun n => { n with m_fatherNode := some fa }) = some sA :=
      Store.modify_eq s new _ nn hn
    have hAc : sA.node cur = some cn := by simp [sA, h1, hc]
    have hBf : sB.node fa = some fn := by simp [sB, sA, Ne.symm h2, Ne.symm h3, hf]
    have hC : sB.modify fa (fun n => n.addKey cap cn.m_keys[l]) = some sC := by
      rw [Store.modify_eq sB fa _ fn hBf]
      simp only [BPNode.addKey, hfk, if_true, sC, fn1]
    have hCf : sC.node fa = some fn1 := by simp [sC]
    have hD : sC.modify fa (fun n => Unbounded.addPointer n new) = some sD := by
      rw [Store.modify_eq sC fa _ fn1 hCf]
      rfl
    simp only [hA, Option.bind_eq_bind, Option.some_bind, hAc, BPNode.getKey, hp,
      BPNode.removeKey, show cn.m_keys.length > 0 by omega, hlk, if_true]
    show (sB.modify fa (fun n => n.addKey cap cn.m_keys[l])).bind _ = _
    simp only [hC, Option.some_bind, hD, hDc]
    show (Unbounded.splitMovePointers l cur new cn1.m_pointers.length sD).bind _ = _
    simp only [e1, Option.some_bind, e2]
    have hcnt : ({ cn1 with m_pointers := cn1.m_pointers.take (l + 1) } : BPNode).m_currentNumberOfEntries
        = cn1.m_keys.length := by
      simp only [BPNode.m_currentNumberOfEntries, cn1, hty]
    rw [← hcnt] at f1
    exact f1
  · rw [f2]
    simp only [cn1, take_eraseIdx_self]
  · rw [f3]
    simp only [nn1, cn1, hnk, List.nil_append, drop_eraseIdx_self]
  · rw [f4 fa (Ne.symm h2) (Ne.symm h3), e4 fa (Ne.symm h2) (Ne.symm h3)]
    simp [sD, fn2, fn1]
  · intro a ha1 ha2 ha3
    rw [f4 a ha1 ha2, e4 a ha1 ha2]
    simp [sD, sC, sB, sA, ha1, ha2, ha3]
  · rw [f5, e5]; rfl

theorem Store.WF.lt {s : Store} (h : s.WF) {a : Nat} {nd : BPNode} (ha : s.node a = some nd) :
    a < s.next := by
  by_contra hge
  rw [h a (by omega)] at ha
  cases ha

/-! ### Levels of inner nodes -/

theorem NodeOK.frameNode {cap : Nat} {data : List IndexEntry} {s s' : Store} {N : GNode}
    (h : NodeOK cap data s N) (hs : s'.node N.id = s.node N.id) : NodeOK cap data s' N := by
  obtain ⟨h1, h2, nd, h3, h4⟩ := h
  exact ⟨h1, h2, nd, by rw [hs]; exact h3, h4⟩

theorem FatherIs.frameFather {s s' : Store} {a : Nat} {f : Option Nat}
    (h : FatherIs s a f) (hs : s'.node a = s.node a) : FatherIs s' a f := by
  obtain ⟨nd, h1, h2⟩ := h
  exact ⟨nd, by rw [hs]; exact h1, h2⟩

theorem LevelOK.frameLevel {cap : Nat} {data : List IndexEntry} {s s' : Store} {lp : List (Nat × Nat)}
    {lv : List GNode} (h : LevelOK cap data s lp lv)
    (hs : ∀ N ∈ lv, s'.node N.id = s.node N.id) : LevelOK cap data s' lp lv :=
  ⟨h.1, fun N hN => (h.2 N hN).frameNode (hs N hN)⟩

theorem mem_innerIds {levels : List (List GNode)} {a : Nat} :
    a ∈ innerIds levels ↔ ∃ lv ∈ levels, ∃ N ∈ lv, N.id = a := by
  simp only [innerIds, List.mem_map, List.mem_flatten]
  constructor
  · rintro ⟨N, ⟨lv, h1, h2⟩, h3⟩
    exact ⟨lv, h1, N, h2, h3⟩
  · rintro ⟨lv, h1, N, h2, h3⟩
    exact ⟨N, ⟨lv, h1, h2⟩, h3⟩

theorem innerIds_cons (lv : List GNode) (levels : List (List GNode)) :
    innerIds (lv :: levels) = lv.map GNode.id ++ innerIds levels := by
  simp [innerIds]

/-- `Upper` only reads the nodes of its levels. -/
theorem Upper.frame {cap : Nat} {data : List IndexEntry} {s s' : Store} {root : Nat} :
    ∀ {levels : List (List GNode)} {lp : List (Nat × Nat)},
      Upper cap data s root lp levels →
      (∀ a ∈ innerIds levels, s'.node a = s.node a) → Upper cap data s' root lp levels := by
  intro levels
  induction levels with
  | nil => intro lp h _; exact h.elim
  | cons lv rest ih =>
    intro lp h hs
    cases rest with
    | nil =>
      obtain ⟨h1, N, h2, h3, h4⟩ := h
      refine ⟨h1.frameLevel (fun M hM => hs _ (mem_innerIds.2 ⟨lv, by simp, M, hM, rfl⟩)), N, h2, h3, ?_⟩
      refine h4.frameFather (hs _ (mem_innerIds.2 ⟨lv, by simp, N, by simp [h2], h3⟩))
    | cons lv2 rest =>
      obtain ⟨h1, ⟨i1, N, i2, N2, e1, e2, h3⟩, h4⟩ := h
      refine ⟨h1.frameLevel (fun M hM => hs _ (mem_innerIds.2 ⟨lv, by simp, M, hM, rfl⟩)),
        ⟨i1, N, i2, N2, e1, e2, ?_⟩, ?_⟩
      · exact h3.frameFather (hs _ (mem_innerIds.2 ⟨lv, by simp, N, by simp [e1], rfl⟩))
      · apply ih h4
        intro a ha
        apply hs
        rw [innerIds_cons]
        exact List.mem_append_right _ ha

theorem Upper.levelOK {cap : Nat} {data : List IndexEntry} {s : Store} {root : Nat}
    {lp : List (Nat × Nat)} {lv : List GNode} {rest : List (List GNode)}
    (h : Upper cap data s root lp (lv :: rest)) : LevelOK cap data s lp lv := by
  cases rest with
  | nil => exact h.1
  | cons lv2 rest => exact h.1

theorem proj_append (l1 l2 : List GNode) : GNode.proj (l1 ++ l2) = GNode.proj l1 ++ GNode.proj l2 := by
  simp [GNode.proj]

/-- Appending a child to the last node of the bottom level: the store gets the
child's first key and address appended at that node and is otherwise unchanged
on the inner nodes. -/
theorem Upper.append_kid {cap : Nat} {data : List IndexEntry} {s s' : Store} {root : Nat}
    {lp : List (Nat × Nat)} {init : List GNode} {F : GNode} {rest : List (List GNode)}
    (c : Nat × Nat) (fn : BPNode)
    (h : Upper cap data s root lp ((init ++ [F]) :: rest))
    (hnd : (innerIds ((init ++ [F]) :: rest)).Nodup)
    (hroom : F.kids.length ≤ cap)
    (hfn : s.node F.id = some fn)
    (hfn' : s'.node F.id = some { fn with m_keys := fn.m_keys ++ [dataKey data c.2],
                                          m_pointers := fn.m_pointers ++ [c.1] })
    (hs : ∀ a ∈ innerIds ((init ++ [F]) :: rest), a ≠ F.id → s'.node a = s.node a) :
    Upper cap data s' root (lp ++ [c])
      ((init ++ [{ F with kids := F.kids ++ [c] }]) :: rest) := by
  have hlv := h.levelOK
  -- the new bottom level
  have hF : NodeOK cap data s F := hlv.2 F (by simp)
  have hinit : ∀ N ∈ init, N.id ≠ F.id := by
    intro N hN heq
    rw [innerIds_cons, List.map_append] at hnd
    have h1 := (List.nodup_append.1 hnd).1
    have h2 := (List.nodup_append.1 h1).2.2
    exact h2 (List.mem_map_of_mem _ hN) (by rw [heq]; simp)
  have hlv' : LevelOK cap data s' (lp ++ [c]) (init ++ [{ F with kids := F.kids ++ [c] }]) := by
    constructor
    · rw [← hlv.1]
      simp
    · intro N hN
      rcases List.mem_append.1 hN with hN | hN
      · refine (hlv.2 N (by simp [hN])).frameNode (hs _ ?_ (hinit N hN))
        exact mem_innerIds.2 ⟨init ++ [F], by simp, N, by simp [hN], rfl⟩
      · simp only [List.mem_singleton] at hN
        subst hN
        obtain ⟨⟨c0, r0, e1, e2⟩, _, nd, e3, e4, e5, e6⟩ := hF
        rw [hfn] at e3
        cases e3
        refine ⟨⟨c0, r0 ++ [c], by simp [e1], e2⟩, by simp; omega, _, hfn', e4, ?_, ?_⟩
        · simp [e5, e1]
        · simp [e6]
  have hproj : GNode.proj (init ++ [{ F with kids := F.kids ++ [c] }]) = GNode.proj (init ++ [F]) := by
    simp [GNode.proj]
  cases rest with
  | nil =>
    obtain ⟨_, N, h2, h3, h4⟩ := h
    have hi : init = [] := by
      cases init with
      | nil => rfl
      | cons x xs => simp at h2
    subst hi
    simp only [List.nil_append, List.cons.injEq, and_true] at h2
    subst h2
    refine ⟨hlv', _, rfl, h3, ?_⟩
    obtain ⟨nd, e1, e2⟩ := h4
    rw [← h3, hfn] at e1
    cases e1
    exact ⟨{ fn with m_keys := fn.m_keys ++ [dataKey data c.2],
                     m_pointers := fn.m_pointers ++ [c.1] }, by rw [← h3]; exact hfn', e2⟩
  | cons lv2 rest =>
    obtain ⟨_, ⟨i1, N, i2, N2, e1, e2, h3⟩, h4⟩ := h
    obtain ⟨rfl, hFN⟩ := List.append_inj' e1 rfl
    cases hFN
    refine ⟨hlv', ⟨init, _, i2, N2, rfl, e2, ?_⟩, ?_⟩
    · obtain ⟨nd, g1, g2⟩ := h3
      rw [hfn] at g1
      cases g1
      exact ⟨{ fn with m_keys := fn.m_keys ++ [dataKey data c.2],
                       m_pointers := fn.m_pointers ++ [c.1] }, hfn', g2⟩
    · rw [hproj]
      apply h4.frame
      intro a ha
      apply hs a (by rw [innerIds_cons]; exact List.mem_append_right _ ha)
      intro heq
      rw [innerIds_cons, List.map_append] at hnd
      have := (List.nodup_append.1 hnd).2.2
      exact this (by simp [heq]) ha

theorem NodeOK.keys_length {cap : Nat} {data : List IndexEntry} {s : Store} {N : GNode}
    (h : NodeOK cap data s N) {nd : BPNode} (hnd : s.node N.id = some nd) :
    nd.m_keys.length + 1 = N.kids.length ∧ nd.m_nodeType = .InnerNodeType := by
  obtain ⟨⟨c, r, e1, _⟩, _, nd', e3, e4, e5, _⟩ := h
  rw [hnd] at e3
  cases e3
  rw [e5, e1]
  simp [e4]

/-- Unbounded child array: the second half of `split` in terms of the levels: the last node `X` of a
level is full, `n` is a fresh empty inner node and the last node `F` of the next
level has room.  Afterwards `X` is split into its left part and the node `n`,
which is the new last child of `F`. -/
theorem splitRest_upper (cap : Nat) (hcap : 2 ≤ cap) (data : List IndexEntry) (s : Store)
    (root n : Nat) (lp : List (Nat × Nat)) (init : List GNode) (X : GNode) (i2 : List GNode)
    (F : GNode) (rest : List (List GNode))
    (hlv : LevelOK cap data s lp (init ++ [X]))
    (hup : Upper cap data s root (GNode.proj (init ++ [X])) ((i2 ++ [F]) :: rest))
    (hn : s.node n = some InnerNode.new)
    (hnd : (innerIds ((init ++ [X]) :: (i2 ++ [F]) :: rest)).Nodup)
    (hfresh : n ∉ innerIds ((init ++ [X]) :: (i2 ++ [F]) :: rest))
    (hX : X.kids.length = cap + 1) (hF : F.kids.length ≤ cap) :
    ∃ s', Unbounded.splitRest cap s X.id n F.id = some s' ∧ s'.next = s.next ∧
      Upper cap data s' root lp
        ((init ++ [splitLeft cap X, splitRight cap X n]) ::
          (i2 ++ [{ F with kids := F.kids ++ [(n, (splitRight cap X n).start)] }]) :: rest) ∧
      FatherIs s' n (some F.id) ∧
      (∀ a, a ≠ X.id → a ≠ n → a ≠ F.id → s'.node a = s.node a) := by
  have hl := leftSize_lt cap hcap
  -- the three nodes involved
  have hXok : NodeOK cap data s X := hlv.2 X (by simp)
  have hFok : NodeOK cap data s F := hup.levelOK.2 F (by simp)
  obtain ⟨⟨c0, r0, ek, es⟩, -, cn, ec, ety, ekeys, eptrs⟩ := hXok
  obtain ⟨-, -, fn, ef, -, efk, -⟩ := hFok
  have hr0 : r0.length = cap := by rw [ek] at hX; simpa using hX
  have hXn : X.id ≠ n := by
    intro h; apply hfresh; rw [← h, innerIds_cons]; simp
  have hFn : n ≠ F.id := by
    intro h; apply hfresh; rw [h, innerIds_cons, innerIds_cons]; simp
  have hXF : X.id ≠ F.id := by
    intro h
    rw [innerIds_cons, innerIds_cons] at hnd
    have := (List.nodup_append.1 hnd).2.2
    exact this (a := X.id) (by simp) (by rw [h]; simp)
  have hfk : fn.m_keys.length < cap := by
    rw [efk]; simp only [List.length_map, List.length_tail]; omega
  have hK : cn.m_keys.length = cap := by rw [ekeys, ek]; simpa using hr0
  obtain ⟨s', sk, e1, e2, e3, e4, e5, e6, e7⟩ := splitRest_spec cap hcap s X.id n F.id cn
    InnerNode.new fn hXn hXF hFn ec hn ef ety hK rfl hfk
  -- the promoted key is the first key of the right part
  have hlr : BPNode.leftSize cap < r0.length := by omega
  have hdrop : r0.drop (BPNode.leftSize cap) = r0[BPNode.leftSize cap] ::
      r0.drop (BPNode.leftSize cap + 1) := List.drop_eq_getElem_cons hlr
  have hstart : (splitRight cap X n).start = (r0[BPNode.leftSize cap]).2 := by
    simp [splitRight, ek, List.getElem?_eq_getElem hlr]
  have hsk : sk = dataKey data (splitRight cap X n).start := by
    rw [hstart]
    rw [ekeys, ek] at e2
    simp only [List.tail_cons, List.getElem?_map, List.getElem?_eq_getElem hlr,
      Option.map_some', Option.some.injEq] at e2
    exact e2.symm
  refine ⟨s', e1, e7, ?_, ⟨_, e4, rfl⟩, e6⟩
  have hframe : ∀ a ∈ innerIds ((init ++ [X]) :: (i2 ++ [F]) :: rest),
      a ≠ X.id → a ≠ F.id → s'.node a = s.node a := by
    intro a ha h1 h2
    exact e6 a h1 (fun h => hfresh (h ▸ ha)) h2
  -- the level of `X`
  have hinit : ∀ N ∈ init, N.id ≠ X.id ∧ N.id ≠ F.id := by
    intro N hN
    rw [innerIds_cons, innerIds_cons, List.map_append] at hnd
    have h1 := (List.nodup_append.1 hnd).1
    have h2 := (List.nodup_append.1 h1).2.2
    have h3 := (List.nodup_append.1 hnd).2.2
    constructor
    · intro heq
      exact h2 (List.mem_map_of_mem _ hN) (by rw [heq]; simp)
    · intro heq
      exact h3 (a := N.id) (List.mem_append_left _ (List.mem_map_of_mem _ hN))
        (by rw [heq]; simp)
  have hlv' : LevelOK cap data s' lp (init ++ [splitLeft cap X, splitRight cap X n]) := by
    constructor
    · rw [← hlv.1]
      simp [splitLeft, splitRight]
    · intro N hN
      rcases List.mem_append.1 hN with hN | hN
      · refine (hlv.2 N (by simp [hN])).frameNode (hframe _ ?_ (hinit N hN).1 (hinit N hN).2)
        exact mem_innerIds.2 ⟨init ++ [X], by simp, N, by simp [hN], rfl⟩
      · simp only [List.mem_cons, List.mem_singleton, List.not_mem_nil, or_false] at hN
        rcases hN with rfl | rfl
        · refine ⟨⟨c0, r0.take (BPNode.leftSize cap), by simp [splitLeft, ek], es⟩, ?_, _, e3,
            ety, ?_, ?_⟩
          · simp [splitLeft, ek]; omega
          · simp [splitLeft, ek, ekeys, List.map_take]
          · simp [splitLeft, ek, eptrs, List.map_take]
        · refine ⟨⟨r0[BPNode.leftSize cap], r0.drop (BPNode.leftSize cap + 1), ?_, hstart.symm⟩,
            ?_, _, e4, rfl, ?_, ?_⟩
          · simp only [splitRight, ek, List.drop_succ_cons, hdrop]
          · simp [splitRight, ek]; omega
          · simp only [splitRight, ek, ekeys, List.tail_cons, List.drop_succ_cons, hdrop,
              List.map_drop]
          · simp only [splitRight, ek, eptrs, List.map_cons, List.drop_succ_cons, List.map_drop,
              InnerNode.new, List.nil_append]
  have hproj : GNode.proj (init ++ [splitLeft cap X, splitRight cap X n]) =
      GNode.proj (init ++ [X]) ++ [(n, (splitRight cap X n).start)] := by
    simp [GNode.proj, splitLeft, splitRight]
  refine ⟨hlv', ⟨init ++ [splitLeft cap X], splitRight cap X n, i2, _, by simp, rfl,
    ⟨_, e4, rfl⟩⟩, ?_⟩
  rw [hproj]
  refine Upper.append_kid (n, (splitRight cap X n).start) fn hup ?_ hF ef ?_ ?_
  · rw [innerIds_cons] at hnd
    exact (List.nodup_append.1 hnd).2.1
  · rw [e5, hsk]
  · intro a ha h1
    apply hframe a (by rw [innerIds_cons]; exact List.mem_append_right _ ha) _ h1
    intro heq
    rw [innerIds_cons] at hnd
    have := (List.nodup_append.1 hnd).2.2
    exact this (a := X.id) (by simp) (heq ▸ ha)

theorem Upper.node_some {cap : Nat} {data : List IndexEntry} {s : Store} {root : Nat} :
    ∀ {levels : List (List GNode)} {lp : List (Nat × Nat)},
      Upper cap data s root lp levels → ∀ a ∈ innerIds levels, ∃ nd, s.node a = some nd := by
  intro levels
  induction levels with
  | nil => intro lp h; exact h.elim
  | cons lv rest ih =>
    intro lp h a ha
    rw [innerIds_cons] at ha
    rcases List.mem_append.1 ha with ha | ha
    · obtain ⟨N, hN, rfl⟩ := List.mem_map.1 ha
      obtain ⟨_, _, nd, hnd, _⟩ := h.levelOK.2 N hN
      exact ⟨nd, hnd⟩
    · cases rest with
      | nil => simp [innerIds] at ha
      | cons lv2 rest => exact ih h.2.2 a ha

theorem Upper.id_lt {cap : Nat} {data : List IndexEntry} {s : Store} {root : Nat}
    {levels : List (List GNode)} {lp : List (Nat × Nat)}
    (h : Upper cap data s root lp levels) (hwf : s.WF) {a : Nat} (ha : a ∈ innerIds levels) :
    a < s.next := by
  obtain ⟨nd, hnd⟩ := h.node_some a ha
  exact hwf.lt hnd

theorem splitNewRoot_spec (s : Store) (cur : Nat) (cn : BPNode) (hc : s.node cur = some cn)
    (hne : cur ≠ s.next) :
    ∃ s', Unbounded.splitNewRoot s cur = some (s', s.next) ∧ s'.next = s.next + 1 ∧
      s'.node s.next = some { InnerNode.new with m_pointers := [cur] } ∧
      s'.node cur = some { cn with m_fatherNode := some s.next } ∧
      (∀ a, a ≠ cur → a ≠ s.next → s'.node a = s.node a) := by
  let sB := (s.alloc InnerNode.new).1
  let rt : BPNode := { InnerNode.new with m_pointers := [cur] }
  let sC := sB.write s.next rt
  let sD := sC.write cur { cn with m_fatherNode := some s.next }
  have hB : sB.node s.next = some InnerNode.new := by simp [sB]
  have hC : sC.node cur = some cn := by simp [sC, sB, hne, hc]
  refine ⟨sD, ?_, rfl, ?_, ?_, ?_⟩
  · simp only [Unbounded.splitNewRoot, Option.bind_eq_bind]
    show (sB.modify s.next _).bind _ = _
    rw [Store.modify_eq sB _ _ _ hB]
    show (sC.modify cur _).bind _ = _
    rw [Store.modify_eq sC _ _ _ hC]
    rfl
  · simp [sD, sC, Ne.symm hne, rt]
  · simp [sD]
  · intro a h1 h2
    simp [sD, sC, sB, h1, h2]

theorem innerIds_setKids (init : List GNode) (F : GNode) (ks : List (Nat × Nat))
    (rest : List (List GNode)) :
    innerIds ((init ++ [{ F with kids := ks }]) :: rest) = innerIds ((init ++ [F]) :: rest) := by
  simp [innerIds]

theorem innerIds_split (cap : Nat) (init : List GNode) (X : GNode) (n : Nat)
    (rest : List (List GNode)) :
    innerIds ((init ++ [splitLeft cap X, splitRight cap X n]) :: rest) =
      init.map GNode.id ++ [X.id, n] ++ innerIds rest := by
  simp [innerIds, splitLeft, splitRight]

theorem innerIds_level (init : List GNode) (X : GNode) (rest : List (List GNode)) :
    innerIds ((init ++ [X]) :: rest) = init.map GNode.id ++ [X.id] ++ innerIds rest := by
  simp [innerIds]

theorem nodup_insert_mid (A U : List Nat) (x n : Nat) (h : (A ++ [x] ++ U).Nodup)
    (hn : n ∉ A ++ [x] ++ U) : (A ++ [x, n] ++ U).Nodup := by
  have hp : (A ++ [x, n] ++ U).Perm (n :: (A ++ [x] ++ U)) := by
    have : A ++ [x, n] ++ U = (A ++ [x]) ++ n :: U := by simp
    rw [this]
    exact List.perm_middle
  rw [hp.nodup_iff]
  exact List.nodup_cons.2 ⟨hn, h⟩

/-- Unbounded child array: `splitRest_upper` together with the bookkeeping of addresses. -/
theorem split_finish (cap : Nat) (hcap : 2 ≤ cap) (data : List IndexEntry) (s : Store)
    (root n : Nat) (lp : List (Nat × Nat)) (init : List GNode) (X : GNode) (i2 : List GNode)
    (F : GNode) (rest : List (List GNode)) (hwf : s.WF)
    (hlv : LevelOK cap data s lp (init ++ [X]))
    (hup : Upper cap data s root (GNode.proj (init ++ [X])) ((i2 ++ [F]) :: rest))
    (hn : s.node n = some InnerNode.new)
    (hnd : (innerIds ((init ++ [X]) :: (i2 ++ [F]) :: rest)).Nodup)
    (hfresh : n ∉ innerIds ((init ++ [X]) :: (i2 ++ [F]) :: rest))
    (hX : X.kids.length = cap + 1) (hF : F.kids.length ≤ cap) :
    ∃ s' F', Unbounded.splitRest cap s X.id n F.id = some s' ∧ s'.next = s.next ∧ s'.WF ∧
      F'.id = F.id ∧
      Upper cap data s' root lp
        ((init ++ [splitLeft cap X, splitRight cap X n]) :: (i2 ++ [F']) :: rest) ∧
      (innerIds ((init ++ [splitLeft cap X, splitRight cap X n]) :: (i2 ++ [F']) :: rest)).Nodup ∧
      innerIds ((init ++ [splitLeft cap X, splitRight cap X n]) :: (i2 ++ [F']) :: rest) =
        init.map GNode.id ++ [X.id, n] ++ innerIds ((i2 ++ [F]) :: rest) ∧
      (∀ a, a ≠ X.id → a ≠ n → a ≠ F.id → s'.node a = s.node a) := by
  obtain ⟨s', e1, e2, e3, e4, e5⟩ :=
    splitRest_upper cap hcap data s root n lp init X i2 F rest hlv hup hn hnd hfresh hX hF
  have hids : innerIds ((init ++ [splitLeft cap X, splitRight cap X n]) ::
      (i2 ++ [{ F with kids := F.kids ++ [(n, (splitRight cap X n).start)] }]) :: rest) =
        init.map GNode.id ++ [X.id, n] ++ innerIds ((i2 ++ [F]) :: rest) := by
    rw [innerIds_split, innerIds_setKids]
  refine ⟨s', { F with kids := F.kids ++ [(n, (splitRight cap X n).start)] }, e1, e2, ?_, rfl,
    e3, ?_, hids, e5⟩
  · intro a ha
    have hXlt : X.id < s.next := hwf.lt (hlv.2 X (by simp)).2.2.choose_spec.1
    have hnlt : n < s.next := hwf.lt hn
    have hFlt : F.id < s.next := hwf.lt (hup.levelOK.2 F (by simp)).2.2.choose_spec.1
    rw [e2] at ha
    rw [e5 a (by omega) (by omega) (by omega)]
    exact hwf a ha
  · rw [hids]
    rw [innerIds_level] at hnd hfresh
    exact nodup_insert_mid _ _ _ _ hnd hfresh

/-- Unbounded child array: split in terms of the levels: `split` called on the full last node `X` of
the bottom level returns, splits `X` into its left part and a new node at the
address `s.next`, and leaves a well-formed tower of levels, possibly one level
higher.  Nodes outside the levels are not touched.  The levels after the split
list every inner address listed before and every address allocated by the split. -/
theorem split_upper_cover (cap : Nat) (hcap : 2 ≤ cap) (data : List IndexEntry) :
    ∀ (above : List (List GNode)) (fuel : Nat) (s : Store) (root : Nat) (lp : List (Nat × Nat))
      (init : List GNode) (X : GNode),
      s.WF → Upper cap data s root lp ((init ++ [X]) :: above) →
      (innerIds ((init ++ [X]) :: above)).Nodup →
      X.kids.length = cap + 1 → above.length < fuel →
      ∃ s' root' above',
        Unbounded.split cap fuel s root X.id = some (s', root', s.next) ∧ s'.WF ∧
        s.next < s'.next ∧
        Upper cap data s' root' lp
          ((init ++ [splitLeft cap X, splitRight cap X s.next]) :: above') ∧
        (innerIds ((init ++ [splitLeft cap X, splitRight cap X s.next]) :: above')).Nodup ∧
        (∀ a ∈ innerIds ((init ++ [splitLeft cap X, splitRight cap X s.next]) :: above'),
          a ∈ innerIds ((init ++ [X]) :: above) ∨ s.next ≤ a) ∧
        (∀ a, a ∉ innerIds ((init ++ [X]) :: above) → a < s.next → s'.node a = s.node a) ∧
        above'.length ≤ above.length + 1 ∧ above' ≠ [] ∧
        (∀ a, a ∈ innerIds ((init ++ [X]) :: above) ∨ (s.next ≤ a ∧ a < s'.next) →
          a ∈ innerIds ((init ++ [splitLeft cap X, splitRight cap X s.next]) :: above')) := by
  intro above
  induction above with
  | nil =>
    intro fuel s root lp init X hwf hup hnd hX hfuel
    obtain ⟨f, rfl⟩ : ∃ f, fuel = f + 1 := ⟨fuel - 1, by simp at hfuel; omega⟩
    obtain ⟨hlv, N, hN, hroot, nd0, hnd0, hfa⟩ := hup
    have hinit : init = [] := by
      cases init with
      | nil => rfl
      | cons x xs => simp at hN
    subst hinit
    simp only [List.nil_append, List.cons.injEq, and_true] at hN
    subst hN
    subst hroot
    obtain ⟨⟨c0, r0, ek, es⟩, hlen, cn, ec, ety, ekeys, eptrs⟩ := hlv.2 X (by simp)
    have hfa : cn.m_fatherNode = none := by
      rw [ec] at hnd0; cases hnd0; exact hfa
    have hXlt : X.id < s.next := hwf.lt ec
    -- allocation of the new node and of the new root
    have hcA : (s.alloc InnerNode.new).1.node X.id = some cn := by
      simp [Nat.ne_of_lt hXlt, ec]
    obtain ⟨sD, d1, d2, d3, d4, d5⟩ := splitNewRoot_spec (s.alloc InnerNode.new).1 X.id cn hcA
      (by simp; omega)
    simp only [Store.alloc_next] at d1 d2 d3 d4 d5
    have hDwf : sD.WF := by
      intro a ha
      rw [d2] at ha
      rw [d5 a (by omega) (by omega)]
      simp only [Store.alloc_node, show a ≠ s.next by omega, if_false]
      exact hwf a (by omega)
    have hDn : sD.node s.next = some InnerNode.new := by
      rw [d5 _ (by omega) (by omega)]; simp
    have hlvD : LevelOK cap data sD lp ([] ++ [X]) :=
      ⟨hlv.1, fun N hN => by
        simp only [List.nil_append, List.mem_singleton] at hN
        subst hN
        exact ⟨⟨c0, r0, ek, es⟩, hlen, _, d4, ety, ekeys, eptrs⟩⟩
    have hupD : Upper cap data sD (s.next + 1) (GNode.proj ([] ++ [X]))
        (([] ++ [⟨s.next + 1, X.start, [(X.id, X.start)]⟩]) :: []) := by
      refine ⟨⟨by simp [GNode.proj], ?_⟩, _, rfl, rfl, ⟨_, d3, rfl⟩⟩
      intro N hN
      simp only [List.nil_append, List.mem_singleton] at hN
      subst hN
      exact ⟨⟨_, _, rfl, rfl⟩, by simp, _, d3, rfl, by simp [InnerNode.new], by simp⟩
    obtain ⟨s', F', g1, g2, g3, g4, g5, g6, g7, g8⟩ := split_finish cap hcap data sD (s.next + 1)
      s.next lp [] X [] ⟨s.next + 1, X.start, [(X.id, X.start)]⟩ [] hDwf hlvD hupD hDn
      (by simp [innerIds]; omega) (by simp [innerIds]; omega) hX (by simp; omega)
    simp only [List.nil_append] at g5 g6 g7
    refine ⟨s', s.next + 1, [[F']], ?_, g3, by rw [g2, d2]; omega, g5, g6, ?_, ?_, by simp,
      by simp, ?_⟩
    · simp only [Unbounded.split, Store.alloc_addr]
      rw [hcA]
      simp only [hfa, d1, d3]
      have hnf : BPNode.isFull cap { InnerNode.new with m_pointers := [X.id] } = false := by
        simp [BPNode.isFull, BPNode.m_currentNumberOfEntries, InnerNode.new]; omega
      simp only [hnf, Bool.false_eq_true, if_false, g1]
    · intro a ha
      simp only [List.nil_append] at ha ⊢
      rw [g7] at ha
      simp only [List.map_nil, List.nil_append, innerIds, List.flatten_cons, List.flatten_nil,
        List.append_nil, List.map_cons, List.mem_cons, List.mem_append, List.mem_singleton,
        List.not_mem_nil, or_false] at ha ⊢
      rcases ha with (h | h) | h
      · left; exact h
      · right; omega
      · right; omega
    · intro a ha hlt
      have hne : a ≠ X.id := by
        intro h; apply ha; rw [h]; simp [innerIds]
      rw [g8 a hne (by omega) (by show a ≠ s.next + 1; omega), d5 a hne (by omega)]
      simp [Nat.ne_of_lt hlt]
    · intro a ha
      simp only [List.nil_append]
      rw [g7]
      simp only [List.map_nil, List.nil_append, innerIds, List.flatten_cons, List.flatten_nil,
        List.append_nil, List.map_cons, List.mem_cons, List.mem_append, List.mem_singleton,
        List.not_mem_nil, or_false] at ha ⊢
      rcases ha with h | ⟨h1, h2⟩
      · left; left; exact h
      · rw [g2, d2] at h2
        rcases Nat.eq_or_lt_of_le h1 with h | h
        · left; right; exact h.symm
        · right; omega
  | cons lv2 rest ih =>
    intro fuel s root lp init X hwf hup hnd hX hfuel
    obtain ⟨f, rfl⟩ : ∃ f, fuel = f + 1 := ⟨fuel - 1, by simp at hfuel; omega⟩
    obtain ⟨hlv, ⟨i1, N, i2, F, hlvN, hlv2, hfa⟩, hup2⟩ := hup
    obtain ⟨rfl, hXN⟩ := List.append_inj' hlvN rfl
    cases hXN
    subst hlv2
    obtain ⟨⟨c0, r0, ek, es⟩, hlen, cn, ec, ety, ekeys, eptrs⟩ := hlv.2 X (by simp)
    obtain ⟨nd0, hnd0, hfa⟩ := hfa
    have hfa : cn.m_fatherNode = some F.id := by
      rw [ec] at hnd0; cases hnd0; exact hfa
    have hFok : NodeOK cap data s F := hup2.levelOK.2 F (by simp)
    obtain ⟨hFk, hFlen, fn, ef, efty, efk, efp⟩ := hFok
    have hXlt : X.id < s.next := hwf.lt ec
    have hFlt : F.id < s.next := hwf.lt ef
    have hcA : (s.alloc InnerNode.new).1.node X.id = some cn := by
      simp [Nat.ne_of_lt hXlt, ec]
    have hfA : (s.alloc InnerNode.new).1.node F.id = some fn := by
      simp [Nat.ne_of_lt hFlt, ef]
    have hAwf : (s.alloc InnerNode.new).1.WF := by
      intro a ha
      simp only [Store.alloc_next] at ha
      simp only [Store.alloc_node, show a ≠ s.next by omega, if_false]
      exact hwf a (by omega)
    have hAframe : ∀ a, a < s.next → (s.alloc InnerNode.new).1.node a = s.node a := by
      intro a ha
      simp [Nat.ne_of_lt ha]
    have hidlt : ∀ a ∈ innerIds ((init ++ [X]) :: (i2 ++ [F]) :: rest), a < s.next := by
      intro a ha
      rw [innerIds_cons] at ha
      rcases List.mem_append.1 ha with ha | ha
      · obtain ⟨N, hN, rfl⟩ := List.mem_map.1 ha
        exact hwf.lt (hlv.2 N hN).2.2.choose_spec.1
      · exact hup2.id_lt hwf ha
    have hlvA : LevelOK cap data (s.alloc InnerNode.new).1 lp (init ++ [X]) :=
      hlv.frameLevel (fun N hN => hAframe _ (hidlt _ (mem_innerIds.2 ⟨_, by simp, N, hN, rfl⟩)))
    have hupA : Upper cap data (s.alloc InnerNode.new).1 root (GNode.proj (init ++ [X]))
        ((i2 ++ [F]) :: rest) :=
      hup2.frame (fun a ha => hAframe a (hidlt a (by
        rw [innerIds_cons]; exact List.mem_append_right _ ha)))
    have hAn : (s.alloc InnerNode.new).1.node s.next = some InnerNode.new := by simp
    have hnd2 : (innerIds ((i2 ++ [F]) :: rest)).Nodup := by
      rw [innerIds_cons] at hnd
      exact (List.nodup_append.1 hnd).2.1
    have hdisj : ∀ a ∈ (init ++ [X]).map GNode.id, a ∉ innerIds ((i2 ++ [F]) :: rest) := by
      intro a ha hb
      rw [innerIds_cons] at hnd
      exact (List.nodup_append.1 hnd).2.2 ha hb
    by_cases hfull : F.kids.length = cap + 1
    · -- the father is full: it is split first
      obtain ⟨s1, root1, rest1, r1, r2, r3, r4, r5, r6, r7, r8, r9, r10⟩ :=
        ih f (s.alloc InnerNode.new).1 root (GNode.proj (init ++ [X])) i2 F hAwf hupA hnd2 hfull
          (by simp at hfuel; omega)
      simp only [Store.alloc_next] at r1 r3 r4 r5 r6 r7 r10
      have hlv1 : LevelOK cap data s1 lp (init ++ [X]) := by
        refine hlvA.frameLevel (fun N hN => ?_)
        have hN' : N.id ∈ (init ++ [X]).map GNode.id := List.mem_map_of_mem _ hN
        exact r7 _ (hdisj _ hN') (by
          have := hidlt N.id (by rw [innerIds_cons]; exact List.mem_append_left _ hN')
          omega)
      have h1n : s1.node s.next = some InnerNode.new := by
        rw [r7 _ (fun h => by have := hidlt _ (by
          rw [innerIds_cons]; exact List.mem_append_right _ h); omega) (by omega)]
        simp
      have hnew : ∀ a ∈ innerIds ((init ++ [X]) ::
          (i2 ++ [splitLeft cap F] ++ [splitRight cap F (s.next + 1)]) :: rest1),
          (a ∈ innerIds ((init ++ [X]) :: (i2 ++ [F]) :: rest)) ∨ s.next + 1 ≤ a := by
        intro a ha
        rw [innerIds_cons] at ha ⊢
        rcases List.mem_append.1 ha with ha | ha
        · left; exact List.mem_append_left _ ha
        · rw [List.append_assoc] at ha
          rcases r6 a ha with h | h
          · left; exact List.mem_append_right _ h
          · right; exact h
      have hnd1 : (innerIds ((init ++ [X]) ::
          (i2 ++ [splitLeft cap F] ++ [splitRight cap F (s.next + 1)]) :: rest1)).Nodup := by
        rw [innerIds_cons]
        refine List.nodup_append.2 ⟨?_, ?_, ?_⟩
        · rw [innerIds_cons] at hnd
          exact (List.nodup_append.1 hnd).1
        · rw [List.append_assoc]; exact r5
        · intro a ha hb
          rw [List.append_assoc] at hb
          rcases r6 a hb with h | h
          · exact hdisj a ha h
          · have := hidlt a (by rw [innerIds_cons]; exact List.mem_append_left _ ha)
            omega
      have hfresh1 : s.next ∉ innerIds ((init ++ [X]) ::
          (i2 ++ [splitLeft cap F] ++ [splitRight cap F (s.next + 1)]) :: rest1) := by
        intro h
        rcases hnew _ h with h | h
        · have := hidlt _ h; omega
        · omega
      have hF2 : (splitRight cap F (s.next + 1)).kids.length ≤ cap := by
        simp [splitRight, hfull]
      have hup1 : Upper cap data s1 root1 (GNode.proj (init ++ [X]))
          ((i2 ++ [splitLeft cap F] ++ [splitRight cap F (s.next + 1)]) :: rest1) := by
        rw [List.append_assoc]; exact r4
      obtain ⟨s', F', g1, g2, g3, g4, g5, g6, g7, g8⟩ := split_finish cap hcap data s1 root1
        s.next lp init X (i2 ++ [splitLeft cap F]) (splitRight cap F (s.next + 1)) rest1 r2 hlv1
        hup1 h1n hnd1 hfresh1 hX hF2
      refine ⟨s', root1, (i2 ++ [splitLeft cap F] ++ [F']) :: rest1, ?_, g3,
        by rw [g2]; omega, g5, g6, ?_, ?_, by simp; omega, by simp, ?_⟩
      · simp only [Unbounded.split, Store.alloc_addr]
        rw [hcA]
        simp only [hfa, hfA]
        have hisfull : fn.isFull cap = true := by
          simp only [BPNode.isFull, BPNode.m_currentNumberOfEntries, efty, efk, List.length_map,
            List.length_tail, hfull, beq_iff_eq]
          omega
        simp only [hisfull, if_true, r1]
        have : (splitRight cap F (s.next + 1)).id = s.next + 1 := rfl
        rw [this] at g1
        simp only [g1]
      · intro a ha
        rw [g7] at ha
        rcases List.mem_append.1 ha with ha | ha
        · rcases List.mem_append.1 ha with ha | ha
          · left; rw [innerIds_level]; simp only [List.mem_append]; left; left; exact ha
          · simp only [List.mem_cons, List.mem_singleton, List.not_mem_nil, or_false] at ha
            rcases ha with rfl | rfl
            · left; rw [innerIds_level]; simp
            · right; exact le_rfl
        · rw [List.append_assoc] at ha
          rcases r6 a ha with h | h
          · left; rw [innerIds_cons]; exact List.mem_append_right _ h
          · right; omega
      · intro a ha hlt
        have hne : a ≠ X.id := by
          intro h; apply ha; rw [h, innerIds_level]; simp
        rw [g8 a hne (by omega) (by show a ≠ s.next + 1; omega)]
        rw [r7 a (fun h => ha (by rw [innerIds_cons]; exact List.mem_append_right _ h)) (by omega)]
        exact hAframe a hlt
      · intro a ha
        rw [g7, List.append_assoc i2]
        have hup : a ∈ innerIds ((i2 ++ [F]) :: rest) ∨ (s.next + 1 ≤ a ∧ a < s1.next) →
            a ∈ init.map GNode.id ++ [X.id, s.next] ++
              innerIds ((i2 ++ [splitLeft cap F, splitRight cap F (s.next + 1)]) :: rest1) :=
          fun h => List.mem_append_right _ (r10 a h)
        rcases ha with h | ⟨h1, h2⟩
        · rw [innerIds_cons] at h
          rcases List.mem_append.1 h with h | h
          · simp only [List.map_append, List.map_cons, List.map_nil, List.mem_append,
              List.mem_singleton] at h
            simp only [List.mem_append, List.mem_cons]
            rcases h with h | h
            · left; left; exact h
            · left; right; left; exact h
          · exact hup (Or.inl h)
        · rw [g2] at h2
          rcases Nat.eq_or_lt_of_le h1 with h | h
          · simp only [List.mem_append, List.mem_cons]
            left; right; right; left; exact h.symm
          · exact hup (Or.inr ⟨by omega, h2⟩)
    · -- the father has room
      have hroom : F.kids.length ≤ cap := by omega
      have hfreshA : s.next ∉ innerIds ((init ++ [X]) :: (i2 ++ [F]) :: rest) := by
        intro h; have := hidlt _ h; omega
      obtain ⟨s', F', g1, g2, g3, g4, g5, g6, g7, g8⟩ := split_finish cap hcap data
        (s.alloc InnerNode.new).1 root s.next lp init X i2 F rest hAwf hlvA hupA hAn hnd hfreshA
        hX hroom
      refine ⟨s', root, (i2 ++ [F']) :: rest, ?_, g3, by rw [g2]; simp, g5, g6, ?_, ?_,
        by simp, by simp, ?_⟩
      · simp only [Unbounded.split, Store.alloc_addr]
        rw [hcA]
        simp only [hfa, hfA]
        have hisfull : fn.isFull cap = false := by
          simp only [BPNode.isFull, BPNode.m_currentNumberOfEntries, efty, efk, List.length_map,
            List.length_tail, beq_eq_false_iff_ne, ne_eq]
          obtain ⟨c, r, e, _⟩ := hFk
          rw [e] at hfull ⊢
          simp at hfull ⊢
          omega
        simp only [hisfull, Bool.false_eq_true, if_false, g1]
      · intro a ha
        rw [g7] at ha
        rcases List.mem_append.1 ha with ha | ha
        · rcases List.mem_append.1 ha with ha | ha
          · left; rw [innerIds_level]; simp only [List.mem_append]; left; left; exact ha
          · simp only [List.mem_cons, List.mem_singleton, List.not_mem_nil, or_false] at ha
            rcases ha with rfl | rfl
            · left; rw [innerIds_level]; simp
            · right; exact le_rfl
        · left; rw [innerIds_cons]; exact List.mem_append_right _ ha
      · intro a ha hlt
        have hne : a ≠ X.id := by
          intro h; apply ha; rw [h, innerIds_level]; simp
        have hneF : a ≠ F.id := by
          intro h; apply ha; rw [h, innerIds_cons, innerIds_level]; simp
        rw [g8 a hne (by omega) hneF]
        exact hAframe a hlt
      · intro a ha
        rw [g7]
        rcases ha with h | ⟨h1, h2⟩
        · rw [innerIds_cons] at h
          rcases List.mem_append.1 h with h | h
          · simp only [List.map_append, List.map_cons, List.map_nil, List.mem_append,
              List.mem_singleton] at h
            simp only [List.mem_append, List.mem_cons]
            rcases h with h | h
            · left; left; exact h
            · left; right; left; exact h
          · exact List.mem_append_right _ h
        · rw [g2] at h2
          simp only [Store.alloc_next] at h2
          simp only [List.mem_append, List.mem_cons]
          left; right; right; left; omega

/-- Unbounded child array: split in terms of the levels: `split` called on the full last node `X` of
the bottom level returns, splits `X` into its left part and a new node at the
address `s.next`, and leaves a well-formed tower of levels, possibly one level
higher.  Nodes outside the levels are not touched. -/
theorem split_upper (cap : Nat) (hcap : 2 ≤ cap) (data : List IndexEntry) :
    ∀ (above : List (List GNode)) (fuel : Nat) (s : Store) (root : Nat) (lp : List (Nat × Nat))
      (init : List GNode) (X : GNode),
      s.WF → Upper cap data s root lp ((init ++ [X]) :: above) →
      (innerIds ((init ++ [X]) :: above)).Nodup →
      X.kids.length = cap + 1 → above.length < fuel →
      ∃ s' root' above',
        Unbounded.split cap fuel s root X.id = some (s', root', s.next) ∧ s'.WF ∧
        s.next < s'.next ∧
        Upper cap data s' root' lp
          ((init ++ [splitLeft cap X, splitRight cap X s.next]) :: above') ∧
        (innerIds ((init ++ [splitLeft cap X, splitRight cap X s.next]) :: above')).Nodup ∧
        (∀ a ∈ innerIds ((init ++ [splitLeft cap X, splitRight cap X s.next]) :: above'),
          a ∈ innerIds ((init ++ [X]) :: above) ∨ s.next ≤ a) ∧
        (∀ a, a ∉ innerIds ((init ++ [X]) :: above) → a < s.next → s'.node a = s.node a) ∧
        above'.length ≤ above.length + 1 ∧ above' ≠ [] := by
  intro above fuel s root lp init X hwf hup hnd hX hfuel
  obtain ⟨s', root', above', h1, h2, h3, h4, h5, h6, h7, h8, h9, _⟩ :=
    split_upper_cover cap hcap data above fuel s root lp init X hwf hup hnd hX hfuel
  exact ⟨s', root', above', h1, h2, h3, h4, h5, h6, h7, h8, h9⟩

/-! ### The leaf chain -/

theorem SameLeaf.refl (nd : BPNode) : SameLeaf nd nd := ⟨rfl, rfl, rfl, rfl, rfl, rfl⟩

theorem LeafOK.congrLeaf {s s' : Store} {prev next : Option Nat} {l : GLeaf}
    (h : LeafOK s prev l next)
    (hs : ∀ nd, s.node l.id = some nd → ∃ nd', s'.node l.id = some nd' ∧ SameLeaf nd nd') :
    LeafOK s' prev l next := by
  obtain ⟨nd, h1, h2, h3, h4, h5, h6, h7⟩ := h
  obtain ⟨nd', g1, g2, g3, g4, g5, g6, g7⟩ := hs nd h1
  exact ⟨nd', g1, by rw [g2, h2], by rw [g3, h3], by rw [g4, h4], by rw [g5, h5], by rw [g6, h6],
    by rw [g7, h7]⟩

theorem ChainOK.congr {s s' : Store} {chain : List GLeaf} {i : Nat} (h : ChainOK s chain i)
    (hs : ∀ l ∈ chain, ∀ nd, s.node l.id = some nd →
      ∃ nd', s'.node l.id = some nd' ∧ SameLeaf nd nd') : ChainOK s' chain i := by
  intro k l hk
  obtain ⟨h1, h2⟩ := h k l hk
  exact ⟨h1.congrLeaf (hs l (List.mem_iff_getElem?.2 ⟨k, hk⟩)), h2⟩

theorem ChainOK.frameChain {s s' : Store} {chain : List GLeaf} {i : Nat} (h : ChainOK s chain i)
    (hs : ∀ l ∈ chain, s'.node l.id = s.node l.id) : ChainOK s' chain i :=
  h.congr (fun l hl nd hnd => ⟨nd, by rw [hs l hl]; exact hnd, SameLeaf.refl nd⟩)

theorem ChainOK.leaf {s : Store} {chain : List GLeaf} {i : Nat} (h : ChainOK s chain i)
    {l : GLeaf} (hl : l ∈ chain) :
    ∃ nd, s.node l.id = some nd ∧ nd.m_nodeType = .LeafNodeType ∧
      nd.m_currentOffset = l.start ∧ nd.m_slots + l.start = l.stop ∧
      nd.m_isOverflowNode = l.ov := by
  obtain ⟨k, hk⟩ := List.mem_iff_getElem?.1 hl
  obtain ⟨⟨nd, h1, h2, h3, h4, _, _, h7⟩, _⟩ := h k l hk
  exact ⟨nd, h1, h2, h3, h4, h7⟩

/-- The last leaf of the chain ends at the current input position and has no
successor. -/
theorem ChainOK.last {s : Store} {pre : List GLeaf} {a : GLeaf} {i : Nat}
    (h : ChainOK s (pre ++ [a]) i) :
    a.stop = i ∧ ∃ nd, s.node a.id = some nd ∧ nd.m_nodeType = .LeafNodeType ∧
      nd.m_currentOffset = a.start ∧ nd.m_slots + a.start = a.stop ∧ nd.m_next = none ∧
      nd.m_isOverflowNode = a.ov := by
  have hk : (pre ++ [a])[pre.length]? = some a := List.getElem?_concat_length pre a
  have hn : (pre ++ [a])[pre.length + 1]? = none :=
    List.getElem?_eq_none (by simp)
  obtain ⟨⟨nd, h1, h2, h3, h4, _, h6, h7⟩, _, _, h9⟩ := h _ _ hk
  rw [hn] at h6
  exact ⟨h9 hn, nd, h1, h2, h3, h4, h6, h7⟩

theorem getElem?_snoc2_le {α : Type} (pre : List α) (a b : α) (j : Nat) (hj : j ≤ pre.length) :
    (pre ++ [a, b])[j]? = (pre ++ [a])[j]? := by
  have e : pre ++ [a, b] = (pre ++ [a]) ++ [b] := by simp
  rw [e, List.getElem?_append_left (by simp; omega)]

/-- Linking a new, empty leaf behind the last leaf of the chain. -/
theorem ChainOK.snocLeaf {s s' : Store} {pre : List GLeaf} {a : GLeaf} {i : Nat} (b : Nat) (o : Bool)
    (h : ChainOK s (pre ++ [a]) i) (hne : a.start < a.stop)
    (hpre : ∀ l ∈ pre, ∀ nd, s.node l.id = some nd →
      ∃ nd', s'.node l.id = some nd' ∧ SameLeaf nd nd')
    (ha : ∀ nd, s.node a.id = some nd → ∃ nd', s'.node a.id = some nd' ∧
      nd'.m_nodeType = nd.m_nodeType ∧ nd'.m_currentOffset = nd.m_currentOffset ∧
      nd'.m_slots = nd.m_slots ∧ nd'.m_previous = nd.m_previous ∧ nd'.m_next = some b ∧
      nd'.m_isOverflowNode = nd.m_isOverflowNode)
    (hb : ∃ nb, s'.node b = some nb ∧ nb.m_nodeType = .LeafNodeType ∧ nb.m_currentOffset = i ∧
      nb.m_slots = 0 ∧ nb.m_previous = some a.id ∧ nb.m_next = none ∧ nb.m_isOverflowNode = o) :
    ChainOK s' (pre ++ [a, ⟨b, i, i, o⟩]) i := by
  have hstop := h.last.1
  intro k l hk
  rcases Nat.lt_trichotomy k pre.length with hlt | heq | hgt
  · -- an old leaf before the last one
    have hk' : (pre ++ [a])[k]? = some l := by
      rw [← getElem?_snoc2_le pre a ⟨b, i, i, o⟩ k (by omega)]; exact hk
    have hl : l ∈ pre := by
      rw [List.getElem?_append_left hlt] at hk'
      exact List.mem_iff_getElem?.2 ⟨k, hk'⟩
    obtain ⟨h1, h2, h3, h4⟩ := h k l hk'
    rw [getElem?_snoc2_le pre a _ (k + 1) (by omega),
      getElem?_snoc2_le pre a _ (k - 1) (by omega)]
    refine ⟨h1.congrLeaf (hpre l hl), h2, h3, ?_⟩
    intro hnone
    exfalso
    have := List.getElem?_eq_none_iff.1 hnone
    simp at this
    omega
  · -- the old last leaf
    subst heq
    have hk' : (pre ++ [a])[pre.length]? = some l := by
      rw [← getElem?_snoc2_le pre a ⟨b, i, i, o⟩ _ le_rfl]; exact hk
    have hla : l = a := by
      rw [List.getElem?_concat_length] at hk'
      exact (Option.some.inj hk').symm
    subst hla
    obtain ⟨⟨nd, h1, h2, h3, h4, h5, h6, h7⟩, h8, _, _⟩ := h _ _ hk'
    obtain ⟨nd', g1, g2, g3, g4, g5, g6, g7⟩ := ha nd h1
    have hnext : (pre ++ [l, ⟨b, i, i, o⟩])[pre.length + 1]? = some ⟨b, i, i, o⟩ := by
      have e : pre ++ [l, ⟨b, i, i, o⟩] = (pre ++ [l]) ++ [⟨b, i, i, o⟩] := by simp
      rw [e]
      have := List.getElem?_concat_length (pre ++ [l]) (⟨b, i, i, o⟩ : GLeaf)
      simpa using this
    rw [getElem?_snoc2_le pre l _ (pre.length - 1) (by omega), hnext]
    refine ⟨⟨nd', g1, by rw [g2, h2], by rw [g3, h3], by rw [g4, h4], by rw [g5, h5], by
      rw [g6]; rfl, by rw [g7, h7]⟩, h8, ?_, by simp⟩
    intro l' hl'
    cases hl'
    exact ⟨hstop.symm, hne⟩
  · -- the new leaf
    have e : pre ++ [a, ⟨b, i, i, o⟩] = (pre ++ [a]) ++ [⟨b, i, i, o⟩] := by simp
    have hk2 : k = pre.length + 1 := by
      have := (List.getElem?_eq_some_iff.1 hk).1
      simp at this
      omega
    subst hk2
    have hlb : l = ⟨b, i, i, o⟩ := by
      rw [e] at hk
      have := List.getElem?_concat_length (pre ++ [a]) (⟨b, i, i, o⟩ : GLeaf)
      simp only [List.length_append, List.length_singleton] at this
      rw [this] at hk
      exact (Option.some.inj hk).symm
    subst hlb
    have hprev : (pre ++ [a, ⟨b, i, i, o⟩])[pre.length + 1 - 1]? = some a := by
      rw [Nat.add_sub_cancel, getElem?_snoc2_le pre a _ _ le_rfl, List.getElem?_concat_length]
    have hnn : (pre ++ [a, ⟨b, i, i, o⟩])[pre.length + 1 + 1]? = none :=
      List.getElem?_eq_none (by simp)
    obtain ⟨nb, b1, b2, b3, b4, b5, b6, b7⟩ := hb
    rw [hprev, hnn]
    refine ⟨⟨nb, b1, b2, b3, by simp [b4], by simp [b5], by simp [b6], b7⟩, by omega, ?_, ?_⟩
    · intro l' hl'; cases hl'
    · intro _; rfl

/-- Filling one more slot of the last leaf of the chain. -/
theorem ChainOK.grow {s s' : Store} {pre : List GLeaf} {a : GLeaf} {i : Nat}
    (h : ChainOK s (pre ++ [a]) i)
    (hpre : ∀ l ∈ pre, ∀ nd, s.node l.id = some nd →
      ∃ nd', s'.node l.id = some nd' ∧ SameLeaf nd nd')
    (ha : ∀ nd, s.node a.id = some nd → ∃ nd', s'.node a.id = some nd' ∧
      nd'.m_nodeType = nd.m_nodeType ∧ nd'.m_currentOffset = nd.m_currentOffset ∧
      nd'.m_slots = nd.m_slots + 1 ∧ nd'.m_previous = nd.m_previous ∧ nd'.m_next = nd.m_next ∧
      nd'.m_isOverflowNode = nd.m_isOverflowNode) :
    ChainOK s' (pre ++ [(⟨a.id, a.start, i + 1, a.ov⟩ : GLeaf)]) (i + 1) := by
  have hstop := h.last.1
  have hget : ∀ j : Nat, ((pre ++ [(⟨a.id, a.start, i + 1, a.ov⟩ : GLeaf)])[j]?).map GLeaf.id =
      ((pre ++ [a])[j]?).map GLeaf.id := by
    intro j
    simp only [List.getElem?_append]
    split
    · rfl
    · rcases Nat.lt_or_ge (j - pre.length) 1 with h1 | h1
      · have : j - pre.length = 0 := by omega
        simp [this]
      · rw [List.getElem?_eq_none (by simpa using h1), List.getElem?_eq_none (by simpa using h1)]
  have hlast : ∀ j : Nat, pre.length ≤ j → (pre ++ [(⟨a.id, a.start, i + 1, a.ov⟩ : GLeaf)])[j + 1]? = none := by
    intro j hj; exact List.getElem?_eq_none (by simp; omega)
  intro k l hk
  rcases Nat.lt_or_ge k pre.length with hlt | hge
  · have hk' : (pre ++ [a])[k]? = some l := by
      rw [List.getElem?_append_left hlt] at hk ⊢; exact hk
    have hl : l ∈ pre := by
      rw [List.getElem?_append_left hlt] at hk'
      exact List.mem_iff_getElem?.2 ⟨k, hk'⟩
    obtain ⟨h1, h2, h3, h4⟩ := h k l hk'
    rw [hget, hget]
    refine ⟨h1.congrLeaf (hpre l hl), h2, ?_, ?_⟩
    · intro l' hl'
      rcases Nat.lt_or_ge (k + 1) pre.length with h5 | h5
      · exact h3 l' (by rw [List.getElem?_append_left h5] at hl' ⊢; exact hl')
      · have hk1 : k + 1 = pre.length := by omega
        rw [hk1, List.getElem?_concat_length] at hl'
        cases hl'
        exact h3 a (by rw [hk1, List.getElem?_concat_length])
    · intro hnone
      exfalso
      have := List.getElem?_eq_none_iff.1 hnone
      simp at this
      omega
  · have hk2 : k = pre.length := by
      have := (List.getElem?_eq_some_iff.1 hk).1
      simp at this
      omega
    subst hk2
    rw [List.getElem?_concat_length] at hk
    cases hk
    obtain ⟨⟨nd, h1, h2, h3, h4, h5, h6, h7⟩, h8, _, _⟩ := h _ _ (List.getElem?_concat_length pre a)
    obtain ⟨nd', g1, g2, g3, g4, g5, g6, g7⟩ := ha nd h1
    rw [hget, hget]
    refine ⟨⟨nd', g1, by rw [g2, h2], by rw [g3, h3], ?_, by rw [g5, h5], by rw [g6, h6],
      by rw [g7, h7]⟩, h8, ?_, fun _ => rfl⟩
    · show nd'.m_slots + a.start = i + 1
      rw [g4]; omega
    · intro l' hl'
      rw [hlast pre.length le_rfl] at hl'
      cases hl'

/-! ### Steps of the bulk build -/

theorem Store.modify_spec (s : Store) (a : Nat) (f : BPNode → BPNode) (nd : BPNode)
    (h : s.node a = some nd) :
    ∃ s', s.modify a f = some s' ∧ s'.node a = some (f nd) ∧
      (∀ b, b ≠ a → s'.node b = s.node b) ∧ s'.next = s.next :=
  ⟨s.write a (f nd), Store.modify_eq s a f nd h, by simp, fun b hb => by simp [hb], rfl⟩

theorem Store.WF.write {s : Store} (h : s.WF) {a : Nat} {nd0 : BPNode} (ha : s.node a = some nd0)
    {s' : Store} (hn : s'.next = s.next) (hs : ∀ b, b ≠ a → s'.node b = s.node b) : s'.WF := by
  intro b hb
  rw [hn] at hb
  have := h.lt ha
  rw [hs b (by omega)]
  exact h b hb

theorem Store.WF.alloc {s : Store} (h : s.WF) (nd : BPNode) : (s.alloc nd).1.WF := by
  intro a ha
  simp only [Store.alloc_next] at ha
  simp only [Store.alloc_node, show a ≠ s.next by omega, if_false]
  exact h a (by omega)

/-- An inner node of the levels is not a leaf. -/
theorem Upper.inner_type {cap : Nat} {data : List IndexEntry} {s : Store} {root : Nat} :
    ∀ {levels : List (List GNode)} {lp : List (Nat × Nat)},
      Upper cap data s root lp levels → ∀ a ∈ innerIds levels,
        ∃ nd, s.node a = some nd ∧ nd.m_nodeType = .InnerNodeType := by
  intro levels
  induction levels with
  | nil => intro lp h; exact h.elim
  | cons lv rest ih =>
    intro lp h a ha
    rw [innerIds_cons] at ha
    rcases List.mem_append.1 ha with ha | ha
    · obtain ⟨N, hN, rfl⟩ := List.mem_map.1 ha
      obtain ⟨_, _, nd, hnd, hty, _⟩ := h.levelOK.2 N hN
      exact ⟨nd, hnd, hty⟩
    · cases rest with
      | nil => simp [innerIds] at ha
      | cons lv2 rest => exact ih h.2.2 a ha

theorem Core.leaf_not_inner {cap : Nat} {data : List IndexEntry} {t : BulkBPTree} {i : Nat}
    {chain : List GLeaf} {levels : List (List GNode)} (h : Core cap data t i chain levels)
    {l : GLeaf} (hl : l ∈ chain) : l.id ∉ innerIds levels := by
  intro hin
  obtain ⟨nd, h1, h2⟩ := h.upper.inner_type _ hin
  obtain ⟨nd', g1, g2, _⟩ := h.chainOK.leaf hl
  rw [h1] at g1
  cases g1
  rw [h2] at g2
  cases g2

theorem leafProj_append (c1 c2 : List GLeaf) :
    leafProj (c1 ++ c2) = leafProj c1 ++ leafProj c2 := by
  simp [leafProj]

theorem leafProj_grow (pre : List GLeaf) (a : GLeaf) (j : Nat) :
    leafProj (pre ++ [(⟨a.id, a.start, j, a.ov⟩ : GLeaf)]) = leafProj (pre ++ [a]) := by
  simp only [leafProj_append]
  congr 1
  simp only [leafProj, List.filter_cons, List.filter_nil]
  split <;> rfl

/-- The insertion `addKey; addRowId; ++i` into the last leaf of the chain. -/
theorem insert_spec (cap : Nat) (data : List IndexEntry) (t : BulkBPTree) (i : Nat)
    (pre : List GLeaf) (a : GLeaf) (levels : List (List GNode))
    (h : Core cap data t i (pre ++ [a]) levels) (hroom : a.stop < a.start + cap)
    (hdup : a.ov = true → 0 < i ∧ dataKey data i = dataKey data (i - 1)) :
    ∃ t1 t2, LeafNode.addKey cap t a.id (dataKey data i) = some t1 ∧
      LeafNode.addRowId t1 a.id i = some t2 ∧
      Core cap data t2 (i + 1) (pre ++ [(⟨a.id, a.start, i + 1, a.ov⟩ : GLeaf)]) levels ∧
      t2.m_root = t.m_root ∧ t2.m_currentLeaf = t.m_currentLeaf ∧
      t2.store.next = t.store.next ∧
      (∀ x, x ≠ a.id → t2.store.node x = t.store.node x) ∧
      (∀ f, FatherIs t.store a.id f → FatherIs t2.store a.id f) := by
  obtain ⟨hstop, nd, n1, n2, n3, n4, n5, n6⟩ := h.chainOK.last
  have hslots : nd.m_slots < cap := by omega
  have hidx : nd.m_currentOffset + nd.m_slots = i := by omega
  -- the tree after `addKey`
  let t1 : BulkBPTree := { t with
    entries := fun j =>
      if j = nd.m_currentOffset + nd.m_slots then { t.entries j with m_key := dataKey data i }
      else t.entries j
    store := t.store.write a.id { nd with m_slots := nd.m_slots + 1 } }
  have e1 : LeafNode.addKey cap t a.id (dataKey data i) = some t1 := by
    simp only [LeafNode.addKey, n1, BPNode.m_currentNumberOfEntries, n2, hslots, if_true, t1]
  have hn1 : t1.store.node a.id = some { nd with m_slots := nd.m_slots + 1 } := by simp [t1]
  let t2 : BulkBPTree := { t1 with
    entries := fun j =>
      if j = nd.m_currentOffset + (nd.m_slots + 1) - 1 then { t1.entries j with m_rowId := (i : Int) }
      else t1.entries j }
  have e2 : LeafNode.addRowId t1 a.id i = some t2 := by
    unfold LeafNode.addRowId
    rw [hn1]
    simp [t2]
  have hframe : ∀ x, x ≠ a.id → t2.store.node x = t.store.node x := by
    intro x hx; simp [t2, t1, hx]
  refine ⟨t1, t2, e1, e2, ?_, rfl, rfl, rfl, hframe, ?_⟩
  · have hainner : a.id ∉ innerIds levels := h.leaf_not_inner (by simp)
    refine
      { wf := h.wf.write n1 rfl hframe
        upper := ?_
        innerNodup := h.innerNodup
        chainOK := ?_
        chainNodup := by simpa using h.chainNodup
        entries := ?_
        fresh := ?_
        dup := ?_
        capb := ?_
        size := by simpa using h.size }
    · rw [leafProj_grow]
      exact h.upper.frame (fun x hx => hframe x (fun hxa => hainner (hxa ▸ hx)))
    · refine h.chainOK.grow ?_ ?_
      · intro l hl nd0 hnd0
        refine ⟨nd0, ?_, SameLeaf.refl nd0⟩
        rw [hframe _ ?_]; exact hnd0
        intro heq
        have := h.chainNodup
        rw [List.map_append, List.nodup_append] at this
        exact this.2.2 (List.mem_map_of_mem _ hl) (by rw [heq]; simp)
      · intro nd0 hnd0
        rw [n1] at hnd0
        cases hnd0
        exact ⟨_, hn1, rfl, rfl, rfl, rfl, rfl, rfl⟩
    · intro j hj
      show (if j = nd.m_currentOffset + (nd.m_slots + 1) - 1 then _ else _) = _
      rcases Nat.lt_or_ge j i with hlt | hge
      · have hne : j ≠ nd.m_currentOffset + (nd.m_slots + 1) - 1 := by omega
        have hne' : j ≠ nd.m_currentOffset + nd.m_slots := by omega
        simp only [hne, if_false, t1, hne']
        exact h.entries j hlt
      · have hji : j = i := by omega
        subst hji
        have he : j = nd.m_currentOffset + (nd.m_slots + 1) - 1 := by omega
        have he' : j = nd.m_currentOffset + nd.m_slots := by omega
        simp only [← he, if_true, t1, ← he']
    · intro l hl hov
      rcases List.mem_append.1 hl with hl | hl
      · exact h.fresh l (by simp [hl]) hov
      · simp only [List.mem_singleton] at hl
        subst hl
        exact h.fresh a (by simp) hov
    · intro l hl hov j hj1 hj2
      rcases List.mem_append.1 hl with hl | hl
      · exact h.dup l (by simp [hl]) hov j hj1 hj2
      · simp only [List.mem_singleton] at hl
        subst hl
        rcases Nat.lt_or_ge j i with hlt | hge
        · exact h.dup a (by simp) hov j hj1 (by omega)
        · have hji : j = i := by simp at hj2; omega
          subst hji
          exact hdup hov
    · intro l hl
      rcases List.mem_append.1 hl with hl | hl
      · exact h.capb l (by simp [hl])
      · simp only [List.mem_singleton] at hl
        subst hl
        show i + 1 ≤ a.start + cap
        omega
  · rintro f ⟨nd0, g1, g2⟩
    rw [n1] at g1
    cases g1
    exact ⟨{ nd with m_slots := nd.m_slots + 1 }, hn1, g2⟩

theorem Core.leaf_lt {cap : Nat} {data : List IndexEntry} {t : BulkBPTree} {i : Nat}
    {chain : List GLeaf} {levels : List (List GNode)} (h : Core cap data t i chain levels)
    {l : GLeaf} (hl : l ∈ chain) : l.id < t.store.next := by
  obtain ⟨nd, h1, _⟩ := h.chainOK.leaf hl
  exact h.wf.lt h1

theorem splitRight_kids_length (cap : Nat) (F : GNode) (n : Nat)
    (h : F.kids.length = cap + 1) : (splitRight cap F n).kids.length ≤ cap := by
  simp [splitRight, h]

/-- Unbounded child array: the statement that splits the father of the current leaf when it is full,
run right after the allocation of the new leaf at address `n`.  This version also
carries the coverage invariant `Ext` and covers the case in which no split can
occur. -/
theorem splitFather_cover (cap : Nat) (data : List IndexEntry) (t0 : BulkBPTree)
    (i : Nat) (chain : List GLeaf) (levels : List (List GNode)) (ovs : List GLeaf)
    (hcap : 2 ≤ cap ∨ NoSplit cap data levels)
    (h : Core cap data t0 i chain levels) (hcur : Cursor t0 chain levels ovs) :
    ∃ t1 levels1,
      Unbounded.splitFather cap
        { t0 with store := (t0.store.alloc (LeafNode.new i false)).1 } = some t1 ∧
      Core cap data t1 i chain levels1 ∧
      t1.m_currentLeaf = t0.m_currentLeaf ∧
      t1.store.node t0.store.next = some (LeafNode.new i false) ∧
      levels1.length + chain.length + 1 ≤ t1.store.next ∧
      (∃ init F above, levels1 = (init ++ [F]) :: above ∧
        FatherIs t1.store t0.m_currentLeaf (some F.id) ∧ F.kids.length ≤ cap) ∧
      ((∀ init F above, levels = (init ++ [F]) :: above → F.kids.length ≤ cap) →
        levels1 = levels) ∧
      (Ext cap t0 chain levels none → Ext cap t1 chain levels1 (some t0.store.next)) := by
  obtain ⟨⟨cpre, c, hchain, hcov, hcid, hovs⟩, init, F, above, hlevels, cl, hcl, hclf⟩ := hcur
  subst hlevels
  have hcmem : c ∈ chain := by rw [hchain]; simp
  have hFok : NodeOK cap data t0.store F := h.upper.levelOK.2 F (by simp)
  obtain ⟨hFk, hFlen, fn, ef, efty, efk, efp⟩ := hFok
  have hn : t0.store.next = t0.store.next := rfl
  have hcurlt : t0.m_currentLeaf < t0.store.next := h.wf.lt hcl
  have hFlt : F.id < t0.store.next := h.wf.lt ef
  have hAwf := h.wf.alloc (LeafNode.new i false)
  have hAframe : ∀ a, a < t0.store.next →
      (t0.store.alloc (LeafNode.new i false)).1.node a = t0.store.node a := by
    intro a ha; simp [Nat.ne_of_lt ha]
  have hAn : (t0.store.alloc (LeafNode.new i false)).1.node t0.store.next =
      some (LeafNode.new i false) := by simp
  have hidlt : ∀ a ∈ innerIds ((init ++ [F]) :: above), a < t0.store.next :=
    fun a ha => h.upper.id_lt h.wf ha
  have hupA : Upper cap data (t0.store.alloc (LeafNode.new i false)).1 t0.m_root (leafProj chain)
      ((init ++ [F]) :: above) :=
    h.upper.frame (fun a ha => hAframe a (hidlt a ha))
  have hchA : ChainOK (t0.store.alloc (LeafNode.new i false)).1 chain i :=
    h.chainOK.frameChain (fun l hl => hAframe _ (h.leaf_lt hl))
  by_cases hfull : F.kids.length = cap + 1
  · -- the father is full
    have hcap : 2 ≤ cap := by
      rcases hcap with hc | hc
      · exact hc
      · have := hc.1 init F above rfl
        omega
    obtain ⟨s1, root1, above1, r1, r2, r3, r4, r5, r6, r7, r8, r9, r10⟩ :=
      split_upper_cover cap hcap data above (t0.store.next + 1)
        (t0.store.alloc (LeafNode.new i false)).1 t0.m_root (leafProj chain) init F hAwf hupA
        h.innerNodup hfull (by have := h.size; simp at this; omega)
    simp only [Store.alloc_next] at r1 r3 r4 r5 r6 r7 r10
    have hleaf1 : ∀ l ∈ chain, s1.node l.id = t0.store.node l.id := by
      intro l hl
      rw [r7 _ (h.leaf_not_inner hl) (by have := h.leaf_lt hl; omega)]
      exact hAframe _ (h.leaf_lt hl)
    have hcl1 : s1.node t0.m_currentLeaf = some cl := by
      rw [← hcid, hleaf1 c hcmem, hcid]; exact hcl
    obtain ⟨s2, m1, m2, m3, m4⟩ := Store.modify_spec s1 t0.m_currentLeaf
      (fun n => { n with m_fatherNode := some (t0.store.next + 1) }) cl hcl1
    have hcurNotInner : ∀ a ∈ innerIds ((init ++ [splitLeft cap F,
        splitRight cap F (t0.store.next + 1)]) :: above1), a ≠ t0.m_currentLeaf := by
      intro a ha heq
      rcases r6 a ha with h1 | h1
      · rw [heq, ← hcid] at h1
        exact h.leaf_not_inner hcmem h1
      · omega
    have hwf2 : s2.WF := r2.write hcl1 m4 m3
    refine ⟨{ t0 with store := s2, m_root := root1 },
      (init ++ [splitLeft cap F, splitRight cap F (t0.store.next + 1)]) :: above1, ?_, ?_, rfl,
      ?_, ?_,
      ⟨init ++ [splitLeft cap F], splitRight cap F (t0.store.next + 1), above1, by simp,
        ⟨_, m2, rfl⟩, splitRight_kids_length cap F _ hfull⟩, ?_, ?_⟩
    · have hcA := hAframe _ hcurlt
      have hfA := hAframe _ hFlt
      have hisfull : fn.isFull cap = true := by
        simp only [BPNode.isFull, BPNode.m_currentNumberOfEntries, efty, efk, List.length_map,
          List.length_tail, hfull, beq_iff_eq]
        omega
      simp only [Unbounded.splitFather, Option.bind_eq_bind, hcA, hcl, Option.some_bind, hclf,
        hfA, ef, hisfull, if_true, Store.alloc_next, r1, m1]
    · refine
        { wf := r2.write hcl1 m4 m3
          upper := r4.frame (fun a ha => m3 a (hcurNotInner a ha))
          innerNodup := r5
          chainOK := ?_
          chainNodup := h.chainNodup
          entries := h.entries
          fresh := h.fresh
          dup := h.dup
          capb := h.capb
          size := ?_ }
      · refine h.chainOK.congr ?_
        intro l hl nd hnd
        by_cases hlc : l.id = t0.m_currentLeaf
        · rw [hlc] at hnd ⊢
          rw [hcl] at hnd
          cases hnd
          exact ⟨_, m2, rfl, rfl, rfl, rfl, rfl, rfl⟩
        · exact ⟨nd, by rw [m3 _ hlc, hleaf1 l hl]; exact hnd, SameLeaf.refl nd⟩
      · show ((init ++ [splitLeft cap F, splitRight cap F (t0.store.next + 1)]) :: above1).length
          + chain.length ≤ s2.next
        have := h.size
        simp only [List.length_cons] at this ⊢
        rw [m4]
        omega
    · show s2.node t0.store.next = some (LeafNode.new i false)
      rw [m3 _ (by omega), r7 _ (fun hin => by have := hidlt _ hin; omega) (by omega)]
      exact hAn
    · show ((init ++ [splitLeft cap F, splitRight cap F (t0.store.next + 1)]) :: above1).length
        + chain.length + 1 ≤ s2.next
      have := h.size
      simp only [List.length_cons] at this ⊢
      rw [m4]
      omega
    · intro hns
      have := hns init F above rfl
      omega
    · intro hE
      refine ⟨?_, ?_, hE.full⟩
      · intro a nd hnd
        have halt : a < s1.next := by
          have := hwf2.lt hnd
          rw [m4] at this
          exact this
        by_cases hin : a ∈ innerIds ((init ++ [F]) :: above)
        · exact Or.inl (r10 a (Or.inl hin))
        · rcases Nat.lt_trichotomy a t0.store.next with hlt | heq | hgt
          · right; left
            by_cases hac : a = t0.m_currentLeaf
            · rw [hac, ← hcid]
              exact List.mem_map_of_mem _ hcmem
            · have e1 : s2.node a = t0.store.node a := by
                rw [m3 _ hac, r7 _ hin (by omega)]
                exact hAframe _ hlt
              rw [e1] at hnd
              rcases hE.cover a nd hnd with h1 | h1 | h1
              · exact (hin h1).elim
              · exact h1
              · cases h1
          · right; right; rw [heq]
          · exact Or.inl (r10 a (Or.inr ⟨by omega, halt⟩))
      · intro l hl hov
        have hlc : l.id ≠ t0.m_currentLeaf := by
          intro heq
          have : l = c := List.inj_on_of_nodup_map h.chainNodup hl hcmem (heq.trans hcid.symm)
          rw [this, hcov] at hov
          cases hov
        obtain ⟨nd, g1, g2⟩ := hE.ovFather l hl hov
        exact ⟨nd, by rw [m3 _ hlc, hleaf1 l hl]; exact g1, g2⟩
  · -- the father has room
    have hroom : F.kids.length ≤ cap := by
      rcases hcap with hc | hc
      · omega
      · exact hc.1 init F above rfl
    refine ⟨{ t0 with store := (t0.store.alloc (LeafNode.new i false)).1 },
      (init ++ [F]) :: above, ?_, ?_, rfl, hAn,
      ?_, ⟨init, F, above, rfl, ⟨cl, by rw [hAframe _ hcurlt]; exact hcl, hclf⟩, hroom⟩,
      fun _ => rfl, ?_⟩
    · have hcA := hAframe _ hcurlt
      have hfA := hAframe _ hFlt
      have hisfull : fn.isFull cap = false := by
        simp only [BPNode.isFull, BPNode.m_currentNumberOfEntries, efty, efk, List.length_map,
          List.length_tail, beq_eq_false_iff_ne, ne_eq]
        obtain ⟨c, r, e, _⟩ := hFk
        rw [e] at hfull ⊢
        simp at hfull ⊢
        omega
      simp only [Unbounded.splitFather, Option.bind_eq_bind, hcA, hcl, Option.some_bind, hclf,
        hfA, ef, hisfull, Bool.false_eq_true, if_false]
    · exact
        { wf := hAwf
          upper := hupA
          innerNodup := h.innerNodup
          chainOK := hchA
          chainNodup := h.chainNodup
          entries := h.entries
          fresh := h.fresh
          dup := h.dup
          capb := h.capb
          size := by have := h.size; simp only [Store.alloc_next]; omega }
    · have := h.size
      simp only [Store.alloc_next]
      omega
    · intro hE
      refine ⟨?_, ?_, hE.full⟩
      · intro a nd hnd
        by_cases ha : a = t0.store.next
        · right; right; rw [ha]
        · simp only [Store.alloc_node, ha, if_false] at hnd
          rcases hE.cover a nd hnd with h1 | h1 | h1
          · exact Or.inl h1
          · exact Or.inr (Or.inl h1)
          · cases h1
      · intro l hl hov
        obtain ⟨nd, g1, g2⟩ := hE.ovFather l hl hov
        exact ⟨nd, by rw [hAframe _ (h.leaf_lt hl)]; exact g1, g2⟩

/-- Unbounded child array: the statement that splits the father of the current leaf when it is full,
run right after the allocation of the new leaf at address `n`. -/
theorem splitFather_spec (cap : Nat) (hcap : 2 ≤ cap) (data : List IndexEntry) (t0 : BulkBPTree)
    (i : Nat) (chain : List GLeaf) (levels : List (List GNode)) (ovs : List GLeaf)
    (h : Core cap data t0 i chain levels) (hcur : Cursor t0 chain levels ovs) :
    ∃ t1 levels1,
      Unbounded.splitFather cap
        { t0 with store := (t0.store.alloc (LeafNode.new i false)).1 } = some t1 ∧
      Core cap data t1 i chain levels1 ∧
      t1.m_currentLeaf = t0.m_currentLeaf ∧
      t1.store.node t0.store.next = some (LeafNode.new i false) ∧
      levels1.length + chain.length + 1 ≤ t1.store.next ∧
      ∃ init F above, levels1 = (init ++ [F]) :: above ∧
        FatherIs t1.store t0.m_currentLeaf (some F.id) ∧ F.kids.length ≤ cap := by
  obtain ⟨t1, levels1, h1, h2, h3, h4, h5, h6, _⟩ :=
    splitFather_cover cap data t0 i chain levels ovs (Or.inl hcap) h hcur
  exact ⟨t1, levels1, h1, h2, h3, h4, h5, h6⟩

/-- The invariant after a new, empty leaf has been linked behind the last leaf
of the chain. -/
theorem Core.snoc {cap : Nat} {data : List IndexEntry} {t t' : BulkBPTree} {i : Nat}
    {pre : List GLeaf} {a : GLeaf} {levels levels' : List (List GNode)} (n : Nat) (o : Bool)
    (h : Core cap data t i (pre ++ [a]) levels) (hne : a.start < a.stop)
    (hent : t'.entries = t.entries) (hwf : t'.store.WF)
    (hupper : Upper cap data t'.store t'.m_root (leafProj (pre ++ [a, ⟨n, i, i, o⟩])) levels')
    (hnodup : (innerIds levels').Nodup)
    (hpre : ∀ l ∈ pre, t'.store.node l.id = t.store.node l.id)
    (ha : ∀ nd, t.store.node a.id = some nd → ∃ nd', t'.store.node a.id = some nd' ∧
      nd'.m_nodeType = nd.m_nodeType ∧ nd'.m_currentOffset = nd.m_currentOffset ∧
      nd'.m_slots = nd.m_slots ∧ nd'.m_previous = nd.m_previous ∧ nd'.m_next = some n ∧
      nd'.m_isOverflowNode = nd.m_isOverflowNode)
    (hb : ∃ nb, t'.store.node n = some nb ∧ nb.m_nodeType = .LeafNodeType ∧
      nb.m_currentOffset = i ∧ nb.m_slots = 0 ∧ nb.m_previous = some a.id ∧ nb.m_next = none ∧
      nb.m_isOverflowNode = o)
    (hn2 : n ∉ (pre ++ [a]).map GLeaf.id)
    (hfresh : o = false → i = 0 ∨ dataKey data i ≠ dataKey data (i - 1))
    (hsize : levels'.length + (pre ++ [a]).length + 1 ≤ t'.store.next) :
    Core cap data t' i (pre ++ [a, ⟨n, i, i, o⟩]) levels' := by
  have hmem : ∀ l, l ∈ pre ++ [a, (⟨n, i, i, o⟩ : GLeaf)] ↔ l ∈ pre ++ [a] ∨ l = ⟨n, i, i, o⟩ := by
    intro l; simp [or_assoc]
  refine
    { wf := hwf
      upper := hupper
      innerNodup := hnodup
      chainOK := ?_
      chainNodup := ?_
      entries := by rw [hent]; exact h.entries
      fresh := ?_
      dup := ?_
      capb := ?_
      size := by simp at hsize ⊢; omega }
  · exact h.chainOK.snocLeaf n o hne
      (fun l hl nd hnd => ⟨nd, by rw [hpre l hl]; exact hnd, SameLeaf.refl nd⟩) ha hb
  · have e : pre ++ [a, (⟨n, i, i, o⟩ : GLeaf)] = (pre ++ [a]) ++ [⟨n, i, i, o⟩] := by simp
    rw [e, List.map_append, List.nodup_append]
    refine ⟨h.chainNodup, by simp, ?_⟩
    intro x hx hx'
    simp only [List.map_cons, List.map_nil, List.mem_singleton] at hx'
    exact hn2 (hx' ▸ hx)
  · intro l hl hov
    rcases (hmem l).1 hl with hl | hl
    · exact h.fresh l hl hov
    · subst hl; exact hfresh hov
  · intro l hl hov j hj1 hj2
    rcases (hmem l).1 hl with hl | hl
    · exact h.dup l hl hov j hj1 hj2
    · subst hl
      simp only at hj1 hj2
      omega
  · intro l hl
    rcases (hmem l).1 hl with hl | hl
    · exact h.capb l hl
    · subst hl
      show i ≤ i + cap
      omega

theorem leafProj_snoc_ov (chain : List GLeaf) (n i j : Nat) :
    leafProj (chain ++ [(⟨n, i, j, true⟩ : GLeaf)]) = leafProj chain := by
  simp [leafProj]

theorem leafProj_snoc_indexed (chain : List GLeaf) (n i j : Nat) :
    leafProj (chain ++ [(⟨n, i, j, false⟩ : GLeaf)]) = leafProj chain ++ [(n, i)] := by
  simp [leafProj]

/-- Filling a slot of the last leaf keeps the additional facts. -/
theorem Ext.insert {cap : Nat} {t t2 : BulkBPTree} {pre : List GLeaf} {a : GLeaf} {j : Nat}
    {levels : List (List GNode)} {pend : Option Nat}
    (hE : Ext cap t (pre ++ [a]) levels pend)
    (hframe : ∀ x, x ≠ a.id → t2.store.node x = t.store.node x)
    (hfa : ∀ f, FatherIs t.store a.id f → FatherIs t2.store a.id f) :
    Ext cap t2 (pre ++ [(⟨a.id, a.start, j, a.ov⟩ : GLeaf)]) levels pend := by
  refine ⟨?_, ?_, ?_⟩
  · intro x nd hnd
    by_cases hx : x = a.id
    · right; left; rw [hx]; simp
    · rw [hframe x hx] at hnd
      rcases hE.cover x nd hnd with h1 | h1 | h1
      · exact Or.inl h1
      · right; left
        simpa using h1
      · exact Or.inr (Or.inr h1)
  · intro l hl hov
    have hold : ∃ l0 ∈ pre ++ [a], l0.id = l.id ∧ l0.ov = true := by
      simp only [List.mem_append, List.mem_singleton] at hl
      rcases hl with hl | hl
      · exact ⟨l, by simp [hl], rfl, hov⟩
      · refine ⟨a, by simp, by rw [hl], ?_⟩
        rw [hl] at hov; exact hov
    obtain ⟨l0, hl0, hid, hov0⟩ := hold
    have hf := hE.ovFather l0 hl0 hov0
    rw [hid] at hf
    by_cases hx : l.id = a.id
    · rw [hx] at hf ⊢
      exact hfa _ hf
    · obtain ⟨nd, g1, g2⟩ := hf
      exact ⟨nd, by rw [hframe _ hx]; exact g1, g2⟩
  · intro k l l' hk hk1 hov
    have hlen : k + 1 < (pre ++ [(⟨a.id, a.start, j, a.ov⟩ : GLeaf)]).length := by
      by_contra hcon
      rw [List.getElem?_eq_none (by omega)] at hk1
      cases hk1
    simp only [List.length_append, List.length_singleton] at hlen
    rw [List.getElem?_append_left (by omega)] at hk
    have hk' : (pre ++ [a])[k]? = some l := by
      rw [List.getElem?_append_left (by omega)]; exact hk
    rcases Nat.lt_or_ge (k + 1) pre.length with h1 | h1
    · rw [List.getElem?_append_left h1] at hk1
      exact hE.full k l l' hk' (by rw [List.getElem?_append_left h1]; exact hk1) hov
    · have e : k + 1 = pre.length := by omega
      rw [List.getElem?_append_right (by omega), e] at hk1
      simp only [Nat.sub_self, List.getElem?_cons_zero, Option.some.injEq] at hk1
      refine hE.full k l a hk' ?_ ?_
      · rw [List.getElem?_append_right (by omega), e]
        simp
      · rw [← hk1] at hov; exact hov

/-- Unbounded child array: the branch that links the new leaf at address `n` as
an indexed leaf.  The leaf `a` is the last leaf of the chain: the current leaf
or, after an overflow, the last overflow leaf.  This version also carries the
coverage invariant `Ext`. -/
theorem linkLeaf_cover (cap : Nat) (data : List IndexEntry) (b : BuildState) (n : Nat)
    (pre : List GLeaf) (a : GLeaf) (init : List GNode) (F : GNode) (above : List (List GNode))
    (h : Core cap data b.tree b.i (pre ++ [a]) ((init ++ [F]) :: above))
    (hne : a.start < a.stop)
    (hnew : b.tree.store.node n = some (LeafNode.new b.i false))
    (hnl : n ∉ (pre ++ [a]).map GLeaf.id)
    (hsize : ((init ++ [F]) :: above).length + (pre ++ [a]).length + 1 ≤ b.tree.store.next)
    (hfa : FatherIs b.tree.store b.tree.m_currentLeaf (some F.id))
    (hroom : F.kids.length ≤ cap)
    (hcurleaf : ∃ c ∈ pre ++ [a], c.id = b.tree.m_currentLeaf)
    (hlink : (b.overflow = true → b.lastOverflowNode = some a.id) ∧
      (b.overflow = false → a.id = b.tree.m_currentLeaf))
    (hkey : b.i = 0 ∨ dataKey data b.i ≠ dataKey data (b.i - 1)) :
    ∃ b' F', Unbounded.linkLeaf cap data b n = some b' ∧ b'.i = b.i ∧ b'.overflow = false ∧
      b'.tree.m_currentLeaf = n ∧ F'.id = F.id ∧
      Core cap data b'.tree b.i (pre ++ [a, ⟨n, b.i, b.i, false⟩]) ((init ++ [F']) :: above) ∧
      FatherIs b'.tree.store n (some F.id) ∧
      (Ext cap b.tree (pre ++ [a]) ((init ++ [F]) :: above) (some n) →
        Ext cap b'.tree (pre ++ [a, ⟨n, b.i, b.i, false⟩]) ((init ++ [F']) :: above) none) := by
  obtain ⟨cl, hcl, hclf⟩ := hfa
  obtain ⟨c, hcmem, hcid⟩ := hcurleaf
  obtain ⟨⟨c0, r0, e0, -⟩, hFlen, fn, ef, efty, efk, efp⟩ := h.upper.levelOK.2 F (by simp)
  have hFin : F.id ∈ innerIds ((init ++ [F]) :: above) := by rw [innerIds_level]; simp
  have hamem : a ∈ pre ++ [a] := by simp
  -- the addresses involved are distinct
  have hcF : b.tree.m_currentLeaf ≠ F.id := by
    intro heq; rw [← hcid] at heq; exact h.leaf_not_inner hcmem (heq ▸ hFin)
  have haF : a.id ≠ F.id := fun heq => h.leaf_not_inner hamem (heq ▸ hFin)
  have hnF : n ≠ F.id := by
    intro heq
    rw [heq, ef] at hnew
    cases hnew
    simp [LeafNode.new] at efty
  have hna : n ≠ a.id := fun heq => hnl (heq ▸ List.mem_map_of_mem _ hamem)
  have hnc : n ≠ b.tree.m_currentLeaf := by
    intro heq; rw [← hcid] at heq; exact hnl (heq ▸ List.mem_map_of_mem _ hcmem)
  obtain ⟨na, hna1, hna2, hna3, hna4, hna5⟩ := h.chainOK.leaf hamem
  -- the statements of the branch, one store after the other
  have hkroom : fn.m_keys.length < cap := by
    rw [efk]; simp only [List.length_map, List.length_tail]
    rw [e0] at hroom ⊢; simp at hroom ⊢; omega
  obtain ⟨s1, m1, p1, q1, x1⟩ := Store.modify_spec b.tree.store F.id
    (fun n => n.addKey cap (dataKey data b.i)) fn ef
  obtain ⟨s2, m2, p2, q2, x2⟩ := Store.modify_spec s1 F.id (fun nd => Unbounded.addPointer nd n) _ p1
  have hcl2 : s2.node b.tree.m_currentLeaf = some cl := by rw [q2 _ hcF, q1 _ hcF]; exact hcl
  have hn2 : s2.node n = some (LeafNode.new b.i false) := by rw [q2 _ hnF, q1 _ hnF]; exact hnew
  obtain ⟨s3, m3, p3, q3, x3⟩ := Store.modify_spec s2 n
    (fun nd => { nd with m_fatherNode := some F.id }) _ hn2
  obtain ⟨s4, m4, p4, q4, x4⟩ := Store.modify_spec s3 n
    (fun nd => { nd with m_previous := some a.id }) _ p3
  have ha4 : s4.node a.id = some na := by
    rw [q4 _ (Ne.symm hna), q3 _ (Ne.symm hna), q2 _ haF, q1 _ haF]; exact hna1
  obtain ⟨s5, m5, p5, q5, x5⟩ := Store.modify_spec s4 a.id
    (fun nd => { nd with m_next := some n }) _ ha4
  have hF5 : s5.node F.id = some
      { fn with
        m_keys := fn.m_keys ++ [dataKey data b.i]
        m_pointers := fn.m_pointers ++ [n] } := by
    rw [q5 _ (Ne.symm haF), q4 _ (Ne.symm hnF), q3 _ (Ne.symm hnF), p2]
    simp only [BPNode.addKey, hkroom, if_true, Unbounded.addPointer]
  have hn5 : s5.node n = some
      { (LeafNode.new b.i false) with
        m_fatherNode := some F.id
        m_previous := some a.id } := by
    rw [q5 _ hna, p4]
  have hframe : ∀ x, x ≠ F.id → x ≠ n → x ≠ a.id → s5.node x = b.tree.store.node x := by
    intro x h1 h2 h3
    rw [q5 _ h3, q4 _ h2, q3 _ h2, q2 _ h1, q1 _ h1]
  have hnext : s5.next = b.tree.store.next := by rw [x5, x4, x3, x2, x1]
  have hwf5 : s5.WF := by
    intro x hx
    rw [hnext] at hx
    have h1 := h.wf.lt ef
    have h2 := h.wf.lt hnew
    have h3 := h.wf.lt hna1
    rw [hframe x (by omega) (by omega) (by omega)]
    exact h.wf x hx
  let t' : BulkBPTree := { b.tree with store := s5, m_currentLeaf := n }
  have hcomp : Unbounded.linkLeaf cap data b n =
      some { tree := t', lastOverflowNode := b.lastOverflowNode, overflow := false, i := b.i } := by
    simp only [Unbounded.linkLeaf, Option.bind_eq_bind, hcl, Option.some_bind, hclf, m1, m2, hcl2,
      m3]
    cases hov : b.overflow with
    | true =>
      simp only [if_true, hlink.1 hov, Option.some_bind, m4, m5, t']
    | false =>
      simp only [Bool.false_eq_true, if_false, ← hlink.2 hov, Option.some_bind, m4, m5, t']
  refine ⟨_, { F with kids := F.kids ++ [(n, b.i)] }, hcomp, rfl, rfl, rfl, rfl, ?_,
    ⟨_, hn5, rfl⟩, ?_⟩
  swap
  · intro hE
    refine ⟨?_, ?_, ?_⟩
    · intro x nd hnd
      show x ∈ innerIds ((init ++ [{ F with kids := F.kids ++ [(n, b.i)] }]) :: above) ∨ _
      rw [innerIds_setKids]
      by_cases hxn : x = n
      · right; left; rw [hxn]; simp
      · by_cases hxa : x = a.id
        · right; left; rw [hxa]; simp
        · by_cases hxF : x = F.id
          · left; rw [hxF]; exact hFin
          · have e : s5.node x = b.tree.store.node x := hframe x hxF hxn hxa
            have hnd' : b.tree.store.node x = some nd := by rw [← e]; exact hnd
            rcases hE.cover x nd hnd' with h1 | h1 | h1
            · exact Or.inl h1
            · right; left
              obtain ⟨l, hl, rfl⟩ := List.mem_map.1 h1
              refine List.mem_map_of_mem _ ?_
              simp only [List.mem_append, List.mem_cons, List.mem_singleton, List.not_mem_nil,
                or_false] at hl ⊢
              rcases hl with hl | hl
              · exact Or.inl hl
              · exact Or.inr (Or.inl hl)
            · cases h1; exact (hxn rfl).elim
    · intro l hl hov
      have hl' : l ∈ pre ++ [a] := by
        simp only [List.mem_append, List.mem_cons, List.mem_singleton, List.not_mem_nil,
          or_false] at hl ⊢
        rcases hl with hl | hl | hl
        · exact Or.inl hl
        · exact Or.inr hl
        · rw [hl] at hov; cases hov
      obtain ⟨nd, g1, g2⟩ := hE.ovFather l hl' hov
      by_cases hla : l.id = a.id
      · rw [hla] at g1 ⊢
        rw [hna1] at g1; cases g1
        exact ⟨_, p5, g2⟩
      · refine ⟨nd, ?_, g2⟩
        show s5.node l.id = some nd
        rw [hframe l.id ?_ ?_ hla]
        · exact g1
        · intro heq; exact h.leaf_not_inner hl' (heq ▸ hFin)
        · intro heq; exact hnl (heq ▸ List.mem_map_of_mem _ hl')
    · intro k l l' hk hk1 hov
      have hlen : k + 1 < (pre ++ [a]).length := by
        by_contra hcon
        have hk1' : k + 1 < (pre ++ [a, (⟨n, b.i, b.i, false⟩ : GLeaf)]).length := by
          by_contra hc2
          rw [List.getElem?_eq_none (by omega)] at hk1
          cases hk1
        have e : pre ++ [a, (⟨n, b.i, b.i, false⟩ : GLeaf)] =
            (pre ++ [a]) ++ [⟨n, b.i, b.i, false⟩] := by simp
        rw [e] at hk1 hk1'
        rw [List.getElem?_append_right (by omega)] at hk1
        simp only [List.length_append, List.length_singleton] at hk1' hcon
        have : k + 1 - (pre ++ [a]).length = 0 := by
          simp only [List.length_append, List.length_singleton]; omega
        rw [this] at hk1
        simp only [List.getElem?_cons_zero, Option.some.injEq] at hk1
        rw [← hk1] at hov
        cases hov
      have e : pre ++ [a, (⟨n, b.i, b.i, false⟩ : GLeaf)] =
          (pre ++ [a]) ++ [⟨n, b.i, b.i, false⟩] := by simp
      rw [e, List.getElem?_append_left (by omega)] at hk hk1
      exact hE.full k l l' hk hk1 hov
  have hnin : n ∉ innerIds ((init ++ [F]) :: above) := by
    intro hin
    obtain ⟨nd, g1, g2⟩ := h.upper.inner_type _ hin
    rw [hnew] at g1; cases g1
    simp [LeafNode.new] at g2
  refine @Core.snoc _ _ b.tree t' _ _ _ _ _ n false h hne rfl hwf5 ?_ ?_ ?_ ?_ ?_ hnl
    (fun _ => hkey) ?_
  · have e : pre ++ [a, (⟨n, b.i, b.i, false⟩ : GLeaf)] = (pre ++ [a]) ++ [⟨n, b.i, b.i, false⟩] := by
      simp
    rw [e, leafProj_snoc_indexed]
    refine Upper.append_kid (n, b.i) fn h.upper h.innerNodup hroom ef hF5 ?_
    intro x hx hxF
    refine hframe x hxF (fun heq => hnin (heq ▸ hx)) ?_
    intro heq
    exact h.leaf_not_inner hamem (heq ▸ hx)
  · rw [innerIds_setKids]; exact h.innerNodup
  · intro l hl
    have hlmem : l ∈ pre ++ [a] := by simp [hl]
    refine hframe _ ?_ ?_ ?_
    · intro heq; exact h.leaf_not_inner hlmem (heq ▸ hFin)
    · intro heq; exact hnl (heq ▸ List.mem_map_of_mem _ hlmem)
    · intro heq
      have := h.chainNodup
      rw [List.map_append, List.nodup_append] at this
      exact this.2.2 (List.mem_map_of_mem _ hl) (by rw [heq]; simp)
  · intro nd hnd
    rw [hna1] at hnd; cases hnd
    exact ⟨_, p5, rfl, rfl, rfl, rfl, rfl, rfl⟩
  · exact ⟨_, hn5, rfl, rfl, rfl, rfl, rfl, rfl⟩
  · show ((init ++ [{ F with kids := F.kids ++ [(n, b.i)] }]) :: above).length +
      (pre ++ [a]).length + 1 ≤ s5.next
    rw [hnext]
    simpa using hsize

/-- Unbounded child array: the branch that links the new leaf at address `n` as
an indexed leaf.  The leaf `a` is the last leaf of the chain: the current leaf
or, after an overflow, the last overflow leaf. -/
theorem linkLeaf_spec (cap : Nat) (data : List IndexEntry) (b : BuildState) (n : Nat)
    (pre : List GLeaf) (a : GLeaf) (init : List GNode) (F : GNode) (above : List (List GNode))
    (h : Core cap data b.tree b.i (pre ++ [a]) ((init ++ [F]) :: above))
    (hne : a.start < a.stop)
    (hnew : b.tree.store.node n = some (LeafNode.new b.i false))
    (hnl : n ∉ (pre ++ [a]).map GLeaf.id)
    (hsize : ((init ++ [F]) :: above).length + (pre ++ [a]).length + 1 ≤ b.tree.store.next)
    (hfa : FatherIs b.tree.store b.tree.m_currentLeaf (some F.id))
    (hroom : F.kids.length ≤ cap)
    (hcurleaf : ∃ c ∈ pre ++ [a], c.id = b.tree.m_currentLeaf)
    (hlink : (b.overflow = true → b.lastOverflowNode = some a.id) ∧
      (b.overflow = false → a.id = b.tree.m_currentLeaf))
    (hkey : b.i = 0 ∨ dataKey data b.i ≠ dataKey data (b.i - 1)) :
    ∃ b' F', Unbounded.linkLeaf cap data b n = some b' ∧ b'.i = b.i ∧ b'.overflow = false ∧
      b'.tree.m_currentLeaf = n ∧ F'.id = F.id ∧
      Core cap data b'.tree b.i (pre ++ [a, ⟨n, b.i, b.i, false⟩]) ((init ++ [F']) :: above) ∧
      FatherIs b'.tree.store n (some F.id) := by
  obtain ⟨b', F', h1, h2, h3, h4, h5, h6, h7, _⟩ :=
    linkLeaf_cover cap data b n pre a init F above h hne hnew hnl hsize hfa hroom hcurleaf hlink
      hkey
  exact ⟨b', F', h1, h2, h3, h4, h5, h6, h7⟩

theorem prevKey_pos (data : List IndexEntry) (i : Nat) (h : 0 < i) :
    prevKey data i = dataKey data (i - 1) := by
  simp [prevKey, h]

/-- The inner loop of the constructor: it fills overflow leaves behind the
overflow leaf `o`, the last leaf of the chain, until the key changes or the
input ends.  This version also carries the coverage invariant `Ext` and
records that the overflow leaves left behind are full. -/
theorem fillOverflow_cover (cap : Nat) (hcap : 1 ≤ cap) (data : List IndexEntry)
    (levels : List (List GNode)) :
    ∀ (fuel : Nat) (t : BulkBPTree) (i : Nat) (pre : List GLeaf) (o : GLeaf),
      Core cap data t i (pre ++ [o]) levels → o.ov = true → 0 < i → i ≤ data.length →
      data.length - i ≤ fuel →
      (o.start < o.stop ∨ (i < data.length ∧ dataKey data i = prevKey data i)) →
      ∃ t' i' ext o',
        BulkBPTree.fillOverflow cap data fuel t o.id (some o.id) i = some (t', some o'.id, i') ∧
        Core cap data t' i' (pre ++ ext ++ [o']) levels ∧
        (∀ x ∈ ext ++ [o'], x.ov = true) ∧ o'.start < o'.stop ∧
        i ≤ i' ∧ i' ≤ data.length ∧
        ((i < data.length ∧ dataKey data i = prevKey data i) → i < i') ∧
        ¬ (i' < data.length ∧ dataKey data i' = prevKey data i') ∧
        t'.m_root = t.m_root ∧ t'.m_currentLeaf = t.m_currentLeaf ∧
        (∀ x, x < t.store.next → x ≠ o.id → t'.store.node x = t.store.node x) ∧
        (∀ x ∈ ext, x.stop = x.start + cap) ∧
        (Ext cap t (pre ++ [o]) levels none → Ext cap t' (pre ++ ext ++ [o']) levels none) := by
  intro fuel
  induction fuel with
  | zero =>
    intro t i pre o h hov hi hile hfuel hne
    have hcond : ¬ (i < data.length ∧ dataKey data i = prevKey data i) := by
      intro hc; omega
    refine ⟨t, i, [], o, ?_, by simpa using h, by simpa using hov, ?_, le_rfl, hile,
      fun hc => (hcond hc).elim, hcond, rfl, rfl, fun _ _ _ => rfl, by simp,
      fun hE => by simpa using hE⟩
    · rw [BulkBPTree.fillOverflow, if_neg hcond]
    · rcases hne with hne | hne
      · exact hne
      · exact (hcond hne).elim
  | succ fuel ih =>
    intro t i pre o h hov hi hile hfuel hne
    by_cases hcond : i < data.length ∧ dataKey data i = prevKey data i
    · obtain ⟨hstop, nd, n1, n2, n3, n4, n5, n6⟩ := h.chainOK.last
      have hdupi : 0 < i ∧ dataKey data i = dataKey data (i - 1) :=
        ⟨hi, by rw [hcond.2, prevKey_pos data i hi]⟩
      have homem : o ∈ pre ++ [o] := by simp
      have hcapb := h.capb o homem
      by_cases hfull : o.stop = o.start + cap
      · -- the overflow leaf is full: a new one is chained behind it
        have hisfull : nd.isFull cap = true := by
          simp only [BPNode.isFull, BPNode.m_currentNumberOfEntries, n2, beq_iff_eq]
          omega
        have holt : o.id < t.store.next := h.wf.lt n1
        have hA : (t.store.alloc (LeafNode.new i true)).1.node t.store.next =
            some (LeafNode.new i true) := by simp
        obtain ⟨s1, m1, p1, q1, x1⟩ := Store.modify_spec _ t.store.next
          (fun n => { n with m_fatherNode := none }) _ hA
        obtain ⟨s2, m2, p2, q2, x2⟩ := Store.modify_spec s1 t.store.next
          (fun n => { n with m_previous := some o.id }) _ p1
        have ho2 : s2.node o.id = some nd := by
          rw [q2 _ (by omega), q1 _ (by omega)]
          simp [Nat.ne_of_lt holt, n1]
        obtain ⟨s3, m3, p3, q3, x3⟩ := Store.modify_spec s2 o.id
          (fun n => { n with m_next := some t.store.next }) _ ho2
        have hframe3 : ∀ x, x ≠ o.id → x ≠ t.store.next → s3.node x = t.store.node x := by
          intro x h1 h2
          rw [q3 _ h1, q2 _ h2, q1 _ h2]
          simp [h2]
        have hnext3 : s3.next = t.store.next + 1 := by rw [x3, x2, x1]; rfl
        have hn3 : s3.node t.store.next = some
            { (LeafNode.new i true) with
              m_fatherNode := none
              m_previous := some o.id } := by
          rw [q3 _ (by omega), p2]
        have hwf3 : s3.WF := by
          intro x hx
          rw [hnext3] at hx
          rw [hframe3 x (by omega) (by omega)]
          exact h.wf x (by omega)
        have hnin : ∀ a ∈ innerIds levels, a ≠ o.id ∧ a ≠ t.store.next := by
          intro a ha
          constructor
          · intro heq; exact h.leaf_not_inner homem (heq ▸ ha)
          · have := h.upper.id_lt h.wf ha; omega
        have hcore1 : Core cap data { t with store := s3 } i
            (pre ++ [o, ⟨t.store.next, i, i, true⟩]) levels := by
          refine Core.snoc (t := t) t.store.next true h (by omega) rfl hwf3 ?_ h.innerNodup ?_ ?_
            ?_ ?_ (fun hf => by cases hf) ?_
          · have e : pre ++ [o, (⟨t.store.next, i, i, true⟩ : GLeaf)] =
                (pre ++ [o]) ++ [⟨t.store.next, i, i, true⟩] := by simp
            rw [e, leafProj_snoc_ov]
            exact h.upper.frame (fun a ha => hframe3 a (hnin a ha).1 (hnin a ha).2)
          · intro l hl
            have hlmem : l ∈ pre ++ [o] := by simp [hl]
            refine hframe3 _ ?_ (by have := h.leaf_lt hlmem; omega)
            intro heq
            have := h.chainNodup
            rw [List.map_append, List.nodup_append] at this
            exact this.2.2 (List.mem_map_of_mem _ hl) (by rw [heq]; simp)
          · intro nd0 hnd0
            rw [n1] at hnd0; cases hnd0
            exact ⟨_, p3, rfl, rfl, rfl, rfl, rfl, rfl⟩
          · exact ⟨_, hn3, rfl, rfl, rfl, rfl, rfl, rfl⟩
          · intro hin
            obtain ⟨l, hl, hlid⟩ := List.mem_map.1 hin
            have := h.leaf_lt hl
            omega
          · show levels.length + (pre ++ [o]).length + 1 ≤ s3.next
            rw [hnext3]
            have := h.size
            omega
        have hcore1' : Core cap data { t with store := s3 } i
            ((pre ++ [o]) ++ [⟨t.store.next, i, i, true⟩]) levels := by
          simpa using hcore1
        obtain ⟨t1, t2, a1, a2, a3, a4, a5, a6, a7, a8⟩ :=
          insert_spec cap data { t with store := s3 } i (pre ++ [o]) ⟨t.store.next, i, i, true⟩
            levels hcore1' (by show i < i + cap; omega) (fun _ => hdupi)
        obtain ⟨t', i', ext, o', r1, r2, r3, r4, r5, r6, r7, r8, r9, r10, r11, r12, r13⟩ :=
          ih t2 (i + 1) (pre ++ [o]) ⟨t.store.next, i, i + 1, true⟩ a3 rfl (by omega) (by omega)
            (by omega) (Or.inl (by show i < i + 1; omega))
        refine ⟨t', i', o :: ext, o', ?_, by simpa using r2, ?_, r4, by omega, r6,
          fun _ => by omega, r8, by rw [r9, a4], by rw [r10, a5], ?_, ?_, ?_⟩
        · rw [BulkBPTree.fillOverflow, if_pos hcond]
          simp only [Option.bind_eq_bind, n1, Option.some_bind, hisfull, if_true, m1, m2, m3,
            Store.alloc_addr]
          simp only [← Store.alloc_addr t.store (LeafNode.new i true)] at a1 a2 r1 ⊢
          simp only [a1, Option.some_bind, a2]
          exact r1
        · intro x hx
          simp only [List.cons_append, List.mem_cons] at hx
          rcases hx with rfl | hx
          · exact hov
          · exact r3 x hx
        · intro x hx hxo
          rw [r11 x (by rw [a6]; show x < s3.next; rw [hnext3]; omega)
            (by show x ≠ t.store.next; omega)]
          rw [a7 x (by show x ≠ t.store.next; omega)]
          exact hframe3 x hxo (by omega)
        · intro x hx
          rcases List.mem_cons.1 hx with rfl | hx
          · exact hfull
          · exact r12 x hx
        · intro hE
          have hE1 : Ext cap { t with store := s3 }
              ((pre ++ [o]) ++ [(⟨t.store.next, i, i, true⟩ : GLeaf)]) levels none := by
            refine ⟨?_, ?_, ?_⟩
            · intro x nd0 hnd0
              by_cases hxn : x = t.store.next
              · right; left; rw [hxn]; simp
              · by_cases hxo : x = o.id
                · right; left; rw [hxo]; simp
                · have e : s3.node x = t.store.node x := hframe3 x hxo hxn
                  have hnd0' : t.store.node x = some nd0 := by rw [← e]; exact hnd0
                  rcases hE.cover x nd0 hnd0' with h1 | h1 | h1
                  · exact Or.inl h1
                  · right; left
                    rw [List.map_append]
                    exact List.mem_append_left _ h1
                  · cases h1
            · intro l hl hlov
              rcases List.mem_append.1 hl with hl | hl
              · obtain ⟨nd0, g1, g2⟩ := hE.ovFather l hl hlov
                by_cases hlo : l.id = o.id
                · rw [hlo] at g1 ⊢
                  rw [n1] at g1; cases g1
                  exact ⟨_, p3, g2⟩
                · refine ⟨nd0, ?_, g2⟩
                  show s3.node l.id = some nd0
                  rw [hframe3 l.id hlo (by have := h.leaf_lt hl; omega)]
                  exact g1
              · simp only [List.mem_singleton] at hl
                rw [hl]
                exact ⟨_, hn3, rfl⟩
            · intro k l l' hk hk1 hlov
              rcases Nat.lt_or_ge (k + 1) (pre ++ [o]).length with h1 | h1
              · rw [List.getElem?_append_left (by omega)] at hk
                rw [List.getElem?_append_left h1] at hk1
                exact hE.full k l l' hk hk1 hlov
              · have hk1' : k + 1 < ((pre ++ [o]) ++
                    [(⟨t.store.next, i, i, true⟩ : GLeaf)]).length := by
                  by_contra hc2
                  rw [List.getElem?_eq_none (by omega)] at hk1
                  cases hk1
                simp only [List.length_append, List.length_singleton] at h1 hk1'
                have e : k = pre.length := by omega
                rw [List.getElem?_append_left (by simp; omega), e,
                  List.getElem?_append_right (by omega)] at hk
                simp only [Nat.sub_self, List.getElem?_cons_zero, Option.some.injEq] at hk
                rw [← hk]
                exact hfull
          have hE2 := Ext.insert (j := i + 1) hE1 a7 a8
          have := r13 hE2
          simpa using this
      · -- there is room in the overflow leaf
        have hisfull : nd.isFull cap = false := by
          simp only [BPNode.isFull, BPNode.m_currentNumberOfEntries, n2, beq_eq_false_iff_ne,
            ne_eq]
          omega
        obtain ⟨t1, t2, a1, a2, a3, a4, a5, a6, a7, a8⟩ :=
          insert_spec cap data t i pre o levels h (by omega) (fun _ => hdupi)
        obtain ⟨t', i', ext, o', r1, r2, r3, r4, r5, r6, r7, r8, r9, r10, r11, r12, r13⟩ :=
          ih t2 (i + 1) pre ⟨o.id, o.start, i + 1, o.ov⟩ a3 hov (by omega) (by omega)
            (by omega) (Or.inl (by show o.start < i + 1; omega))
        refine ⟨t', i', ext, o', ?_, r2, r3, r4, by omega, r6, fun _ => by omega, r8,
          by rw [r9, a4], by rw [r10, a5], ?_, r12, fun hE => r13 (Ext.insert hE a7 a8)⟩
        · rw [BulkBPTree.fillOverflow, if_pos hcond]
          simp only [Option.bind_eq_bind, n1, Option.some_bind, hisfull, Bool.false_eq_true,
            if_false, a1, a2]
          exact r1
        · intro x hx hxo
          rw [r11 x (by rw [a6]; exact hx) hxo]
          exact a7 x hxo
    · refine ⟨t, i, [], o, ?_, by simpa using h, by simpa using hov, ?_, le_rfl, hile,
        fun hc => (hcond hc).elim, hcond, rfl, rfl, fun _ _ _ => rfl, by simp,
        fun hE => by simpa using hE⟩
      · rw [BulkBPTree.fillOverflow, if_neg hcond]
      · rcases hne with hne | hne
        · exact hne
        · exact (hcond hne).elim

/-- The inner loop of the constructor: it fills overflow leaves behind the
overflow leaf `o`, the last leaf of the chain, until the key changes or the
input ends. -/
theorem fillOverflow_spec (cap : Nat) (hcap : 1 ≤ cap) (data : List IndexEntry)
    (levels : List (List GNode)) :
    ∀ (fuel : Nat) (t : BulkBPTree) (i : Nat) (pre : List GLeaf) (o : GLeaf),
      Core cap data t i (pre ++ [o]) levels → o.ov = true → 0 < i → i ≤ data.length →
      data.length - i ≤ fuel →
      (o.start < o.stop ∨ (i < data.length ∧ dataKey data i = prevKey data i)) →
      ∃ t' i' ext o',
        BulkBPTree.fillOverflow cap data fuel t o.id (some o.id) i = some (t', some o'.id, i') ∧
        Core cap data t' i' (pre ++ ext ++ [o']) levels ∧
        (∀ x ∈ ext ++ [o'], x.ov = true) ∧ o'.start < o'.stop ∧
        i ≤ i' ∧ i' ≤ data.length ∧
        ((i < data.length ∧ dataKey data i = prevKey data i) → i < i') ∧
        ¬ (i' < data.length ∧ dataKey data i' = prevKey data i') ∧
        t'.m_root = t.m_root ∧ t'.m_currentLeaf = t.m_currentLeaf ∧
        (∀ x, x < t.store.next → x ≠ o.id → t'.store.node x = t.store.node x) := by
  intro fuel t i pre o h hov hi hile hfuel hne
  obtain ⟨t', i', ext, o', r1, r2, r3, r4, r5, r6, r7, r8, r9, r10, r11, _⟩ :=
    fillOverflow_cover cap hcap data levels fuel t i pre o h hov hi hile hfuel hne
  exact ⟨t', i', ext, o', r1, r2, r3, r4, r5, r6, r7, r8, r9, r10, r11⟩

theorem ChainOK.all_nonempty {s : Store} {pre : List GLeaf} {a : GLeaf} {i : Nat}
    (h : ChainOK s (pre ++ [a]) i) (ha : a.start < a.stop) :
    ∀ l ∈ pre ++ [a], l.start < l.stop := by
  intro l hl
  obtain ⟨k, hk⟩ := List.mem_iff_getElem?.1 hl
  obtain ⟨_, _, h3, _⟩ := h k l hk
  rcases Nat.lt_or_ge k pre.length with hlt | hge
  · have hk1 : k + 1 < (pre ++ [a]).length := by simp; omega
    exact (h3 _ (List.getElem?_eq_getElem hk1)).2
  · have hlen := (List.getElem?_eq_some_iff.1 hk).1
    simp at hlen
    have hk2 : k = pre.length := by omega
    subst hk2
    rw [List.getElem?_concat_length] at hk
    cases hk
    exact ha

/-- The branch that starts an overflow chain with the new leaf at address `n`
behind the current leaf `c`, the last leaf of the chain.  This version also carries the coverage invariant `Ext` and
records that the overflow leaves left behind are full. -/
theorem startOverflow_cover (cap : Nat) (hcap : 1 ≤ cap) (data : List IndexEntry) (b : BuildState)
    (n : Nat) (pre : List GLeaf) (c : GLeaf) (levels : List (List GNode))
    (h : Core cap data b.tree b.i (pre ++ [c]) levels) (hne : c.start < c.stop)
    (hcid : c.id = b.tree.m_currentLeaf)
    (hnew : b.tree.store.node n = some (LeafNode.new b.i false))
    (hnl : n ∉ (pre ++ [c]).map GLeaf.id)
    (hsize : levels.length + (pre ++ [c]).length + 1 ≤ b.tree.store.next)
    (hi : 0 < b.i) (hlt : b.i < data.length) (hkey : dataKey data b.i = prevKey data b.i) :
    ∃ b' ext o', BulkBPTree.startOverflow cap data b n = some b' ∧ b'.overflow = true ∧
      b'.lastOverflowNode = some o'.id ∧
      Core cap data b'.tree b'.i (pre ++ [c] ++ ext ++ [o']) levels ∧
      (∀ x ∈ ext ++ [o'], x.ov = true) ∧ o'.start < o'.stop ∧
      b.i < b'.i ∧ b'.i ≤ data.length ∧
      ¬ (b'.i < data.length ∧ dataKey data b'.i = prevKey data b'.i) ∧
      b'.tree.m_currentLeaf = b.tree.m_currentLeaf ∧
      (∀ f, FatherIs b.tree.store b.tree.m_currentLeaf f →
        FatherIs b'.tree.store b.tree.m_currentLeaf f) ∧
      (∀ x ∈ ext, x.stop = x.start + cap) ∧
      (c.stop = c.start + cap → Ext cap b.tree (pre ++ [c]) levels (some n) →
        Ext cap b'.tree (pre ++ [c] ++ ext ++ [o']) levels none) := by
  have hcmem : c ∈ pre ++ [c] := by simp
  obtain ⟨nc, hc1, hc2, hc3, hc4, hc5⟩ := h.chainOK.leaf hcmem
  have hnc : n ≠ c.id := fun heq => hnl (heq ▸ List.mem_map_of_mem _ hcmem)
  obtain ⟨s1, m1, p1, q1, x1⟩ := Store.modify_spec b.tree.store n
    (fun nd => { nd with m_isOverflowNode := true }) _ hnew
  obtain ⟨s2, m2, p2, q2, x2⟩ := Store.modify_spec s1 n
    (fun nd => { nd with m_fatherNode := none }) _ p1
  obtain ⟨s3, m3, p3, q3, x3⟩ := Store.modify_spec s2 n
    (fun nd => { nd with m_previous := some c.id }) _ p2
  have hc3' : s3.node c.id = some nc := by
    rw [q3 _ (Ne.symm hnc), q2 _ (Ne.symm hnc), q1 _ (Ne.symm hnc)]; exact hc1
  obtain ⟨s4, m4, p4, q4, x4⟩ := Store.modify_spec s3 c.id
    (fun nd => { nd with m_next := some n }) _ hc3'
  have hframe : ∀ x, x ≠ c.id → x ≠ n → s4.node x = b.tree.store.node x := by
    intro x h1 h2
    rw [q4 _ h1, q3 _ h2, q2 _ h2, q1 _ h2]
  have hnext : s4.next = b.tree.store.next := by rw [x4, x3, x2, x1]
  have hn4 : s4.node n = some
      { (LeafNode.new b.i false) with
        m_isOverflowNode := true
        m_fatherNode := none
        m_previous := some c.id } := by
    rw [q4 _ hnc, p3]
  have hwf4 : s4.WF := by
    intro x hx
    rw [hnext] at hx
    have h2 := h.wf.lt hnew
    have h3 := h.wf.lt hc1
    rw [hframe x (by omega) (by omega)]
    exact h.wf x hx
  have hnin : n ∉ innerIds levels := by
    intro hin
    obtain ⟨nd, g1, g2⟩ := h.upper.inner_type _ hin
    rw [hnew] at g1; cases g1
    simp [LeafNode.new] at g2
  have hcore1 : Core cap data { b.tree with store := s4 } b.i
      (pre ++ [c, ⟨n, b.i, b.i, true⟩]) levels := by
    refine Core.snoc (t := b.tree) n true h hne rfl hwf4 ?_ h.innerNodup ?_ ?_ ?_ hnl
      (fun hf => by cases hf) ?_
    · have e : pre ++ [c, (⟨n, b.i, b.i, true⟩ : GLeaf)] = (pre ++ [c]) ++ [⟨n, b.i, b.i, true⟩] := by
        simp
      rw [e, leafProj_snoc_ov]
      refine h.upper.frame (fun a ha => hframe a ?_ (fun heq => hnin (heq ▸ ha)))
      intro heq; exact h.leaf_not_inner hcmem (heq ▸ ha)
    · intro l hl
      have hlmem : l ∈ pre ++ [c] := by simp [hl]
      refine hframe _ ?_ (fun heq => hnl (heq ▸ List.mem_map_of_mem _ hlmem))
      intro heq
      have := h.chainNodup
      rw [List.map_append, List.nodup_append] at this
      exact this.2.2 (List.mem_map_of_mem _ hl) (by rw [heq]; simp)
    · intro nd0 hnd0
      rw [hc1] at hnd0; cases hnd0
      exact ⟨_, p4, rfl, rfl, rfl, rfl, rfl, rfl⟩
    · exact ⟨_, hn4, rfl, rfl, rfl, rfl, rfl, rfl⟩
    · show levels.length + (pre ++ [c]).length + 1 ≤ s4.next
      rw [hnext]; exact hsize
  have hcore1' : Core cap data { b.tree with store := s4 } b.i
      ((pre ++ [c]) ++ [⟨n, b.i, b.i, true⟩]) levels := by
    simpa using hcore1
  obtain ⟨t', i', ext, o', r1, r2, r3, r4, r5, r6, r7, r8, r9, r10, r11, r12, r13⟩ :=
    fillOverflow_cover cap hcap data levels (data.length - b.i) { b.tree with store := s4 } b.i
      (pre ++ [c]) ⟨n, b.i, b.i, true⟩ hcore1' rfl hi (by omega) le_rfl (Or.inr ⟨hlt, hkey⟩)
  refine ⟨{ tree := t', lastOverflowNode := some o'.id, overflow := true, i := i' },
    ext, o', ?_, rfl, rfl, r2, r3, r4, r7 ⟨hlt, hkey⟩, r6, r8, r10, ?_, r12, ?_⟩
  · simp only [BulkBPTree.startOverflow, Option.bind_eq_bind, m1, Option.some_bind, m2,
      ← hcid, m3, m4]
    have r1' : BulkBPTree.fillOverflow cap data (data.length - b.i)
        { store := s4, entries := b.tree.entries, m_root := b.tree.m_root,
          m_currentLeaf := c.id } n (some n) b.i = some (t', some o'.id, i') := by
      rw [hcid]; exact r1
    rw [r1']
    rfl
  · rintro f ⟨nd0, g1, g2⟩
    rw [← hcid] at g1 ⊢
    rw [hc1] at g1; cases g1
    refine ⟨{ nc with m_next := some n }, ?_, g2⟩
    rw [r11 c.id (by show c.id < s4.next; rw [hnext]; exact h.wf.lt hc1)
      (by show c.id ≠ n; exact Ne.symm hnc)]
    exact p4

  · intro hcfull hE
    apply r13
    refine ⟨?_, ?_, ?_⟩
    · intro x nd0 hnd0
      by_cases hxn : x = n
      · right; left; rw [hxn]; simp
      · by_cases hxc : x = c.id
        · right; left; rw [hxc]; simp
        · have e : s4.node x = b.tree.store.node x := hframe x hxc hxn
          have hnd0' : b.tree.store.node x = some nd0 := by rw [← e]; exact hnd0
          rcases hE.cover x nd0 hnd0' with h1 | h1 | h1
          · exact Or.inl h1
          · right; left
            rw [List.map_append]
            exact List.mem_append_left _ h1
          · cases h1; exact (hxn rfl).elim
    · intro l hl hlov
      rcases List.mem_append.1 hl with hl | hl
      · obtain ⟨nd0, g1, g2⟩ := hE.ovFather l hl hlov
        by_cases hlc : l.id = c.id
        · rw [hlc] at g1 ⊢
          rw [hc1] at g1; cases g1
          exact ⟨_, p4, g2⟩
        · refine ⟨nd0, ?_, g2⟩
          show s4.node l.id = some nd0
          rw [hframe l.id hlc (fun heq => hnl (heq ▸ List.mem_map_of_mem _ hl))]
          exact g1
      · simp only [List.mem_singleton] at hl
        rw [hl]
        exact ⟨_, hn4, rfl⟩
    · intro k l l' hk hk1 hlov
      rcases Nat.lt_or_ge (k + 1) (pre ++ [c]).length with h1 | h1
      · rw [List.getElem?_append_left (by omega)] at hk
        rw [List.getElem?_append_left h1] at hk1
        exact hE.full k l l' hk hk1 hlov
      · have hk1' : k + 1 < ((pre ++ [c]) ++ [(⟨n, b.i, b.i, true⟩ : GLeaf)]).length := by
          by_contra hc2
          rw [List.getElem?_eq_none (by omega)] at hk1
          cases hk1
        simp only [List.length_append, List.length_singleton] at h1 hk1'
        have e : k = pre.length := by omega
        rw [List.getElem?_append_left (by simp; omega), e,
          List.getElem?_append_right (by omega)] at hk
        simp only [Nat.sub_self, List.getElem?_cons_zero, Option.some.injEq] at hk
        rw [← hk]
        exact hcfull

/-- The branch that starts an overflow chain with the new leaf at address `n`
behind the current leaf `c`, the last leaf of the chain. -/
theorem startOverflow_spec (cap : Nat) (hcap : 1 ≤ cap) (data : List IndexEntry) (b : BuildState)
    (n : Nat) (pre : List GLeaf) (c : GLeaf) (levels : List (List GNode))
    (h : Core cap data b.tree b.i (pre ++ [c]) levels) (hne : c.start < c.stop)
    (hcid : c.id = b.tree.m_currentLeaf)
    (hnew : b.tree.store.node n = some (LeafNode.new b.i false))
    (hnl : n ∉ (pre ++ [c]).map GLeaf.id)
    (hsize : levels.length + (pre ++ [c]).length + 1 ≤ b.tree.store.next)
    (hi : 0 < b.i) (hlt : b.i < data.length) (hkey : dataKey data b.i = prevKey data b.i) :
    ∃ b' ext o', BulkBPTree.startOverflow cap data b n = some b' ∧ b'.overflow = true ∧
      b'.lastOverflowNode = some o'.id ∧
      Core cap data b'.tree b'.i (pre ++ [c] ++ ext ++ [o']) levels ∧
      (∀ x ∈ ext ++ [o'], x.ov = true) ∧ o'.start < o'.stop ∧
      b.i < b'.i ∧ b'.i ≤ data.length ∧
      ¬ (b'.i < data.length ∧ dataKey data b'.i = prevKey data b'.i) ∧
      b'.tree.m_currentLeaf = b.tree.m_currentLeaf ∧
      (∀ f, FatherIs b.tree.store b.tree.m_currentLeaf f →
        FatherIs b'.tree.store b.tree.m_currentLeaf f) := by
  obtain ⟨b', ext, o', h1, h2, h3, h4, h5, h6, h7, h8, h9, h10, h11, _⟩ :=
    startOverflow_cover cap hcap data b n pre c levels h hne hcid hnew hnl hsize hi hlt hkey
  exact ⟨b', ext, o', h1, h2, h3, h4, h5, h6, h7, h8, h9, h10, h11⟩

theorem eq_of_id_eq {chain : List GLeaf} (hnd : (chain.map GLeaf.id).Nodup) {x y : GLeaf}
    (hx : x ∈ chain) (hy : y ∈ chain) (h : x.id = y.id) : x = y :=
  List.inj_on_of_nodup_map hnd hx hy h

/-- Filling the last leaf of the chain does not touch the leaves that have a
successor. -/
theorem IndexedFull.replace_last {cap : Nat} {pre : List GLeaf} {a : GLeaf} (a' : GLeaf)
    (h : IndexedFull cap (pre ++ [a])) : IndexedFull cap (pre ++ [a']) := by
  intro k l l' hk hk1 hov
  have hlen := (List.getElem?_eq_some_iff.1 hk1).1
  simp only [List.length_append, List.length_singleton] at hlen
  have hkl : k < pre.length := by omega
  rw [List.getElem?_append_left hkl] at hk
  have hk' : (pre ++ [a])[k]? = some l := by rw [List.getElem?_append_left hkl]; exact hk
  have hlt' : k + 1 < (pre ++ [a]).length := by simp; omega
  exact h k l _ hk' (List.getElem?_eq_getElem hlt') hov

/-- Leaves appended behind a last leaf that is full or an overflow leaf. -/
theorem IndexedFull.append {cap : Nat} {pre : List GLeaf} {a : GLeaf} {more : List GLeaf}
    (h : IndexedFull cap (pre ++ [a])) (ha : a.ov = false → a.stop = a.start + cap)
    (hmore : ∀ k l l', more[k]? = some l → more[k + 1]? = some l' → l.ov = false →
      l.stop = l.start + cap) :
    IndexedFull cap ((pre ++ [a]) ++ more) := by
  intro k l l' hk hk1 hov
  rcases Nat.lt_trichotomy (k + 1) (pre ++ [a]).length with hlt | heq | hgt
  · rw [List.getElem?_append_left (by omega)] at hk
    rw [List.getElem?_append_left hlt] at hk1
    exact h k l l' hk hk1 hov
  · rw [List.getElem?_append_left (by omega)] at hk
    have hkp : k = pre.length := by simpa using heq
    rw [hkp, List.getElem?_concat_length] at hk
    cases hk
    exact ha hov
  · rw [List.getElem?_append_right (by omega)] at hk
    rw [List.getElem?_append_right (by omega)] at hk1
    have e : k + 1 - (pre ++ [a]).length = k - (pre ++ [a]).length + 1 := by omega
    rw [e] at hk1
    exact hmore _ l l' hk hk1 hov

/-- Unbounded child array: one iteration of the constructor's loop keeps the
invariant and consumes at least one input entry.  This version also carries the
coverage invariant `Ext`, records that the levels stay as they are when no split
can occur, that only the last node of the bottom level changes when it has room,
and that every indexed leaf left behind is full. -/
theorem buildStep_full (cap : Nat) (data : List IndexEntry) (b : BuildState)
    (chain : List GLeaf) (levels : List (List GNode))
    (hcap : 2 ≤ cap ∨ (1 ≤ cap ∧ NoSplit cap data levels))
    (h : BuildInv cap data b chain levels) (hlt : b.i < data.length) :
    ∃ b' chain' levels', Unbounded.buildStep cap data b = some b' ∧
      BuildInv cap data b' chain' levels' ∧ b.i < b'.i ∧
      (NoSplit cap data levels → levels' = levels) ∧
      (Ext cap b.tree chain levels none → Ext cap b'.tree chain' levels' none) ∧
      (IndexedFull cap chain → IndexedFull cap chain') ∧
      ((∀ init F above, levels = (init ++ [F]) :: above → F.kids.length ≤ cap) →
        ∃ init F F' above, levels = (init ++ [F]) :: above ∧
          levels' = (init ++ [F']) :: above) := by
  have hcap1 : 1 ≤ cap := by
    rcases hcap with hc | hc
    · omega
    · exact hc.1
  have hcapS : 2 ≤ cap ∨ NoSplit cap data levels := hcap.imp id (fun hc => hc.2)
  obtain ⟨hcore, hile, hnon, ovs, hcursor, hovF, hovT⟩ := h
  obtain ⟨⟨cpre, c, hchain, hcov, hcid, hovs⟩, init, F, above, hlevels, hfa⟩ := id hcursor
  have hcmem : c ∈ chain := by rw [hchain]; simp
  obtain ⟨nc, hc1, hc2, hc3, hc4, hc5⟩ := hcore.chainOK.leaf hcmem
  rw [hcid] at hc1
  have hcapb := hcore.capb c hcmem
  by_cases hfull : c.stop = c.start + cap
  · -- the current leaf is full
    have hisfull : nc.isFull cap = true := by
      simp only [BPNode.isFull, BPNode.m_currentNumberOfEntries, hc2, beq_iff_eq]
      omega
    obtain ⟨t1, levels1, e1, core1, cur1, new1, size1, ⟨init1, F1, above1, hl1, hfa1, hroom1⟩,
        sfNS, sfE⟩ :=
      splitFather_cover cap data b.tree b.i chain levels ovs hcapS hcore hcursor
    have hnl : b.tree.store.next ∉ chain.map GLeaf.id := by
      intro hin
      obtain ⟨l, hl, hlid⟩ := List.mem_map.1 hin
      have := hcore.leaf_lt hl
      omega
    -- the last leaf of the chain
    have hi : 0 < b.i := by
      cases hov : b.overflow with
      | true => exact (hovT hov).2.2.1
      | false =>
        have := hovF hov
        subst this
        rw [hchain] at hcore
        have := hcore.chainOK.last.1
        omega
    obtain ⟨pre, a, hpa, halink, hafull⟩ : ∃ pre a, chain = pre ++ [a] ∧
        ((b.overflow = true → b.lastOverflowNode = some a.id) ∧
        (b.overflow = false → a.id = b.tree.m_currentLeaf)) ∧
        (a.ov = false → a.stop = a.start + cap) := by
      cases hov : b.overflow with
      | true =>
        obtain ⟨⟨opre, o, ho, hlo⟩, _⟩ := hovT hov
        refine ⟨cpre ++ c :: opre, o, by rw [hchain, ho]; simp,
          ⟨fun _ => hlo, (by intro hf; cases hf)⟩, ?_⟩
        intro hof
        have := hovs o (by rw [ho]; simp)
        rw [hof] at this
        cases this
      | false =>
        have := hovF hov
        subst this
        exact ⟨cpre, c, hchain, ⟨(by intro hf; cases hf), fun _ => hcid⟩, fun _ => hfull⟩
    have hamem : a ∈ chain := by rw [hpa]; simp
    have hane : a.start < a.stop := hnon hi a hamem
    subst hl1
    by_cases hkey : dataKey data b.i ≠ prevKey data b.i
    · -- the new leaf is linked as an indexed leaf
      have hkey' : b.i = 0 ∨ dataKey data b.i ≠ dataKey data (b.i - 1) := by
        right; rw [← prevKey_pos data b.i hi]; exact hkey
      obtain ⟨b1, F', l1, l2, l3, l4, l5, l6, l7, l8⟩ := linkLeaf_cover cap data
        { b with tree := t1 } b.tree.store.next pre a init1 F1 above1 (hpa ▸ core1) hane new1
        (hpa ▸ hnl) (hpa ▸ size1) (cur1 ▸ hfa1) hroom1
        ⟨c, hpa ▸ hcmem, by rw [hcid]; exact cur1.symm⟩
        ⟨halink.1, fun hf => by rw [halink.2 hf]; exact cur1.symm⟩ hkey'
      have l6' : Core cap data b1.tree b.i ((pre ++ [a]) ++ [⟨b.tree.store.next, b.i, b.i, false⟩])
          ((init1 ++ [F']) :: above1) := by simpa using l6
      obtain ⟨t2, t3, a1, a2, a3, a4, a5, a6, a7, a8⟩ := insert_spec cap data b1.tree b.i
        (pre ++ [a]) ⟨b.tree.store.next, b.i, b.i, false⟩ ((init1 ++ [F']) :: above1) l6'
        (by show b.i < b.i + cap; omega) ((by intro hf; cases hf))
      refine ⟨{ b1 with tree := t3, i := b.i + 1 },
        (pre ++ [a]) ++ [⟨b.tree.store.next, b.i, b.i + 1, false⟩], (init1 ++ [F']) :: above1,
        ?_, ⟨a3, by show b.i + 1 ≤ data.length; omega, ?_, [], ?_, fun _ => rfl, ?_⟩,
        by show b.i < b.i + 1; omega, ?_, ?_, ?_, ?_⟩
      rotate_left 4
      · intro hns
        exfalso
        apply hkey
        rw [prevKey_pos data b.i hi]
        exact hns.2 b.i hi hlt
      · intro hE
        have hE1 := l8 (by
          rw [← hpa]
          exact sfE hE)
        have hE1' : Ext cap b1.tree
            ((pre ++ [a]) ++ [(⟨b.tree.store.next, b.i, b.i, false⟩ : GLeaf)])
            ((init1 ++ [F']) :: above1) none := by simpa using hE1
        exact Ext.insert hE1' a7 a8
      · intro hJ
        rw [hpa] at hJ
        have hJ1 : IndexedFull cap ((pre ++ [a]) ++ [(⟨b.tree.store.next, b.i, b.i, false⟩ : GLeaf)]) :=
          IndexedFull.append hJ hafull (by
            intro k l l' _ hk1 _
            simp at hk1)
        exact IndexedFull.replace_last _ hJ1
      · intro hroom
        exact ⟨init1, F1, F', above1, (sfNS hroom).symm, rfl⟩
      · simp only [Unbounded.buildStep, Option.bind_eq_bind, hc1, Option.some_bind, hisfull,
          if_true, Unbounded.onFullLeaf, Store.alloc_addr, e1, hkey, ne_eq, not_false_eq_true,
          l1, l3, Bool.not_false, l4, l2, a1, a2]
      · intro _
        exact a3.chainOK.all_nonempty (by show b.i < b.i + 1; omega)
      · refine ⟨⟨pre ++ [a], _, rfl, rfl, ?_, by simp⟩, init1, F', above1, rfl, ?_⟩
        · show b.tree.store.next = t3.m_currentLeaf
          rw [a5, l4]
        · show FatherIs t3.store t3.m_currentLeaf (some F'.id)
          rw [a5, l4, l5]
          exact a8 _ l7
      · intro hf
        rw [show ({ b1 with tree := t3, i := b.i + 1 } : BuildState).overflow = b1.overflow from rfl,
          l3] at hf
        cases hf
    · -- the new leaf starts an overflow chain
      have hkeq : dataKey data b.i = prevKey data b.i := by
        by_contra hne; exact hkey hne
      have hov : b.overflow = false := by
        cases hov : b.overflow with
        | false => rfl
        | true => exact ((hovT hov).2.2.2 hlt hkeq).elim
      have hovs0 := hovF hov
      subst hovs0
      have hac : a = c := by
        have := List.append_inj' (hpa.symm.trans hchain) rfl
        simpa using this.2
      subst hac
      obtain ⟨b1, ext, o', o1, o2, o3, o4, o5, o6, o7, o8, o9, o10, o11, o12, o13⟩ :=
        startOverflow_cover cap hcap1 data { b with tree := t1 } b.tree.store.next pre a
          ((init1 ++ [F1]) :: above1) (hpa ▸ core1) hane (by rw [hcid]; exact cur1.symm) new1
          (hpa ▸ hnl) (hpa ▸ size1) hi hlt hkeq
      refine ⟨b1, pre ++ [a] ++ ext ++ [o'], (init1 ++ [F1]) :: above1, ?_,
        ⟨o4, o8, ?_, ext ++ [o'], ?_, ?_, ?_⟩, o7, fun hns => sfNS hns.1, ?_, ?_, ?_⟩
      rotate_left 5
      · intro hE
        have hE1 := sfE hE
        rw [hpa] at hE1
        exact o13 hfull hE1
      · intro hJ
        rw [hpa] at hJ
        have := @IndexedFull.append _ _ _ (ext ++ [o']) hJ (fun _ => hfull) (by
          intro k l l' hk _ hof
          have := o5 l (List.mem_iff_getElem?.2 ⟨k, hk⟩)
          rw [hof] at this
          cases this)
        simpa using this
      · intro hroom
        exact ⟨init1, F1, F1, above1, (sfNS hroom).symm, rfl⟩
      · simp only [Unbounded.buildStep, Option.bind_eq_bind, hc1, Option.some_bind, hisfull,
          if_true, Unbounded.onFullLeaf, Store.alloc_addr, e1, hkey, if_false, o1, o2,
          Bool.not_true, Bool.false_eq_true]
      · intro _
        exact o4.chainOK.all_nonempty o6
      · refine ⟨⟨pre, a, by simp, hcov, ?_, o5⟩, init1, F1, above1, rfl, ?_⟩
        · rw [o10]; show a.id = t1.m_currentLeaf; rw [cur1]; exact hcid
        · rw [o10]
          show FatherIs b1.tree.store t1.m_currentLeaf (some F1.id)
          rw [cur1]
          have := o11 (some F1.id) (by show FatherIs t1.store t1.m_currentLeaf _; rw [cur1]; exact hfa1)
          rw [show ({ b with tree := t1 } : BuildState).tree.m_currentLeaf = t1.m_currentLeaf from rfl,
            cur1] at this
          exact this
      · intro hf; rw [o2] at hf; cases hf
      · intro _
        refine ⟨⟨ext, o', rfl, o3⟩, ?_, by omega, ?_⟩
        · intro c' hc' hc'id
          have hamem' : a ∈ pre ++ [a] ++ ext ++ [o'] := by simp
          have : c' = a := eq_of_id_eq o4.chainNodup hc' hamem' (by
            rw [hc'id, o10]; show t1.m_currentLeaf = a.id; rw [cur1]; exact hcid.symm)
          rw [this]; exact hfull
        · intro hlt' heq
          exact o9 ⟨hlt', heq⟩
  · -- there is room in the current leaf
    have hisfull : nc.isFull cap = false := by
      simp only [BPNode.isFull, BPNode.m_currentNumberOfEntries, hc2, beq_eq_false_iff_ne, ne_eq]
      omega
    have hov : b.overflow = false := by
      cases hov : b.overflow with
      | false => rfl
      | true => exact (hfull ((hovT hov).2.1 c hcmem hcid)).elim
    have hovs0 := hovF hov
    subst hovs0
    subst hchain
    obtain ⟨t2, t3, a1, a2, a3, a4, a5, a6, a7, a8⟩ := insert_spec cap data b.tree b.i cpre c
      levels hcore (by omega) (fun hf => by rw [hcov] at hf; cases hf)
    rw [hcid] at a1 a2
    refine ⟨{ b with tree := t3, i := b.i + 1 }, cpre ++ [⟨c.id, c.start, b.i + 1, c.ov⟩], levels,
      ?_, ⟨a3, by show b.i + 1 ≤ data.length; omega, ?_, [], ?_, fun _ => rfl, ?_⟩,
      by show b.i < b.i + 1; omega, fun _ => rfl, fun hE => Ext.insert hE a7 a8,
      fun hJ => IndexedFull.replace_last _ hJ, fun _ => ⟨init, F, F, above, hlevels, hlevels⟩⟩
    · simp only [Unbounded.buildStep, Option.bind_eq_bind, hc1, Option.some_bind, hisfull,
        Bool.false_eq_true, if_false, hov, Bool.not_false, if_true, a1, a2]
    · intro _
      refine a3.chainOK.all_nonempty ?_
      have := hcore.chainOK.last.1
      show c.start < b.i + 1
      have := hcore.chainOK.last.2
      obtain ⟨nd, _, _, _, g, _⟩ := this
      omega
    · refine ⟨⟨cpre, _, rfl, hcov, ?_, by simp⟩, init, F, above, hlevels, ?_⟩
      · show c.id = t3.m_currentLeaf
        rw [a5]; exact hcid
      · show FatherIs t3.store t3.m_currentLeaf (some F.id)
        rw [a5, ← hcid]
        exact a8 _ (hcid ▸ hfa)
    · intro hf
      rw [show ({ b with tree := t3, i := b.i + 1 } : BuildState).overflow = b.overflow from rfl,
        hov] at hf
      cases hf

/-- Unbounded child array: one iteration of the constructor's loop keeps the
invariant and consumes at least one input entry.  This version also carries the
coverage invariant `Ext` and records that the levels stay as they are when no
split can occur. -/
theorem buildStep_cover (cap : Nat) (data : List IndexEntry) (b : BuildState)
    (chain : List GLeaf) (levels : List (List GNode))
    (hcap : 2 ≤ cap ∨ (1 ≤ cap ∧ NoSplit cap data levels))
    (h : BuildInv cap data b chain levels) (hlt : b.i < data.length) :
    ∃ b' chain' levels', Unbounded.buildStep cap data b = some b' ∧
      BuildInv cap data b' chain' levels' ∧ b.i < b'.i ∧
      (NoSplit cap data levels → levels' = levels) ∧
      (Ext cap b.tree chain levels none → Ext cap b'.tree chain' levels' none) := by
  obtain ⟨b', chain', levels', h1, h2, h3, h4, h5, _⟩ :=
    buildStep_full cap data b chain levels hcap h hlt
  exact ⟨b', chain', levels', h1, h2, h3, h4, h5⟩

/-- Unbounded child array: one iteration of the constructor's loop keeps the
invariant and consumes at least one input entry. -/
theorem buildStep_spec (cap : Nat) (hcap : 2 ≤ cap) (data : List IndexEntry) (b : BuildState)
    (chain : List GLeaf) (levels : List (List GNode)) (h : BuildInv cap data b chain levels)
    (hlt : b.i < data.length) :
    ∃ b' chain' levels', Unbounded.buildStep cap data b = some b' ∧
      BuildInv cap data b' chain' levels' ∧ b.i < b'.i := by
  obtain ⟨b', chain', levels', h1, h2, h3, _⟩ :=
    buildStep_cover cap data b chain levels (Or.inl hcap) h hlt
  exact ⟨b', chain', levels', h1, h2, h3⟩

/-- Unbounded child array: the state in which the constructor enters its loop: the root at address 0
with the empty first leaf at address 1 as its only child. -/
theorem init_spec : ∃ b, Unbounded.init = some b ∧ b.i = 0 ∧ b.overflow = false ∧
    b.tree.m_root = 0 ∧ b.tree.m_currentLeaf = 1 ∧ b.tree.store.next = 2 ∧
    b.tree.store.node 0 = some { InnerNode.new with m_pointers := [1] } ∧
    b.tree.store.node 1 = some { (LeafNode.new 0 false) with m_fatherNode := some 0 } ∧
    (∀ a, 2 ≤ a → b.tree.store.node a = none) := by
  refine ⟨_, rfl, rfl, rfl, rfl, rfl, rfl, rfl, rfl, ?_⟩
  intro a ha
  have h0 : a ≠ 0 := by omega
  have h1 : a ≠ 1 := by omega
  simp [Store.write, Store.alloc, Store.empty, h0, h1]

theorem init_inv (cap : Nat) (data : List IndexEntry) :
    ∃ b, Unbounded.init = some b ∧
      BuildInv cap data b [⟨1, 0, 0, false⟩] [[⟨0, 0, [(1, 0)]⟩]] ∧ b.i = 0 := by
  obtain ⟨b, hb, hi, hov, hroot, hcur, hnext, hn0, hn1, hn⟩ := init_spec
  refine ⟨b, hb, ⟨?_, by omega, ?_, [], ?_, fun _ => rfl, ?_⟩, hi⟩
  · refine
      { wf := fun a ha => hn a (by omega)
        upper := ?_
        innerNodup := by simp [innerIds]
        chainOK := ?_
        chainNodup := by simp
        entries := fun j hj => by omega
        fresh := fun l hl _ => by simp at hl; subst hl; left; rfl
        dup := fun l hl hov => by simp at hl; subst hl; cases hov
        capb := fun l hl => by simp at hl; subst hl; show 0 ≤ 0 + cap; omega
        size := by simp [hnext] }
    · refine ⟨⟨by simp [leafProj], ?_⟩, _, rfl, hroot.symm, ⟨_, by rw [hroot]; exact hn0, rfl⟩⟩
      intro N hN
      simp only [List.mem_singleton] at hN
      subst hN
      exact ⟨⟨_, _, rfl, rfl⟩, by simp, _, hn0, rfl, rfl, rfl⟩
    · intro k l hk
      have hk0 : k = 0 := by
        have := (List.getElem?_eq_some_iff.1 hk).1
        simpa using this
      subst hk0
      simp only [List.getElem?_cons_zero, Option.some.injEq] at hk
      subst hk
      refine ⟨⟨_, hn1, rfl, rfl, rfl, rfl, rfl, rfl⟩, fun _ => rfl, ?_, fun _ => hi.symm⟩
      intro l' hl'
      simp at hl'
  · intro h; omega
  · refine ⟨⟨[], _, rfl, rfl, hcur.symm, by simp⟩, [], _, [], rfl, ⟨_, by rw [hcur]; exact hn1, rfl⟩⟩
  · intro h; rw [hov] at h; cases h

/-- Unbounded child array: the extra invariant holds when the constructor enters its loop. -/
theorem init_ext (cap : Nat) :
    ∃ b, Unbounded.init = some b ∧
      Ext cap b.tree [⟨1, 0, 0, false⟩] [[⟨0, 0, [(1, 0)]⟩]] none := by
  obtain ⟨b, hb, hi, hov, hroot, hcur, hnext, hn0, hn1, hn⟩ := init_spec
  refine ⟨b, hb, ?_, ?_, ?_⟩
  · intro a nd ha
    by_cases h2 : 2 ≤ a
    · rw [hn a h2] at ha
      cases ha
    · have : a = 0 ∨ a = 1 := by omega
      rcases this with rfl | rfl
      · left
        simp [innerIds]
      · right
        left
        simp
  · intro l hl hov
    simp only [List.mem_singleton] at hl
    subst hl
    cases hov
  · intro k l l' _ h2 _
    simp at h2

/-- The first inner level never splits when all keys are equal. -/
theorem noSplit_init (cap : Nat) (hcap : 1 ≤ cap) (data : List IndexEntry)
    (hconst : ∀ i, 0 < i → i < data.length → dataKey data i = dataKey data (i - 1)) :
    NoSplit cap data [[⟨0, 0, [(1, 0)]⟩]] := by
  refine ⟨?_, hconst⟩
  intro init F above h
  have h1 : init ++ [F] = [⟨0, 0, [(1, 0)]⟩] := (List.cons.inj h).1.symm
  have hlen := congrArg List.length h1
  simp only [List.length_append, List.length_singleton, List.length_nil] at hlen
  have hinit : init = [] := List.length_eq_zero.1 (by omega)
  subst hinit
  simp only [List.nil_append, List.cons.injEq, and_true] at h1
  subst h1
  simpa using hcap

/-- Unbounded child array: the loop of the constructor runs to the end of the input with the fuel it
is given, keeps the invariant, and keeps the coverage of the store; without a
split the inner levels stay as they are. -/
theorem buildLoop_cover (cap : Nat) (data : List IndexEntry) :
    ∀ (fuel : Nat) (b : BuildState) (chain : List GLeaf) (levels : List (List GNode)),
      (2 ≤ cap ∨ (1 ≤ cap ∧ NoSplit cap data levels)) →
      BuildInv cap data b chain levels → data.length - b.i ≤ fuel →
      ∃ b' chain' levels', Unbounded.buildLoop cap data fuel b = some b' ∧
        BuildInv cap data b' chain' levels' ∧ b'.i = data.length ∧
        (NoSplit cap data levels → levels' = levels) ∧
        (Ext cap b.tree chain levels none → Ext cap b'.tree chain' levels' none) := by
  intro fuel
  induction fuel with
  | zero =>
    intro b chain levels _ h hf
    have hile := h.2.1
    refine ⟨b, chain, levels, ?_, h, by omega, fun _ => rfl, id⟩
    rw [Unbounded.buildLoop, if_neg (by omega)]
  | succ fuel ih =>
    intro b chain levels hcap h hf
    have hile := h.2.1
    by_cases hlt : b.i < data.length
    · obtain ⟨b1, chain1, levels1, e1, h1, hlt1, hns1, hE1⟩ :=
        buildStep_cover cap data b chain levels hcap h hlt
      have hcap1 : 2 ≤ cap ∨ (1 ≤ cap ∧ NoSplit cap data levels1) := by
        rcases hcap with hc | hc
        · exact Or.inl hc
        · right
          rw [hns1 hc.2]
          exact hc
      obtain ⟨b', chain', levels', e2, h2, hi2, hns2, hE2⟩ :=
        ih b1 chain1 levels1 hcap1 h1 (by omega)
      refine ⟨b', chain', levels', ?_, h2, hi2, ?_, fun hE => hE2 (hE1 hE)⟩
      · rw [Unbounded.buildLoop, if_pos hlt, e1]
        exact e2
      · intro hns
        have hl1 := hns1 hns
        rw [hns2 (by rw [hl1]; exact hns), hl1]
    · refine ⟨b, chain, levels, ?_, h, by omega, fun _ => rfl, id⟩
      rw [Unbounded.buildLoop, if_neg hlt]

/-- Unbounded child array: the loop of the constructor runs to the end of the input with the fuel it
is given, and keeps the invariant. -/
theorem buildLoop_spec (cap : Nat) (hcap : 2 ≤ cap) (data : List IndexEntry) :
    ∀ (fuel : Nat) (b : BuildState) (chain : List GLeaf) (levels : List (List GNode)),
      BuildInv cap data b chain levels → data.length - b.i ≤ fuel →
      ∃ b' chain' levels', Unbounded.buildLoop cap data fuel b = some b' ∧
        BuildInv cap data b' chain' levels' ∧ b'.i = data.length := by
  intro fuel b chain levels h hf
  obtain ⟨b', chain', levels', h1, h2, h3, _⟩ :=
    buildLoop_cover cap data fuel b chain levels (Or.inl hcap) h hf
  exact ⟨b', chain', levels', h1, h2, h3⟩

/-- Unbounded child array: the constructor returns a tree described by a chain of leaves and a tower
of inner levels which together account for every node of the store; the build
cursor ends on the last indexed leaf, and without a split the root stays the
only inner node. -/
theorem build_cover (cap : Nat) (data : List IndexEntry)
    (hcap : 2 ≤ cap ∨ (1 ≤ cap ∧ NoSplit cap data [[⟨0, 0, [(1, 0)]⟩]])) :
    ∃ t chain levels, Unbounded.build cap data = some t ∧
      Core cap data t data.length chain levels ∧
      (0 < data.length → ∀ l ∈ chain, l.start < l.stop) ∧
      Ext cap t chain levels none ∧
      (NoSplit cap data [[⟨0, 0, [(1, 0)]⟩]] → levels = [[⟨0, 0, [(1, 0)]⟩]]) ∧
      ∃ ovs, Cursor t chain levels ovs := by
  obtain ⟨b0, e0, h0, hi0⟩ := init_inv cap data
  obtain ⟨b0', e0', hE0⟩ := init_ext cap
  have hb : b0' = b0 := Option.some.inj (e0'.symm.trans e0)
  subst hb
  obtain ⟨b, chain, levels, e1, h1, hi1, hns, hE⟩ :=
    buildLoop_cover cap data data.length b0' _ _ hcap h0 (by omega)
  obtain ⟨ovs, hcur, _⟩ := h1.2.2.2
  refine ⟨b.tree, chain, levels, ?_, hi1 ▸ h1.1, fun hpos => h1.2.2.1 (by omega), hE hE0, hns,
    ovs, hcur⟩
  simp only [Unbounded.build, e0, e1]

/-- Unbounded child array: the constructor returns a tree, and the tree is described by a chain of
leaves over all input positions and a tower of inner levels above the indexed
leaves. -/
theorem build_spec (cap : Nat) (hcap : 2 ≤ cap) (data : List IndexEntry) :
    ∃ t chain levels, Unbounded.build cap data = some t ∧
      Core cap data t data.length chain levels ∧
      (0 < data.length → ∀ l ∈ chain, l.start < l.stop) := by
  obtain ⟨t, chain, levels, h1, h2, h3, _⟩ := build_cover cap data (Or.inl hcap)
  exact ⟨t, chain, levels, h1, h2, h3⟩

/-! ### Geometry of the leaf chain -/

theorem ChainOK.start_le_stop {s : Store} {chain : List GLeaf} {i : Nat} (h : ChainOK s chain i)
    {l : GLeaf} (hl : l ∈ chain) : l.start ≤ l.stop := by
  obtain ⟨nd, _, _, _, h4, _⟩ := h.leaf hl
  omega

/-- Leaves further down the chain hold later input positions. -/
theorem ChainOK.ordered {s : Store} {chain : List GLeaf} {i : Nat} (h : ChainOK s chain i) :
    ∀ (d k : Nat) (l l' : GLeaf), chain[k]? = some l → chain[k + d + 1]? = some l' →
      l.stop ≤ l'.start := by
  intro d
  induction d with
  | zero =>
    intro k l l' hk hk'
    obtain ⟨_, _, h3, _⟩ := h k l hk
    exact le_of_eq (h3 l' hk').1.symm
  | succ d ih =>
    intro k l l' hk hk'
    have hlen : k + 1 < chain.length := by
      have := (List.getElem?_eq_some_iff.1 hk').1
      omega
    have hk1 : chain[k + 1]? = some chain[k + 1] := List.getElem?_eq_getElem hlen
    obtain ⟨_, _, h3, _⟩ := h k l hk
    have e1 := (h3 _ hk1).1
    have e2 := ih (k + 1) chain[k + 1] l' hk1 (by
      have : k + 1 + d + 1 = k + (d + 1) + 1 := by omega
      rw [this]; exact hk')
    have e3 := h.start_le_stop (List.mem_iff_getElem?.2 ⟨k + 1, hk1⟩)
    omega

theorem ChainOK.stop_le {s : Store} {chain : List GLeaf} {i : Nat} (h : ChainOK s chain i)
    {l : GLeaf} (hl : l ∈ chain) : l.stop ≤ i := by
  obtain ⟨k, hk⟩ := List.mem_iff_getElem?.1 hl
  have hlen := (List.getElem?_eq_some_iff.1 hk).1
  rcases Nat.lt_or_ge (k + 1) chain.length with hlt | hge
  · -- compare with the last leaf
    have hlast : chain[chain.length - 1]? = some chain[chain.length - 1] :=
      List.getElem?_eq_getElem (by omega)
    have e1 := h.ordered (chain.length - 1 - k - 1) k l _ hk (by
      have : k + (chain.length - 1 - k - 1) + 1 = chain.length - 1 := by omega
      rw [this]; exact hlast)
    obtain ⟨_, _, _, h4⟩ := h _ _ hlast
    have e2 := h4 (List.getElem?_eq_none (by omega))
    have e3 := h.start_le_stop (List.mem_iff_getElem?.2 ⟨_, hlast⟩)
    omega
  · obtain ⟨_, _, _, h4⟩ := h k l hk
    exact le_of_eq (h4 (List.getElem?_eq_none hge))

/-- Two leaves of the chain are equal or hold disjoint, ordered ranges. -/
theorem ChainOK.trichotomy {s : Store} {chain : List GLeaf} {i : Nat} (h : ChainOK s chain i)
    {x y : GLeaf} (hx : x ∈ chain) (hy : y ∈ chain) :
    x = y ∨ x.stop ≤ y.start ∨ y.stop ≤ x.start := by
  obtain ⟨k, hk⟩ := List.mem_iff_getElem?.1 hx
  obtain ⟨k', hk'⟩ := List.mem_iff_getElem?.1 hy
  rcases Nat.lt_trichotomy k k' with hlt | heq | hgt
  · right; left
    exact h.ordered (k' - k - 1) k x y hk (by
      have : k + (k' - k - 1) + 1 = k' := by omega
      rw [this]; exact hk')
  · left
    subst heq
    rw [hk] at hk'
    exact Option.some.inj hk'
  · right; right
    exact h.ordered (k - k' - 1) k' y x hk' (by
      have : k' + (k - k' - 1) + 1 = k := by omega
      rw [this]; exact hk)

/-- Every input position below `i` lies in a leaf of the chain. -/
theorem ChainOK.cover {s : Store} {chain : List GLeaf} {i : Nat} (h : ChainOK s chain i)
    (hne : chain ≠ []) : ∀ j, j < i → ∃ l ∈ chain, l.start ≤ j ∧ j < l.stop := by
  have key : ∀ (k : Nat) (l : GLeaf), chain[k]? = some l →
      ∀ j, j < l.stop → ∃ l' ∈ chain, l'.start ≤ j ∧ j < l'.stop := by
    intro k
    induction k with
    | zero =>
      intro l hk j hj
      obtain ⟨_, h2, _⟩ := h 0 l hk
      exact ⟨l, List.mem_iff_getElem?.2 ⟨0, hk⟩, by rw [h2 rfl]; omega, hj⟩
    | succ k ih =>
      intro l hk j hj
      have hlen := (List.getElem?_eq_some_iff.1 hk).1
      have hk0 : chain[k]? = some chain[k] := List.getElem?_eq_getElem (by omega)
      obtain ⟨_, _, h3, _⟩ := h k _ hk0
      have e := (h3 l hk).1
      rcases Nat.lt_or_ge j l.start with hlt | hge
      · exact ih _ hk0 j (by omega)
      · exact ⟨l, List.mem_iff_getElem?.2 ⟨k + 1, hk⟩, hge, hj⟩
  intro j hj
  have hpos : 0 < chain.length := List.length_pos.2 hne
  have hlast : chain[chain.length - 1]? = some chain[chain.length - 1] :=
    List.getElem?_eq_getElem (by omega)
  obtain ⟨_, _, _, h4⟩ := h _ _ hlast
  have e := h4 (List.getElem?_eq_none (by omega))
  exact key _ _ hlast j (by omega)

/-! ### Searching the leaves -/

theorem sorted_dataKey {data : List IndexEntry} (h : SortedByKey data) :
    ∀ i j, i ≤ j → j < data.length → dataKey data i ≤ dataKey data j := by
  intro i j hij hj
  rcases Nat.eq_or_lt_of_le hij with heq | hlt
  · rw [heq]
  · have := (List.pairwise_iff_getElem.1 h) i j (by simp; omega) (by simpa using hj) hlt
    simp only [List.getElem_map] at this
    simp only [dataKey, List.getD_eq_getElem?_getD, List.getElem?_eq_getElem hj,
      List.getElem?_eq_getElem (show i < data.length by omega), Option.getD_some]
    exact this

theorem dataKey_eq {data : List IndexEntry} {i : Nat} (h : i < data.length) :
    dataKey data i = (data[i]).m_key := by
  simp [dataKey, List.getElem?_eq_getElem h]

/-- The scan behind `binary_search_gte` stops at the first key `≥ key`. -/
theorem binary_search_gte_scan_spec (c : Int → IndexEntry) (key : Int) :
    ∀ (m : Nat) (pos : Int), ∃ r, binary_search_gte_scan c key m pos = r ∧ pos ≤ r ∧
      r ≤ pos + m ∧ (∀ j, pos ≤ j → j < r → (c j).m_key < key) ∧
      (r < pos + m → key ≤ (c r).m_key) := by
  intro m
  induction m with
  | zero =>
    intro pos
    exact ⟨pos, rfl, le_rfl, by simp, fun j h1 h2 => by omega, fun h => by simp at h⟩
  | succ m ih =>
    intro pos
    by_cases hc : (c pos).m_key ≥ key
    · refine ⟨pos, by simp [binary_search_gte_scan, hc], le_rfl, by push_cast; omega,
        fun j h1 h2 => by omega, fun _ => hc⟩
    · obtain ⟨r, h1, h2, h3, h4, h5⟩ := ih (pos + 1)
      refine ⟨r, by simp only [binary_search_gte_scan, hc, if_false]; exact h1, by omega,
        by push_cast; omega, ?_, fun h => h5 (by push_cast at h; omega)⟩
      intro j hj1 hj2
      rcases eq_or_lt_of_le hj1 with heq | hlt
      · rw [← heq]; omega
      · exact h4 j (by omega) hj2

/-- The slots of a leaf of the chain hold the input entries of its range, each
with its position as row id. -/
theorem Core.slot_eq {cap : Nat} {data : List IndexEntry} {t : BulkBPTree} {i : Nat}
    {chain : List GLeaf} {levels : List (List GNode)} (h : Core cap data t i chain levels)
    {l : GLeaf} (hl : l ∈ chain) {nd : BPNode} (hnd : t.store.node l.id = some nd)
    (j : Int) (h0 : 0 ≤ j) (hj : j < nd.m_slots) :
    LeafNode.slot t nd j = ⟨dataKey data (l.start + j.toNat), ((l.start + j.toNat : Nat) : Int)⟩ := by
  obtain ⟨nd', g1, g2, g3, g4, g5⟩ := h.chainOK.leaf hl
  rw [hnd] at g1; cases g1
  have hstop := h.chainOK.stop_le hl
  have e : ((nd.m_currentOffset : Int) + j).toNat = l.start + j.toNat := by
    rw [g3]; omega
  simp only [LeafNode.slot, e]
  exact h.entries _ (by omega)

theorem IsLowerBound.eq_of {data : List IndexEntry} {key : Int} {f p : Nat}
    (hf : IsLowerBound data key f) (hp : p < data.length) (h1 : key ≤ dataKey data p)
    (h2 : ∀ j, j < p → f ≤ j → dataKey data j < key) : f = p := by
  rcases Nat.lt_trichotomy f p with hlt | heq | hgt
  · have a := h2 f hlt le_rfl
    have b := hf.above f le_rfl (by omega)
    omega
  · exact heq
  · have a := hf.below p hgt
    omega

/-- The walk of `getGTE` along the chain, started at a leaf that does not begin
after the lower bound `f` of the key, ends with the position `f`, or with `-1`
when `f` is the end of the input. -/
theorem getGTE_walk {cap : Nat} {data : List IndexEntry} {t : BulkBPTree}
    {chain : List GLeaf} {levels : List (List GNode)}
    (h : Core cap data t data.length chain levels) (key : Int) (f : Nat)
    (hf : IsLowerBound data key f) :
    ∀ (d k : Nat) (l : GLeaf) (fuel : Nat), chain[k]? = some l → chain.length = k + d + 1 →
      d < fuel → l.start ≤ f →
      LeafNode.getGTE t key fuel l.id = some (if f < data.length then (f : Int) else -1) := by
  intro d
  induction d with
  | zero =>
    intro k l fuel hk hlen hfuel hstart
    obtain ⟨fuel, rfl⟩ : ∃ f', fuel = f' + 1 := ⟨fuel - 1, by omega⟩
    have hl : l ∈ chain := List.mem_iff_getElem?.2 ⟨k, hk⟩
    obtain ⟨⟨nd, n1, n2, n3, n4, n5, n6, n7⟩, _, _, h4⟩ := h.chainOK k l hk
    have hnone : chain[k + 1]? = none := List.getElem?_eq_none (by omega)
    rw [hnone] at n6
    have hstop := h4 hnone
    obtain ⟨r, hr, r1, r2, r3, r4⟩ := binary_search_gte_scan_spec (LeafNode.slot t nd) key
      (((nd.m_slots : Int) - 1 + 1 - 0).toNat) 0
    have hm : ((((nd.m_slots : Int) - 1 + 1 - 0).toNat : Nat) : Int) = nd.m_slots := by omega
    rw [hm] at r2 r4
    simp only [LeafNode.getGTE, n1, BPNode.m_currentNumberOfEntries, n2, binary_search_gte, hr]
    by_cases hlt : r < nd.m_slots
    · have hp : l.start + r.toNat < data.length := by omega
      have hfp : f = l.start + r.toNat := by
        refine hf.eq_of hp ?_ ?_
        · have := r4 (by omega)
          rw [h.slot_eq hl n1 r r1 hlt] at this
          exact this
        · intro j hj1 hj2
          have := r3 ((j - l.start : Nat) : Int) (by omega) (by omega)
          rw [h.slot_eq hl n1 _ (by omega) (by omega)] at this
          simp only [Int.toNat_ofNat] at this
          rw [show l.start + (j - l.start) = j by omega] at this
          exact this
      simp only [hlt, if_true, h.slot_eq hl n1 r r1 hlt, ← hfp, show f < data.length by omega]
    · have hge : data.length ≤ f := by
        by_contra hcon
        have hfl : f < data.length := by omega
        have := r3 ((f - l.start : Nat) : Int) (by omega) (by omega)
        rw [h.slot_eq hl n1 _ (by omega) (by omega)] at this
        simp only [Int.toNat_ofNat] at this
        rw [show l.start + (f - l.start) = f by omega] at this
        have := hf.above f le_rfl hfl
        omega
      simp only [hlt, if_false, n6, show ¬ f < data.length by omega, Option.map_none']
  | succ d ih =>
    intro k l fuel hk hlen hfuel hstart
    obtain ⟨fuel, rfl⟩ : ∃ f', fuel = f' + 1 := ⟨fuel - 1, by omega⟩
    have hl : l ∈ chain := List.mem_iff_getElem?.2 ⟨k, hk⟩
    obtain ⟨⟨nd, n1, n2, n3, n4, n5, n6, n7⟩, _, h3, _⟩ := h.chainOK k l hk
    have hk1 : chain[k + 1]? = some chain[k + 1] := List.getElem?_eq_getElem (by omega)
    rw [hk1] at n6
    obtain ⟨e1, e2⟩ := h3 _ hk1
    have hstop := h.chainOK.stop_le hl
    obtain ⟨r, hr, r1, r2, r3, r4⟩ := binary_search_gte_scan_spec (LeafNode.slot t nd) key
      (((nd.m_slots : Int) - 1 + 1 - 0).toNat) 0
    have hm : ((((nd.m_slots : Int) - 1 + 1 - 0).toNat : Nat) : Int) = nd.m_slots := by omega
    rw [hm] at r2 r4
    simp only [LeafNode.getGTE, n1, BPNode.m_currentNumberOfEntries, n2, binary_search_gte, hr]
    by_cases hlt : r < nd.m_slots
    · have hp : l.start + r.toNat < data.length := by omega
      have hfp : f = l.start + r.toNat := by
        refine hf.eq_of hp ?_ ?_
        · have := r4 (by omega)
          rw [h.slot_eq hl n1 r r1 hlt] at this
          exact this
        · intro j hj1 hj2
          have := r3 ((j - l.start : Nat) : Int) (by omega) (by omega)
          rw [h.slot_eq hl n1 _ (by omega) (by omega)] at this
          simp only [Int.toNat_ofNat] at this
          rw [show l.start + (j - l.start) = j by omega] at this
          exact this
      simp only [hlt, if_true, h.slot_eq hl n1 r r1 hlt, ← hfp, show f < data.length by omega]
    · have hge : l.stop ≤ f := by
        by_contra hcon
        have hfl : f < l.stop := by omega
        have := r3 ((f - l.start : Nat) : Int) (by omega) (by omega)
        rw [h.slot_eq hl n1 _ (by omega) (by omega)] at this
        simp only [Int.toNat_ofNat] at this
        rw [show l.start + (f - l.start) = f by omega] at this
        have := hf.above f le_rfl (by omega)
        omega
      simp only [hlt, if_false, n6, Option.map_some']
      exact ih (k + 1) _ fuel hk1 (by omega) (by omega) (by omega)

/-- Facts about the scan of one leaf of the chain for the key with lower bound
`f`, when the leaf does not begin after `f`: either the scan stops inside the
leaf, at the position `f`, or it runs through the leaf and `f` lies behind it. -/
theorem leaf_scan {cap : Nat} {data : List IndexEntry} {t : BulkBPTree}
    {chain : List GLeaf} {levels : List (List GNode)}
    (h : Core cap data t data.length chain levels) (key : Int) (f : Nat)
    (hf : IsLowerBound data key f) {l : GLeaf} (hl : l ∈ chain) {nd : BPNode}
    (n1 : t.store.node l.id = some nd) (hstart : l.start ≤ f) :
    ∃ r : Int, binary_search_gte (LeafNode.slot t nd) key 0 ((nd.m_slots : Int) - 1) = r ∧
      0 ≤ r ∧ r ≤ nd.m_slots ∧
      (r < nd.m_slots → f = l.start + r.toNat ∧ f < data.length) ∧
      (¬ r < nd.m_slots → l.stop ≤ f) := by
  obtain ⟨nd', g1, n2, n3, n4, n5⟩ := h.chainOK.leaf hl
  rw [n1] at g1; cases g1
  have hstop := h.chainOK.stop_le hl
  obtain ⟨r, hr, r1, r2, r3, r4⟩ := binary_search_gte_scan_spec (LeafNode.slot t nd) key
    (((nd.m_slots : Int) - 1 + 1 - 0).toNat) 0
  have hm : ((((nd.m_slots : Int) - 1 + 1 - 0).toNat : Nat) : Int) = nd.m_slots := by omega
  rw [hm] at r2 r4
  refine ⟨r, hr, r1, by omega, ?_, ?_⟩
  · intro hlt
    have hp : l.start + r.toNat < data.length := by omega
    refine ⟨hf.eq_of hp ?_ ?_, ?_⟩
    · have := r4 (by omega)
      rw [h.slot_eq hl n1 r r1 hlt] at this
      exact this
    · intro j hj1 hj2
      have := r3 ((j - l.start : Nat) : Int) (by omega) (by omega)
      rw [h.slot_eq hl n1 _ (by omega) (by omega)] at this
      simp only [Int.toNat_ofNat] at this
      rw [show l.start + (j - l.start) = j by omega] at this
      exact this
    · have : f = l.start + r.toNat := by
        refine hf.eq_of hp ?_ ?_
        · have := r4 (by omega)
          rw [h.slot_eq hl n1 r r1 hlt] at this
          exact this
        · intro j hj1 hj2
          have := r3 ((j - l.start : Nat) : Int) (by omega) (by omega)
          rw [h.slot_eq hl n1 _ (by omega) (by omega)] at this
          simp only [Int.toNat_ofNat] at this
          rw [show l.start + (j - l.start) = j by omega] at this
          exact this
      omega
  · intro hlt
    by_contra hcon
    have hfl : f < l.stop := by omega
    have := r3 ((f - l.start : Nat) : Int) (by omega) (by omega)
    rw [h.slot_eq hl n1 _ (by omega) (by omega)] at this
    simp only [Int.toNat_ofNat] at this
    rw [show l.start + (f - l.start) = f by omega] at this
    have := hf.above f le_rfl (by omega)
    omega

/-- The walk of `getLT` along the chain, started at a leaf that does not begin
after the lower bound `f` of the key, ends with the position before `f`, with
`-1` when `f` is the first position, or with `DATA_SIZE` when `f` is the end of
the input. -/
theorem getLT_walk {cap : Nat} {data : List IndexEntry} {t : BulkBPTree}
    {chain : List GLeaf} {levels : List (List GNode)} (DATA_SIZE : Int)
    (h : Core cap data t data.length chain levels) (key : Int) (f : Nat)
    (hf : IsLowerBound data key f) :
    ∀ (d k : Nat) (l : GLeaf) (fuel : Nat), chain[k]? = some l → chain.length = k + d + 1 →
      d < fuel → l.start ≤ f →
      LeafNode.getLT DATA_SIZE t key fuel l.id = some (ltAnswer DATA_SIZE data.length f) := by
  intro d
  induction d with
  | zero =>
    intro k l fuel hk hlen hfuel hstart
    obtain ⟨fuel, rfl⟩ : ∃ f', fuel = f' + 1 := ⟨fuel - 1, by omega⟩
    have hl : l ∈ chain := List.mem_iff_getElem?.2 ⟨k, hk⟩
    obtain ⟨⟨nd, n1, n2, n3, n4, n5, n6, n7⟩, h2, _, h4⟩ := h.chainOK k l hk
    have hnone : chain[k + 1]? = none := List.getElem?_eq_none (by omega)
    rw [hnone] at n6
    have hstop := h4 hnone
    obtain ⟨r, hr, r1, r2, r3, r4⟩ := leaf_scan h key f hf hl n1 hstart
    simp only [LeafNode.getLT, n1, BPNode.m_currentNumberOfEntries, n2, hr]
    by_cases hlt : r < nd.m_slots
    · obtain ⟨e1, e2⟩ := r3 hlt
      simp only [hlt, if_true]
      by_cases hpos : r > 0
      · simp only [hpos, if_true, h.slot_eq hl n1 (r - 1) (by omega) (by omega), ltAnswer, e2,
          show f ≠ 0 by omega, if_false]
        congr 1
        omega
      · have hr0 : r = 0 := by omega
        simp only [hpos, if_false, n5]
        by_cases hk0 : k = 0
        · have hf0 : f = 0 := by rw [e1, hr0, h2 hk0]; simp
          have e2' : (0 : Nat) < data.length := hf0 ▸ e2
          simp only [hk0, if_true, ltAnswer, hf0, e2']
        · have hkp : chain[k - 1]? = some chain[k - 1] := List.getElem?_eq_getElem (by omega)
          obtain ⟨⟨np, p1, p2, p3, p4, _⟩, _, p8, _⟩ := h.chainOK (k - 1) _ hkp
          have hkk : chain[k - 1 + 1]? = some l := by
            rw [show k - 1 + 1 = k by omega]; exact hk
          obtain ⟨q1, q2⟩ := p8 l hkk
          have hpm : chain[k - 1] ∈ chain := List.mem_iff_getElem?.2 ⟨_, hkp⟩
          simp only [hk0, if_false, hkp, Option.map_some', p1, p2,
            h.slot_eq hpm p1 ((np.m_slots : Int) - 1) (by omega) (by omega), ltAnswer, e2,
            show f ≠ 0 by rw [e1, hr0]; simp; omega, if_true]
          congr 1
          rw [e1, hr0]
          simp
          omega
    · have hge := r4 hlt
      simp only [hlt, if_false, n6, Option.map_none', ltAnswer, show ¬ f < data.length by omega]
  | succ d ih =>
    intro k l fuel hk hlen hfuel hstart
    obtain ⟨fuel, rfl⟩ : ∃ f', fuel = f' + 1 := ⟨fuel - 1, by omega⟩
    have hl : l ∈ chain := List.mem_iff_getElem?.2 ⟨k, hk⟩
    obtain ⟨⟨nd, n1, n2, n3, n4, n5, n6, n7⟩, h2, h3, _⟩ := h.chainOK k l hk
    have hk1 : chain[k + 1]? = some chain[k + 1] := List.getElem?_eq_getElem (by omega)
    rw [hk1] at n6
    obtain ⟨e1', e2'⟩ := h3 _ hk1
    obtain ⟨r, hr, r1, r2, r3, r4⟩ := leaf_scan h key f hf hl n1 hstart
    simp only [LeafNode.getLT, n1, BPNode.m_currentNumberOfEntries, n2, hr]
    by_cases hlt : r < nd.m_slots
    · obtain ⟨e1, e2⟩ := r3 hlt
      simp only [hlt, if_true]
      by_cases hpos : r > 0
      · simp only [hpos, if_true, h.slot_eq hl n1 (r - 1) (by omega) (by omega), ltAnswer, e2,
          show f ≠ 0 by omega, if_false]
        congr 1
        omega
      · have hr0 : r = 0 := by omega
        simp only [hpos, if_false, n5]
        by_cases hk0 : k = 0
        · have hf0 : f = 0 := by rw [e1, hr0, h2 hk0]; simp
          have e2' : (0 : Nat) < data.length := hf0 ▸ e2
          simp only [hk0, if_true, ltAnswer, hf0, e2']
        · have hkp : chain[k - 1]? = some chain[k - 1] := List.getElem?_eq_getElem (by omega)
          obtain ⟨⟨np, p1, p2, p3, p4, _⟩, _, p8, _⟩ := h.chainOK (k - 1) _ hkp
          have hkk : chain[k - 1 + 1]? = some l := by
            rw [show k - 1 + 1 = k by omega]; exact hk
          obtain ⟨q1, q2⟩ := p8 l hkk
          have hpm : chain[k - 1] ∈ chain := List.mem_iff_getElem?.2 ⟨_, hkp⟩
          simp only [hk0, if_false, hkp, Option.map_some', p1, p2,
            h.slot_eq hpm p1 ((np.m_slots : Int) - 1) (by omega) (by omega), ltAnswer, e2,
            show f ≠ 0 by rw [e1, hr0]; simp; omega, if_true]
          congr 1
          rw [e1, hr0]
          simp
          omega
    · have hge := r4 hlt
      simp only [hlt, if_false, n6, Option.map_some']
      exact ih (k + 1) _ fuel hk1 (by omega) (by omega) (by omega)

/-! ### Descent -/

theorem exists_upper_bound {data : List IndexEntry} (hs : SortedByKey data) (key : Int) :
    ∃ g, IsUpperBound data key g := by
  classical
  have hex : ∃ g, g ≤ data.length ∧ ∀ j, g ≤ j → j < data.length → key < dataKey data j :=
    ⟨data.length, le_rfl, fun j h1 h2 => by omega⟩
  refine ⟨Nat.find hex, (Nat.find_spec hex).1, ?_, (Nat.find_spec hex).2⟩
  intro j hj
  by_contra hcon
  have hlen := (Nat.find_spec hex).1
  have : Nat.find hex ≤ j := Nat.find_min' hex ⟨by omega, fun j' h1 h2 => by
    have := sorted_dataKey hs j j' h1 h2
    omega⟩
  omega

theorem kids_pairwise {cap : Nat} {data : List IndexEntry} {s : Store} {lp : List (Nat × Nat)}
    {lv : List GNode} {n : Nat} (hlv : LevelOK cap data s lp lv) (hst : StartsOK lp n) :
    (∀ N ∈ lv, N.kids.Pairwise (fun a b => a.2 < b.2)) ∧
    lv.Pairwise (fun N N' => ∀ x ∈ N.kids, ∀ y ∈ N'.kids, x.2 < y.2) := by
  have h1 := hst.1
  rw [← hlv.1, List.pairwise_flatten] at h1
  refine ⟨fun N hN => h1.1 _ (List.mem_map_of_mem _ hN), ?_⟩
  have := h1.2
  rw [List.pairwise_map] at this
  exact this

theorem mem_lp_iff {cap : Nat} {data : List IndexEntry} {s : Store} {lp : List (Nat × Nat)}
    {lv : List GNode} (hlv : LevelOK cap data s lp lv) (m : Nat × Nat) :
    m ∈ lp ↔ ∃ N ∈ lv, m ∈ N.kids := by
  rw [← hlv.1]
  simp only [List.mem_flatten, List.mem_map]
  constructor
  · rintro ⟨l, ⟨N, hN, rfl⟩, hm⟩
    exact ⟨N, hN, hm⟩
  · rintro ⟨N, hN, hm⟩
    exact ⟨_, ⟨N, hN, rfl⟩, hm⟩

theorem head_le_kids {cap : Nat} {data : List IndexEntry} {s : Store} {lp : List (Nat × Nat)}
    {lv : List GNode} {n : Nat} (hlv : LevelOK cap data s lp lv) (hst : StartsOK lp n)
    {N : GNode} (hN : N ∈ lv) {m : Nat × Nat} (hm : m ∈ N.kids) : N.start ≤ m.2 := by
  obtain ⟨⟨c0, r0, ek, es⟩, _⟩ := hlv.2 N hN
  have hp := (kids_pairwise hlv hst).1 N hN
  rw [ek] at hp hm
  rw [← es]
  rcases List.mem_cons.1 hm with rfl | hm
  · exact le_rfl
  · exact le_of_lt ((List.pairwise_cons.1 hp).1 m hm)

theorem start_mem_kids {cap : Nat} {data : List IndexEntry} {s : Store} {lp : List (Nat × Nat)}
    {lv : List GNode} (hlv : LevelOK cap data s lp lv) {N : GNode} (hN : N ∈ lv) :
    ∃ c ∈ N.kids, c.2 = N.start := by
  obtain ⟨⟨c0, r0, ek, es⟩, _⟩ := hlv.2 N hN
  exact ⟨c0, by rw [ek]; simp, es⟩

/-- The nodes of a level above well-ordered nodes are well ordered. -/
theorem proj_startsOK {cap : Nat} {data : List IndexEntry} {s : Store} {lp : List (Nat × Nat)}
    {lv : List GNode} {n : Nat} (hlv : LevelOK cap data s lp lv) (hst : StartsOK lp n) :
    StartsOK (GNode.proj lv) n := by
  constructor
  · rw [GNode.proj, List.pairwise_map]
    refine (kids_pairwise hlv hst).2.imp_of_mem ?_
    intro N N' hN hN' hlt
    obtain ⟨c, hc, ec⟩ := start_mem_kids hlv hN
    obtain ⟨c', hc', ec'⟩ := start_mem_kids hlv hN'
    show N.start < N'.start
    rw [← ec, ← ec']
    exact hlt c hc c' hc'
  · intro c hc
    obtain ⟨N, hN, rfl⟩ := List.mem_map.1 hc
    obtain ⟨c0, hc0, ec0⟩ := start_mem_kids hlv hN
    show N.start < n
    rw [← ec0]
    exact hst.2 c0 ((mem_lp_iff hlv c0).2 ⟨N, hN, hc0⟩)

/-- Any two nodes of a level have the same children, or all children of one
come before all children of the other. -/
theorem kids_trichotomy {cap : Nat} {data : List IndexEntry} {s : Store} {lp : List (Nat × Nat)}
    {lv : List GNode} {n : Nat} (hlv : LevelOK cap data s lp lv) (hst : StartsOK lp n)
    {N N' : GNode} (hN : N ∈ lv) (hN' : N' ∈ lv) :
    N.kids = N'.kids ∨ (∀ x ∈ N.kids, ∀ y ∈ N'.kids, x.2 < y.2) ∨
      (∀ x ∈ N'.kids, ∀ y ∈ N.kids, x.2 < y.2) := by
  have hp := (kids_pairwise hlv hst).2
  have hp' : lv.Pairwise (fun N N' => N.kids = N'.kids ∨
      (∀ x ∈ N.kids, ∀ y ∈ N'.kids, x.2 < y.2) ∨ (∀ x ∈ N'.kids, ∀ y ∈ N.kids, x.2 < y.2)) :=
    hp.imp (fun h => Or.inr (Or.inl h))
  refine @List.Pairwise.forall_of_forall _ _ _ ?_ ?_ hp' _ hN _ hN'
  · intro a b hab
    rcases hab with h | h | h
    · exact Or.inl h.symm
    · exact Or.inr (Or.inr h)
    · exact Or.inr (Or.inl h)
  · intro x _
    exact Or.inl rfl

theorem getElem_cons_pred {α : Type} (a : α) (l : List α) (p : Nat)
    (hp : p < (a :: l).length) (h0 : 0 < p) :
    ∃ hj : p - 1 < l.length, (a :: l)[p] = l[p - 1] := by
  cases p with
  | zero => omega
  | succ q => exact ⟨by simpa using hp, by simp⟩

theorem kids_getElem_pred {K : List (Nat × Nat)} {c0 : Nat × Nat} {r0 : List (Nat × Nat)}
    (ek : K = c0 :: r0) (p : Nat) (hp : p < K.length) (h0 : 0 < p) :
    ∃ hj : p - 1 < r0.length, K[p] = r0[p - 1] := by
  subst ek
  exact getElem_cons_pred c0 r0 p hp h0

/-- One step of the descent: from the target node of a level, `BPNode::lookup`
moves to the target node of the level below. -/
theorem descent_step {cap : Nat} {data : List IndexEntry} {s : Store} {lp : List (Nat × Nat)}
    {lv : List GNode} (hs : SortedByKey data) (key : Int) (g : Nat)
    (hg : IsUpperBound data key g) (hlv : LevelOK cap data s lp lv)
    (hst : StartsOK lp data.length) {N : GNode} (hN : N ∈ lv)
    (hT : Target (GNode.proj lv) g (N.id, N.start)) :
    ∃ c, Target lp g c ∧
      ∀ fuel, BPNode.lookup s key (fuel + 1) N.id = BPNode.lookup s key fuel c.1 := by
  obtain ⟨⟨c0, r0, ek, es⟩, hlen, nd, hnd, ety, ekeys, eptrs⟩ := hlv.2 N hN
  have hkp := (kids_pairwise hlv hst).1 N hN
  have hkidx := List.pairwise_iff_getElem.1 hkp
  have hmemN : ∀ m ∈ N.kids, m ∈ lp := fun m hm => (mem_lp_iff hlv m).2 ⟨N, hN, hm⟩
  -- the key array of the node
  have hkeyAt : ∀ j : Nat, (hj : j < r0.length) →
      nd.m_keys.getD j 0 = dataKey data (r0[j]).2 := by
    intro j hj
    rw [ekeys, ek]
    simp [List.getElem?_eq_getElem hj]
  have hr0mem : ∀ j : Nat, (hj : j < r0.length) → r0[j] ∈ N.kids := by
    intro j hj; rw [ek]; exact List.mem_cons_of_mem _ (List.getElem_mem hj)
  have hklen : nd.m_keys.length = r0.length := by rw [ekeys, ek]; simp
  have hsorted : ∀ i j : Int, 0 ≤ i → i ≤ j → j ≤ (nd.m_keys.length : Int) - 1 →
      nd.m_keys.getD i.toNat 0 ≤ nd.m_keys.getD j.toNat 0 := by
    intro i j h0 hij hj
    have hi' : i.toNat < r0.length := by omega
    have hj' : j.toNat < r0.length := by omega
    rw [hkeyAt _ hi', hkeyAt _ hj']
    refine sorted_dataKey hs _ _ ?_ (hst.2 _ (hmemN _ (hr0mem _ hj')))
    rcases Nat.eq_or_lt_of_le (show i.toNat ≤ j.toNat by omega) with heq | hlt
    · simp only [heq]; exact le_rfl
    · have := hkidx (i.toNat + 1) (j.toNat + 1) (by rw [ek]; simp; omega)
        (by rw [ek]; simp; omega) (by omega)
      simp only [ek, List.getElem_cons_succ] at this
      exact le_of_lt this
  obtain ⟨r, e1, r1, r2, rA, rB, -⟩ := binary_search_gt_pure_spec
    (fun j => nd.m_keys.getD j.toNat 0) key 0 ((nd.m_keys.length : Int) - 1) (by omega) hsorted
  have hp : r.toNat < N.kids.length := by rw [ek]; simp; omega
  refine ⟨N.kids[r.toNat], ⟨hmemN _ (List.getElem_mem hp), ?_, ?_⟩, ?_⟩
  · -- it starts before `g`, or it is the first node of the level
    rcases Nat.eq_zero_or_pos r.toNat with h0 | hpos
    · have hc0 : N.kids[r.toNat] = c0 := by simp [h0, ek]
      rw [hc0, es]
      rcases hT.2.1 with h | h
      · exact Or.inl h
      · right
        intro m hm
        obtain ⟨N', hN', hm'⟩ := (mem_lp_iff hlv m).1 hm
        have a1 := h (N'.id, N'.start) (List.mem_map_of_mem _ hN')
        have a2 := head_le_kids hlv hst hN' hm'
        exact le_trans a1 a2
    · left
      obtain ⟨hj, hc⟩ := kids_getElem_pred ek r.toNat hp hpos
      rw [hc]
      have a1 := rA ((r.toNat - 1 : Nat) : Int) (by omega) (by omega)
      simp only [Int.toNat_ofNat] at a1
      rw [hkeyAt _ hj] at a1
      by_contra hcon
      have := hg.above _ (by omega) (hst.2 _ (hmemN _ (hr0mem _ hj)))
      omega
  · -- every node that starts before `g` starts no later
    intro m hm hmg
    obtain ⟨N', hN', hm'⟩ := (mem_lp_iff hlv m).1 hm
    rcases kids_trichotomy hlv hst hN hN' with h | h | h
    · rw [← h] at hm'
      obtain ⟨q, hq, rfl⟩ := List.getElem_of_mem hm'
      rcases Nat.lt_trichotomy q r.toNat with hlt | heq | hgt
      · exact le_of_lt (hkidx q r.toNat hq hp hlt)
      · simp only [heq]; exact le_rfl
      · exfalso
        obtain ⟨hj, hc⟩ := kids_getElem_pred ek q hq (by omega)
        have a1 := rB ((q - 1 : Nat) : Int) (by omega) (by omega)
        simp only [Int.toNat_ofNat] at a1
        rw [hkeyAt _ hj, ← hc] at a1
        have := hg.below _ hmg
        omega
    · exfalso
      obtain ⟨c, hc, ec⟩ := start_mem_kids hlv hN
      obtain ⟨c', hc', ec'⟩ := start_mem_kids hlv hN'
      have a1 := h c hc c' hc'
      have a2 := head_le_kids hlv hst hN' hm'
      have a3 := hT.2.2 (N'.id, N'.start) (List.mem_map_of_mem _ hN') (by show N'.start < g; omega)
      simp only at a3
      omega
    · exact le_of_lt (h m hm' _ (List.getElem_mem hp))
  · intro fuel
    have hptr : nd.m_pointers[r.toNat]? = some (N.kids[r.toNat]).1 := by
      rw [eptrs, List.getElem?_map, List.getElem?_eq_getElem hp]
      rfl
    simp only [BPNode.lookup, hnd, ety, BPNode.m_currentNumberOfEntries, e1,
      show ¬ r < 0 by omega, if_false, BPNode.getPointer, hptr]

theorem mem_leafProj {chain : List GLeaf} {c : Nat × Nat} :
    c ∈ leafProj chain ↔ ∃ L ∈ chain, L.ov = false ∧ c = (L.id, L.start) := by
  simp only [leafProj, List.mem_map, List.mem_filter]
  constructor
  · rintro ⟨L, ⟨hL, hov⟩, rfl⟩
    exact ⟨L, hL, by simpa using hov, rfl⟩
  · rintro ⟨L, hL, hov, rfl⟩
    exact ⟨L, ⟨hL, by simp [hov]⟩, rfl⟩

/-- The indexed leaves start at strictly increasing input positions. -/
theorem leafProj_startsOK {s : Store} {chain : List GLeaf} {n : Nat} (h : ChainOK s chain n)
    (hne : ∀ l ∈ chain, l.start < l.stop) : StartsOK (leafProj chain) n := by
  constructor
  · rw [leafProj, List.pairwise_map]
    refine List.Pairwise.filter _ ?_
    rw [List.pairwise_iff_getElem]
    intro i j hi hj hij
    have h1 := h.ordered (j - i - 1) i chain[i] chain[j] (List.getElem?_eq_getElem hi)
      (by rw [show i + (j - i - 1) + 1 = j by omega]; exact List.getElem?_eq_getElem hj)
    have h2 := hne _ (List.getElem_mem hi)
    show chain[i].start < chain[j].start
    omega
  · intro c hc
    obtain ⟨L, hL, _, rfl⟩ := mem_leafProj.1 hc
    have h1 := hne L hL
    have h2 := h.stop_le hL
    show L.start < n
    omega

/-- The descent through all inner levels: from the root, `BPNode::lookup`
reaches the target node of the level below the inner levels. -/
theorem descent_levels {cap : Nat} {data : List IndexEntry} {s : Store} {root : Nat}
    (hs : SortedByKey data) (key : Int) (g : Nat) (hg : IsUpperBound data key g) :
    ∀ (levels : List (List GNode)) (lp : List (Nat × Nat)),
      Upper cap data s root lp levels → StartsOK lp data.length →
      ∃ c, Target lp g c ∧
        ∀ fuel, BPNode.lookup s key (fuel + levels.length) root = BPNode.lookup s key fuel c.1 := by
  intro levels
  induction levels with
  | nil => intro lp h; exact h.elim
  | cons lv rest ih =>
    intro lp hup hst
    cases rest with
    | nil =>
      obtain ⟨hlv, N, rfl, hroot, _⟩ := hup
      have hT : Target (GNode.proj [N]) g (N.id, N.start) := by
        refine ⟨by simp [GNode.proj], Or.inr ?_, ?_⟩
        · intro m hm
          simp only [GNode.proj, List.map_cons, List.map_nil, List.mem_singleton] at hm
          rw [hm]
        · intro m hm _
          simp only [GNode.proj, List.map_cons, List.map_nil, List.mem_singleton] at hm
          rw [hm]
      obtain ⟨c, hc, hstep⟩ := descent_step hs key g hg hlv hst (List.mem_singleton.2 rfl) hT
      refine ⟨c, hc, fun fuel => ?_⟩
      rw [← hroot]
      exact hstep fuel
    | cons lv2 rest2 =>
      obtain ⟨hlv, _, hup2⟩ := hup
      obtain ⟨c1, hc1, hgo⟩ := ih (GNode.proj lv) hup2 (proj_startsOK hlv hst)
      obtain ⟨N, hN, hNe⟩ := List.mem_map.1 hc1.1
      rw [← hNe] at hc1 hgo
      obtain ⟨c, hc, hstep⟩ := descent_step hs key g hg hlv hst hN hc1
      refine ⟨c, hc, fun fuel => ?_⟩
      have := hgo (fuel + 1)
      rw [show fuel + (lv :: lv2 :: rest2).length = fuel + 1 + (lv2 :: rest2).length by
        simp only [List.length_cons]; omega, this]
      exact hstep fuel

/-- The descent of a query: `BPNode::lookup` from the root ends at an indexed
leaf, the target leaf for the upper bound of the key. -/
theorem descent {cap : Nat} {data : List IndexEntry} {t : BulkBPTree} {chain : List GLeaf}
    {levels : List (List GNode)} (h : Core cap data t data.length chain levels)
    (hne : ∀ l ∈ chain, l.start < l.stop) (hs : SortedByKey data) (key : Int) (g : Nat)
    (hg : IsUpperBound data key g) :
    ∃ L, L ∈ chain ∧ L.ov = false ∧ Target (leafProj chain) g (L.id, L.start) ∧
      BPNode.lookup t.store key t.store.next t.m_root = some L.id := by
  obtain ⟨c, hc, hgo⟩ := descent_levels hs key g hg levels (leafProj chain) h.upper
    (leafProj_startsOK h.chainOK hne)
  obtain ⟨L, hL, hov, rfl⟩ := mem_leafProj.1 hc.1
  refine ⟨L, hL, hov, hc, ?_⟩
  have hsize := h.size
  have hpos : 0 < chain.length := List.length_pos_of_mem hL
  have := hgo (t.store.next - levels.length - 1 + 1)
  rw [show t.store.next - levels.length - 1 + 1 + levels.length = t.store.next by omega] at this
  rw [this]
  obtain ⟨nd, n1, n2, _⟩ := h.chainOK.leaf hL
  simp only [BPNode.lookup, n1, n2]

theorem lower_le_upper {data : List IndexEntry} {key : Int} {f g : Nat}
    (hf : IsLowerBound data key f) (hg : IsUpperBound data key g) : f ≤ g := by
  by_contra hcon
  have h1 := hf.below g (by omega)
  have h2 := hg.above g le_rfl (by have := hf.le; omega)
  omega

/-- The first leaf of the chain is an indexed leaf that starts at position 0. -/
theorem first_leaf {cap : Nat} {data : List IndexEntry} {t : BulkBPTree} {chain : List GLeaf}
    {levels : List (List GNode)} {n : Nat} (h : Core cap data t n chain levels)
    (hne : ∀ l ∈ chain, l.start < l.stop) {L : GLeaf} (hL : L ∈ chain) :
    ∃ l0, chain[0]? = some l0 ∧ l0.start = 0 ∧ l0.ov = false := by
  have hpos : 0 < chain.length := List.length_pos_of_mem hL
  refine ⟨chain[0], List.getElem?_eq_getElem hpos, ?_, ?_⟩
  · exact (h.chainOK 0 _ (List.getElem?_eq_getElem hpos)).2.1 rfl
  · have h0 : chain[0].start = 0 := (h.chainOK 0 _ (List.getElem?_eq_getElem hpos)).2.1 rfl
    have hm : chain[0] ∈ chain := List.getElem_mem hpos
    by_contra hov
    have hov' : chain[0].ov = true := by simpa using hov
    have := h.dup _ hm hov' 0 (by omega) (by have := hne _ hm; omega)
    omega

/-- The leaf reached by the descent does not begin after the lower bound of the
key. -/
theorem target_start_le {cap : Nat} {data : List IndexEntry} {t : BulkBPTree}
    {chain : List GLeaf} {levels : List (List GNode)}
    (h : Core cap data t data.length chain levels)
    (hne : ∀ l ∈ chain, l.start < l.stop) (hs : SortedByKey data) {key : Int} {f g : Nat}
    (hf : IsLowerBound data key f) (hg : IsUpperBound data key g)
    {L : GLeaf} (hL : L ∈ chain) (hov : L.ov = false)
    (hT : Target (leafProj chain) g (L.id, L.start)) : L.start ≤ f := by
  by_contra hcon
  have h1 := hne L hL
  have h2 := h.chainOK.stop_le hL
  rcases hT.2.1 with hlt | hmin
  · rcases h.fresh L hL hov with h0 | hfr
    · omega
    · have a1 := hg.below _ hlt
      have a2 := hf.above (L.start - 1) (by omega) (by omega)
      have a3 := sorted_dataKey hs (L.start - 1) L.start (by omega) (by omega)
      simp only at a1
      apply hfr
      omega
  · obtain ⟨l0, e0, s0, ov0⟩ := first_leaf h hne hL
    have hm : (l0.id, l0.start) ∈ leafProj chain :=
      mem_leafProj.2 ⟨l0, List.mem_iff_getElem?.2 ⟨0, e0⟩, ov0, rfl⟩
    have := hmin _ hm
    simp only at this
    omega

/-- When the key occurs in the input, its first occurrence lies in the leaf
reached by the descent. -/
theorem target_stop_gt {cap : Nat} {data : List IndexEntry} {t : BulkBPTree}
    {chain : List GLeaf} {levels : List (List GNode)}
    (h : Core cap data t data.length chain levels)
    (hne : ∀ l ∈ chain, l.start < l.stop) {key : Int} {f g : Nat}
    (hf : IsLowerBound data key f) (hg : IsUpperBound data key g)
    (hfn : f < data.length) (hkey : dataKey data f = key)
    {L : GLeaf} (hL : L ∈ chain)
    (hT : Target (leafProj chain) g (L.id, L.start)) : f < L.stop := by
  by_contra hcon
  have h1 := hne L hL
  obtain ⟨M, hM, m1, m2⟩ := h.chainOK.cover (List.ne_nil_of_mem hL) f hfn
  have hfg : f < g := by
    by_contra hc
    have := hg.above f (by omega) hfn
    omega
  cases hov : M.ov with
  | true =>
    obtain ⟨d1, d2⟩ := h.dup M hM hov f m1 m2
    have := hf.below (f - 1) (by omega)
    omega
  | false =>
    have hm : (M.id, M.start) ∈ leafProj chain := mem_leafProj.2 ⟨M, hM, hov, rfl⟩
    have a1 := hT.2.2 _ hm (by show M.start < g; omega)
    simp only at a1
    rcases h.chainOK.trichotomy hL hM with heq | hlt | hgt
    · rw [heq] at hcon; omega
    · omega
    · omega

/-! ### The queries on a built tree -/

theorem exists_lower_bound {data : List IndexEntry} (hs : SortedByKey data) (key : Int) :
    ∃ f, IsLowerBound data key f := by
  classical
  have hex : ∃ f, f ≤ data.length ∧ ∀ j, f ≤ j → j < data.length → key ≤ dataKey data j :=
    ⟨data.length, le_rfl, fun j h1 h2 => by omega⟩
  refine ⟨Nat.find hex, (Nat.find_spec hex).1, ?_, (Nat.find_spec hex).2⟩
  intro j hj
  by_contra hcon
  have hlen := (Nat.find_spec hex).1
  have : Nat.find hex ≤ j := Nat.find_min' hex ⟨by omega, fun j' h1 h2 => by
    have := sorted_dataKey hs j j' h1 h2
    omega⟩
  omega

/-- The first occurrence of a key is its lower bound. -/
theorem first_occurrence_lower {data : List IndexEntry} (hs : SortedByKey data) {key : Int}
    {f : Nat} (hf : f < data.length) (hkey : key ≤ dataKey data f)
    (hfirst : ∀ j, j < f → dataKey data j < key) : IsLowerBound data key f :=
  ⟨le_of_lt hf, hfirst, fun j h1 h2 => le_trans hkey (sorted_dataKey hs f j h1 h2)⟩

/-- In sorted input the keys before the first occurrence of a key are smaller. -/
theorem first_occurrence_below {data : List IndexEntry} (hs : SortedByKey data)
    {f : Nat} (hf : f < data.length)
    (hfirst : ∀ j, j < f → dataKey data j ≠ dataKey data f) :
    ∀ j, j < f → dataKey data j < dataKey data f := by
  intro j hj
  have := sorted_dataKey hs j f (le_of_lt hj) hf
  have := hfirst j hj
  omega

/-- The exact search of a leaf: `getRowId` returns the position of an entry of
the leaf with the key, or `-1` when the leaf holds no such entry. -/
theorem getRowId_spec {cap : Nat} {data : List IndexEntry} {t : BulkBPTree}
    {chain : List GLeaf} {levels : List (List GNode)}
    (h : Core cap data t data.length chain levels) (hs : SortedByKey data)
    {L : GLeaf} (hL : L ∈ chain) (key : Int) :
    (∃ j : Nat, L.start ≤ j ∧ j < L.stop ∧ dataKey data j = key ∧
        LeafNode.getRowId t L.id key = some (j : Int)) ∨
      ((∀ j, L.start ≤ j → j < L.stop → dataKey data j ≠ key) ∧
        LeafNode.getRowId t L.id key = some (-1)) := by
  obtain ⟨nd, n1, n2, n3, n4, n5⟩ := h.chainOK.leaf hL
  have hstop := h.chainOK.stop_le hL
  have hcnt : nd.m_currentNumberOfEntries = nd.m_slots := by
    simp [BPNode.m_currentNumberOfEntries, n2]
  have hslot : ∀ j : Int, 0 ≤ j → j < nd.m_slots →
      (LeafNode.slot t nd j).m_key = dataKey data (L.start + j.toNat) := by
    intro j h0 hj
    rw [h.slot_eq hL n1 j h0 hj]
  have hsorted : ∀ i j : Int, 0 ≤ i → i ≤ j → j ≤ (nd.m_slots : Int) - 1 →
      (LeafNode.slot t nd i).m_key ≤ (LeafNode.slot t nd j).m_key := by
    intro i j h0 hij hj
    rw [hslot i h0 (by omega), hslot j (by omega) (by omega)]
    exact sorted_dataKey hs _ _ (by omega) (by omega)
  obtain ⟨p, found, e1, hiff, ht, hf⟩ := binary_search_pure_spec
    (fun j => (LeafNode.slot t nd j).m_key) key 0 ((nd.m_slots : Int) - 1) (by omega) hsorted
  cases found with
  | true =>
    left
    obtain ⟨p0, p1, p2⟩ := ht rfl
    refine ⟨L.start + p.toNat, by omega, by omega, ?_, ?_⟩
    · rw [← hslot p p0 (by omega)]; exact p2
    · simp only [LeafNode.getRowId, n1, binary_search, hcnt, e1, if_true]
      rw [h.slot_eq hL n1 p p0 (by omega)]
  | false =>
    right
    constructor
    · intro j j1 j2 hj
      have hex : ∃ i : Int, 0 ≤ i ∧ i ≤ (nd.m_slots : Int) - 1 ∧
          (LeafNode.slot t nd i).m_key = key := by
        refine ⟨((j - L.start : Nat) : Int), by omega, by omega, ?_⟩
        rw [hslot _ (by omega) (by omega)]
        simp only [Int.toNat_ofNat]
        rw [show L.start + (j - L.start) = j by omega]
        exact hj
      have := hiff.2 hex
      cases this
    · simp only [LeafNode.getRowId, n1, binary_search, hcnt, e1]
      rfl

/-- Result of `lookup` on a tree described by the build invariant: the position
of an entry with the key that lies in the same leaf as the first occurrence of
the key, or `-1` when the key does not occur. -/
theorem lookup_spec {cap : Nat} {data : List IndexEntry} {t : BulkBPTree}
    {chain : List GLeaf} {levels : List (List GNode)}
    (h : Core cap data t data.length chain levels)
    (hne : ∀ l ∈ chain, l.start < l.stop) (hs : SortedByKey data) (key : Int) (f : Nat)
    (hf : IsLowerBound data key f) :
    (f < data.length ∧ dataKey data f = key ∧
      ∃ j : Nat, f ≤ j ∧ j < f + cap ∧ j < data.length ∧ dataKey data j = key ∧
        t.lookup key = some (j : Int)) ∨
    ((∀ j, j < data.length → dataKey data j ≠ key) ∧ t.lookup key = some (-1)) := by
  obtain ⟨g, hg⟩ := exists_upper_bound hs key
  obtain ⟨L, hL, hov, hT, hlook⟩ := descent h hne hs key g hg
  have hA := target_start_le h hne hs hf hg hL hov hT
  have hstop := h.chainOK.stop_le hL
  have hcap := h.capb L hL
  by_cases hocc : f < data.length ∧ dataKey data f = key
  · left
    have hB := target_stop_gt h hne hf hg hocc.1 hocc.2 hL hT
    refine ⟨hocc.1, hocc.2, ?_⟩
    rcases getRowId_spec h hs hL key with ⟨j, j1, j2, j3, j4⟩ | ⟨hno, _⟩
    · refine ⟨j, ?_, by omega, by omega, j3, ?_⟩
      · by_contra hcon
        have := hf.below j (by omega)
        omega
      · simp only [BulkBPTree.lookup, hlook, j4]
    · exact absurd hocc.2 (hno f hA hB)
  · right
    have hno : ∀ j, j < data.length → dataKey data j ≠ key := by
      intro j hj hjk
      apply hocc
      have hfj : f ≤ j := by
        by_contra hcon
        have := hf.below j (by omega)
        omega
      refine ⟨by omega, ?_⟩
      have a1 := hf.above f le_rfl (by omega)
      have a2 := sorted_dataKey hs f j hfj hj
      omega
    refine ⟨hno, ?_⟩
    rcases getRowId_spec h hs hL key with ⟨j, j1, j2, j3, j4⟩ | ⟨_, hr⟩
    · exact absurd j3 (hno j (by omega))
    · simp only [BulkBPTree.lookup, hlook, hr]

/-- Position of a leaf in the chain, with the number of leaves behind it. -/
theorem chain_index {chain : List GLeaf} {L : GLeaf} (hL : L ∈ chain) :
    ∃ k d, chain[k]? = some L ∧ chain.length = k + d + 1 := by
  obtain ⟨k, hk⟩ := List.mem_iff_getElem?.1 hL
  have hlt : k < chain.length := by
    by_contra hcon
    rw [List.getElem?_eq_none (by omega)] at hk
    cases hk
  exact ⟨k, chain.length - k - 1, hk, by omega⟩

/-- Result of `gte` on a tree described by the build invariant. -/
theorem gte_spec {cap : Nat} {data : List IndexEntry} {t : BulkBPTree}
    {chain : List GLeaf} {levels : List (List GNode)}
    (h : Core cap data t data.length chain levels)
    (hne : ∀ l ∈ chain, l.start < l.stop) (hs : SortedByKey data) (key : Int) (f : Nat)
    (hf : IsLowerBound data key f) :
    t.gte key = some (if f < data.length then (f : Int) else -1) := by
  obtain ⟨g, hg⟩ := exists_upper_bound hs key
  obtain ⟨L, hL, hov, hT, hlook⟩ := descent h hne hs key g hg
  have hA := target_start_le h hne hs hf hg hL hov hT
  obtain ⟨k, d, hk, hlen⟩ := chain_index hL
  have hsize := h.size
  simp only [BulkBPTree.gte, hlook]
  exact getGTE_walk h key f hf d k L t.store.next hk hlen (by omega) hA

/-- Result of `lt` on a tree described by the build invariant. -/
theorem lt_spec {cap : Nat} {data : List IndexEntry} {t : BulkBPTree}
    {chain : List GLeaf} {levels : List (List GNode)} (DATA_SIZE : Int)
    (h : Core cap data t data.length chain levels)
    (hne : ∀ l ∈ chain, l.start < l.stop) (hs : SortedByKey data) (key : Int) (f : Nat)
    (hf : IsLowerBound data key f) :
    t.lt DATA_SIZE key = some (ltAnswer DATA_SIZE data.length f) := by
  obtain ⟨g, hg⟩ := exists_upper_bound hs key
  obtain ⟨L, hL, hov, hT, hlook⟩ := descent h hne hs key g hg
  have hA := target_start_le h hne hs hf hg hL hov hT
  obtain ⟨k, d, hk, hlen⟩ := chain_index hL
  have hsize := h.size
  simp only [BulkBPTree.lt, hlook]
  exact getLT_walk DATA_SIZE h key f hf d k L t.store.next hk hlen (by omega) hA

/-- The walk along `next` from a leaf of the chain collects the input entries
from the start of the leaf on, each with its position as row id. -/
theorem chainFrom_walk {cap : Nat} {data : List IndexEntry} {t : BulkBPTree}
    {chain : List GLeaf} {levels : List (List GNode)}
    (h : Core cap data t data.length chain levels) :
    ∀ (d k : Nat) (l : GLeaf) (fuel : Nat), chain[k]? = some l → chain.length = k + d + 1 →
      d < fuel →
      t.chainFrom fuel l.id = some ((List.range' l.start (data.length - l.start)).map
        (fun j => (⟨dataKey data j, (j : Int)⟩ : IndexEntry))) := by
  have hleaf : ∀ (l : GLeaf) (nd : BPNode), l ∈ chain → t.store.node l.id = some nd →
      nd.m_nodeType = .LeafNodeType → nd.m_slots + l.start = l.stop →
      (List.range nd.m_currentNumberOfEntries).map (fun (j : Nat) => LeafNode.slot t nd (j : Int)) =
        (List.range' l.start (l.stop - l.start)).map
          (fun j => (⟨dataKey data j, (j : Int)⟩ : IndexEntry)) := by
    intro l nd hl n1 n2 n4
    have hcnt : nd.m_currentNumberOfEntries = nd.m_slots := by
      simp [BPNode.m_currentNumberOfEntries, n2]
    rw [hcnt, show l.stop - l.start = nd.m_slots by omega]
    apply List.ext_getElem
    · simp
    · intro j h1 h2
      simp only [List.length_map, List.length_range] at h1
      simp only [List.getElem_map, List.getElem_range, List.getElem_range']
      rw [h.slot_eq hl n1 (j : Int) (by omega) (by omega)]
      simp
  intro d
  induction d with
  | zero =>
    intro k l fuel hk hlen hfuel
    obtain ⟨fuel, rfl⟩ : ∃ f', fuel = f' + 1 := ⟨fuel - 1, by omega⟩
    have hl : l ∈ chain := List.mem_iff_getElem?.2 ⟨k, hk⟩
    obtain ⟨⟨nd, n1, n2, n3, n4, n5, n6, n7⟩, _, _, h4⟩ := h.chainOK k l hk
    have hnone : chain[k + 1]? = none := List.getElem?_eq_none (by omega)
    rw [hnone] at n6
    have hstop := h4 hnone
    simp only [BulkBPTree.chainFrom, n1, n6, Option.map_none']
    rw [hleaf l nd hl n1 n2 n4, hstop]
  | succ d ih =>
    intro k l fuel hk hlen hfuel
    obtain ⟨fuel, rfl⟩ : ∃ f', fuel = f' + 1 := ⟨fuel - 1, by omega⟩
    have hl : l ∈ chain := List.mem_iff_getElem?.2 ⟨k, hk⟩
    obtain ⟨⟨nd, n1, n2, n3, n4, n5, n6, n7⟩, _, h3, _⟩ := h.chainOK k l hk
    have hk1 : k + 1 < chain.length := by omega
    have hsome : chain[k + 1]? = some chain[k + 1] := List.getElem?_eq_getElem hk1
    obtain ⟨e1, e2⟩ := h3 _ hsome
    rw [hsome] at n6
    have hstop := h.chainOK.stop_le (List.getElem_mem hk1)
    have hss := h.chainOK.start_le_stop (List.getElem_mem hk1)
    have := ih (k + 1) chain[k + 1] fuel hsome (by omega) (by omega)
    simp only [BulkBPTree.chainFrom, n1, n6, Option.map_some', this]
    rw [hleaf l nd hl n1 n2 n4, ← List.map_append, e1]
    have hr : List.range' l.start (l.stop - l.start) ++
        List.range' l.stop (data.length - l.stop) =
        List.range' l.start (data.length - l.start) := by
      have := List.range'_append_1 l.start (l.stop - l.start) (data.length - l.stop)
      rw [show l.start + (l.stop - l.start) = l.stop by omega] at this
      rw [this]
      congr 1
      omega
    rw [hr]

/-! ### The program and the unbounded child array -/

/-- Inside the child array `addPointer` appends the child. -/
theorem addPointer_eq {cap : Nat} {n : BPNode} (p : Nat) (h : n.m_pointers.length < cap) :
    BPNode.addPointer cap n p = some (Unbounded.addPointer n p) := by
  simp only [BPNode.addPointer, BPNode.m_currentNumberOfNodes, h, if_true, Unbounded.addPointer]

/-- Outside the child array `addPointer` has no result. -/
theorem addPointer_none {cap : Nat} {n : BPNode} (p : Nat) (h : cap ≤ n.m_pointers.length) :
    BPNode.addPointer cap n p = none := by
  simp only [BPNode.addPointer, BPNode.m_currentNumberOfNodes, if_neg (Nat.not_lt.2 h)]

theorem modifyOpt_addPointer {cap : Nat} {s : Store} {a : Nat} {nd : BPNode} (p : Nat)
    (ha : s.node a = some nd) (h : nd.m_pointers.length < cap) :
    s.modifyOpt a (fun n => n.addPointer cap p) =
      s.modify a (fun n => Unbounded.addPointer n p) := by
  simp only [Store.modifyOpt, Store.modify, ha, addPointer_eq p h]

/-- The constructor enters its loop in the same state. -/
theorem init_eq {cap : Nat} (hcap : 1 ≤ cap) : BulkBPTree.init cap = Unbounded.init := by
  have h : (0 : Nat) < cap := hcap
  simp [BulkBPTree.init, Unbounded.init, Store.modifyOpt, Store.modify, Store.alloc, Store.empty,
    Store.write, BPNode.addPointer, BPNode.m_currentNumberOfNodes, InnerNode.new,
    Unbounded.addPointer, h]

/-- With room in the father of the current leaf there is no split. -/
theorem splitFather_eq {cap : Nat} {t : BulkBPTree}
    (h : ∀ cl f fnode, t.store.node t.m_currentLeaf = some cl → cl.m_fatherNode = some f →
      t.store.node f = some fnode → fnode.isFull cap = false) :
    BulkBPTree.splitFather cap t = Unbounded.splitFather cap t := by
  rcases hcl : t.store.node t.m_currentLeaf with _ | cl
  · simp only [BulkBPTree.splitFather, Unbounded.splitFather, Option.bind_eq_bind, hcl,
      Option.none_bind]
  · rcases hf : cl.m_fatherNode with _ | f
    · simp only [BulkBPTree.splitFather, Unbounded.splitFather, Option.bind_eq_bind, hcl,
        Option.some_bind, hf, Option.none_bind]
    · rcases hfn : t.store.node f with _ | fnode
      · simp only [BulkBPTree.splitFather, Unbounded.splitFather, Option.bind_eq_bind, hcl,
          Option.some_bind, hf, hfn, Option.none_bind]
      · simp only [BulkBPTree.splitFather, Unbounded.splitFather, Option.bind_eq_bind, hcl,
          Option.some_bind, hf, hfn, h cl f fnode hcl hf hfn, Bool.false_eq_true, if_false]

/-- With a free slot in the child array of the father the new leaf is linked
in the same way. -/
theorem linkLeaf_eq {cap : Nat} {data : List IndexEntry} {b : BuildState} {newLeaf : Nat}
    (h : ∀ cl f fnode, b.tree.store.node b.tree.m_currentLeaf = some cl →
      cl.m_fatherNode = some f → b.tree.store.node f = some fnode →
      fnode.m_pointers.length < cap) :
    BulkBPTree.linkLeaf cap data b newLeaf = Unbounded.linkLeaf cap data b newLeaf := by
  simp only [BulkBPTree.linkLeaf, Unbounded.linkLeaf, Option.bind_eq_bind]
  cases hcl : b.tree.store.node b.tree.m_currentLeaf with
  | none => rfl
  | some cl =>
    simp only [Option.some_bind]
    cases hf : cl.m_fatherNode with
    | none => rfl
    | some f =>
      simp only [Option.some_bind]
      cases hfn : b.tree.store.node f with
      | none => simp [Store.modify, hfn]
      | some fnode =>
        have hlen := h cl f fnode hcl hf hfn
        have hm : b.tree.store.modify f (fun n => n.addKey cap (dataKey data b.i)) =
            some (b.tree.store.write f (fnode.addKey cap (dataKey data b.i))) := by
          simp [Store.modify, hfn]
        rw [hm]
        simp only [Option.some_bind]
        have hnode : (b.tree.store.write f (fnode.addKey cap (dataKey data b.i))).node f =
            some (fnode.addKey cap (dataKey data b.i)) := by simp [Store.write]
        have hlen' : (fnode.addKey cap (dataKey data b.i)).m_pointers.length < cap := by
          simp only [BPNode.addKey]
          split <;> exact hlen
        rw [modifyOpt_addPointer newLeaf hnode hlen']

/-- With room in the father of the current leaf `splitFather` returns the tree
it is given. -/
theorem splitFather_room {cap : Nat} {t t' : BulkBPTree}
    (h : ∀ cl f fnode, t.store.node t.m_currentLeaf = some cl → cl.m_fatherNode = some f →
      t.store.node f = some fnode → fnode.isFull cap = false)
    (e : Unbounded.splitFather cap t = some t') : t' = t := by
  simp only [Unbounded.splitFather, Option.bind_eq_bind] at e
  cases hcl : t.store.node t.m_currentLeaf with
  | none => rw [hcl] at e; cases e
  | some cl =>
    rw [hcl] at e
    simp only [Option.some_bind] at e
    cases hf : cl.m_fatherNode with
    | none => rw [hf] at e; cases e
    | some f =>
      rw [hf] at e
      simp only [Option.some_bind] at e
      cases hfn : t.store.node f with
      | none => rw [hfn] at e; cases e
      | some fnode =>
        rw [hfn] at e
        simp only [Option.some_bind, h cl f fnode hcl hf hfn, Bool.false_eq_true, if_false] at e
        exact (Option.some.inj e).symm

/-- The part of the loop body run on a full leaf gives the same result when the
father of the current leaf has room for a key and, where a leaf is linked, a
free slot in its child array. -/
theorem onFullLeaf_eq {cap : Nat} {data : List IndexEntry} {b : BuildState}
    (h : ∀ cl f fnode,
      (b.tree.store.alloc (LeafNode.new b.i false)).1.node b.tree.m_currentLeaf = some cl →
      cl.m_fatherNode = some f →
      (b.tree.store.alloc (LeafNode.new b.i false)).1.node f = some fnode →
      fnode.isFull cap = false ∧
        (dataKey data b.i ≠ prevKey data b.i → fnode.m_pointers.length < cap)) :
    BulkBPTree.onFullLeaf cap data b = Unbounded.onFullLeaf cap data b := by
  have h1 : ∀ cl f fnode,
      ({ b.tree with store := (b.tree.store.alloc (LeafNode.new b.i false)).1 } :
        BulkBPTree).store.node b.tree.m_currentLeaf = some cl → cl.m_fatherNode = some f →
      ({ b.tree with store := (b.tree.store.alloc (LeafNode.new b.i false)).1 } :
        BulkBPTree).store.node f = some fnode → fnode.isFull cap = false :=
    fun cl f fnode a1 a2 a3 => (h cl f fnode a1 a2 a3).1
  have hsf := @splitFather_eq cap
    { b.tree with store := (b.tree.store.alloc (LeafNode.new b.i false)).1 } h1
  show (match BulkBPTree.splitFather cap
      { b.tree with store := (b.tree.store.alloc (LeafNode.new b.i false)).1 } with
    | none => none
    | some t =>
      if dataKey data b.i ≠ prevKey data b.i then
        BulkBPTree.linkLeaf cap data { b with tree := t }
          (b.tree.store.alloc (LeafNode.new b.i false)).2
      else
        BulkBPTree.startOverflow cap data { b with tree := t }
          (b.tree.store.alloc (LeafNode.new b.i false)).2) =
    (match Unbounded.splitFather cap
      { b.tree with store := (b.tree.store.alloc (LeafNode.new b.i false)).1 } with
    | none => none
    | some t =>
      if dataKey data b.i ≠ prevKey data b.i then
        Unbounded.linkLeaf cap data { b with tree := t }
          (b.tree.store.alloc (LeafNode.new b.i false)).2
      else
        BulkBPTree.startOverflow cap data { b with tree := t }
          (b.tree.store.alloc (LeafNode.new b.i false)).2)
  rw [hsf]
  cases e : Unbounded.splitFather cap
      { b.tree with store := (b.tree.store.alloc (LeafNode.new b.i false)).1 } with
  | none => rfl
  | some t =>
    have ht := splitFather_room h1 e
    subst ht
    by_cases hkey : dataKey data b.i ≠ prevKey data b.i
    · dsimp only
      rw [if_pos hkey, if_pos hkey]
      exact @linkLeaf_eq cap data
        { b with tree :=
          { b.tree with store := (b.tree.store.alloc (LeafNode.new b.i false)).1 } } _
        (fun cl f fnode a1 a2 a3 => (h cl f fnode a1 a2 a3).2 hkey)
    · dsimp only
      rw [if_neg hkey, if_neg hkey]

/-- One iteration of the constructor's loop gives the same result when, on a
full current leaf, the father of that leaf has room for a key and, where a leaf
is linked, a free slot in its child array. -/
theorem buildStep_eq {cap : Nat} {data : List IndexEntry} {b : BuildState}
    (h : ∀ cl0, b.tree.store.node b.tree.m_currentLeaf = some cl0 → cl0.isFull cap = true →
      ∀ cl f fnode,
      (b.tree.store.alloc (LeafNode.new b.i false)).1.node b.tree.m_currentLeaf = some cl →
      cl.m_fatherNode = some f →
      (b.tree.store.alloc (LeafNode.new b.i false)).1.node f = some fnode →
      fnode.isFull cap = false ∧
        (dataKey data b.i ≠ prevKey data b.i → fnode.m_pointers.length < cap)) :
    BulkBPTree.buildStep cap data b = Unbounded.buildStep cap data b := by
  simp only [BulkBPTree.buildStep, Unbounded.buildStep, Option.bind_eq_bind]
  cases hcl : b.tree.store.node b.tree.m_currentLeaf with
  | none => rfl
  | some cl0 =>
    simp only [Option.some_bind]
    cases hf : cl0.isFull cap with
    | false => rfl
    | true => rw [onFullLeaf_eq (h cl0 hcl hf)]

/-- An input of at most `cap * cap` entries keeps the build inside the child
array. -/
theorem inBounds_of_length {cap : Nat} {data : List IndexEntry}
    (h : data.length ≤ cap * cap) : InBounds cap data := by
  intro i h1 h2
  omega

/-- An input whose keys are all equal keeps the build inside the child array. -/
theorem inBounds_of_const {cap : Nat} {data : List IndexEntry}
    (h : ∀ i, i < data.length → dataKey data i = dataKey data 0) : InBounds cap data := by
  intro i _ h2
  rw [h i h2, h (i - 1) (by omega)]

/-- The full indexed leaves among the first `k` leaves of the chain lie before
the leaf at index `k`. -/
theorem indexed_count {s : Store} {chain : List GLeaf} {n cap : Nat} (h : ChainOK s chain n) :
    ∀ k, k ≤ chain.length →
      (∀ j l, j < k → chain[j]? = some l → l.ov = false → l.stop = l.start + cap) →
      (leafProj (chain.take k)).length * cap ≤
        (match chain[k]? with
          | some l => l.start
          | none => n) := by
  intro k
  induction k with
  | zero =>
    intro _ _
    simp [leafProj]
  | succ k ih =>
    intro hk hfull
    have hklt : k < chain.length := by omega
    have hkk : chain[k]? = some chain[k] := List.getElem?_eq_getElem hklt
    have ih' := ih (by omega) (fun j l hj => hfull j l (by omega))
    rw [hkk] at ih'
    simp only at ih'
    obtain ⟨⟨nd, _, _, _, n4, _⟩, _, h3, h4⟩ := h k _ hkk
    have hb : (match chain[k + 1]? with
          | some l => l.start
          | none => n) = (chain[k]).stop := by
      cases hk1 : chain[k + 1]? with
      | none => exact (h4 hk1).symm
      | some l' => exact (h3 l' hk1).1
    rw [hb, List.take_succ, hkk]
    simp only [Option.toList_some, leafProj_append, List.length_append]
    cases hov : (chain[k]).ov with
    | true =>
      have : leafProj [chain[k]] = [] := by simp [leafProj, hov]
      rw [this]
      simp only [List.length_nil, Nat.add_zero]
      omega
    | false =>
      have : leafProj [chain[k]] = [((chain[k]).id, (chain[k]).start)] := by
        simp [leafProj, hov]
      rw [this, hfull k _ (by omega) hkk hov]
      simp only [List.length_singleton, Nat.add_mul, Nat.one_mul]
      omega

/-- With a single inner level the children of the root are the indexed leaves. -/
theorem root_kids {cap : Nat} {data : List IndexEntry} {t : BulkBPTree} {i : Nat}
    {chain : List GLeaf} {R : GNode} (h : Core cap data t i chain [[R]]) :
    R.kids = leafProj chain ∧
    ∃ nd, t.store.node R.id = some nd ∧ nd.m_nodeType = .InnerNodeType ∧
      nd.m_keys.length + 1 = R.kids.length ∧ nd.m_pointers.length = R.kids.length := by
  have hlo : LevelOK cap data t.store (leafProj chain) [R] := h.upper.levelOK
  have hk : R.kids = leafProj chain := by
    have := hlo.1
    simpa using this
  obtain ⟨⟨c, rest, ek, _⟩, _, nd, n1, n2, n3, n4⟩ := hlo.2 R (List.mem_singleton_self _)
  refine ⟨hk, nd, n1, n2, ?_, ?_⟩
  · rw [n3, ek]
    simp
  · rw [n4]
    simp

/-- The number of indexed leaves is at most the capacity as long as the input
keeps the build inside the child array. -/
theorem indexed_le_cap {cap : Nat} {data : List IndexEntry} {b : BuildState}
    {chain : List GLeaf} {levels : List (List GNode)} (hcap : 1 ≤ cap)
    (hin : InBounds cap data) (h : BuildInv cap data b chain levels)
    (hJ : IndexedFull cap chain) : (leafProj chain).length ≤ cap := by
  obtain ⟨hcore, hile, hnon, ovs, ⟨⟨cpre, c, hchain, hcov, hcid, hovs⟩, _⟩, _, _⟩ := h
  have hcmem : c ∈ chain := by rw [hchain]; simp
  have hck : chain[cpre.length]? = some c := by
    rw [hchain, List.getElem?_append_right (Nat.le_refl _), Nat.sub_self,
      List.getElem?_cons_zero]
  have hcnt := @indexed_count _ _ _ cap hcore.chainOK cpre.length
    (by rw [hchain]; simp) (by
      intro j l hj hjl hov
      have hlt : j + 1 < chain.length := by rw [hchain]; simp; omega
      exact hJ j l _ hjl (List.getElem?_eq_getElem hlt) hov)
  rw [hck] at hcnt
  simp only at hcnt
  have htake : chain.take cpre.length = cpre := by rw [hchain]; simp
  rw [htake] at hcnt
  have hL : (leafProj chain).length = (leafProj cpre).length + 1 := by
    rw [hchain, show cpre ++ c :: ovs = cpre ++ ([c] ++ ovs) by simp, leafProj_append,
      leafProj_append]
    have h1 : leafProj [c] = [(c.id, c.start)] := by simp [leafProj, hcov]
    have h2 : leafProj ovs = [] := by
      simp only [leafProj, List.map_eq_nil_iff, List.filter_eq_nil_iff]
      intro o ho
      simp [hovs o ho]
    rw [h1, h2]
    simp
  rw [hL]
  rcases hcore.fresh c hcmem hcov with h0 | hne
  · rw [h0] at hcnt
    have : (leafProj cpre).length = 0 := by
      rcases Nat.eq_zero_or_pos (leafProj cpre).length with hz | hp
      · exact hz
      · have := Nat.mul_le_mul hp hcap
        omega
    omega
  · have hpos : 0 < c.start := by
      rcases Nat.eq_zero_or_pos c.start with hz | hp
      · exfalso
        apply hne
        rw [hz]
      · exact hp
    have hstop := hcore.chainOK.stop_le hcmem
    have hi : 0 < b.i := by
      have := hcore.chainOK.start_le_stop hcmem
      omega
    have hlt := hnon hi c hcmem
    have hsmall : c.start < cap * cap := by
      by_contra hge
      exact hne (hin c.start (by omega) (by omega))
    have : (leafProj cpre).length < cap := by
      by_contra hge
      have := Nat.mul_le_mul_right cap (Nat.le_of_not_lt hge)
      omega
    omega

/-- When a leaf is linked, the root has a free slot in its child array. -/
theorem indexed_lt_cap {cap : Nat} {data : List IndexEntry} {b : BuildState}
    {chain : List GLeaf} {levels : List (List GNode)}
    (hin : InBounds cap data) (h : BuildInv cap data b chain levels)
    (hJ : IndexedFull cap chain) (hlt : b.i < data.length)
    (hfull : ∀ c ∈ chain, c.id = b.tree.m_currentLeaf → c.stop = c.start + cap)
    (hpos : 0 < b.i) (hkey : dataKey data b.i ≠ prevKey data b.i) :
    (leafProj chain).length < cap := by
  obtain ⟨hcore, hile, hnon, ovs, ⟨⟨cpre, c, hchain, hcov, hcid, hovs⟩, _⟩, _, _⟩ := h
  have hcmem : c ∈ chain := by rw [hchain]; simp
  have hlen : chain.length = cpre.length + ovs.length + 1 := by
    rw [hchain]
    simp
    omega
  have hcnt := @indexed_count _ _ _ cap hcore.chainOK chain.length (Nat.le_refl _) (by
    intro j l hj hjl hov
    rcases Nat.lt_trichotomy j cpre.length with hlt1 | heq | hgt
    · have hlt2 : j + 1 < chain.length := by omega
      exact hJ j l _ hjl (List.getElem?_eq_getElem hlt2) hov
    · have hlc : l = c := by
        rw [heq, hchain, List.getElem?_append_right (Nat.le_refl _), Nat.sub_self,
          List.getElem?_cons_zero] at hjl
        exact (Option.some.inj hjl).symm
      rw [hlc]
      exact hfull c hcmem hcid
    · exfalso
      rw [hchain, List.getElem?_append_right (by omega)] at hjl
      obtain ⟨m, hm⟩ : ∃ m, j - cpre.length = m + 1 := ⟨j - cpre.length - 1, by omega⟩
      rw [hm, List.getElem?_cons_succ] at hjl
      have := hovs l (List.mem_iff_getElem?.2 ⟨m, hjl⟩)
      rw [hov] at this
      cases this)
  rw [List.getElem?_eq_none (Nat.le_refl _), List.take_length] at hcnt
  simp only at hcnt
  rw [prevKey_pos data b.i hpos] at hkey
  have hsmall : b.i < cap * cap := by
    by_contra hge
    exact hkey (hin b.i (by omega) hlt)
  by_contra hge
  have := Nat.mul_le_mul_right cap (Nat.le_of_not_lt hge)
  omega

theorem single_level {R F : GNode} {init : List GNode} {above : List (List GNode)}
    (h : [[R]] = (init ++ [F]) :: above) : init = [] ∧ F = R ∧ above = [] := by
  obtain ⟨h1, h2⟩ := List.cons.inj h
  have hlen := congrArg List.length h1
  simp only [List.length_singleton, List.length_append] at hlen
  have hinit : init = [] := List.length_eq_zero.1 (by omega)
  subst hinit
  simp only [List.nil_append, List.cons.injEq, and_true] at h1
  exact ⟨rfl, h1.symm, h2.symm⟩

/-- With capacity 1 an input that keeps the build inside the child array has
all keys equal. -/
theorem inBounds_one {data : List IndexEntry} (hin : InBounds 1 data) :
    ∀ i, 0 < i → i < data.length → dataKey data i = dataKey data (i - 1) :=
  fun i h1 h2 => hin i (by omega) h2

/-- One iteration of the constructor's loop, for an input that keeps the build
inside the child array: the program has a result, the tree keeps a single inner
node and the invariant. -/
theorem buildStep_in_bounds (cap : Nat) (data : List IndexEntry) (b : BuildState)
    (chain : List GLeaf) (R : GNode) (hcap : 1 ≤ cap) (hin : InBounds cap data)
    (h : BuildInv cap data b chain [[R]]) (hJ : IndexedFull cap chain)
    (hlt : b.i < data.length) :
    ∃ b' chain' R', BulkBPTree.buildStep cap data b = some b' ∧
      BuildInv cap data b' chain' [[R']] ∧ b.i < b'.i ∧ IndexedFull cap chain' ∧
      (NoSplit cap data [[R]] → R' = R) ∧
      (Ext cap b.tree chain [[R]] none → Ext cap b'.tree chain' [[R']] none) := by
  have hL := indexed_le_cap hcap hin h hJ
  obtain ⟨hkids, nd, n1, n2, n3, n4⟩ := root_kids h.1
  have hroom : ∀ init F above, [[R]] = (init ++ [F]) :: above → F.kids.length ≤ cap := by
    intro init F above he
    obtain ⟨_, hF, _⟩ := single_level he
    rw [hF, hkids]
    exact hL
  have hcap' : 2 ≤ cap ∨ (1 ≤ cap ∧ NoSplit cap data [[R]]) := by
    rcases Nat.lt_or_ge cap 2 with h1 | h2
    · right
      have hc1 : cap = 1 := by omega
      subst hc1
      exact ⟨hcap, hroom, inBounds_one hin⟩
    · exact Or.inl h2
  -- the program takes the same step
  have heq : BulkBPTree.buildStep cap data b = Unbounded.buildStep cap data b := by
    apply buildStep_eq
    intro cl0 hcl0 hfull0 cl f fnode a1 a2 a3
    obtain ⟨hcore, hile, hnon, ovs, ⟨⟨cpre, c, hchain, hcov, hcid, hovs⟩, init, F, above,
      hlevels, cl1, hcl1, hfa1⟩, _, _⟩ := id h
    obtain ⟨_, hF, _⟩ := single_level hlevels
    subst hF
    have hcurlt : b.tree.m_currentLeaf < b.tree.store.next := hcore.wf.lt hcl1
    have hRlt : F.id < b.tree.store.next := hcore.wf.lt n1
    have hframe : ∀ a, a < b.tree.store.next →
        (b.tree.store.alloc (LeafNode.new b.i false)).1.node a = b.tree.store.node a := by
      intro a ha
      simp [Nat.ne_of_lt ha]
    rw [hframe _ hcurlt, hcl1] at a1
    cases a1
    rw [hfa1] at a2
    cases a2
    rw [hframe _ hRlt, n1] at a3
    cases a3
    have hcmem : c ∈ chain := by rw [hchain]; simp
    refine ⟨?_, ?_⟩
    · simp only [BPNode.isFull, BPNode.m_currentNumberOfEntries, n2, beq_eq_false_iff_ne, ne_eq]
      rw [hkids] at n3
      omega
    · intro hkey
      rw [n4, hkids]
      have hfull : ∀ c' ∈ chain, c'.id = b.tree.m_currentLeaf → c'.stop = c'.start + cap := by
        intro c' hc' hid
        obtain ⟨nc, g1, g2, _, g4, _⟩ := hcore.chainOK.leaf hc'
        rw [hid, hcl0] at g1
        cases g1
        simp only [BPNode.isFull, BPNode.m_currentNumberOfEntries, g2, beq_iff_eq] at hfull0
        omega
      have hpos : 0 < b.i := by
        have h1 := hfull c hcmem hcid
        have h2 := hcore.chainOK.stop_le hcmem
        omega
      exact indexed_lt_cap hin h hJ hlt hfull hpos hkey
  obtain ⟨b', chain', levels', e1, inv1, hlt1, hns, hE, hJ1, hB⟩ :=
    buildStep_full cap data b chain [[R]] hcap' h hlt
  obtain ⟨init, F, F', above, he, he'⟩ := hB hroom
  obtain ⟨hinit, hF, habove⟩ := single_level he
  subst hinit habove
  simp only [List.nil_append] at he'
  subst he'
  refine ⟨b', chain', F', by rw [heq]; exact e1, inv1, hlt1, hJ1 hJ, ?_, hE⟩
  intro hn
  have := hns hn
  simpa using this

/-- The loop of the constructor, for an input that keeps the build inside the
child array: the program runs to the end of the input with the fuel it is
given. -/
theorem buildLoop_in_bounds (cap : Nat) (data : List IndexEntry) (hcap : 1 ≤ cap)
    (hin : InBounds cap data) :
    ∀ (fuel : Nat) (b : BuildState) (chain : List GLeaf) (R : GNode),
      BuildInv cap data b chain [[R]] → IndexedFull cap chain → data.length - b.i ≤ fuel →
      ∃ b' chain' R', BulkBPTree.buildLoop cap data fuel b = some b' ∧
        BuildInv cap data b' chain' [[R']] ∧ b'.i = data.length ∧ IndexedFull cap chain' ∧
        (NoSplit cap data [[R]] → R' = R) ∧
        (Ext cap b.tree chain [[R]] none → Ext cap b'.tree chain' [[R']] none) := by
  intro fuel
  induction fuel with
  | zero =>
    intro b chain R h hJ hf
    have hile := h.2.1
    refine ⟨b, chain, R, ?_, h, by omega, hJ, fun _ => rfl, id⟩
    rw [BulkBPTree.buildLoop, if_neg (by omega)]
  | succ fuel ih =>
    intro b chain R h hJ hf
    have hile := h.2.1
    by_cases hlt : b.i < data.length
    · obtain ⟨b1, chain1, R1, e1, h1, hlt1, hJ1, hns1, hE1⟩ :=
        buildStep_in_bounds cap data b chain R hcap hin h hJ hlt
      obtain ⟨b', chain', R', e2, h2, hi2, hJ2, hns2, hE2⟩ :=
        ih b1 chain1 R1 h1 hJ1 (by omega)
      refine ⟨b', chain', R', ?_, h2, hi2, hJ2, ?_, fun hE => hE2 (hE1 hE)⟩
      · rw [BulkBPTree.buildLoop, if_pos hlt, e1]
        exact e2
      · intro hns
        have hR1 := hns1 hns
        subst hR1
        exact hns2 hns
    · refine ⟨b, chain, R, ?_, h, by omega, hJ, fun _ => rfl, id⟩
      rw [BulkBPTree.buildLoop, if_neg hlt]

/-- The constructor returns a tree for every input that keeps the build inside
the child array of the root.  The tree has the root as its only inner node and
is described by a chain of leaves over all input positions, which accounts for
every leaf of the store. -/
theorem build_in_bounds (cap : Nat) (data : List IndexEntry) (hcap : 1 ≤ cap)
    (hin : InBounds cap data) :
    ∃ t chain levels, BulkBPTree.build cap data = some t ∧
      Core cap data t data.length chain levels ∧
      (0 < data.length → ∀ l ∈ chain, l.start < l.stop) ∧
      Ext cap t chain levels none ∧
      (NoSplit cap data [[⟨0, 0, [(1, 0)]⟩]] → levels = [[⟨0, 0, [(1, 0)]⟩]]) ∧
      (∃ ovs, Cursor t chain levels ovs) ∧
      (∃ R, levels = [[R]]) ∧ IndexedFull cap chain ∧ (leafProj chain).length ≤ cap := by
  obtain ⟨b0, e0, h0, hi0⟩ := init_inv cap data
  obtain ⟨b0', e0', hE0⟩ := init_ext cap
  have hb : b0' = b0 := Option.some.inj (e0'.symm.trans e0)
  subst hb
  have hJ0 : IndexedFull cap [(⟨1, 0, 0, false⟩ : GLeaf)] := by
    intro k l l' _ hk1 _
    simp at hk1
  obtain ⟨b, chain, R, e1, h1, hi1, hJ, hns, hE⟩ :=
    buildLoop_in_bounds cap data hcap hin data.length b0' _ _ h0 hJ0 (by omega)
  obtain ⟨ovs, hcur, _⟩ := h1.2.2.2
  refine ⟨b.tree, chain, [[R]], ?_, hi1 ▸ h1.1, fun hpos => h1.2.2.1 (by omega), hE hE0, ?_,
    ⟨ovs, hcur⟩, ⟨R, rfl⟩, hJ, indexed_le_cap hcap hin h1 hJ⟩
  · simp only [BulkBPTree.build, init_eq hcap, e0, e1]
  · intro hn
    rw [hns hn]

/-! ### Split inside the child arrays -/

/-- The first loop of `split` moves the children in the same way as long as the
new node has room for them in its child array. -/
theorem splitMovePointers_eq (cap l cur new : Nat) (hne : cur ≠ new) :
    ∀ (fuel : Nat) (s : Store) (cn nn : BPNode), s.node cur = some cn → s.node new = some nn →
      nn.m_pointers.length + (cn.m_pointers.length - (l + 1)) ≤ cap →
      BPNode.splitMovePointers cap l cur new fuel s =
        Unbounded.splitMovePointers l cur new fuel s := by
  intro fuel
  induction fuel with
  | zero =>
    intro s cn nn _ _ _
    simp only [BPNode.splitMovePointers, Unbounded.splitMovePointers]
  | succ fuel ih =>
    intro s cn nn hc hn hlen
    by_cases hgt : cn.m_pointers.length > l + 1
    · have hp : cn.m_pointers[l + 1]? = some (cn.m_pointers[l + 1]) :=
        List.getElem?_eq_getElem hgt
      let s1 := s.write new (Unbounded.addPointer nn cn.m_pointers[l + 1])
      let cn1 : BPNode := { cn with m_pointers := cn.m_pointers.eraseIdx (l + 1) }
      let s2 := s1.write cur cn1
      have hc1 : s1.node cur = some cn := by simp [s1, hne, hc]
      have hc2 : s2.node cur = some cn1 := by simp [s2]
      have hn2 : s2.node new = some (Unbounded.addPointer nn cn.m_pointers[l + 1]) := by
        simp [s2, s1, Ne.symm hne]
      have hlen1 : (Unbounded.addPointer nn cn.m_pointers[l + 1]).m_pointers.length +
          (cn1.m_pointers.length - (l + 1)) ≤ cap := by
        simp only [cn1, Unbounded.addPointer, List.length_append, List.length_singleton,
          List.length_eraseIdx, hgt, if_true]
        omega
      have hrec := ih s2 cn1 _ hc2 hn2 hlen1
      have hopt : s.modifyOpt new (fun n => n.addPointer cap cn.m_pointers[l + 1]) =
          s.modify new (fun n => Unbounded.addPointer n cn.m_pointers[l + 1]) :=
        modifyOpt_addPointer _ hn (by omega)
      simp only [BPNode.splitMovePointers, Unbounded.splitMovePointers, hc,
        BPNode.m_currentNumberOfNodes, hgt, if_true, BPNode.getPointer, hp, hopt,
        Store.modify_eq s new _ nn hn]
      have : (s.write new (Unbounded.addPointer nn cn.m_pointers[l + 1])).node cur = some cn :=
        hc1
      simp only [this, BPNode.removePointer, show cn.m_pointers.length > 0 by omega,
        show l + 1 < cn.m_pointers.length by omega, if_true]
      exact hrec
    · simp [BPNode.splitMovePointers, Unbounded.splitMovePointers, hc,
        BPNode.m_currentNumberOfNodes, hgt]

/-- The second half of `split` has the same effect when the father has a free
slot in its child array and the new node has room for the children it
receives. -/
theorem splitRest_eq (cap : Nat) (hcap : 2 ≤ cap) (s : Store) (cur new fa : Nat)
    (cn nn fn : BPNode) (h1 : cur ≠ new) (h2 : cur ≠ fa) (h3 : new ≠ fa)
    (hc : s.node cur = some cn) (hn : s.node new = some nn) (hf : s.node fa = some fn)
    (hK : cn.m_keys.length = cap) (hfk : fn.m_keys.length < cap)
    (hfp : fn.m_pointers.length < cap)
    (hnp : nn.m_pointers.length + (cn.m_pointers.length - (BPNode.leftSize cap + 1)) ≤ cap) :
    BPNode.splitRest cap s cur new fa = Unbounded.splitRest cap s cur new fa := by
  have hl := leftSize_lt cap hcap
  unfold BPNode.splitRest Unbounded.splitRest
  generalize BPNode.leftSize cap = l at hl hnp ⊢
  have hlk : l < cn.m_keys.length := by omega
  have hp : cn.m_keys[l]? = some (cn.m_keys[l]) := List.getElem?_eq_getElem hlk
  let nn1 : BPNode := { nn with m_fatherNode := some fa }
  let sA := s.write new nn1
  let cn1 : BPNode := { cn with m_keys := cn.m_keys.eraseIdx l }
  let sB := sA.write cur cn1
  let fn1 : BPNode := { fn with m_keys := fn.m_keys ++ [cn.m_keys[l]] }
  let sC := sB.write fa fn1
  let fn2 : BPNode := { fn1 with m_pointers := fn.m_pointers ++ [new] }
  let sD := sC.write fa fn2
  have hDc : sD.node cur = some cn1 := by simp [sD, sC, sB, h2]
  have hDn : sD.node new = some nn1 := by simp [sD, sC, sB, sA, h3, Ne.symm h1]
  have hA : s.modify new (fun n => { n with m_fatherNode := some fa }) = some sA :=
    Store.modify_eq s new _ nn hn
  have hAc : sA.node cur = some cn := by simp [sA, h1, hc]
  have hBf : sB.node fa = some fn := by simp [sB, sA, Ne.symm h2, Ne.symm h3, hf]
  have hC : sB.modify fa (fun n => n.addKey cap cn.m_keys[l]) = some sC := by
    rw [Store.modify_eq sB fa _ fn hBf]
    simp only [BPNode.addKey, hfk, if_true, sC, fn1]
  have hCf : sC.node fa = some fn1 := by simp [sC]
  have hD : sC.modify fa (fun n => Unbounded.addPointer n new) = some sD := by
    rw [Store.modify_eq sC fa _ fn1 hCf]
    rfl
  have hD' : sC.modifyOpt fa (fun n => n.addPointer cap new) = some sD := by
    rw [modifyOpt_addPointer new hCf (by simpa [fn1] using hfp)]
    exact hD
  have hsmp := splitMovePointers_eq cap l cur new h1 cn1.m_pointers.length sD cn1 nn1 hDc hDn
    (by simpa [cn1, nn1] using hnp)
  simp only [hA, Option.bind_eq_bind, Option.some_bind, hAc, BPNode.getKey, hp,
    BPNode.removeKey, show cn.m_keys.length > 0 by omega, hlk, if_true]
  show (sB.modify fa (fun n => n.addKey cap cn.m_keys[l])).bind _ =
    (sB.modify fa (fun n => n.addKey cap cn.m_keys[l])).bind _
  simp only [hC, Option.some_bind, hD, hD', hDc]
  show (BPNode.splitMovePointers cap l cur new cn1.m_pointers.length sD).bind _ =
    (Unbounded.splitMovePointers l cur new cn1.m_pointers.length sD).bind _
  rw [hsmp]

/-- The new root takes its first child in the same way. -/
theorem splitNewRoot_eq {cap : Nat} (hcap : 1 ≤ cap) (s : Store) (cur : Nat) :
    BPNode.splitNewRoot cap s cur = Unbounded.splitNewRoot s cur := by
  have hB : (s.alloc InnerNode.new).1.node s.next = some InnerNode.new := by simp
  have hopt := @modifyOpt_addPointer cap _ _ _ cur hB (by
    show (0 : Nat) < cap
    omega)
  simp only [BPNode.splitNewRoot, Unbounded.splitNewRoot, Option.bind_eq_bind]
  show ((s.alloc InnerNode.new).1.modifyOpt s.next (fun n => n.addPointer cap cur)).bind _ =
    ((s.alloc InnerNode.new).1.modify s.next (fun n => Unbounded.addPointer n cur)).bind _
  rw [hopt]

/-! ### From the invariant to the claims -/

theorem dataRowId_eq {data : List IndexEntry} (hr : RowIdIsPosition data) {j : Nat}
    (hj : j < data.length) : dataRowId data j = (j : Int) := by
  have := hr j hj
  simp only [dataRowId, List.getD_eq_getElem?_getD, List.getElem?_eq_getElem hj,
    Option.getD_some]
  exact this

theorem mem_keys_iff {data : List IndexEntry} {key : Int} :
    key ∈ data.map IndexEntry.m_key ↔ ∃ j, j < data.length ∧ dataKey data j = key := by
  constructor
  · intro h
    obtain ⟨e, he, rfl⟩ := List.mem_map.1 h
    obtain ⟨j, hj, rfl⟩ := List.getElem_of_mem he
    exact ⟨j, hj, dataKey_eq hj⟩
  · rintro ⟨j, hj, rfl⟩
    rw [dataKey_eq hj]
    exact List.mem_map_of_mem _ (List.getElem_mem hj)

/-- The constructor returns, for every non-empty input that keeps the build
inside the child array of the root, a tree that satisfies the build invariant,
with no empty leaf. -/
theorem build_bounded (cap : Nat) (hcap : 1 ≤ cap) (data : List IndexEntry)
    (hin : InBounds cap data) (hne : 0 < data.length) :
    ∃ t chain levels, BulkBPTree.build cap data = some t ∧
      Core cap data t data.length chain levels ∧ ∀ l ∈ chain, l.start < l.stop := by
  obtain ⟨t, chain, levels, h1, h2, h3, _⟩ := build_in_bounds cap data hcap hin
  exact ⟨t, chain, levels, h1, h2, h3 hne⟩

/-- With capacity 2 and the five distinct keys `1 .. 5` the constructor has no
result: the third leaf is stored at index 2 of the root's child array, which
has two slots. -/
theorem build_five_keys : BulkBPTree.build 2 (distinctKeys 5) = none := by rfl

theorem lower_bound_unique {data : List IndexEntry} {key : Int} {f f' : Nat}
    (hf : IsLowerBound data key f) (hf' : IsLowerBound data key f') : f = f' := by
  rcases Nat.lt_trichotomy f f' with h | h | h
  · have a := hf'.below f h
    have b := hf.above f le_rfl (by have := hf'.le; omega)
    omega
  · exact h
  · have a := hf.below f' h
    have b := hf'.above f' le_rfl (by have := hf.le; omega)
    omega

/-! ### Contract of the queries -/

/-- C7: on an array sorted ascending on `[lower..upper]`, `binary_search_pure`
returns a result; `found` is set iff the key occurs in the range; when found the
position lies in the range and holds the key; when not found the position is the
index of the last element below the key (`lower - 1` if there is none): all
elements up to it are below the key and all elements after it are above. -/
theorem binary_search_pure_correct (c : Int → Int) (key lower upper : Int)
    (hle : lower ≤ upper + 1)
    (hs : ∀ i j, lower ≤ i → i ≤ j → j ≤ upper → c i ≤ c j) :
    ∃ p found, binary_search_pure c key lower upper = some (p, found) ∧
      (found = true ↔ ∃ i, lower ≤ i ∧ i ≤ upper ∧ c i = key) ∧
      (found = true → lower ≤ p ∧ p ≤ upper ∧ c p = key) ∧
      (found = false → lower - 1 ≤ p ∧ p ≤ upper ∧
        (∀ i, lower ≤ i → i ≤ p → c i < key) ∧ (∀ i, p < i → i ≤ upper → key < c i)) :=
  binary_search_pure_spec c key lower upper hle hs

theorem binary_search_pure_correct_witness :
    (0 : Int) ≤ 3 + 1 ∧
    ∃ p found, binary_search_pure (fun i => 2 * i) 4 0 3 = some (p, found) ∧
      (found = true ↔ ∃ i, (0 : Int) ≤ i ∧ i ≤ 3 ∧ (fun i => 2 * i) i = 4) ∧
      (found = true → 0 ≤ p ∧ p ≤ 3 ∧ (fun i => 2 * i) p = 4) ∧
      (found = false → 0 - 1 ≤ p ∧ p ≤ 3 ∧
        (∀ i, 0 ≤ i → i ≤ p → (fun i => 2 * i) i < 4) ∧
        (∀ i, p < i → i ≤ 3 → 4 < (fun i => 2 * i) i)) :=
  ⟨by decide, binary_search_pure_correct (fun i => 2 * i) 4 0 3 (by decide)
    (by intro i j _ h _; show 2 * i ≤ 2 * j; omega)⟩

/-- C8: on an array sorted ascending on `[start..end]` (duplicates allowed, the
empty range `end = start - 1` included), `binary_search_gt_pure` returns the
first index of the range whose element is greater than the key, or `end + 1` if
there is none; this is `start` plus the number of elements `≤ key`. -/
theorem binary_search_gt_pure_correct (c : Int → Int) (key start end_ : Int)
    (hle : start ≤ end_ + 1)
    (hs : ∀ i j, start ≤ i → i ≤ j → j ≤ end_ → c i ≤ c j) :
    ∃ r, binary_search_gt_pure c key start end_ = some r ∧ start ≤ r ∧ r ≤ end_ + 1 ∧
      (∀ i, start ≤ i → i < r → c i ≤ key) ∧ (∀ i, r ≤ i → i ≤ end_ → key < c i) ∧
      r = start + (((List.range (end_ + 1 - start).toNat).filter
            (fun (j : Nat) => decide (c (start + (j : Int)) ≤ key))).length : Int) :=
  binary_search_gt_pure_spec c key start end_ hle hs

theorem binary_search_gt_pure_correct_witness :
    (0 : Int) ≤ 5 + 1 ∧
    ∃ r, binary_search_gt_pure (fun i => i / 2) 1 0 5 = some r ∧ (0 : Int) ≤ r ∧ r ≤ 5 + 1 ∧
      (∀ i, 0 ≤ i → i < r → (fun i => i / 2) i ≤ 1) ∧
      (∀ i, r ≤ i → i ≤ 5 → 1 < (fun i => i / 2) i) ∧
      r = 0 + (((List.range ((5 : Int) + 1 - 0).toNat).filter
            (fun (j : Nat) => decide ((fun i => i / 2) ((0 : Int) + (j : Int)) ≤ 1))).length : Int) :=
  ⟨by decide, binary_search_gt_pure_correct (fun i => i / 2) 1 0 5 (by decide)
    (by intro i j _ h _; show i / 2 ≤ j / 2; omega)⟩

theorem parentStore_wf : parentStore.WF := by
  intro a ha
  have ha2 : 2 ≤ a := ha
  have h0 : a ≠ 0 := by omega
  have h1 : a ≠ 1 := by omega
  simp [parentStore, h0, h1]

theorem rootStore_wf : rootStore.WF := by
  intro a ha
  have ha1 : 1 ≤ a := ha
  have h0 : a ≠ 0 := by omega
  simp [rootStore, h0]

theorem Upper.level_at {cap : Nat} {data : List IndexEntry} {s : Store} {root : Nat} :
    ∀ (levels : List (List GNode)) (lp : List (Nat × Nat)),
      Upper cap data s root lp levels → ∀ (j : Nat) (lv : List GNode), levels[j]? = some lv →
      LevelOK cap data s (match j with
        | 0 => lp
        | k + 1 => GNode.proj (levels.getD k [])) lv := by
  intro levels
  induction levels with
  | nil => intro lp h; exact h.elim
  | cons lv0 rest ih =>
    intro lp hup j lv hj
    cases j with
    | zero =>
      simp only [List.getElem?_cons_zero, Option.some.injEq] at hj
      subst hj
      exact Upper.levelOK hup
    | succ k =>
      simp only [List.getElem?_cons_succ] at hj
      cases rest with
      | nil => simp at hj
      | cons lv2 r2 =>
        obtain ⟨_, _, hup2⟩ := hup
        have := ih (GNode.proj lv0) hup2 k lv hj
        cases k with
        | zero => simpa using this
        | succ k2 => simpa using this

theorem Upper.top {cap : Nat} {data : List IndexEntry} {s : Store} {root : Nat} :
    ∀ (levels : List (List GNode)) (lp : List (Nat × Nat)),
      Upper cap data s root lp levels →
      0 < levels.length ∧ ∃ N, levels[levels.length - 1]? = some [N] ∧ N.id = root := by
  intro levels
  induction levels with
  | nil => intro lp h; exact h.elim
  | cons lv0 rest ih =>
    intro lp hup
    cases rest with
    | nil =>
      obtain ⟨_, N, rfl, hroot, _⟩ := hup
      exact ⟨by simp, N, by simp, hroot⟩
    | cons lv2 r2 =>
      obtain ⟨_, _, hup2⟩ := hup
      obtain ⟨_, N, hN, hroot⟩ := ih (GNode.proj lv0) hup2
      refine ⟨by simp, N, ?_, hroot⟩
      simp only [List.length_cons, Nat.add_sub_cancel] at hN ⊢
      rw [List.getElem?_cons_succ]
      exact hN

theorem children_inner {s : Store} {a : Nat} {nd : BPNode} (h : s.node a = some nd)
    (hty : nd.m_nodeType = .InnerNodeType) : BPNode.children s a = nd.m_pointers := by
  simp [BPNode.children, h, hty]

theorem children_leaf {s : Store} {a : Nat} {nd : BPNode} (h : s.node a = some nd)
    (hty : nd.m_nodeType = .LeafNodeType) : BPNode.children s a = [] := by
  simp [BPNode.children, h, hty]

theorem mem_descendants_succ {s : Store} {a b d : Nat} :
    b ∈ BPNode.descendants s a (d + 1) ↔
      ∃ x ∈ BPNode.descendants s a d, b ∈ BPNode.children s x := by
  simp [BPNode.descendants, List.mem_flatMap]

/-- The nodes at depth `d` below the root are the nodes of the level `d` steps
below the top level; below the bottom inner level lie the indexed leaves. -/
theorem descendants_level {cap : Nat} {data : List IndexEntry} {t : BulkBPTree} {i : Nat}
    {chain : List GLeaf} {levels : List (List GNode)} (h : Core cap data t i chain levels) :
    ∀ (d a : Nat), a ∈ BPNode.descendants t.store t.m_root d →
      (d < levels.length ∧ ∃ lv, levels[levels.length - 1 - d]? = some lv ∧ ∃ N ∈ lv, N.id = a) ∨
      (d = levels.length ∧ ∃ L ∈ chain, L.ov = false ∧ L.id = a) := by
  intro d
  induction d with
  | zero =>
    intro a ha
    simp only [BPNode.descendants, List.mem_singleton] at ha
    obtain ⟨hpos, N, hN, hroot⟩ := Upper.top levels _ h.upper
    left
    exact ⟨hpos, [N], by simpa using hN, N, by simp, by rw [hroot, ha]⟩
  | succ d ih =>
    intro a ha
    obtain ⟨b, hb, hab⟩ := mem_descendants_succ.1 ha
    rcases ih b hb with ⟨hd, lv, hlv, N, hN, rfl⟩ | ⟨_, L, hL, _, rfl⟩
    · have hlev := Upper.level_at levels _ h.upper _ lv hlv
      obtain ⟨_, _, nd, hnd, hty, _, hptr⟩ := hlev.2 N hN
      rw [children_inner hnd hty, hptr] at hab
      obtain ⟨c, hc, rfl⟩ := List.mem_map.1 hab
      have hcin : c ∈ (lv.map GNode.kids).flatten :=
        List.mem_flatten.2 ⟨N.kids, List.mem_map_of_mem _ hN, hc⟩
      rw [hlev.1] at hcin
      rcases Nat.eq_zero_or_pos (levels.length - 1 - d) with h0 | hpos
      · right
        rw [h0] at hcin
        obtain ⟨L, hL, hov, rfl⟩ := mem_leafProj.1 hcin
        exact ⟨by omega, L, hL, hov, rfl⟩
      · left
        obtain ⟨k, hk⟩ : ∃ k, levels.length - 1 - d = k + 1 := ⟨levels.length - 1 - d - 1, by omega⟩
        rw [hk] at hcin
        simp only at hcin
        have hklt : k < levels.length := by omega
        rw [List.getD_eq_getElem?_getD, List.getElem?_eq_getElem hklt, Option.getD_some] at hcin
        obtain ⟨N', hN', rfl⟩ := List.mem_map.1 hcin
        refine ⟨by omega, levels[k], ?_, N', hN', rfl⟩
        rw [show levels.length - 1 - (d + 1) = k by omega]
        exact List.getElem?_eq_getElem hklt
    · obtain ⟨nd, n1, n2, _⟩ := h.chainOK.leaf hL
      rw [children_leaf n1 n2] at hab
      cases hab

/-- Every node below the root is an inner node described by the levels or an
indexed leaf of the chain. -/
theorem descendants_cases {cap : Nat} {data : List IndexEntry} {t : BulkBPTree} {i : Nat}
    {chain : List GLeaf} {levels : List (List GNode)} (h : Core cap data t i chain levels)
    {d a : Nat} (ha : a ∈ BPNode.descendants t.store t.m_root d) :
    (∃ lv ∈ levels, ∃ N ∈ lv, N.id = a ∧ NodeOK cap data t.store N) ∨
      (∃ L ∈ chain, L.ov = false ∧ L.id = a) := by
  rcases descendants_level h d a ha with ⟨_, lv, hlv, N, hN, rfl⟩ | ⟨_, hL⟩
  · left
    have hlev := Upper.level_at levels _ h.upper _ lv hlv
    exact ⟨lv, List.mem_iff_getElem?.2 ⟨_, hlv⟩, N, hN, rfl, hlev.2 N hN⟩
  · exact Or.inr hL

/-! ### Descent, shape and balance of the built tree -/

theorem Upper.level_list {cap : Nat} {data : List IndexEntry} {t : BulkBPTree} {i : Nat}
    {chain : List GLeaf} {levels : List (List GNode)} (h : Core cap data t i chain levels)
    {j : Nat} {lv : List GNode} (hj : levels[j]? = some lv) :
    LevelOK cap data t.store (levelList chain levels j) lv := by
  have := Upper.level_at levels _ h.upper j lv hj
  cases j with
  | zero => exact this
  | succ k => exact this

theorem levelList_succ {chain : List GLeaf} {levels : List (List GNode)} {j : Nat}
    {lv : List GNode} (hj : levels[j]? = some lv) :
    levelList chain levels (j + 1) = GNode.proj lv := by
  have hlt : j < levels.length := by
    by_contra hcon
    rw [List.getElem?_eq_none (by omega)] at hj
    cases hj
  rw [List.getElem?_eq_getElem hlt] at hj
  cases hj
  simp [levelList, List.getD_eq_getElem?_getD, List.getElem?_eq_getElem hlt]

theorem levelList_mem_succ {chain : List GLeaf} {levels : List (List GNode)} {j : Nat}
    {e : Nat × Nat} (he : e ∈ levelList chain levels (j + 1)) :
    ∃ lv, levels[j]? = some lv ∧ ∃ N ∈ lv, e = (N.id, N.start) := by
  rcases Nat.lt_or_ge j levels.length with hlt | hge
  · refine ⟨levels[j], List.getElem?_eq_getElem hlt, ?_⟩
    rw [levelList_succ (List.getElem?_eq_getElem hlt)] at he
    obtain ⟨N, hN, rfl⟩ := List.mem_map.1 he
    exact ⟨N, hN, rfl⟩
  · simp [levelList, List.getD_eq_getElem?_getD, List.getElem?_eq_none hge, GNode.proj] at he

/-- The indexed leaves start at strictly increasing input positions, at most
the input size. -/
theorem leafProj_starts {s : Store} {chain : List GLeaf} {n : Nat} (h : ChainOK s chain n) :
    StartsOK (leafProj chain) (n + 1) := by
  constructor
  · rw [leafProj, List.pairwise_map]
    refine List.Pairwise.filter _ ?_
    rw [List.pairwise_iff_getElem]
    intro i j hi hj hij
    have h1 := h.ordered (j - i - 1) i chain[i] chain[j] (List.getElem?_eq_getElem hi)
      (by rw [show i + (j - i - 1) + 1 = j by omega]; exact List.getElem?_eq_getElem hj)
    have hi1 : i + 1 < chain.length := by omega
    have h2 := ((h i chain[i] (List.getElem?_eq_getElem hi)).2.2.1 _
      (List.getElem?_eq_getElem hi1)).2
    show chain[i].start < chain[j].start
    omega
  · intro c hc
    obtain ⟨L, hL, _, rfl⟩ := mem_leafProj.1 hc
    have h1 := h.start_le_stop hL
    have h2 := h.stop_le hL
    show L.start < n + 1
    omega

/-- The nodes of every level start at strictly increasing input positions. -/
theorem level_starts {cap : Nat} {data : List IndexEntry} {t : BulkBPTree} {i : Nat}
    {chain : List GLeaf} {levels : List (List GNode)} (h : Core cap data t i chain levels) :
    ∀ j, StartsOK (levelList chain levels j) (i + 1) := by
  intro j
  induction j with
  | zero => exact leafProj_starts h.chainOK
  | succ k ih =>
    rcases Nat.lt_or_ge k levels.length with hlt | hge
    · rw [levelList_succ (List.getElem?_eq_getElem hlt)]
      exact proj_startsOK (Upper.level_list h (List.getElem?_eq_getElem hlt)) ih
    · simp [levelList, List.getD_eq_getElem?_getD, List.getElem?_eq_none hge, GNode.proj,
        StartsOK]

/-- The start of every node of every level is the start of an indexed leaf. -/
theorem level_start_leaf {cap : Nat} {data : List IndexEntry} {t : BulkBPTree} {i : Nat}
    {chain : List GLeaf} {levels : List (List GNode)} (h : Core cap data t i chain levels) :
    ∀ j, ∀ e ∈ levelList chain levels j, ∃ L ∈ chain, L.ov = false ∧ L.start = e.2 := by
  intro j
  induction j with
  | zero =>
    intro e he
    obtain ⟨L, hL, hov, rfl⟩ := mem_leafProj.1 he
    exact ⟨L, hL, hov, rfl⟩
  | succ k ih =>
    intro e he
    obtain ⟨lv, hlv, N, hN, rfl⟩ := levelList_mem_succ he
    have hlev := Upper.level_list h hlv
    obtain ⟨c, hc, ec⟩ := start_mem_kids hlev hN
    obtain ⟨L, hL, hov, hst⟩ := ih c ((mem_lp_iff hlev c).2 ⟨N, hN, hc⟩)
    exact ⟨L, hL, hov, by rw [hst]; exact ec⟩

/-- A position in the span of a child lies in the span of its parent. -/
theorem span_parent {cap : Nat} {data : List IndexEntry} {s : Store} {lp : List (Nat × Nat)}
    {lv : List GNode} {n : Nat} (hlv : LevelOK cap data s lp lv) (hst : StartsOK lp n)
    {N : GNode} (hN : N ∈ lv) {c : Nat × Nat} (hc : c ∈ N.kids) {x : Nat}
    (hx : Span lp c x) : Span (GNode.proj lv) (N.id, N.start) x := by
  constructor
  · have := head_le_kids hlv hst hN hc
    have := hx.1
    show N.start ≤ x
    omega
  · intro m hm hlt
    obtain ⟨N', hN', rfl⟩ := List.mem_map.1 hm
    obtain ⟨c0, hc0, ec0⟩ := start_mem_kids hlv hN
    obtain ⟨c0', hc0', ec0'⟩ := start_mem_kids hlv hN'
    have hlt' : N.start < N'.start := hlt
    show x < N'.start
    rw [← ec0']
    refine hx.2 c0' ((mem_lp_iff hlv c0').2 ⟨N', hN', hc0'⟩) ?_
    rcases kids_trichotomy hlv hst hN hN' with heq | h1 | h2
    · rw [heq] at hc0
      have hp := (kids_pairwise hlv hst).1 N' hN'
      have a1 := head_le_kids hlv hst hN' hc0
      have a2 : N'.start ≤ c0.2 := a1
      omega
    · exact h1 c hc c0' hc0'
    · have := h2 c0' hc0' c0 hc0
      omega

theorem levelList_node {cap : Nat} {data : List IndexEntry} {t : BulkBPTree} {i : Nat}
    {chain : List GLeaf} {levels : List (List GNode)} (h : Core cap data t i chain levels)
    {m : Nat} {e : Nat × Nat} (he : e ∈ levelList chain levels (m + 1)) :
    ∃ lv N, levels[m]? = some lv ∧ N ∈ lv ∧ e = (N.id, N.start) ∧
      LevelOK cap data t.store (levelList chain levels m) lv ∧
      ∃ nd, t.store.node e.1 = some nd ∧ nd.m_nodeType = .InnerNodeType ∧
        nd.m_keys = N.kids.tail.map (fun c => dataKey data c.2) ∧
        nd.m_pointers = N.kids.map Prod.fst := by
  obtain ⟨lv, hlv, N, hN, rfl⟩ := levelList_mem_succ he
  have hlev := Upper.level_list h hlv
  obtain ⟨_, _, nd, hnd, hty, hk, hp⟩ := hlev.2 N hN
  exact ⟨lv, N, hlv, hN, rfl, hlev, nd, hnd, hty, hk, hp⟩

theorem levelList_leaf {cap : Nat} {data : List IndexEntry} {t : BulkBPTree} {i : Nat}
    {chain : List GLeaf} {levels : List (List GNode)} (h : Core cap data t i chain levels)
    {e : Nat × Nat} (he : e ∈ levelList chain levels 0) :
    ∃ L, L ∈ chain ∧ L.ov = false ∧ e = (L.id, L.start) ∧
      ∃ nd, t.store.node e.1 = some nd ∧ nd.m_nodeType = .LeafNodeType ∧
        nd.m_currentOffset = L.start ∧ nd.m_slots + L.start = L.stop := by
  obtain ⟨L, hL, hov, rfl⟩ := mem_leafProj.1 he
  obtain ⟨nd, n1, n2, n3, n4, _⟩ := h.chainOK.leaf hL
  exact ⟨L, hL, hov, rfl, nd, n1, n2, n3, n4⟩

/-- The nodes reached from a node of level `j` by `d` child references are
nodes of level `j - d`, and their spans lie in the span of the node. -/
theorem descend_span {cap : Nat} {data : List IndexEntry} {t : BulkBPTree} {i : Nat}
    {chain : List GLeaf} {levels : List (List GNode)} (h : Core cap data t i chain levels)
    (j : Nat) (c : Nat × Nat) (hc : c ∈ levelList chain levels j) :
    ∀ (d x : Nat), x ∈ BPNode.descendants t.store c.1 d →
      d ≤ j ∧ ∃ e ∈ levelList chain levels (j - d), e.1 = x ∧
        ∀ pos, Span (levelList chain levels (j - d)) e pos → Span (levelList chain levels j) c pos := by
  intro d
  induction d with
  | zero =>
    intro x hx
    simp only [BPNode.descendants, List.mem_singleton] at hx
    exact ⟨Nat.zero_le _, c, hc, hx.symm, fun _ hp => hp⟩
  | succ d ih =>
    intro x hx
    obtain ⟨y, hy, hxy⟩ := mem_descendants_succ.1 hx
    obtain ⟨hd, e, he, rfl, hspan⟩ := ih y hy
    rcases Nat.eq_zero_or_pos (j - d) with h0 | hpos
    · rw [h0] at he
      obtain ⟨L, _, _, _, nd, n1, n2, _⟩ := levelList_leaf h he
      rw [children_leaf n1 n2] at hxy
      cases hxy
    · obtain ⟨m, hm⟩ : ∃ m, j - d = m + 1 := ⟨j - d - 1, by omega⟩
      rw [hm] at he hspan
      obtain ⟨lv, N, hlv, hN, rfl, hlev, nd, hnd, hty, _, hptr⟩ := levelList_node h he
      rw [children_inner hnd hty, hptr] at hxy
      obtain ⟨k, hk, rfl⟩ := List.mem_map.1 hxy
      have hjm : j - (d + 1) = m := by omega
      rw [hjm]
      refine ⟨by omega, k, (mem_lp_iff hlev k).2 ⟨N, hN, hk⟩, rfl, ?_⟩
      intro pos hp
      apply hspan
      rw [levelList_succ hlv]
      exact span_parent hlev (level_starts h m) hN hk hp

/-- The leftmost node reached from a node of level `j` by `d` child references
is a node of level `j - d` that starts where the node starts. -/
theorem descend_head {cap : Nat} {data : List IndexEntry} {t : BulkBPTree} {i : Nat}
    {chain : List GLeaf} {levels : List (List GNode)} (h : Core cap data t i chain levels)
    (j : Nat) (c : Nat × Nat) (hc : c ∈ levelList chain levels j) :
    ∀ (d x : Nat), (BPNode.descendants t.store c.1 d).head? = some x →
      d ≤ j ∧ ∃ e ∈ levelList chain levels (j - d), e.1 = x ∧ e.2 = c.2 := by
  intro d
  induction d with
  | zero =>
    intro x hx
    simp only [BPNode.descendants, List.head?_cons, Option.some.injEq] at hx
    exact ⟨Nat.zero_le _, c, hc, hx, rfl⟩
  | succ d ih =>
    intro x hx
    simp only [BPNode.descendants] at hx
    cases hdesc : BPNode.descendants t.store c.1 d with
    | nil => simp [hdesc] at hx
    | cons y ys =>
      obtain ⟨hd, e, he, rfl, hst⟩ := ih y (by rw [hdesc]; rfl)
      rcases Nat.eq_zero_or_pos (j - d) with h0 | hpos
      · -- all nodes at this depth are leaves: there is nothing below
        exfalso
        have hnil : (BPNode.descendants t.store c.1 d).flatMap (BPNode.children t.store) = [] := by
          rw [List.flatMap_eq_nil_iff]
          intro z hz
          obtain ⟨_, e', he', rfl, _⟩ := descend_span h j c hc d z hz
          rw [h0] at he'
          obtain ⟨L, _, _, _, nd, n1, n2, _⟩ := levelList_leaf h he'
          exact children_leaf n1 n2
        rw [hnil] at hx
        cases hx
      · obtain ⟨m, hm⟩ : ∃ m, j - d = m + 1 := ⟨j - d - 1, by omega⟩
        rw [hm] at he
        obtain ⟨lv, N, hlv, hN, rfl, hlev, nd, hnd, hty, _, hptr⟩ := levelList_node h he
        obtain ⟨⟨k0, r0, ek, es⟩, _⟩ := hlev.2 N hN
        rw [hdesc, List.flatMap_cons, children_inner hnd hty, hptr, ek] at hx
        simp only [List.map_cons, List.cons_append, List.head?_cons, Option.some.injEq] at hx
        have hjm : j - (d + 1) = m := by omega
        rw [hjm]
        refine ⟨by omega, k0, (mem_lp_iff hlev k0).2 ⟨N, hN, by rw [ek]; simp⟩, hx, ?_⟩
        rw [es]
        exact hst

/-- The overflow leaves chained after a leaf of the chain are the leaves that
follow it in the chain up to the next indexed leaf. -/
theorem overflowAfter_chain {cap : Nat} {data : List IndexEntry} {t : BulkBPTree} {i : Nat}
    {chain : List GLeaf} {levels : List (List GNode)} (h : Core cap data t i chain levels) :
    ∀ (fuel k : Nat) (L : GLeaf), chain[k]? = some L →
      ∀ o ∈ LeafNode.overflowAfter t fuel L.id,
        ∃ m O, chain[k + m + 1]? = some O ∧ O.id = o ∧
          ∀ m', m' ≤ m → ∃ O', chain[k + m' + 1]? = some O' ∧ O'.ov = true := by
  intro fuel
  induction fuel with
  | zero => intro k L _ o ho; simp [LeafNode.overflowAfter] at ho
  | succ fuel ih =>
    intro k L hk o ho
    obtain ⟨⟨nd, n1, _, _, _, _, n6, _⟩, _⟩ := h.chainOK k L hk
    simp only [LeafNode.overflowAfter, n1, n6] at ho
    cases hk1 : chain[k + 1]? with
    | none => simp [hk1] at ho
    | some L1 =>
      obtain ⟨⟨nd1, m1, _, _, _, _, _, m7⟩, _⟩ := h.chainOK (k + 1) L1 hk1
      simp only [hk1, Option.map_some', m1, m7] at ho
      cases hov : L1.ov with
      | false => simp [hov] at ho
      | true =>
        simp only [hov, if_true, List.mem_cons] at ho
        rcases ho with rfl | ho
        · refine ⟨0, L1, hk1, rfl, ?_⟩
          intro m' hm'
          have : m' = 0 := by omega
          subst this
          exact ⟨L1, hk1, hov⟩
        · obtain ⟨m, O, hO, hid, hall⟩ := ih (k + 1) L1 hk1 o ho
          refine ⟨m + 1, O, by rw [← hO]; congr 1; omega, hid, ?_⟩
          intro m' hm'
          cases m' with
          | zero => exact ⟨L1, hk1, hov⟩
          | succ m'' =>
            obtain ⟨O', hO', hov'⟩ := hall m'' (by omega)
            exact ⟨O', by rw [← hO']; congr 1; omega, hov'⟩

/-- The slots of an indexed leaf and of the overflow leaves chained after it
hold input entries at positions in the span of the leaf. -/
theorem leaf_run_span {cap : Nat} {data : List IndexEntry} {t : BulkBPTree}
    {chain : List GLeaf} {levels : List (List GNode)}
    (h : Core cap data t data.length chain levels) {L : GLeaf} (hL : L ∈ chain)
    (fuel o : Nat) (ho : o = L.id ∨ o ∈ LeafNode.overflowAfter t fuel L.id)
    {od : BPNode} (hod : t.store.node o = some od) (j : Nat)
    (hj : j < od.m_currentNumberOfEntries) :
    ∃ pos, pos < data.length ∧ Span (leafProj chain) (L.id, L.start) pos ∧
      LeafNode.slot t od (j : Int) = ⟨dataKey data pos, (pos : Int)⟩ := by
  obtain ⟨k, hk⟩ := List.mem_iff_getElem?.1 hL
  -- the leaf `O` of the chain that holds the slot
  have hO : ∃ O q, chain[q]? = some O ∧ O.id = o ∧ k ≤ q ∧
      ∀ q', k < q' → q' ≤ q → ∃ O', chain[q']? = some O' ∧ O'.ov = true := by
    rcases ho with rfl | ho
    · exact ⟨L, k, hk, rfl, le_rfl, fun q' h1 h2 => by omega⟩
    · obtain ⟨m, O, hO, hid, hall⟩ := overflowAfter_chain h fuel k L hk o ho
      refine ⟨O, k + m + 1, hO, hid, by omega, ?_⟩
      intro q' h1 h2
      obtain ⟨O', hO', hov'⟩ := hall (q' - k - 1) (by omega)
      exact ⟨O', by rw [← hO']; congr 1; omega, hov'⟩
  obtain ⟨O, q, hq, rfl, hkq, hall⟩ := hO
  have hOm : O ∈ chain := List.mem_iff_getElem?.2 ⟨q, hq⟩
  obtain ⟨nd, n1, n2, n3, n4, _⟩ := h.chainOK.leaf hOm
  rw [hod] at n1
  cases n1
  have hcnt : od.m_currentNumberOfEntries = od.m_slots := by
    simp [BPNode.m_currentNumberOfEntries, n2]
  rw [hcnt] at hj
  have hstop := h.chainOK.stop_le hOm
  have hLO : L.start ≤ O.start := by
    rcases Nat.eq_or_lt_of_le hkq with heq | hlt
    · subst heq
      rw [hk] at hq
      cases hq
      exact le_rfl
    · have := h.chainOK.ordered (q - k - 1) k L O hk
        (by rw [← hq]; congr 1; omega)
      have := h.chainOK.start_le_stop hL
      omega
  refine ⟨O.start + j, by omega, ⟨by show L.start ≤ O.start + j; omega, ?_⟩, ?_⟩
  · intro m hm hlt
    obtain ⟨M, hM, hMov, rfl⟩ := mem_leafProj.1 hm
    have hlt' : L.start < M.start := hlt
    show O.start + j < M.start
    obtain ⟨p, hp⟩ := List.mem_iff_getElem?.1 hM
    have hMs := h.chainOK.start_le_stop hM
    rcases Nat.lt_trichotomy p k with hpk | hpk | hpk
    · have := h.chainOK.ordered (k - p - 1) p M L hp (by rw [← hk]; congr 1; omega)
      omega
    · subst hpk
      rw [hk] at hp
      cases hp
      omega
    · rcases Nat.lt_or_ge q p with hqp | hqp
      · have := h.chainOK.ordered (p - q - 1) q O M hq (by rw [← hp]; congr 1; omega)
        omega
      · obtain ⟨O', hO', hov'⟩ := hall p hpk hqp
        rw [hp] at hO'
        cases hO'
        rw [hMov] at hov'
        cases hov'
  · have := h.slot_eq hOm hod (j : Int) (by omega) (by omega)
    rw [this]
    simp

/-- The start of a node that is not the first position of the input is a
position of the input whose key is greater than the key before it. -/
theorem level_start_fresh {cap : Nat} {data : List IndexEntry} {t : BulkBPTree}
    {chain : List GLeaf} {levels : List (List GNode)}
    (h : Core cap data t data.length chain levels)
    (hnl : 0 < data.length → ∀ l ∈ chain, l.start < l.stop) (hs : SortedByKey data)
    {j : Nat} {e : Nat × Nat} (he : e ∈ levelList chain levels j) (hpos : 0 < e.2) :
    e.2 < data.length ∧ dataKey data (e.2 - 1) < dataKey data e.2 ∧
      ∃ L ∈ chain, L.start = e.2 ∧ L.start < L.stop := by
  obtain ⟨L, hL, hov, hst⟩ := level_start_leaf h j e he
  have h1 := h.chainOK.start_le_stop hL
  have h2 := h.chainOK.stop_le hL
  have hn : 0 < data.length := by omega
  have h3 := hnl hn L hL
  have hlt : e.2 < data.length := by omega
  refine ⟨hlt, ?_, L, hL, hst, h3⟩
  rcases h.fresh L hL hov with h0 | hfr
  · omega
  · rw [hst] at hfr
    have := sorted_dataKey hs (e.2 - 1) e.2 (by omega) hlt
    omega

/-! ### Separators -/

/-- The keys of an inner node are strictly increasing. -/
theorem node_keys_increasing {cap : Nat} {data : List IndexEntry} {t : BulkBPTree}
    {chain : List GLeaf} {levels : List (List GNode)}
    (h : Core cap data t data.length chain levels)
    (hnl : 0 < data.length → ∀ l ∈ chain, l.start < l.stop) (hs : SortedByKey data)
    {m : Nat} {lv : List GNode} (hlv : levels[m]? = some lv) {N : GNode} (hN : N ∈ lv) :
    (N.kids.tail.map (fun c => dataKey data c.2)).Pairwise (· < ·) := by
  have hlev := Upper.level_list h hlv
  have hp := (kids_pairwise hlev (level_starts h m)).1 N hN
  rw [List.pairwise_map]
  refine (hp.sublist (List.tail_sublist _)).imp_of_mem ?_
  intro a b ha hb hab
  have hbm : b ∈ levelList chain levels m :=
    (mem_lp_iff hlev b).2 ⟨N, hN, List.mem_of_mem_tail hb⟩
  obtain ⟨h1, h2, _⟩ := level_start_fresh h hnl hs hbm (by omega)
  have := sorted_dataKey hs a.2 (b.2 - 1) (by omega) (by omega)
  show dataKey data a.2 < dataKey data b.2
  omega

/-- The keys at positions in the span of the child `i` of an inner node are
below the key `i` of the node and, for `i > 0`, not below the key `i - 1`. -/
theorem node_separators {cap : Nat} {data : List IndexEntry} {t : BulkBPTree}
    {chain : List GLeaf} {levels : List (List GNode)}
    (h : Core cap data t data.length chain levels)
    (hnl : 0 < data.length → ∀ l ∈ chain, l.start < l.stop) (hs : SortedByKey data)
    {m : Nat} {lv : List GNode} (hlv : levels[m]? = some lv) {N : GNode} (hN : N ∈ lv)
    {i : Nat} {e : Nat × Nat} (he : N.kids[i]? = some e) {pos : Nat} (hpos : pos < data.length)
    (hsp : Span (levelList chain levels m) e pos) :
    (∀ k, (N.kids.tail.map (fun c => dataKey data c.2))[i]? = some k → dataKey data pos < k) ∧
    (0 < i → (N.kids.tail.map (fun c => dataKey data c.2))[i - 1]? = some (dataKey data e.2) ∧
      dataKey data e.2 ≤ dataKey data pos) := by
  have hlev := Upper.level_list h hlv
  have hp := List.pairwise_iff_getElem.1 ((kids_pairwise hlev (level_starts h m)).1 N hN)
  have hi : i < N.kids.length := by
    by_contra hcon
    rw [List.getElem?_eq_none (by omega)] at he
    cases he
  rw [List.getElem?_eq_getElem hi] at he
  cases he
  constructor
  · intro k hk
    rw [List.getElem?_map] at hk
    have hi1 : i + 1 < N.kids.length := by
      by_contra hcon
      rw [List.getElem?_eq_none (by simp; omega)] at hk
      cases hk
    have hk' : N.kids.tail[i]? = some N.kids[i + 1] := by
      rw [List.getElem?_tail, List.getElem?_eq_getElem hi1]
    rw [hk'] at hk
    simp only [Option.map_some', Option.some.injEq] at hk
    subst hk
    have hlt := hp i (i + 1) hi hi1 (by omega)
    have hmem : N.kids[i + 1] ∈ levelList chain levels m :=
      (mem_lp_iff hlev _).2 ⟨N, hN, List.getElem_mem hi1⟩
    have hx := hsp.2 _ hmem hlt
    obtain ⟨h1, h2, _⟩ := level_start_fresh h hnl hs hmem (by omega)
    have := sorted_dataKey hs pos (N.kids[i + 1].2 - 1) (by omega) (by omega)
    omega
  · intro hi0
    constructor
    · rw [List.getElem?_map, List.getElem?_tail, show i - 1 + 1 = i by omega,
        List.getElem?_eq_getElem hi]
      rfl
    · exact sorted_dataKey hs _ _ hsp.1 hpos

/-- The separator invariant of a tree described by the build invariant. -/
theorem separator_core {cap : Nat} {data : List IndexEntry} {t : BulkBPTree}
    {chain : List GLeaf} {levels : List (List GNode)}
    (h : Core cap data t data.length chain levels)
    (hnl : 0 < data.length → ∀ l ∈ chain, l.start < l.stop) (hs : SortedByKey data)
    {d a : Nat} {nd : BPNode} (ha : a ∈ BPNode.descendants t.store t.m_root d)
    (hnd : t.store.node a = some nd) (hty : nd.m_nodeType = .InnerNodeType) :
    nd.m_keys.Pairwise (· < ·) ∧
    ∀ i c, nd.m_pointers[i]? = some c →
      (∀ (d' l : Nat) (ld : BPNode) (fuel o : Nat) (od : BPNode) (j : Nat),
        l ∈ BPNode.descendants t.store c d' → t.store.node l = some ld →
        ld.m_nodeType = .LeafNodeType → (o = l ∨ o ∈ LeafNode.overflowAfter t fuel l) →
        t.store.node o = some od → j < od.m_currentNumberOfEntries →
        (∀ k, nd.m_keys[i]? = some k → (LeafNode.slot t od (j : Int)).m_key < k) ∧
        (0 < i → ∃ k, nd.m_keys[i - 1]? = some k ∧ k ≤ (LeafNode.slot t od (j : Int)).m_key)) ∧
      (0 < i → ∀ (d' l : Nat) (ld : BPNode),
        (BPNode.descendants t.store c d').head? = some l → t.store.node l = some ld →
        ld.m_nodeType = .LeafNodeType →
        0 < ld.m_currentNumberOfEntries ∧
          nd.m_keys[i - 1]? = some (LeafNode.slot t ld 0).m_key) := by
  rcases descendants_level h d a ha with ⟨_, lv, hlv, N, hN, rfl⟩ | ⟨_, L, hL, _, rfl⟩
  swap
  · obtain ⟨nd', n1, n2, _⟩ := h.chainOK.leaf hL
    rw [hnd] at n1; cases n1
    rw [hty] at n2; cases n2
  have hlev := Upper.level_list h hlv
  obtain ⟨_, _, nd', hnd', _, hkeys, hptr⟩ := hlev.2 N hN
  rw [hnd] at hnd'; cases hnd'
  refine ⟨by rw [hkeys]; exact node_keys_increasing h hnl hs hlv hN, ?_⟩
  intro i c hc
  rw [hptr, List.getElem?_map] at hc
  cases hke : N.kids[i]? with
  | none => rw [hke] at hc; cases hc
  | some e =>
    rw [hke] at hc
    simp only [Option.map_some', Option.some.injEq] at hc
    subst hc
    have hem : e ∈ levelList chain levels (levels.length - 1 - d) :=
      (mem_lp_iff hlev e).2 ⟨N, hN, List.mem_iff_getElem?.2 ⟨i, hke⟩⟩
    -- a leaf below the child is an indexed leaf of the chain
    have hleaf : ∀ (d' : Nat) (x : Nat × Nat) (ld : BPNode),
        x ∈ levelList chain levels (levels.length - 1 - d - d') →
        t.store.node x.1 = some ld → ld.m_nodeType = .LeafNodeType →
        ∃ L, L ∈ chain ∧ x = (L.id, L.start) ∧ levels.length - 1 - d - d' = 0 := by
      intro d' x ld hx hld hlty
      rcases Nat.eq_zero_or_pos (levels.length - 1 - d - d') with h0 | hpos
      · rw [h0] at hx
        obtain ⟨L, hL, _, rfl, _⟩ := levelList_leaf h hx
        exact ⟨L, hL, rfl, h0⟩
      · exfalso
        obtain ⟨m, hm⟩ : ∃ m, levels.length - 1 - d - d' = m + 1 :=
          ⟨levels.length - 1 - d - d' - 1, by omega⟩
        rw [hm] at hx
        obtain ⟨_, _, _, _, _, _, nd2, h1, h2, _⟩ := levelList_node h hx
        rw [hld] at h1; cases h1
        rw [hlty] at h2; cases h2
    constructor
    · intro d' l ld fuel o od j hl hld hlty ho hod hj
      obtain ⟨_, x, hx, rfl, hspan⟩ := descend_span h _ e hem d' l hl
      obtain ⟨L, hL, rfl, h0⟩ := hleaf d' x ld hx hld hlty
      obtain ⟨pos, hpos, hsp, hslot⟩ := leaf_run_span h hL fuel o ho hod j hj
      rw [h0] at hspan
      have hsp' := hspan pos hsp
      have := node_separators h hnl hs hlv hN hke hpos hsp'
      rw [hslot, hkeys]
      refine ⟨this.1, fun hi0 => ⟨_, (this.2 hi0).1, (this.2 hi0).2⟩⟩
    · intro hi0 d' l ld hhead hld hlty
      obtain ⟨_, x, hx, rfl, hst⟩ := descend_head h _ e hem d' l hhead
      obtain ⟨L, hL, rfl, h0⟩ := hleaf d' x ld hx hld hlty
      -- the child is not the first child, so it starts after position 0
      have hp := List.pairwise_iff_getElem.1 ((kids_pairwise hlev (level_starts h _)).1 N hN)
      have hi : i < N.kids.length := by
        by_contra hcon
        rw [List.getElem?_eq_none (by omega)] at hke
        cases hke
      have he0 : 0 < e.2 := by
        have := hp 0 i (by omega) hi hi0
        rw [List.getElem?_eq_getElem hi] at hke
        cases hke
        omega
      obtain ⟨h1, _, L', hL', hst', hne'⟩ := level_start_fresh h hnl hs hem he0
      have hLst : L.start = e.2 := hst
      have hn : 0 < data.length := by omega
      have hLne := hnl hn L hL
      obtain ⟨nd2, n1, n2, n3, n4, _⟩ := h.chainOK.leaf hL
      rw [hld] at n1; cases n1
      have hcnt : ld.m_currentNumberOfEntries = ld.m_slots := by
        simp [BPNode.m_currentNumberOfEntries, n2]
      have hslot := h.slot_eq hL hld 0 le_rfl (by omega)
      have hx0 := (node_separators h hnl hs hlv hN hke h1 ⟨le_rfl, fun _ _ hlt => hlt⟩).2 hi0
      refine ⟨by omega, ?_⟩
      rw [hkeys, hx0.1, hslot]
      simp [hLst]

/-- C16: with capacity 2 and the keys `1 .. 4` the root has two children and one
key, so it is not full and the child array allocated by `addPointer` (length 2)
is filled: the next child goes to index 2, which is not below the length 2 of
the array, and `addPointer` has no result for it.  With the fifth key the
constructor adds a third child to the root, and has no result. -/
theorem child_array_overflow :
    (BulkBPTree.build 2 (distinctKeys 4)).bind (fun t => (t.store.node t.m_root).map
      (fun nd => (nd.m_pointers, nd.isFull 2, nd.addPointerIndex, BPNode.pointerArrayLength 2,
        nd.addPointer 2 3))) =
      some ([1, 2], false, 2, 2, none) ∧
    BulkBPTree.build 2 (distinctKeys 5) = none :=
  ⟨by decide, build_five_keys⟩

/-- C17: with capacity 1 the root takes the first leaf into its child array of
one slot, and the leaf of the key 2 has no slot: the constructor has no result
for the keys 1, 2.  A full node of capacity 1 has one key, `leftSize` is 1 and
`getKey(leftSize)` reads behind that key: `split` has no result on the full root
with one key and one child.  On an unbounded child array the root is full after
the keys 1, 2, with one key, and the split that the key 3 calls for has no
result. -/
theorem split_index_capacity_one :
    ((BulkBPTree.build 1 (distinctKeys 1)).bind (fun t => (t.store.node t.m_root).map
        (fun nd => (nd.m_keys, nd.m_pointers, nd.addPointer 1 2))) = some ([], [1], none) ∧
      BulkBPTree.build 1 (distinctKeys 2) = none) ∧
    (unitStore.node 0 = some unitRoot ∧ unitRoot.isFull 1 = true ∧
      unitRoot.m_currentNumberOfEntries = 1 ∧ BPNode.leftSize 1 = 1 ∧
      unitRoot.getKey (BPNode.leftSize 1) = none ∧
      BPNode.split 1 1 unitStore 0 0 = none) ∧
    ((Unbounded.build 1 (distinctKeys 2)).bind (fun t => (t.store.node t.m_root).map
        (fun nd => (nd.isFull 1, nd.m_currentNumberOfEntries, BPNode.leftSize 1,
          nd.getKey (BPNode.leftSize 1)))) = some (true, 1, 1, none) ∧
      Unbounded.build 1 (distinctKeys 3) = none) :=
  ⟨⟨by decide, by rfl⟩, ⟨rfl, by decide, by decide, by decide, by decide, by rfl⟩,
    ⟨by decide, by rfl⟩⟩

/-- C18: `split` sets the parent reference of the new sibling and, at the root,
of the split node, and of no other node.  With capacity 4, the split of the full
root at address 4, whose children are the leaves at the addresses 0, 1, 2, 3,
returns the new sibling at address 5 below the new root at address 6; the
sibling lists the leaf at address 3 as its only child, but the parent reference
of that leaf is still the node at address 4.  In the bulk build no tree shows
this: with capacity 2 and the keys `1 .. 15` the constructor has no result,
because the leaf of the key 5 is stored outside the child array of the root.  On
an unbounded child array the build returns a tree whose root is the node at
address 14; the inner node at address 13 is a child of the root and lists the
node at address 9 as its first child, but the parent reference of the node at
address 9 is the node at address 6, its parent before the split of that node. -/
theorem stale_parent_reference :
    (BPNode.split 4 1 familyStore 4 4).bind (fun r =>
      (r.1.node r.2.2).bind (fun nn => (r.1.node 3).map (fun cd =>
        (r.2.1, r.2.2, nn.m_nodeType, nn.m_pointers, cd.m_fatherNode)))) =
      some (6, 5, .InnerNodeType, [3], some 4) ∧
    BulkBPTree.build 2 (distinctKeys 15) = none ∧
    (Unbounded.build 2 (distinctKeys 15)).bind (fun t =>
      (t.store.node 13).bind (fun nd => (t.store.node 9).map (fun cd =>
        (t.m_root, BPNode.descendants t.store t.m_root 1, nd.m_nodeType, nd.m_pointers,
          cd.m_fatherNode)))) =
    some (14, [6, 13], .InnerNodeType, [9, 12], some 6) :=
  ⟨by decide, by rfl, by decide⟩

/-! ### Overflow leaves -/

/-- Every child reference of an inner node of the description leads to an inner
node or to an indexed leaf of the chain. -/
theorem inner_child_cases {cap : Nat} {data : List IndexEntry} {t : BulkBPTree} {i : Nat}
    {chain : List GLeaf} {levels : List (List GNode)} (h : Core cap data t i chain levels)
    {a : Nat} (ha : a ∈ innerIds levels) {nd : BPNode} (hnd : t.store.node a = some nd)
    {c : Nat} (hc : c ∈ nd.m_pointers) :
    (∃ cd, t.store.node c = some cd ∧ cd.m_nodeType = .InnerNodeType) ∨
      (∃ L ∈ chain, L.ov = false ∧ L.id = c) := by
  simp only [innerIds, List.mem_map, List.mem_flatten] at ha
  obtain ⟨N, ⟨lv, hlv, hN⟩, hid⟩ := ha
  obtain ⟨m, hm⟩ := List.mem_iff_getElem?.1 hlv
  have hlo := Upper.level_list h hm
  obtain ⟨_, _, nd', g1, _, _, g4⟩ := hlo.2 N hN
  rw [hid, hnd] at g1
  cases g1
  rw [g4, List.mem_map] at hc
  obtain ⟨e, he, hec⟩ := hc
  have hmem : e ∈ levelList chain levels m := by
    rw [← hlo.1, List.mem_flatten]
    exact ⟨N.kids, List.mem_map.2 ⟨N, hN, rfl⟩, he⟩
  cases m with
  | zero =>
    obtain ⟨L, hL, hov, heq, _⟩ := levelList_leaf h hmem
    right
    refine ⟨L, hL, hov, ?_⟩
    rw [← hec, heq]
  | succ k =>
    obtain ⟨_, _, _, _, _, _, cd, c1, c2, _⟩ := levelList_node h hmem
    left
    exact ⟨cd, by rw [← hec]; exact c1, c2⟩

/-- Every indexed leaf of the chain is a child of an inner node. -/
theorem indexed_leaf_child {cap : Nat} {data : List IndexEntry} {t : BulkBPTree} {i : Nat}
    {chain : List GLeaf} {levels : List (List GNode)} (h : Core cap data t i chain levels)
    {L : GLeaf} (hL : L ∈ chain) (hov : L.ov = false) :
    ∃ a nd, t.store.node a = some nd ∧ nd.m_nodeType = .InnerNodeType ∧
      L.id ∈ nd.m_pointers := by
  obtain ⟨hpos, _⟩ := Upper.top levels _ h.upper
  have h0 : levels[0]? = some levels[0] := List.getElem?_eq_getElem hpos
  have hlo := Upper.level_list h h0
  have hmem : (L.id, L.start) ∈ levelList chain levels 0 := by
    show (L.id, L.start) ∈ leafProj chain
    simp only [leafProj, List.mem_map, List.mem_filter]
    exact ⟨L, ⟨hL, by simp [hov]⟩, rfl⟩
  rw [← hlo.1, List.mem_flatten] at hmem
  obtain ⟨ks, hks, hin⟩ := hmem
  obtain ⟨N, hN, rfl⟩ := List.mem_map.1 hks
  obtain ⟨_, _, nd, g1, g2, _, g4⟩ := hlo.2 N hN
  refine ⟨N.id, nd, g1, g2, ?_⟩
  rw [g4]
  exact List.mem_map.2 ⟨_, hin, rfl⟩

/-- A leaf of the store is a leaf of the chain. -/
theorem Ext.leaf_mem {cap : Nat} {data : List IndexEntry} {t : BulkBPTree} {i : Nat}
    {chain : List GLeaf} {levels : List (List GNode)} (h : Core cap data t i chain levels)
    (hE : Ext cap t chain levels none) {o : Nat} {od : BPNode}
    (hod : t.store.node o = some od) (hty : od.m_nodeType = .LeafNodeType) :
    ∃ L ∈ chain, L.id = o ∧ od.m_currentOffset = L.start ∧ od.m_slots + L.start = L.stop ∧
      od.m_isOverflowNode = L.ov := by
  rcases hE.cover o od hod with hin | hch | hp
  · obtain ⟨nd, h1, h2⟩ := h.upper.inner_type _ hin
    rw [hod] at h1
    cases h1
    rw [hty] at h2
    cases h2
  · obtain ⟨L, hL, hid⟩ := List.mem_map.1 hch
    obtain ⟨nd, g1, _, g3, g4, g5⟩ := h.chainOK.leaf hL
    rw [hid, hod] at g1
    cases g1
    exact ⟨L, hL, hid, g3, g4, g5⟩
  · cases hp

/-- An inner node of the store is an inner node of the description. -/
theorem Ext.inner_mem {cap : Nat} {data : List IndexEntry} {t : BulkBPTree} {i : Nat}
    {chain : List GLeaf} {levels : List (List GNode)} (h : Core cap data t i chain levels)
    (hE : Ext cap t chain levels none) {a : Nat} {nd : BPNode}
    (hnd : t.store.node a = some nd) (hty : nd.m_nodeType = .InnerNodeType) :
    a ∈ innerIds levels := by
  rcases hE.cover a nd hnd with hin | hch | hp
  · exact hin
  · obtain ⟨L, hL, hid⟩ := List.mem_map.1 hch
    obtain ⟨nd', g1, g2, _⟩ := h.chainOK.leaf hL
    rw [hid, hnd] at g1
    cases g1
    rw [hty] at g2
    cases g2
  · cases hp

/-- C13 (inside the child array): for every capacity `≥ 1` and every input of
at most `capacity * capacity` entries the build returns a tree in which every
overflow leaf has a null parent, is not listed as a child by any inner node,
and holds in each of its slots an input entry at a position `p > 0` whose key
equals the key at `p - 1`; conversely every input position that is the first
occurrence of its key is held by a leaf that an inner node lists as a child.
Sortedness of the input is not needed. -/
theorem overflow_leaf_invariant (cap : Nat) (data : List IndexEntry) (hcap : 1 ≤ cap)
    (hN : data.length ≤ cap * cap) :
    ∃ t, BulkBPTree.build cap data = some t ∧
      (∀ o od, t.store.node o = some od → od.m_nodeType = .LeafNodeType →
        od.m_isOverflowNode = true →
        od.m_fatherNode = none ∧
        (∀ a nd, t.store.node a = some nd → nd.m_nodeType = .InnerNodeType →
          o ∉ nd.m_pointers) ∧
        ∀ j, j < od.m_currentNumberOfEntries →
          ∃ p, 0 < p ∧ p < data.length ∧
            LeafNode.slot t od (j : Int) = ⟨dataKey data p, (p : Int)⟩ ∧
            dataKey data p = dataKey data (p - 1)) ∧
      (∀ f, f < data.length → (∀ j, j < f → dataKey data j ≠ dataKey data f) →
        ∃ l ld a nd, t.store.node l = some ld ∧ ld.m_nodeType = .LeafNodeType ∧
          ld.m_isOverflowNode = false ∧
          (∃ j, j < ld.m_currentNumberOfEntries ∧
            LeafNode.slot t ld (j : Int) = ⟨dataKey data f, (f : Int)⟩) ∧
          t.store.node a = some nd ∧ nd.m_nodeType = .InnerNodeType ∧
          l ∈ nd.m_pointers) := by
  obtain ⟨t, chain, levels, hb, core, hne, hE, _, ⟨ovs, hcur⟩, _⟩ :=
    build_in_bounds cap data hcap (inBounds_of_length hN)
  refine ⟨t, hb, ?_, ?_⟩
  · intro o od hod hty hov
    obtain ⟨L, hL, hid, g3, g4, g5⟩ := Ext.leaf_mem core hE hod hty
    have hLov : L.ov = true := by rw [← g5]; exact hov
    refine ⟨?_, ?_, ?_⟩
    · obtain ⟨nd, h1, h2⟩ := hE.ovFather L hL hLov
      rw [hid, hod] at h1
      cases h1
      exact h2
    · intro a nd hnd hity hmem
      have ha := Ext.inner_mem core hE hnd hity
      rcases inner_child_cases core ha hnd hmem with ⟨cd, c1, c2⟩ | ⟨L', hL', hov', hid'⟩
      · rw [hod] at c1
        cases c1
        rw [hty] at c2
        cases c2
      · obtain ⟨nd', q1, _, _, _, q5⟩ := core.chainOK.leaf hL'
        rw [hid', hod] at q1
        cases q1
        rw [hov, hov'] at q5
        cases q5
    · intro j hj
      have hslots : od.m_currentNumberOfEntries = od.m_slots := by
        simp [BPNode.m_currentNumberOfEntries, hty]
      rw [hslots] at hj
      have hs := core.slot_eq hL (by rw [hid]; exact hod) (j : Int) (by omega) (by omega)
      rw [Int.toNat_ofNat] at hs
      obtain ⟨d1, d2⟩ := core.dup L hL hLov (L.start + j) (by omega) (by omega)
      have hstop := core.chainOK.stop_le hL
      exact ⟨L.start + j, d1, by omega, hs, d2⟩
  · intro f hf hfirst
    obtain ⟨⟨cpre, c, hchain, _⟩, _⟩ := hcur
    have hne' : chain ≠ [] := by
      rw [hchain]
      simp
    obtain ⟨L, hL, hlo, hhi⟩ := core.chainOK.cover hne' f hf
    have hov : L.ov = false := by
      cases hb' : L.ov with
      | false => rfl
      | true =>
        obtain ⟨d1, d2⟩ := core.dup L hL hb' f hlo hhi
        exact absurd d2.symm (hfirst (f - 1) (by omega))
    obtain ⟨ld, g1, g2, g3, g4, g5⟩ := core.chainOK.leaf hL
    obtain ⟨a, nd, a1, a2, a3⟩ := indexed_leaf_child core hL hov
    refine ⟨L.id, ld, a, nd, g1, g2, by rw [g5]; exact hov, ⟨f - L.start, ?_, ?_⟩, a1, a2, a3⟩
    · simp only [BPNode.m_currentNumberOfEntries, g2]
      omega
    · have hs := core.slot_eq hL g1 ((f - L.start : Nat) : Int) (by omega) (by omega)
      rw [Int.toNat_ofNat] at hs
      rw [hs]
      have : L.start + (f - L.start) = f := by omega
      rw [this]

/-- C13 (witness): capacity 2 and the input `[(1,0),(3,1),(3,2),(5,3)]`, whose
second occurrence of key 3 goes to an overflow leaf. -/
theorem overflow_leaf_invariant_witness :
    1 ≤ 2 ∧ scenarioA.length ≤ 2 * 2 ∧ ∃ t, BulkBPTree.build 2 scenarioA = some t ∧
      (∀ o od, t.store.node o = some od → od.m_nodeType = .LeafNodeType →
        od.m_isOverflowNode = true →
        od.m_fatherNode = none ∧
        (∀ a nd, t.store.node a = some nd → nd.m_nodeType = .InnerNodeType →
          o ∉ nd.m_pointers) ∧
        ∀ j, j < od.m_currentNumberOfEntries →
          ∃ p, 0 < p ∧ p < scenarioA.length ∧
            LeafNode.slot t od (j : Int) = ⟨dataKey scenarioA p, (p : Int)⟩ ∧
            dataKey scenarioA p = dataKey scenarioA (p - 1)) ∧
      (∀ f, f < scenarioA.length → (∀ j, j < f → dataKey scenarioA j ≠ dataKey scenarioA f) →
        ∃ l ld a nd, t.store.node l = some ld ∧ ld.m_nodeType = .LeafNodeType ∧
          ld.m_isOverflowNode = false ∧
          (∃ j, j < ld.m_currentNumberOfEntries ∧
            LeafNode.slot t ld (j : Int) = ⟨dataKey scenarioA f, (f : Int)⟩) ∧
          t.store.node a = some nd ∧ nd.m_nodeType = .InnerNodeType ∧
          l ∈ nd.m_pointers) :=
  ⟨by decide, by decide, overflow_leaf_invariant 2 scenarioA (by decide) (by decide)⟩

/-- C13 (failing input): with capacity 1 and the sorted input
`[(1,0),(2,1),(2,2)]` the leaf of the first occurrence of the key 2 is stored at
index 1 of the root's child array, which has one slot, and the constructor has
no result: no leaf holds the first occurrence of the key 2, and no overflow
leaf is created for its second occurrence. -/
theorem overflow_leaf_counterexample :
    1 ≤ 1 ∧ SortedByKey duplicateTail ∧ BulkBPTree.build 1 duplicateTail = none ∧
    ¬ ∃ t, BulkBPTree.build 1 duplicateTail = some t ∧
      ∀ f, f < duplicateTail.length →
        (∀ j, j < f → dataKey duplicateTail j ≠ dataKey duplicateTail f) →
        ∃ l ld a nd, t.store.node l = some ld ∧ ld.m_nodeType = .LeafNodeType ∧
          t.store.node a = some nd ∧ nd.m_nodeType = .InnerNodeType ∧ l ∈ nd.m_pointers :=
  ⟨by decide, by decide, by rfl, fun ⟨_, h, _⟩ => by
    have e : BulkBPTree.build 1 duplicateTail = none := by rfl
    rw [e] at h
    cases h⟩

/-! ### The leaf chain as a doubly linked list -/

/-- The walk along `next` from a leaf of the chain visits the rest of the
chain, in chain order. -/
theorem nextWalk_chain {s : Store} {t : BulkBPTree} (hs : t.store = s) {chain : List GLeaf}
    {i : Nat} (h : ChainOK s chain i) :
    ∀ (d k : Nat) (l : GLeaf) (fuel : Nat), chain[k]? = some l → chain.length = k + d + 1 →
      d < fuel → LeafNode.nextWalk t fuel l.id = (chain.drop k).map GLeaf.id := by
  subst hs
  intro d
  induction d with
  | zero =>
    intro k l fuel hk hlen hf
    obtain ⟨fuel, rfl⟩ : ∃ f, fuel = f + 1 := ⟨fuel - 1, by omega⟩
    obtain ⟨⟨nd, n1, _, _, _, _, n6, _⟩, _⟩ := h k l hk
    have hnone : chain[k + 1]? = none := List.getElem?_eq_none (by omega)
    rw [hnone] at n6
    have hdrop : chain.drop k = [l] := by
      have hk' := List.getElem?_eq_some_iff.1 hk
      obtain ⟨hlt, hget⟩ := hk'
      rw [List.drop_eq_getElem_cons hlt, hget, List.drop_eq_nil_of_le (by omega)]
    rw [hdrop]
    simp only [LeafNode.nextWalk, n1]
    have : nd.m_next = none := n6
    rw [this]
    rfl
  | succ d ih =>
    intro k l fuel hk hlen hf
    obtain ⟨fuel, rfl⟩ : ∃ f, fuel = f + 1 := ⟨fuel - 1, by omega⟩
    obtain ⟨⟨nd, n1, _, _, _, _, n6, _⟩, _⟩ := h k l hk
    have hlt1 : k + 1 < chain.length := by omega
    have hk1 : chain[k + 1]? = some chain[k + 1] := List.getElem?_eq_getElem hlt1
    rw [hk1] at n6
    have hrec := ih (k + 1) chain[k + 1] fuel hk1 (by omega) (by omega)
    have hdrop : chain.drop k = l :: chain.drop (k + 1) := by
      obtain ⟨hlt, hget⟩ := List.getElem?_eq_some_iff.1 hk
      rw [List.drop_eq_getElem_cons hlt, hget]
    rw [hdrop]
    simp only [LeafNode.nextWalk, n1]
    have : nd.m_next = some chain[k + 1].id := n6
    rw [this]
    simp only [List.map_cons]
    rw [hrec]

/-- A leaf of the store is a leaf of the chain, at some index. -/
theorem Ext.leaf_index {cap : Nat} {data : List IndexEntry} {t : BulkBPTree} {i : Nat}
    {chain : List GLeaf} {levels : List (List GNode)} (h : Core cap data t i chain levels)
    (hE : Ext cap t chain levels none) {o : Nat} {od : BPNode}
    (hod : t.store.node o = some od) (hty : od.m_nodeType = .LeafNodeType) :
    ∃ k l, chain[k]? = some l ∧ l.id = o ∧
      od.m_previous = (if k = 0 then none else (chain[k - 1]?).map GLeaf.id) ∧
      od.m_next = (chain[k + 1]?).map GLeaf.id := by
  obtain ⟨L, hL, hid, _⟩ := Ext.leaf_mem h hE hod hty
  obtain ⟨k, hk⟩ := List.mem_iff_getElem?.1 hL
  obtain ⟨⟨nd, n1, _, _, _, n5, n6, _⟩, _⟩ := h.chainOK k L hk
  rw [hid, hod] at n1
  cases n1
  exact ⟨k, L, hk, hid, n5, n6⟩

/-- The leaf of the chain at index `k` is a leaf of the store with the links of
the chain. -/
theorem ChainOK.node_at {s : Store} {chain : List GLeaf} {i : Nat} (h : ChainOK s chain i)
    {k : Nat} {l : GLeaf} (hk : chain[k]? = some l) :
    ∃ nd, s.node l.id = some nd ∧ nd.m_nodeType = .LeafNodeType ∧
      nd.m_previous = (if k = 0 then none else (chain[k - 1]?).map GLeaf.id) ∧
      nd.m_next = (chain[k + 1]?).map GLeaf.id := by
  obtain ⟨⟨nd, n1, n2, _, _, n5, n6, _⟩, _⟩ := h k l hk
  exact ⟨nd, n1, n2, n5, n6⟩

/-- C19 (inside the child array): for every capacity `≥ 1` and every input of
at most `capacity * capacity` entries, sorted by key, the build returns a tree
whose leaves form a consistent doubly linked list: the `next` of a leaf `L` is
a leaf whose `previous` is `L`, the `previous` of a leaf `L` is a leaf whose
`next` is `L`, the leaf `first` is the only leaf with a null `previous` and the
leaf `last` the only leaf with a null `next`, the walk along `next` from
`first` visits every leaf of the store exactly once, and the keys collected
along the walk are the keys of the input, in ascending order. -/
theorem leaf_chain_doubly_linked (cap : Nat) (data : List IndexEntry) (hcap : 1 ≤ cap)
    (hN : data.length ≤ cap * cap) (hs : SortedByKey data) :
    ∃ t first last, BulkBPTree.build cap data = some t ∧
      (∀ L ld M, t.store.node L = some ld → ld.m_nodeType = .LeafNodeType →
        ld.m_next = some M →
        ∃ md, t.store.node M = some md ∧ md.m_nodeType = .LeafNodeType ∧
          md.m_previous = some L) ∧
      (∀ L ld P, t.store.node L = some ld → ld.m_nodeType = .LeafNodeType →
        ld.m_previous = some P →
        ∃ pd, t.store.node P = some pd ∧ pd.m_nodeType = .LeafNodeType ∧
          pd.m_next = some L) ∧
      (∃ fd, t.store.node first = some fd ∧ fd.m_nodeType = .LeafNodeType) ∧
      (∃ ld, t.store.node last = some ld ∧ ld.m_nodeType = .LeafNodeType) ∧
      (∀ L ld, t.store.node L = some ld → ld.m_nodeType = .LeafNodeType →
        (ld.m_previous = none ↔ L = first)) ∧
      (∀ L ld, t.store.node L = some ld → ld.m_nodeType = .LeafNodeType →
        (ld.m_next = none ↔ L = last)) ∧
      (LeafNode.nextWalk t t.store.next first).Nodup ∧
      (∀ L, L ∈ LeafNode.nextWalk t t.store.next first ↔
        ∃ ld, t.store.node L = some ld ∧ ld.m_nodeType = .LeafNodeType) ∧
      ∃ es, t.chainFrom t.store.next first = some es ∧
        es.map IndexEntry.m_key = data.map IndexEntry.m_key ∧
        (es.map IndexEntry.m_key).Pairwise (· ≤ ·) := by
  obtain ⟨t, chain, levels, hb, core, hne, hE, _, ⟨ovs, hcur⟩, _⟩ :=
    build_in_bounds cap data hcap (inBounds_of_length hN)
  obtain ⟨⟨cpre, c, hchain, _⟩, _⟩ := hcur
  have hpos : 0 < chain.length := by
    rw [hchain]
    simp
  have h0 : chain[0]? = some chain[0] := List.getElem?_eq_getElem hpos
  have hlastlt : chain.length - 1 < chain.length := by omega
  have hl : chain[chain.length - 1]? = some chain[chain.length - 1] :=
    List.getElem?_eq_getElem hlastlt
  have hsize := core.size
  have hwalk : LeafNode.nextWalk t t.store.next chain[0].id = chain.map GLeaf.id := by
    have := nextWalk_chain rfl core.chainOK (chain.length - 1) 0 chain[0] t.store.next h0
      (by omega) (by omega)
    simpa using this
  refine ⟨t, chain[0].id, chain[chain.length - 1].id, hb, ?_, ?_, ?_, ?_, ?_, ?_, ?_, ?_, ?_⟩
  · intro L ld M hld hty hnext
    obtain ⟨k, l, hk, hid, _, hn⟩ := Ext.leaf_index core hE hld hty
    rw [hnext] at hn
    cases hk1 : chain[k + 1]? with
    | none =>
      rw [hk1] at hn
      cases hn
    | some m =>
      rw [hk1] at hn
      obtain ⟨md, m1, m2, m5, _⟩ := core.chainOK.node_at hk1
      have hM : m.id = M := (Option.some.inj hn).symm
      refine ⟨md, by rw [← hM]; exact m1, m2, ?_⟩
      rw [m5, if_neg (by omega), Nat.add_sub_cancel, hk]
      simp [hid]
  · intro L ld P hld hty hprev
    obtain ⟨k, l, hk, hid, hp, _⟩ := Ext.leaf_index core hE hld hty
    rw [hprev] at hp
    by_cases hk0 : k = 0
    · rw [if_pos hk0] at hp
      cases hp
    · rw [if_neg hk0] at hp
      cases hk1 : chain[k - 1]? with
      | none =>
        rw [hk1] at hp
        cases hp
      | some p =>
        rw [hk1] at hp
        obtain ⟨pd, p1, p2, _, p6⟩ := core.chainOK.node_at hk1
        have hP : p.id = P := (Option.some.inj hp).symm
        refine ⟨pd, by rw [← hP]; exact p1, p2, ?_⟩
        rw [p6, show k - 1 + 1 = k by omega, hk]
        simp [hid]
  · obtain ⟨fd, f1, f2, _⟩ := core.chainOK.node_at h0
    exact ⟨fd, f1, f2⟩
  · obtain ⟨ld, l1, l2, _⟩ := core.chainOK.node_at hl
    exact ⟨ld, l1, l2⟩
  · intro L ld hld hty
    obtain ⟨k, l, hk, hid, hp, _⟩ := Ext.leaf_index core hE hld hty
    constructor
    · intro hnone
      rw [hnone] at hp
      by_cases hk0 : k = 0
      · subst hk0
        rw [h0] at hk
        cases hk
        exact hid.symm
      · rw [if_neg hk0] at hp
        have hklt := (List.getElem?_eq_some_iff.1 hk).1
        have : chain[k - 1]? = some chain[k - 1] := List.getElem?_eq_getElem (by omega)
        rw [this] at hp
        cases hp
    · intro hL
      obtain ⟨fd, f1, _, f5, _⟩ := core.chainOK.node_at h0
      rw [← hL, hld] at f1
      cases f1
      simpa using f5
  · intro L ld hld hty
    obtain ⟨k, l, hk, hid, _, hn⟩ := Ext.leaf_index core hE hld hty
    constructor
    · intro hnone
      rw [hnone] at hn
      have hklt := (List.getElem?_eq_some_iff.1 hk).1
      have hk1 : chain[k + 1]? = none := by
        cases hc : chain[k + 1]? with
        | none => rfl
        | some m =>
          rw [hc] at hn
          cases hn
      have hge : chain.length ≤ k + 1 := by
        by_contra hcon
        have : chain[k + 1]? = some chain[k + 1] := List.getElem?_eq_getElem (by omega)
        rw [this] at hk1
        cases hk1
      have hkeq : k = chain.length - 1 := by omega
      subst hkeq
      rw [hl] at hk
      cases hk
      exact hid.symm
    · intro hL
      obtain ⟨nd, l1, _, _, l6⟩ := core.chainOK.node_at hl
      rw [← hL, hld] at l1
      cases l1
      rw [l6, List.getElem?_eq_none (by omega)]
      rfl
  · rw [hwalk]
    exact core.chainNodup
  · intro L
    rw [hwalk]
    constructor
    · intro hL
      obtain ⟨l, hlm, hid⟩ := List.mem_map.1 hL
      obtain ⟨nd, n1, n2, _⟩ := core.chainOK.leaf hlm
      exact ⟨nd, by rw [← hid]; exact n1, n2⟩
    · rintro ⟨ld, hld, hty⟩
      obtain ⟨l, hlm, hid, _⟩ := Ext.leaf_mem core hE hld hty
      exact List.mem_map.2 ⟨l, hlm, hid⟩
  · obtain ⟨_, hstart, _, _⟩ := core.chainOK 0 _ h0
    have hw := chainFrom_walk core (chain.length - 1) 0 chain[0] t.store.next h0 (by omega)
      (by omega)
    rw [hstart rfl, Nat.sub_zero, ← List.range_eq_range'] at hw
    have hkeys : ((List.range data.length).map
        (fun j => (⟨dataKey data j, (j : Int)⟩ : IndexEntry))).map IndexEntry.m_key =
        data.map IndexEntry.m_key := by
      apply List.ext_getElem
      · simp
      · intro j h1 h2
        simp only [List.length_map] at h2
        simp [dataKey, List.getElem?_eq_getElem h2]
    refine ⟨_, hw, hkeys, ?_⟩
    rw [hkeys]
    exact hs

/-- C19 (witness): capacity 2 and the input `[(1,0),(3,1),(3,2),(5,3)]`. -/
theorem leaf_chain_doubly_linked_witness :
    1 ≤ 2 ∧ scenarioA.length ≤ 2 * 2 ∧ SortedByKey scenarioA ∧
    ∃ t first last, BulkBPTree.build 2 scenarioA = some t ∧
      (∀ L ld M, t.store.node L = some ld → ld.m_nodeType = .LeafNodeType →
        ld.m_next = some M →
        ∃ md, t.store.node M = some md ∧ md.m_nodeType = .LeafNodeType ∧
          md.m_previous = some L) ∧
      (∀ L ld P, t.store.node L = some ld → ld.m_nodeType = .LeafNodeType →
        ld.m_previous = some P →
        ∃ pd, t.store.node P = some pd ∧ pd.m_nodeType = .LeafNodeType ∧
          pd.m_next = some L) ∧
      (∃ fd, t.store.node first = some fd ∧ fd.m_nodeType = .LeafNodeType) ∧
      (∃ ld, t.store.node last = some ld ∧ ld.m_nodeType = .LeafNodeType) ∧
      (∀ L ld, t.store.node L = some ld → ld.m_nodeType = .LeafNodeType →
        (ld.m_previous = none ↔ L = first)) ∧
      (∀ L ld, t.store.node L = some ld → ld.m_nodeType = .LeafNodeType →
        (ld.m_next = none ↔ L = last)) ∧
      (LeafNode.nextWalk t t.store.next first).Nodup ∧
      (∀ L, L ∈ LeafNode.nextWalk t t.store.next first ↔
        ∃ ld, t.store.node L = some ld ∧ ld.m_nodeType = .LeafNodeType) ∧
      ∃ es, t.chainFrom t.store.next first = some es ∧
        es.map IndexEntry.m_key = scenarioA.map IndexEntry.m_key ∧
        (es.map IndexEntry.m_key).Pairwise (· ≤ ·) :=
  ⟨by decide, by decide, by decide,
    leaf_chain_doubly_linked 2 scenarioA (by decide) (by decide) (by decide)⟩

/-- C19 (failing input): with capacity 1 and the sorted input of the four
distinct keys 1, 2, 3, 4 the leaf of the key 2 is stored at index 1 of the
root's child array, which has one slot, and the constructor has no result:
there is no leaf chain to walk. -/
theorem leaf_chain_counterexample :
    1 ≤ 1 ∧ SortedByKey (distinctKeys 4) ∧ BulkBPTree.build 1 (distinctKeys 4) = none ∧
    (BulkBPTree.build 1 (distinctKeys 4)).bind (fun t => t.chainFrom t.store.next 1) = none :=
  ⟨by decide, by decide, by rfl, by rfl⟩

/-! ### Scenario C: all keys identical -/

/-- When all leaves after a leaf of the chain are overflow leaves, the overflow
leaves chained after it are the rest of the chain. -/
theorem overflowAfter_exact {s : Store} {t : BulkBPTree} (hs : t.store = s)
    {chain : List GLeaf} {i : Nat} (h : ChainOK s chain i) :
    ∀ (d k : Nat) (l : GLeaf) (fuel : Nat), chain[k]? = some l → chain.length = k + d + 1 →
      (∀ k' o, k < k' → chain[k']? = some o → o.ov = true) → d ≤ fuel →
      LeafNode.overflowAfter t fuel l.id = (chain.drop (k + 1)).map GLeaf.id := by
  subst hs
  intro d
  induction d with
  | zero =>
    intro k l fuel hk hlen _ _
    rw [List.drop_eq_nil_of_le (by omega)]
    cases fuel with
    | zero => rfl
    | succ fuel =>
      obtain ⟨⟨nd, n1, _, _, _, _, n6, _⟩, _⟩ := h k l hk
      have hnone : chain[k + 1]? = none := List.getElem?_eq_none (by omega)
      rw [hnone] at n6
      have : nd.m_next = none := n6
      simp only [LeafNode.overflowAfter, n1, this]
      rfl
  | succ d ih =>
    intro k l fuel hk hlen hov hf
    obtain ⟨fuel, rfl⟩ : ∃ f, fuel = f + 1 := ⟨fuel - 1, by omega⟩
    obtain ⟨⟨nd, n1, _, _, _, _, n6, _⟩, _⟩ := h k l hk
    have hlt1 : k + 1 < chain.length := by omega
    have hk1 : chain[k + 1]? = some chain[k + 1] := List.getElem?_eq_getElem hlt1
    rw [hk1] at n6
    have hn : nd.m_next = some chain[k + 1].id := n6
    obtain ⟨⟨md, m1, _, _, _, _, _, m7⟩, _⟩ := h (k + 1) _ hk1
    have hmov : md.m_isOverflowNode = true := by
      rw [m7]
      exact hov (k + 1) _ (by omega) hk1
    have hrec := ih (k + 1) chain[k + 1] fuel hk1 (by omega)
      (fun k' o hlt ho => hov k' o (by omega) ho) (by omega)
    simp only [LeafNode.overflowAfter, n1, hn, m1, hmov, if_true]
    rw [hrec, List.drop_eq_getElem_cons hlt1]
    rfl

/-- When every leaf with a successor holds `cap` entries, the leaf at index `k`
of the chain starts at position `cap * k`. -/
theorem const_chain_start {s : Store} {chain : List GLeaf} {i cap : Nat}
    (h : ChainOK s chain i)
    (hfull : ∀ k l l', chain[k]? = some l → chain[k + 1]? = some l' → l.stop = l.start + cap) :
    ∀ k l, chain[k]? = some l → l.start = cap * k := by
  intro k
  induction k with
  | zero =>
    intro l hk
    obtain ⟨_, h0, _⟩ := h 0 l hk
    rw [h0 rfl]
    rfl
  | succ k ih =>
    intro l hk
    have hlt := (List.getElem?_eq_some_iff.1 hk).1
    have hk0 : chain[k]? = some chain[k] := List.getElem?_eq_getElem (by omega)
    obtain ⟨_, _, h3, _⟩ := h k _ hk0
    obtain ⟨e1, _⟩ := h3 l hk
    rw [e1, hfull k _ l hk0 hk, ih _ hk0, Nat.mul_succ]

/-- C15: for every capacity `c ≥ 1` and every input of `N > c` entries whose
keys are all identical, the build returns a tree in which no split has
occurred: the root is the node created first, it is the only inner node, it has
no key and exactly one child, the indexed leaf `first` holding the first `c`
input entries; the overflow leaves chained after `first` via `next` number
`ceil((N - c) / c)`, they are all the other leaves of the tree, and the
overflow leaf at index `k` holds the input entries from position `c * (k + 1)`
on, `c` of them unless it is the last, which holds the rest. -/
theorem scenario_c_structure (cap : Nat) (data : List IndexEntry) (hcap : 1 ≤ cap)
    (hN : cap < data.length)
    (hconst : ∀ i, i < data.length → dataKey data i = dataKey data 0) :
    ∃ t rd first fd, BulkBPTree.build cap data = some t ∧
      t.m_root = 0 ∧ t.store.node t.m_root = some rd ∧
      rd.m_nodeType = .InnerNodeType ∧ rd.m_keys = [] ∧ rd.m_pointers = [first] ∧
      (∀ a nd, t.store.node a = some nd → nd.m_nodeType = .InnerNodeType → a = t.m_root) ∧
      t.store.node first = some fd ∧ fd.m_nodeType = .LeafNodeType ∧
      fd.m_isOverflowNode = false ∧ fd.m_currentOffset = 0 ∧
      fd.m_currentNumberOfEntries = cap ∧
      (∀ j, j < cap → LeafNode.slot t fd (j : Int) = ⟨dataKey data j, (j : Int)⟩) ∧
      (LeafNode.overflowAfter t t.store.next first).length =
        (data.length - cap + cap - 1) / cap ∧
      (∀ L ld, t.store.node L = some ld → ld.m_nodeType = .LeafNodeType →
        L = first ∨ L ∈ LeafNode.overflowAfter t t.store.next first) ∧
      ∀ k o, (LeafNode.overflowAfter t t.store.next first)[k]? = some o →
        ∃ od, t.store.node o = some od ∧ od.m_nodeType = .LeafNodeType ∧
          od.m_isOverflowNode = true ∧ od.m_currentOffset = cap * (k + 1) ∧
          od.m_currentNumberOfEntries = min cap (data.length - cap * (k + 1)) ∧
          0 < od.m_currentNumberOfEntries ∧
          (k + 1 < (LeafNode.overflowAfter t t.store.next first).length →
            od.m_currentNumberOfEntries = cap) ∧
          (k + 1 = (LeafNode.overflowAfter t t.store.next first).length →
            od.m_next = none) ∧
          ∀ j, j < od.m_currentNumberOfEntries →
            LeafNode.slot t od (j : Int) =
              ⟨dataKey data (cap * (k + 1) + j), ((cap * (k + 1) + j : Nat) : Int)⟩ := by
  have hconst' : ∀ i, 0 < i → i < data.length → dataKey data i = dataKey data (i - 1) := by
    intro i _ hi
    rw [hconst i hi, hconst (i - 1) (by omega)]
  obtain ⟨t, chain, levels, hb, core, hne, hE, hlev, ⟨ovs, hcur⟩, _⟩ :=
    build_in_bounds cap data hcap (inBounds_of_const hconst)
  have hlevels := hlev (noSplit_init cap hcap data hconst')
  subst hlevels
  have hne' := hne (by omega)
  obtain ⟨⟨cpre, c, hchain, hcov, _, hovs⟩, _⟩ := hcur
  -- the root
  have hup := core.upper
  obtain ⟨hlo, N, hN1, hroot, _⟩ := hup
  have hN0 : N = ⟨0, 0, [(1, 0)]⟩ := ((List.cons.inj hN1).1).symm
  subst hN0
  obtain ⟨_, _, rd, r1, r2, r3, r4⟩ := hlo.2 _ (List.mem_singleton_self _)
  have hproj : leafProj chain = [(1, 0)] := by
    have := hlo.1
    simpa using this.symm
  -- the chain is the indexed leaf followed by overflow leaves
  have hcpre : cpre = [] := by
    cases cpre with
    | nil => rfl
    | cons x rest =>
      exfalso
      have hx : x ∈ chain := by rw [hchain]; simp
      have hxov : x.ov = true := by
        cases hxo : x.ov with
        | true => rfl
        | false =>
          rw [hchain] at hproj
          simp [leafProj, hxo, hcov] at hproj
      have h0 : chain[0]? = some x := by rw [hchain]; simp
      obtain ⟨_, hs0, _⟩ := core.chainOK 0 x h0
      have hlt := hne' x hx
      have := (core.dup x hx hxov 0 (by rw [hs0 rfl]) (by omega)).1
      omega
  subst hcpre
  simp only [List.nil_append] at hchain
  have hc1 : (c.id, c.start) = (1, 0) := by
    rw [hchain] at hproj
    have hfil : List.filter (fun l => !l.ov) ovs = [] := by
      rw [List.filter_eq_nil_iff]
      intro o ho
      simp [hovs o ho]
    simp only [leafProj, List.filter_cons, hcov, Bool.not_false, if_true, hfil, List.map_cons,
      List.map_nil, List.cons.injEq, and_true] at hproj
    exact hproj
  have hcid : c.id = 1 := congrArg Prod.fst hc1
  have hlen : chain.length = ovs.length + 1 := by rw [hchain]; simp
  have hk0 : chain[0]? = some c := by rw [hchain]; simp
  have hovk : ∀ k' o, 0 < k' → chain[k']? = some o → o.ov = true := by
    intro k' o hk' ho
    obtain ⟨k'', rfl⟩ : ∃ x, k' = x + 1 := ⟨k' - 1, by omega⟩
    rw [hchain, List.getElem?_cons_succ] at ho
    exact hovs o (List.mem_iff_getElem?.2 ⟨k'', ho⟩)
  have hfull : ∀ k l l', chain[k]? = some l → chain[k + 1]? = some l' →
      l.stop = l.start + cap :=
    fun k l l' hk hk1 => hE.full k l l' hk hk1 (hovk (k + 1) l' (by omega) hk1)
  have hstart := const_chain_start core.chainOK hfull
  have hsize := core.size
  have hwalk : LeafNode.overflowAfter t t.store.next c.id = ovs.map GLeaf.id := by
    have := overflowAfter_exact rfl core.chainOK (chain.length - 1) 0 c t.store.next hk0
      (by omega) hovk (by omega)
    rw [this, hchain]
    rfl
  -- the last leaf
  have hlastk : chain[ovs.length]? = some chain[ovs.length] :=
    List.getElem?_eq_getElem (by omega)
  have hlast_stop : (chain[ovs.length]).stop = data.length := by
    obtain ⟨_, _, _, h4⟩ := core.chainOK _ _ hlastk
    exact h4 (List.getElem?_eq_none (by omega))
  have hlast_start := hstart _ _ hlastk
  have hlast_cap := core.capb _ (List.mem_iff_getElem?.2 ⟨_, hlastk⟩)
  have hlast_ne := hne' _ (List.mem_iff_getElem?.2 ⟨_, hlastk⟩)
  have hcount : ovs.length = (data.length - cap + cap - 1) / cap := by
    have e : data.length - cap + cap - 1 = data.length - 1 := by omega
    rw [e]
    symm
    apply Nat.div_eq_of_lt_le
    · rw [Nat.mul_comm]
      omega
    · rw [Nat.succ_mul, Nat.mul_comm]
      omega
  have hovpos : 0 < ovs.length := by
    rcases Nat.eq_zero_or_pos ovs.length with h0 | h0
    · exfalso
      have hz : cap * ovs.length = 0 := by rw [h0]; rfl
      omega
    · exact h0
  -- the first leaf
  obtain ⟨fd, f1, f2, f3, f4, f5⟩ := core.chainOK.leaf (List.mem_iff_getElem?.2 ⟨0, hk0⟩)
  have hcstart : c.start = 0 := congrArg Prod.snd hc1
  have hk1 : chain[1]? = some chain[1] := List.getElem?_eq_getElem (by omega)
  have hcstop : c.stop = cap := by
    have := hfull 0 c _ hk0 hk1
    omega
  have hroot' : t.m_root = 0 := hroot.symm
  have r1' : t.store.node t.m_root = some rd := by rw [hroot']; exact r1
  refine ⟨t, rd, c.id, fd, hb, hroot', r1', r2, by simpa using r3, ?_, ?_, f1, f2,
    by rw [f5]; exact hcov, by rw [f3]; exact hcstart, ?_, ?_, ?_, ?_, ?_⟩
  · rw [r4, hcid]
    rfl
  · intro a nd hnd hty
    have := Ext.inner_mem core hE hnd hty
    rw [hroot']
    simpa [innerIds] using this
  · simp only [BPNode.m_currentNumberOfEntries, f2]
    omega
  · intro j hj
    have hsl := core.slot_eq (List.mem_iff_getElem?.2 ⟨0, hk0⟩) f1 (j : Int) (by omega)
      (by omega)
    rw [Int.toNat_ofNat, hcstart, Nat.zero_add] at hsl
    exact hsl
  · rw [hwalk, List.length_map]
    exact hcount
  · intro L ld hld hty
    obtain ⟨l, hl, hid, _⟩ := Ext.leaf_mem core hE hld hty
    rw [hchain, List.mem_cons] at hl
    rcases hl with rfl | hl
    · left
      exact hid.symm
    · right
      rw [hwalk]
      exact List.mem_map.2 ⟨l, hl, hid⟩
  · rw [hwalk]
    intro k o hko
    rw [List.getElem?_map] at hko
    cases hok : ovs[k]? with
    | none =>
      rw [hok] at hko
      cases hko
    | some l =>
      rw [hok] at hko
      have hid : l.id = o := Option.some.inj hko
      have hklt : k < ovs.length := (List.getElem?_eq_some_iff.1 hok).1
      have hck : chain[k + 1]? = some l := by
        rw [hchain, List.getElem?_cons_succ]
        exact hok
      have hmem : l ∈ chain := List.mem_iff_getElem?.2 ⟨_, hck⟩
      obtain ⟨od, o1, o2, o5, o6⟩ := core.chainOK.node_at hck
      obtain ⟨od', q1, _, q3, q4, q5⟩ := core.chainOK.leaf hmem
      rw [o1] at q1
      cases q1
      have hls := hstart _ _ hck
      have hlne := hne' l hmem
      have hlcap := core.capb l hmem
      have hlstop := core.chainOK.stop_le hmem
      have hcnt : od.m_currentNumberOfEntries = od.m_slots := by
        simp [BPNode.m_currentNumberOfEntries, o2]
      have hnonlast : k + 1 < ovs.length → l.stop = l.start + cap := by
        intro hlt
        have hk2 : chain[k + 1 + 1]? = some chain[k + 1 + 1] :=
          List.getElem?_eq_getElem (by omega)
        exact hfull _ _ _ hck hk2
      have hlaststop : k + 1 = ovs.length → l.stop = data.length := by
        intro heq
        obtain ⟨_, _, _, h4⟩ := core.chainOK _ _ hck
        exact h4 (List.getElem?_eq_none (by omega))
      rw [List.length_map]
      refine ⟨od, by rw [← hid]; exact o1, o2, by rw [q5]; exact hovk _ _ (by omega) hck,
        by rw [q3]; exact hls, ?_, by omega, ?_, ?_, ?_⟩
      · rw [hcnt, ← hls]
        rcases Nat.lt_or_ge (k + 1) ovs.length with hlt | hge
        · have := hnonlast hlt
          omega
        · have := hlaststop (by omega)
          omega
      · intro hlt
        have := hnonlast hlt
        omega
      · intro heq
        rw [o6, List.getElem?_eq_none (by omega)]
        rfl
      · intro j hj
        rw [hcnt] at hj
        have hsl := core.slot_eq hmem o1 (j : Int) (by omega) (by omega)
        rw [Int.toNat_ofNat, hls] at hsl
        exact hsl

/-- C15 (witness): capacity 1 and the input `[(3,0),(3,1),(3,2)]`. -/
theorem scenario_c_structure_witness :
    1 ≤ 1 ∧ 1 < scenarioC.length ∧
    (∀ i : Nat, i < scenarioC.length → dataKey scenarioC i = dataKey scenarioC 0) ∧
    ∃ t rd first fd, BulkBPTree.build 1 scenarioC = some t ∧
      t.m_root = 0 ∧ t.store.node t.m_root = some rd ∧
      rd.m_nodeType = .InnerNodeType ∧ rd.m_keys = [] ∧ rd.m_pointers = [first] ∧
      (∀ a nd, t.store.node a = some nd → nd.m_nodeType = .InnerNodeType → a = t.m_root) ∧
      t.store.node first = some fd ∧ fd.m_nodeType = .LeafNodeType ∧
      fd.m_isOverflowNode = false ∧ fd.m_currentOffset = 0 ∧
      fd.m_currentNumberOfEntries = 1 ∧
      (∀ j : Nat, j < 1 → LeafNode.slot t fd (j : Int) = ⟨dataKey scenarioC j, (j : Int)⟩) ∧
      (LeafNode.overflowAfter t t.store.next first).length =
        (scenarioC.length - 1 + 1 - 1) / 1 ∧
      (∀ L ld, t.store.node L = some ld → ld.m_nodeType = .LeafNodeType →
        L = first ∨ L ∈ LeafNode.overflowAfter t t.store.next first) ∧
      ∀ (k o : Nat), (LeafNode.overflowAfter t t.store.next first)[k]? = some o →
        ∃ od, t.store.node o = some od ∧ od.m_nodeType = .LeafNodeType ∧
          od.m_isOverflowNode = true ∧ od.m_currentOffset = 1 * (k + 1) ∧
          od.m_currentNumberOfEntries = min 1 (scenarioC.length - 1 * (k + 1)) ∧
          0 < od.m_currentNumberOfEntries ∧
          (k + 1 < (LeafNode.overflowAfter t t.store.next first).length →
            od.m_currentNumberOfEntries = 1) ∧
          (k + 1 = (LeafNode.overflowAfter t t.store.next first).length →
            od.m_next = none) ∧
          ∀ j : Nat, j < od.m_currentNumberOfEntries →
            LeafNode.slot t od (j : Int) =
              ⟨dataKey scenarioC (1 * (k + 1) + j), ((1 * (k + 1) + j : Nat) : Int)⟩ :=
  ⟨by decide, by decide, by decide,
    scenario_c_structure 1 scenarioC (by decide) (by decide) (by decide)⟩

end BPT
